import Mathlib

/-!
# SM2 ring signatures (`sm2rsign`): a shallow embedding

The Go package `sm2rsign` implements one plain and three linkable ring
signature schemes on top of an elliptic-curve provider (`elliptic.Curve`),
the SM3 hash and SM2's `CalculateZA`.  Those three collaborators live outside
the package; they are parameters of the embedding (`Curve`, `Env`).

* `*big.Int` values are `Int`; a slice `[]*big.Int` is `List (Option Int)`
  (`none` is the nil pointer).
* byte slices are `List Nat`, every element `< 256`.
* a Go function that can return an `error` or panic returns `Go α`.
* the random source `io.Reader` is the list of bytes it still has to deliver.
-/

namespace Sm2rsign

/-! ## Results of Go calls -/

/-- Ways a Go call can fail to deliver a value: an `error` returned to the
caller, a run-time panic, or a loop that never makes progress. -/
inductive Fault where
  | error (msg : String)
  | panic (msg : String)
  | hang
  deriving DecidableEq, Repr

deriving instance DecidableEq for Except

/-- Result of a Go call. -/
abbrev Go (α : Type) := Except Fault α

/-- Slice indexing `xs[i]`, which panics when `i` is out of range. -/
def index {α : Type} (xs : List α) (i : Nat) : Go α :=
  match xs[i]? with
  | some x => .ok x
  | none => .error (.panic "index out of range")

/-- Slice assignment `xs[i] = v`, which panics when `i` is out of range. -/
def assign {α : Type} (xs : List α) (i : Nat) (v : α) : Go (List α) :=
  if i < xs.length then .ok (xs.set i v) else .error (.panic "index out of range")

/-- Dereference of a `*big.Int`, which panics on nil. -/
def deref (p : Option Int) : Go Int :=
  match p with
  | some x => .ok x
  | none => .error (.panic "nil pointer dereference")

/-- The Go loop `for i := lo; i < hi; i++ { st = body i st }`, where the body
may leave the function early with a fault; `cnt` counts the iterations left. -/
def forLoopFrom {σ : Type} (body : Nat → σ → Go σ) : Nat → Nat → σ → Go σ
  | 0, _, st => .ok st
  | cnt + 1, i, st =>
    match body i st with
    | .error e => .error e
    | .ok st1 => forLoopFrom body cnt (i + 1) st1

/-- The Go loop `for i := lo; i < hi; i++`. -/
def forLoop {σ : Type} (lo hi : Nat) (body : Nat → σ → Go σ) (st : σ) : Go σ :=
  forLoopFrom body (hi - lo) lo st

/-! ## `math/big` -/

/-- Big-endian base-256 digits of `v` in front of `acc`; `fuel` bounds the
number of digits. -/
def natBytes : Nat → Nat → List Nat → List Nat
  | 0, _, acc => acc
  | fuel + 1, v, acc => if v = 0 then acc else natBytes fuel (v / 256) (v % 256 :: acc)

/-- `(*big.Int).Bytes`: the big-endian bytes of the absolute value, without
leading zeros. -/
def Bytes (x : Int) : List Nat := natBytes x.natAbs x.natAbs []

/-- `(*big.Int).SetBytes`: the big-endian value of a byte slice. -/
def SetBytes (b : List Nat) : Nat := b.foldl (fun acc x => acc * 256 + x % 256) 0

/-- `(*big.Int).FillBytes(buf)` with `len(buf) = n`: the absolute value,
zero-extended to `n` bytes; panics when it does not fit. -/
def FillBytes (x : Int) (n : Nat) : Go (List Nat) :=
  if n < (Bytes x).length then .error (.panic "math/big: buffer too small to fit value")
  else .ok (List.replicate (n - (Bytes x).length) 0 ++ Bytes x)

/-- Number of binary digits of `n`, at most `fuel` of them. -/
def bitLenAux : Nat → Nat → Nat
  | 0, _ => 0
  | fuel + 1, n => if n = 0 then 0 else bitLenAux fuel (n / 2) + 1

/-- `(*big.Int).BitLen` of a non-negative value. -/
def BitLen (n : Nat) : Nat := bitLenAux n n

/-- `z.Mod(x, N)`: Euclidean modulus, panics on a zero modulus. -/
def Mod (x : Int) (N : Nat) : Go Int :=
  if N = 0 then .error (.panic "division by zero") else .ok (x % (N : Int))

/-! ## The collaborators -/

/-- Identity of a curve object; Go compares `elliptic.Curve` interface values. -/
abbrev CurveRef := Nat

/-- The `elliptic.Curve` operations the package calls, on affine coordinates,
with scalars passed as big-endian byte slices.  `Inverse` is present when the
curve implements the `invertible` interface. -/
structure Curve where
  N : Nat
  Gx : Int
  Gy : Int
  Add : Int → Int → Int → Int → Int × Int
  ScalarMult : Int → Int → List Nat → Int × Int
  ScalarBaseMult : List Nat → Int × Int
  Inverse : Option (Int → Int)

/-- `ecdsa.PublicKey`. -/
structure PublicKey where
  Curve : CurveRef
  X : Int
  Y : Int
  deriving DecidableEq, Repr

/-- `sm2.PrivateKey` (an `ecdsa.PrivateKey`: the public key and the scalar `D`). -/
structure PrivateKey extends PublicKey where
  D : Int
  deriving DecidableEq, Repr

/-- `(*ecdsa.PublicKey).Equal`, the coordinates compared as integers
(`pub.X.Cmp(xx.X) == 0`).  Later versions of the Go library compare
`X.Bytes()` and `Y.Bytes()` instead, see `PublicKey.EqualBytes`; the two agree
on keys whose coordinates are not negative. -/
def PublicKey.Equal (pub xx : PublicKey) : Bool :=
  pub.X == xx.X && pub.Y == xx.Y && pub.Curve == xx.Curve

/-- `(*ecdsa.PublicKey).Equal` as the Go library has it from version 1.20 on:
the coordinates are compared through `X.Bytes()` and `Y.Bytes()`, the bytes of
their absolute values. -/
def PublicKey.EqualBytes (pub xx : PublicKey) : Bool :=
  Bytes pub.X == Bytes xx.X && Bytes pub.Y == Bytes xx.Y && pub.Curve == xx.Curve

/-- Everything the package imports: the curve objects, `sm3.Sum` and
`sm2.CalculateZA`. -/
structure Env where
  curve : CurveRef → Curve
  sm3 : List Nat → List Nat
  CalculateZA : PublicKey → List Nat → Go (List Nat)

/-- The random source: the bytes it will still deliver. -/
abbrev Reader := List Nat

/-- `io.ReadFull(rand, b)` with `len(b) = n`: when fewer than `n` bytes are
left it returns `io.EOF` if no byte could be read and `io.ErrUnexpectedEOF` if
the source ended after some of them. -/
def ReadFull (rand : Reader) (n : Nat) : Go (List Nat × Reader) :=
  if rand.length < n then
    .error (.error (if rand.length = 0 then "EOF" else "unexpected EOF"))
  else .ok ((rand.take n).map (fun x => x % 256), rand.drop n)

/-- `ParticipantRandInt`: a nonce strategy. -/
abbrev ParticipantRandInt := Reader → PublicKey → List Nat → Go (Int × Reader)

/-! ## ring_sign.go -/

/-- Loop of `randFieldElement`; `fuel` bounds the number of draws. -/
def randFieldElementLoop (c : Curve) : Nat → Reader → Go (Int × Reader)
  | 0, _ => .error .hang
  | fuel + 1, rand =>
    let N := c.N
    match ReadFull rand ((BitLen N + 7) / 8) with
    | .error e => .error e
    | .ok (b, rand) =>
      let excess := b.length * 8 - BitLen N
      let b := if excess > 0 then
          (match b with
           | [] => []
           | b0 :: bs => (b0 >>> excess) :: bs)
        else b
      let k := SetBytes b
      if k ≠ 0 ∧ k < N then .ok ((k : Int), rand) else randFieldElementLoop c fuel rand

/-- `randFieldElement`: every draw takes at least one byte when `N > 0`, so
`len(rand) + 1` draws are enough. -/
def randFieldElement (c : Curve) (rand : Reader) : Go (Int × Reader) :=
  randFieldElementLoop c (rand.length + 1) rand

/-- `SimpleParticipantRandInt`. -/
def SimpleParticipantRandInt (E : Env) : ParticipantRandInt :=
  fun rand pub _msg => randFieldElement (E.curve pub.Curve) rand

/-- `hashToInt`. -/
def hashToInt (hash : List Nat) (c : Curve) : Int :=
  let orderBits := BitLen c.N
  let orderBytes := (orderBits + 7) / 8
  let hash := if hash.length > orderBytes then hash.take orderBytes else hash
  let ret := SetBytes hash
  let excess := hash.length * 8 - orderBits
  if excess > 0 then ((ret >>> excess : Nat) : Int) else (ret : Int)

/-- `defaultUID`. -/
def defaultUID : List Nat :=
  [0x31, 0x32, 0x33, 0x34, 0x35, 0x36, 0x37, 0x38, 0x31, 0x32, 0x33, 0x34, 0x35, 0x36, 0x37, 0x38]

/-- `calculateSM2Hash`. -/
def calculateSM2Hash (E : Env) (pub : PublicKey) (data uid : List Nat) : Go (List Nat) :=
  let uid := if uid.length = 0 then defaultUID else uid
  match E.CalculateZA pub uid with
  | .error e => .error e
  | .ok za => .ok (E.sm3 (za ++ data))

/-- Loop of `SM2ParticipantRandInt`; `fuel` bounds the number of draws. -/
def SM2ParticipantRandIntLoop (c : Curve) (e : Int) : Nat → Reader → Go (Int × Reader)
  | 0, _ => .error .hang
  | fuel + 1, rand =>
    match randFieldElement c rand with
    | .error err => .error err
    | .ok (k, rand) =>
      let r := (c.ScalarBaseMult (Bytes k)).1
      let r := r + e
      match Mod r c.N with
      | .error err => .error err
      | .ok r =>
        if r ≠ 0 ∧ r + k ≠ (c.N : Int) then .ok (r + k, rand)
        else SM2ParticipantRandIntLoop c e fuel rand

/-- `SM2ParticipantRandInt`. -/
def SM2ParticipantRandInt (E : Env) : ParticipantRandInt :=
  fun rand pub msg =>
    match calculateSM2Hash E pub msg [] with
    | .error err => .error err
    | .ok m =>
      let e := hashToInt m (E.curve pub.Curve)
      SM2ParticipantRandIntLoop (E.curve pub.Curve) e (rand.length + 1) rand

/-- The transcript prefix shared by `hash` and `hash1`: every ring key's `X`
then `Y`, each as 32 bytes. -/
def writeKeys : List PublicKey → List Nat → Go (List Nat)
  | [], h => .ok h
  | pub :: rest, h =>
    match FillBytes pub.X 32 with
    | .error e => .error e
    | .ok bx =>
      match FillBytes pub.Y 32 with
      | .error e => .error e
      | .ok b => writeKeys rest (h ++ bx ++ b)

/-- `hash`. -/
def hash (E : Env) (pubs : List PublicKey) (msg : List Nat) (cx cy : Int) : Go Int := do
  let h ← writeKeys pubs []
  let h := h ++ msg
  let bx ← FillBytes cx 32
  let h := h ++ bx
  let b ← FillBytes cy 32
  let h := h ++ b
  let pub0 ← index pubs 0
  pure (hashToInt (E.sm3 h) (E.curve pub0.Curve))

/-- Loop of `getPai` from index `i` on; `-1` when it runs to the end. -/
def getPaiLoop (priv : PrivateKey) : List PublicKey → Nat → Go Int
  | [], _ => .ok (-1)
  | pub :: rest, i =>
    if pub.Curve ≠ priv.Curve then .error (.error "contains non SM2 public key")
    else if priv.toPublicKey.Equal pub then .ok (i : Int)
    else getPaiLoop priv rest (i + 1)

/-- `getPai`. -/
def getPai (priv : PrivateKey) (pubs : List PublicKey) : Go Nat :=
  let n := pubs.length
  if n < 2 then .error (.error "require multiple SM2 public keys")
  else
    match getPaiLoop priv pubs 0 with
    | .error e => .error e
    | .ok pai =>
      if pai < 0 then .error (.error "does not contain public key of the private key")
      else .ok pai.toNat

/-- `fermatInverse`. -/
def fermatInverse (k : Int) (N : Nat) : Int :=
  let nMinus2 : Int := (N : Int) - 2
  if N = 0 then k ^ nMinus2.toNat
  else (k ^ nMinus2.toNat) % (N : Int)

/-- The challenge update of the plain scheme, as written in both loops of
`Sign` (ring_sign.go:176-181, 191-196, on `priv`'s curve) and in the loop of
`Verify` (240-245, on `pub`'s curve); `cv` is the curve object used. -/
def chainStep (E : Env) (cv : CurveRef) (pubs : List PublicKey) (msg : List Nat)
    (pub : PublicKey) (s c : Int) : Go Int := do
  let C := E.curve cv
  let (sx, sy) := C.ScalarBaseMult (Bytes s)
  let c ← Mod (s + c) C.N
  let (cx, cy) := C.ScalarMult pub.X pub.Y (Bytes c)
  let (cx, cy) := C.Add sx sy cx cy
  hash E pubs msg cx cy

/-- Loop state of the signers: the challenge `c`, the slice `results` and the
random source. -/
abbrev SignState := Int × List (Option Int) × Reader

/-- Body of the two loops of `Sign` (ring_sign.go:170-182 and 185-197). -/
def Sign.body (E : Env) (participantRandInt : ParticipantRandInt) (priv : PrivateKey)
    (pubs : List PublicKey) (msg : List Nat) (i : Nat) (st : SignState) : Go SignState := do
  let (c, results, rand) := st
  let pub ← index pubs i
  let (s, rand) ← participantRandInt rand pub msg
  let results ← assign results (i + 1) (some s)
  let c ← chainStep E priv.Curve pubs msg pub s c
  pure (c, results, rand)

/-- The closing equation shared by the four signers:
`kPai = (kPai - c*D) * (D+1)^-1 mod N`, the inverse taken from the curve when
it implements `invertible` and from `fermatInverse` otherwise. -/
def closeRing (C : Curve) (priv : PrivateKey) (kPai c : Int) : Go Int :=
  let c := c * priv.D
  let kPai := kPai - c
  let dp1 := priv.D + 1
  let dp1Inv :=
    match C.Inverse with
    | some inv => inv dp1
    | none => fermatInverse dp1 C.N
  let kPai := kPai * dp1Inv
  Mod kPai C.N

/-- `Sign` (ring_sign.go:153-218). -/
def Sign (E : Env) (rand : Reader) (participantRandInt : ParticipantRandInt)
    (priv : PrivateKey) (pubs : List PublicKey) (msg : List Nat) : Go (List (Option Int)) := do
  let n := pubs.length
  let pai ← getPai priv pubs
  let C := E.curve priv.Curve
  let (kPai, rand) ← randFieldElement C rand
  let (kPaiGx, kPaiGy) := C.ScalarBaseMult (Bytes kPai)
  let c ← hash E pubs msg kPaiGx kPaiGy
  let results := List.replicate (n + 1) (none : Option Int)
  let (c, results, rand) ←
    forLoop (pai + 1) n (Sign.body E participantRandInt priv pubs msg) (c, results, rand)
  let results ← assign results 0 (some c)
  let (c, results, _) ←
    forLoop 0 pai (Sign.body E participantRandInt priv pubs msg) (c, results, rand)
  let kPai ← closeRing C priv kPai c
  let results ← assign results (pai + 1) (some kPai)
  pure results

/-- Body of the loop of `Verify` (ring_sign.go:237-246). -/
def Verify.body (E : Env) (pubs : List PublicKey) (msg : List Nat)
    (signature : List (Option Int)) (i : Nat) (c : Int) : Go Int := do
  let pub ← index pubs i
  let s ← index signature (i + 1)
  let s ← deref s
  chainStep E pub.Curve pubs msg pub s c

/-- `Verify` (ring_sign.go:231-249). -/
def Verify (E : Env) (pubs : List PublicKey) (msg : List Nat)
    (signature : List (Option Int)) : Go Bool :=
  if pubs.length + 1 ≠ signature.length then .ok false
  else do
    let c0 ← index signature 0
    let c ← deref c0
    let c ← forLoop 0 pubs.length (Verify.body E pubs msg signature) c
    let c0 ← index signature 0
    let c0 ← deref c0
    pure (decide (c = c0))

/-! ## linkable_ring_sign.go -/

/-- `BaseLinkableVerfier`. -/
structure BaseLinkableVerfier where
  publicKeys : List PublicKey

/-- `NewBaseLinkableVerfier`. -/
def NewBaseLinkableVerfier (pubs : List PublicKey) : BaseLinkableVerfier :=
  { publicKeys := pubs }

/-- `BaseLinkableSigner`. -/
structure BaseLinkableSigner extends BaseLinkableVerfier where
  privateKey : PrivateKey

/-- `NewBaseLinkableSigner`. -/
def NewBaseLinkableSigner (privateKey : PrivateKey) (pubs : List PublicKey) :
    BaseLinkableSigner :=
  { publicKeys := pubs, privateKey := privateKey }

/-- `publicKeysToPoint`: the sum of the ring keys, added up on the curve of
`pubs[0]`; panics on an empty ring. -/
def publicKeysToPoint (E : Env) (pubs : List PublicKey) : Go (Int × Int) :=
  match pubs with
  | [] => .error (.panic "index out of range")
  | pub0 :: rest =>
    .ok (rest.foldl (fun p pub => (E.curve pub0.Curve).Add p.1 p.2 pub.X pub.Y) (pub0.X, pub0.Y))

/-- The optional point of `hash1`: written as two 32-byte fields when both
coordinates are non-nil. -/
def writePoint (h : List Nat) (vx vy : Option Int) : Go (List Nat) :=
  match vx, vy with
  | some x, some y =>
    match FillBytes x 32 with
    | .error e => .error e
    | .ok bx =>
      match FillBytes y 32 with
      | .error e => .error e
      | .ok b => .ok (h ++ bx ++ b)
  | _, _ => .ok h

/-- `hash1`. -/
def hash1 (E : Env) (pubs : List PublicKey) (QpaiX QpaiY : Int) (msg : List Nat)
    (vx vy wx wy : Option Int) : Go Int := do
  let h ← writeKeys pubs []
  let bx ← FillBytes QpaiX 32
  let h := h ++ bx
  let b ← FillBytes QpaiY 32
  let h := h ++ b
  let h := h ++ msg
  let h ← writePoint h vx vy
  let h ← writePoint h wx wy
  let pub0 ← index pubs 0
  pure (hashToInt (E.sm3 h) (E.curve pub0.Curve))

/-- The challenge update of the base linkable scheme
(linkable_ring_sign.go:115-125, 135-145 and 183-193). -/
def baseStep (E : Env) (cv : CurveRef) (pubs : List PublicKey) (rx ry QpaiX QpaiY : Int)
    (msg : List Nat) (pub : PublicKey) (s c : Int) : Go Int := do
  let C := E.curve cv
  let (sx, sy) := C.ScalarBaseMult (Bytes s)
  let c ← Mod (s + c) C.N
  let (vx, vy) := C.ScalarMult pub.X pub.Y (Bytes c)
  let (vx, vy) := C.Add sx sy vx vy
  let (sx, sy) := C.ScalarMult rx ry (Bytes s)
  let (wx, wy) := C.ScalarMult QpaiX QpaiY (Bytes c)
  let (wx, wy) := C.Add sx sy wx wy
  hash1 E pubs QpaiX QpaiY msg (some vx) (some vy) (some wx) (some wy)

/-- Body of the two loops of `BaseLinkableSigner.Sign`. -/
def BaseLinkableSigner.Sign.body (E : Env) (participantRandInt : ParticipantRandInt)
    (priv : PrivateKey) (pubs : List PublicKey) (rx ry QpaiX QpaiY : Int) (msg : List Nat)
    (i : Nat) (st : SignState) : Go SignState := do
  let (c, results, rand) := st
  let pub ← index pubs i
  let (s, rand) ← participantRandInt rand pub msg
  let results ← assign results (i + 3) (some s)
  let c ← baseStep E priv.Curve pubs rx ry QpaiX QpaiY msg pub s c
  pure (c, results, rand)

/-- `(*BaseLinkableSigner).Sign` (linkable_ring_sign.go:81-166). -/
def BaseLinkableSigner.Sign (E : Env) (signer : BaseLinkableSigner) (rand : Reader)
    (participantRandInt : ParticipantRandInt) (msg : List Nat) : Go (List (Option Int)) := do
  let priv := signer.privateKey
  let pubs := signer.publicKeys
  let n := pubs.length
  let pai ← getPai priv pubs
  let C := E.curve priv.Curve
  let (rx, ry) ← publicKeysToPoint E pubs
  let (QpaiX, QpaiY) := C.ScalarMult rx ry (Bytes priv.D)
  let (kPai, rand) ← randFieldElement C rand
  let (kPaiGx, kPaiGy) := C.ScalarBaseMult (Bytes kPai)
  let (krx, kry) := C.ScalarMult rx ry (Bytes kPai)
  let c ← hash1 E pubs QpaiX QpaiY msg (some kPaiGx) (some kPaiGy) (some krx) (some kry)
  let results := List.replicate (n + 3) (none : Option Int)
  let results ← assign results 0 (some QpaiX)
  let results ← assign results 1 (some QpaiY)
  let (c, results, rand) ←
    forLoop (pai + 1) n
      (BaseLinkableSigner.Sign.body E participantRandInt priv pubs rx ry QpaiX QpaiY msg)
      (c, results, rand)
  let results ← assign results 2 (some c)
  let (c, results, _) ←
    forLoop 0 pai
      (BaseLinkableSigner.Sign.body E participantRandInt priv pubs rx ry QpaiX QpaiY msg)
      (c, results, rand)
  let kPai ← closeRing C priv kPai c
  let results ← assign results (pai + 3) (some kPai)
  pure results

/-- Body of the loop of `(*BaseLinkableVerfier).Verify`. -/
def BaseLinkableVerfier.Verify.body (E : Env) (pubs : List PublicKey)
    (rx ry QpaiX QpaiY : Int) (msg : List Nat) (signature : List (Option Int))
    (i : Nat) (c : Int) : Go Int := do
  let pub ← index pubs i
  let s ← index signature (i + 3)
  let s ← deref s
  baseStep E pub.Curve pubs rx ry QpaiX QpaiY msg pub s c

/-- `(*BaseLinkableVerfier).Verify` (linkable_ring_sign.go:168-197).  The tag
pointers `signature[0]`, `signature[1]` are dereferenced where they are read;
the source dereferences them at their first use, and a nil tag panics either
way. -/
def BaseLinkableVerfier.Verify (E : Env) (v : BaseLinkableVerfier) (msg : List Nat)
    (signature : List (Option Int)) : Go Bool :=
  let pubs := v.publicKeys
  if pubs.length + 3 ≠ signature.length then .ok false
  else do
    let (rx, ry) ← publicKeysToPoint E pubs
    let q ← index signature 0
    let QpaiX ← deref q
    let q ← index signature 1
    let QpaiY ← deref q
    let c0 ← index signature 2
    let c ← deref c0
    let c ← forLoop 0 pubs.length
      (BaseLinkableVerfier.Verify.body E pubs rx ry QpaiX QpaiY msg signature) c
    let c0 ← index signature 2
    let c0 ← deref c0
    pure (decide (c = c0))

/-- `x.Cmp(y)` on two `*big.Int`: `Cmp` compares the two pointers before it
reads either, so two nil pointers compare equal; with one nil pointer the read
panics. -/
def Cmp (x y : Option Int) : Go Int :=
  match x, y with
  | none, none => .ok 0
  | some a, some b => .ok (if a < b then -1 else if a = b then 0 else 1)
  | _, _ => .error (.panic "nil pointer dereference")

/-- `Linkable`: the second comparison is made only when the first gives `0`. -/
def Linkable (signature1 signature2 : List (Option Int)) : Go Bool := do
  let a ← index signature1 0
  let b ← index signature2 0
  let r ← Cmp a b
  if r = 0 then
    let a ← index signature1 1
    let b ← index signature2 1
    let r ← Cmp a b
    pure (decide (r = 0))
  else pure false

/-- `LinkableVerfierVariant1`. -/
structure LinkableVerfierVariant1 where
  publicKeys : List PublicKey

/-- `NewLinkableVerfierVariant1`. -/
def NewLinkableVerfierVariant1 (pubs : List PublicKey) : LinkableVerfierVariant1 :=
  { publicKeys := pubs }

/-- `LinkableSignerVariant1`. -/
structure LinkableSignerVariant1 extends LinkableVerfierVariant1 where
  privateKey : PrivateKey

/-- `NewLinkableSignerVariant1`. -/
def NewLinkableSignerVariant1 (privateKey : PrivateKey) (pubs : List PublicKey) :
    LinkableSignerVariant1 :=
  { publicKeys := pubs, privateKey := privateKey }

/-- The challenge update of variant 1 (linkable_ring_sign.go:256-265, 275-284
and 323-332). -/
def variant1Step (E : Env) (cv : CurveRef) (pubs : List PublicKey) (rx ry QpaiX QpaiY : Int)
    (msg : List Nat) (pub : PublicKey) (s c : Int) : Go Int := do
  let C := E.curve cv
  let c ← Mod (s + c) C.N
  let (vx, vy) := C.Add pub.X pub.Y QpaiX QpaiY
  let (vx, vy) := C.ScalarMult vx vy (Bytes c)
  let (sx, sy) := C.ScalarMult rx ry (Bytes s)
  let (vx, vy) := C.Add sx sy vx vy
  hash1 E pubs QpaiX QpaiY msg (some vx) (some vy) none none

/-- Body of the two loops of `(*LinkableSignerVariant1).Sign`. -/
def LinkableSignerVariant1.Sign.body (E : Env) (participantRandInt : ParticipantRandInt)
    (priv : PrivateKey) (pubs : List PublicKey) (rx ry QpaiX QpaiY : Int) (msg : List Nat)
    (i : Nat) (st : SignState) : Go SignState := do
  let (c, results, rand) := st
  let pub ← index pubs i
  let (s, rand) ← participantRandInt rand pub msg
  let results ← assign results (i + 3) (some s)
  let c ← variant1Step E priv.Curve pubs rx ry QpaiX QpaiY msg pub s c
  pure (c, results, rand)

/-- `(*LinkableSignerVariant1).Sign` (linkable_ring_sign.go:220-305). -/
def LinkableSignerVariant1.Sign (E : Env) (signer : LinkableSignerVariant1) (rand : Reader)
    (participantRandInt : ParticipantRandInt) (msg : List Nat) : Go (List (Option Int)) := do
  let priv := signer.privateKey
  let pubs := signer.publicKeys
  let n := pubs.length
  let pai ← getPai priv pubs
  let C := E.curve priv.Curve
  let (rx, ry) ← publicKeysToPoint E pubs
  let (QpaiX, QpaiY) := C.ScalarMult rx ry (Bytes priv.D)
  let (rx, ry) := C.Add rx ry C.Gx C.Gy
  let (kPai, rand) ← randFieldElement C rand
  let (krx, kry) := C.ScalarMult rx ry (Bytes kPai)
  let c ← hash1 E pubs QpaiX QpaiY msg (some krx) (some kry) none none
  let results := List.replicate (n + 3) (none : Option Int)
  let results ← assign results 0 (some QpaiX)
  let results ← assign results 1 (some QpaiY)
  let (c, results, rand) ←
    forLoop (pai + 1) n
      (LinkableSignerVariant1.Sign.body E participantRandInt priv pubs rx ry QpaiX QpaiY msg)
      (c, results, rand)
  let results ← assign results 2 (some c)
  let (c, results, _) ←
    forLoop 0 pai
      (LinkableSignerVariant1.Sign.body E participantRandInt priv pubs rx ry QpaiX QpaiY msg)
      (c, results, rand)
  let kPai ← closeRing C priv kPai c
  let results ← assign results (pai + 3) (some kPai)
  pure results

/-- Body of the loop of `(*LinkableSignerVariant1).Verify`. -/
def LinkableSignerVariant1.Verify.body (E : Env) (pubs : List PublicKey)
    (rx ry QpaiX QpaiY : Int) (msg : List Nat) (signature : List (Option Int))
    (i : Nat) (c : Int) : Go Int := do
  let pub ← index pubs i
  let s ← index signature (i + 3)
  let s ← deref s
  variant1Step E pub.Curve pubs rx ry QpaiX QpaiY msg pub s c

/-- `(*LinkableSignerVariant1).Verify` (linkable_ring_sign.go:307-336); the tag
pointers are dereferenced where they are read. -/
def LinkableSignerVariant1.Verify (E : Env) (v : LinkableSignerVariant1) (msg : List Nat)
    (signature : List (Option Int)) : Go Bool :=
  let pubs := v.publicKeys
  if pubs.length + 3 ≠ signature.length then .ok false
  else do
    let (rx, ry) ← publicKeysToPoint E pubs
    let pub0 ← index pubs 0
    let C0 := E.curve pub0.Curve
    let (rx, ry) := C0.Add rx ry C0.Gx C0.Gy
    let q ← index signature 0
    let QpaiX ← deref q
    let q ← index signature 1
    let QpaiY ← deref q
    let c0 ← index signature 2
    let c ← deref c0
    let c ← forLoop 0 pubs.length
      (LinkableSignerVariant1.Verify.body E pubs rx ry QpaiX QpaiY msg signature) c
    let c0 ← index signature 2
    let c0 ← deref c0
    pure (decide (c = c0))

/-- `LinkableVerfierVariant2`. -/
structure LinkableVerfierVariant2 where
  publicKeys : List PublicKey

/-- `NewLinkableVerfierVariant2`: the source returns a `*LinkableVerfierVariant1`. -/
def NewLinkableVerfierVariant2 (pubs : List PublicKey) : LinkableVerfierVariant1 :=
  { publicKeys := pubs }

/-- `LinkableSignerVariant2`. -/
structure LinkableSignerVariant2 extends LinkableVerfierVariant2 where
  privateKey : PrivateKey

/-- `NewLinkableSignerVariant2`: the source returns a `*LinkableSignerVariant1`. -/
def NewLinkableSignerVariant2 (privateKey : PrivateKey) (pubs : List PublicKey) :
    LinkableSignerVariant1 :=
  { publicKeys := pubs, privateKey := privateKey }

/-- The challenge update of variant 2 (linkable_ring_sign.go:393-404, 414-425
and 464-475). -/
def variant2Step (E : Env) (cv : CurveRef) (pubs : List PublicKey) (rx ry QpaiX QpaiY : Int)
    (msg : List Nat) (pub : PublicKey) (s c : Int) : Go Int := do
  let C := E.curve cv
  let c ← Mod (s + c) C.N
  let (vx, vy) := C.Add pub.X pub.Y QpaiX QpaiY
  let (vx, vy) := C.ScalarMult vx vy (Bytes c)
  let (sx, sy) := C.ScalarMult rx ry (Bytes s)
  let (vx, _) := C.Add sx sy vx vy
  let c ← hash1 E pubs QpaiX QpaiY msg none none none none
  Mod (vx + c) C.N

/-- Body of the two loops of `(*LinkableSignerVariant2).Sign`. -/
def LinkableSignerVariant2.Sign.body (E : Env) (participantRandInt : ParticipantRandInt)
    (priv : PrivateKey) (pubs : List PublicKey) (rx ry QpaiX QpaiY : Int) (msg : List Nat)
    (i : Nat) (st : SignState) : Go SignState := do
  let (c, results, rand) := st
  let pub ← index pubs i
  let (s, rand) ← participantRandInt rand pub msg
  let results ← assign results (i + 3) (some s)
  let c ← variant2Step E priv.Curve pubs rx ry QpaiX QpaiY msg pub s c
  pure (c, results, rand)

/-- `(*LinkableSignerVariant2).Sign` (linkable_ring_sign.go:355-446). -/
def LinkableSignerVariant2.Sign (E : Env) (signer : LinkableSignerVariant2) (rand : Reader)
    (participantRandInt : ParticipantRandInt) (msg : List Nat) : Go (List (Option Int)) := do
  let priv := signer.privateKey
  let pubs := signer.publicKeys
  let n := pubs.length
  let pai ← getPai priv pubs
  let C := E.curve priv.Curve
  let (rx, ry) ← publicKeysToPoint E pubs
  let (QpaiX, QpaiY) := C.ScalarMult rx ry (Bytes priv.D)
  let (rx, ry) := C.Add rx ry C.Gx C.Gy
  let (kPai, rand) ← randFieldElement C rand
  let (krx, _) := C.ScalarMult rx ry (Bytes kPai)
  let c ← hash1 E pubs QpaiX QpaiY msg none none none none
  let c ← Mod (krx + c) C.N
  let results := List.replicate (n + 3) (none : Option Int)
  let results ← assign results 0 (some QpaiX)
  let results ← assign results 1 (some QpaiY)
  let (c, results, rand) ←
    forLoop (pai + 1) n
      (LinkableSignerVariant2.Sign.body E participantRandInt priv pubs rx ry QpaiX QpaiY msg)
      (c, results, rand)
  let results ← assign results 2 (some c)
  let (c, results, _) ←
    forLoop 0 pai
      (LinkableSignerVariant2.Sign.body E participantRandInt priv pubs rx ry QpaiX QpaiY msg)
      (c, results, rand)
  let kPai ← closeRing C priv kPai c
  let results ← assign results (pai + 3) (some kPai)
  pure results

/-- Body of the loop of `(*LinkableSignerVariant2).Verify`. -/
def LinkableSignerVariant2.Verify.body (E : Env) (pubs : List PublicKey)
    (rx ry QpaiX QpaiY : Int) (msg : List Nat) (signature : List (Option Int))
    (i : Nat) (c : Int) : Go Int := do
  let pub ← index pubs i
  let s ← index signature (i + 3)
  let s ← deref s
  variant2Step E pub.Curve pubs rx ry QpaiX QpaiY msg pub s c

/-- `(*LinkableSignerVariant2).Verify` (linkable_ring_sign.go:448-479); the tag
pointers are dereferenced where they are read. -/
def LinkableSignerVariant2.Verify (E : Env) (v : LinkableSignerVariant2) (msg : List Nat)
    (signature : List (Option Int)) : Go Bool :=
  let pubs := v.publicKeys
  if pubs.length + 3 ≠ signature.length then .ok false
  else do
    let (rx, ry) ← publicKeysToPoint E pubs
    let pub0 ← index pubs 0
    let C0 := E.curve pub0.Curve
    let (rx, ry) := C0.Add rx ry C0.Gx C0.Gy
    let q ← index signature 0
    let QpaiX ← deref q
    let q ← index signature 1
    let QpaiY ← deref q
    let c0 ← index signature 2
    let c ← deref c0
    let c ← forLoop 0 pubs.length
      (LinkableSignerVariant2.Verify.body E pubs rx ry QpaiX QpaiY msg signature) c
    let c0 ← index signature 2
    let c0 ← deref c0
    pure (decide (c = c0))

/-! ## A small curve object

`y² = x³ − 3x + 15` over `F_23` has 17 points (a prime), generated by
`G = (1, 6)`.  The curve object below computes in that group through the table
of the multiples of `G`; `(0, 0)` stands for the point at infinity, as in Go's
`crypto/elliptic`. -/

/-- The multiples `0·G, 1·G, …, 16·G`. -/
def toyTable : List (Int × Int) :=
  [(0, 0), (1, 6), (21, 17), (17, 22), (6, 12), (11, 5), (14, 16), (9, 2), (19, 3),
   (19, 20), (9, 21), (14, 7), (11, 18), (6, 11), (17, 1), (21, 6), (1, 17)]

/-- The point `i·G`. -/
def toyPoint (i : Nat) : Int × Int := toyTable.getD (i % 17) (0, 0)

/-- The `i < 17` with `(x, y) = i·G`; `0` for a pair that is not on the curve. -/
def toyLog (x y : Int) : Nat := toyTable.indexOf (x, y) % 17

/-- The curve object; it does not implement `invertible`. -/
def toyCurve : Curve where
  N := 17
  Gx := 1
  Gy := 6
  Add := fun x1 y1 x2 y2 => toyPoint (toyLog x1 y1 + toyLog x2 y2)
  ScalarMult := fun x y k => toyPoint (SetBytes k * toyLog x y)
  ScalarBaseMult := fun k => toyPoint (SetBytes k)
  Inverse := none

/-- A stand-in for `sm3.Sum`: a 32-byte digest. -/
def toySm3 (h : List Nat) : List Nat :=
  h.foldl (fun acc x => (acc * 31 + x + 7) % 256) 0 :: List.replicate 31 0

/-- The environment built from `toyCurve` and `toySm3`. -/
def toyEnv : Env where
  curve := fun _ => toyCurve
  sm3 := toySm3
  CalculateZA := fun pub uid => .ok (Bytes pub.X ++ Bytes pub.Y ++ uid)

/-- The group element `i·G` of the small curve, for `i` in `ZMod 17`. -/
def toyEnc (p : ZMod 17) : Int × Int := toyPoint p.val

/-- A signer with `D = 5`, public key `5·G = (11, 5)`. -/
def toyPriv : PrivateKey := { Curve := 0, X := 11, Y := 5, D := 5 }

/-- A ring of three keys, the signer's in the middle: `3·G`, `5·G`, `7·G`. -/
def toyRing : List PublicKey :=
  [{ Curve := 0, X := 17, Y := 22 }, { Curve := 0, X := 11, Y := 5 }, { Curve := 0, X := 9, Y := 2 }]

/-- A message. -/
def toyMsg : List Nat := [104, 105]

/-- A random stream. -/
def toyRand : Reader := [200, 77, 31, 250, 90, 12, 45, 66, 130, 7]

/-- The base linkable signer over `toyRing`. -/
def toyBaseSigner : BaseLinkableSigner := NewBaseLinkableSigner toyPriv toyRing

/-- The variant 1 signer over `toyRing`. -/
def toySigner1 : LinkableSignerVariant1 := NewLinkableSignerVariant1 toyPriv toyRing

/-- A variant 2 signer over `toyRing`, built as a struct literal (no
constructor of the package returns this type). -/
def toySigner2 : LinkableSignerVariant2 := { publicKeys := toyRing, privateKey := toyPriv }

/-- A second message. -/
def toyMsg2 : List Nat := [87, 80]

/-- A second random stream. -/
def toyRand2 : Reader := [9, 140, 33, 71, 250, 18, 64, 5]

/-- The keys of `toyRing` in another order, the signer's first. -/
def toyRing2 : List PublicKey :=
  [{ Curve := 0, X := 11, Y := 5 }, { Curve := 0, X := 17, Y := 22 }, { Curve := 0, X := 9, Y := 2 }]

/-- Ranges of the scalars of a signature with `n` responses stored from slot
`off` on: the seed (slot `off - 1`) lies in `[0, S]`, the response at the
signer's index `pai` in `[0, N-1]`, every other response in `[lo, B]`. -/
structure ScalarRanges (sig : List (Option Int)) (off n pai : Nat) (S N lo B : Int) : Prop where
  seed : ∃ x, sig[off - 1]? = some (some x) ∧ 0 ≤ x ∧ x ≤ S
  own : ∃ x, sig[pai + off]? = some (some x) ∧ 0 ≤ x ∧ x ≤ N - 1
  others : ∀ j, j < n → j ≠ pai → ∃ x, sig[j + off]? = some (some x) ∧ lo ≤ x ∧ x ≤ B

/-- A ring of two keys, `5·G` and `7·G`; with `D = 5` its tag is `9·G = (19, 20)`. -/
def toyRingB : List PublicKey :=
  [{ Curve := 0, X := 11, Y := 5 }, { Curve := 0, X := 9, Y := 2 }]

/-- A random stream whose draws are `9`, `12` and `10`. -/
def toyRand3 : Reader := [72, 96, 80]

/-- The response slots in the order in which a signer writes them: the tail
walk `pai+1 … n-1`, the wrap walk `0 … pai-1`, then the closing store at `pai`. -/
def writeOrder (pai n : Nat) : List Nat :=
  List.range' (pai + 1) (n - (pai + 1)) ++ List.range' 0 pai ++ [pai]

/-- A second signer of `toyRing`: `D = 7`, public key `7·G = (9, 2)`. -/
def toyPriv7 : PrivateKey := { Curve := 0, X := 9, Y := 2, D := 7 }

/-- The signer with `D = 12 = 17 - 5`, public key `12·G = -(5·G) = (11, 18)`. -/
def toyPrivNeg : PrivateKey := { Curve := 0, X := 11, Y := 18, D := 12 }

/-- A ring of a key and its negative, `5·G` and `12·G`: it sums to the point
at infinity. -/
def toyRingZero : List PublicKey :=
  [{ Curve := 0, X := 11, Y := 5 }, { Curve := 0, X := 11, Y := 18 }]

/-- A ring in which the signer's key `5·G` occurs twice, at indices 1 and 2. -/
def toyRingDup : List PublicKey :=
  [{ Curve := 0, X := 17, Y := 22 }, { Curve := 0, X := 11, Y := 5 }, { Curve := 0, X := 11, Y := 5 }]

/-- A ring whose second key carries another curve object than the signer's. -/
def toyRingMixed : List PublicKey :=
  [{ Curve := 0, X := 11, Y := 5 }, { Curve := 1, X := 9, Y := 2 }]

/-- The big-endian value of a byte string. -/
def bigEndian : List Nat → Nat
  | [] => 0
  | b :: bs => (b % 256) * 256 ^ bs.length + bigEndian bs

/-- `hashToInt` in the words of the specification: the first
`min(len(h), ⌈bitlen(N)/8⌉)` bytes of `h`, read big-endian, shifted right by
`max(0, 8·len(h') − bitlen(N))` bits. -/
def hashToIntSpec (h : List Nat) (N : Nat) : Int :=
  let B := (BitLen N + 7) / 8
  let h1 := h.take (min h.length B)
  ((bigEndian h1 >>> (max 0 ((8 * h1.length : Int) - (BitLen N : Int))).toNat : Nat) : Int)

/-- The `j`-th block of `B` bytes of a random stream. -/
def block (rand : Reader) (B j : Nat) : List Nat :=
  ((rand.drop (j * B)).take B).map (fun x => x % 256)

/-- A byte string with its first byte shifted right by `excess` bits. -/
def shiftFirst (excess : Nat) : List Nat → List Nat
  | [] => []
  | b0 :: bs => (b0 >>> excess) :: bs

/-- The candidate `randFieldElement` builds from a block of bytes for the
order `N`: the first byte shifted right by the excess `8·len(b) − bitlen(N)`,
then the big-endian value. -/
def candidate (N : Nat) (b : List Nat) : Nat :=
  bigEndian (shiftFirst (b.length * 8 - BitLen N) b)

/-- The value `r = (x(k·G) + e) mod N` the SM2-style strategy computes from a
field element `k`. -/
def sm2R (c : Curve) (e k : Int) : Int :=
  ((c.ScalarBaseMult (Bytes k)).1 + e) % (c.N : Int)

/-- The test of the SM2-style strategy on a field element `k`: `r ≠ 0` and
`r + k ≠ N`. -/
def sm2Accepts (c : Curve) (e k : Int) : Bool :=
  decide (sm2R c e k ≠ 0 ∧ sm2R c e k + k ≠ (c.N : Int))

/-- The successive field elements `randFieldElement` draws from a stream, each
with the stream left behind it; at most `fuel` of them. -/
def fieldElements (c : Curve) : Nat → Reader → List (Int × Reader)
  | 0, _ => []
  | fuel + 1, rand =>
    match randFieldElement c rand with
    | .error _ => []
    | .ok (k, rand1) => (k, rand1) :: fieldElements c fuel rand1

/-- The value `x` fits the 32-byte buffer of `hash` and `hash1`, so that
`FillBytes` does not panic on it. -/
abbrev Fits32 (x : Int) : Prop := (Bytes x).length ≤ 32

/-- A signer with `D = 16 = N - 1`, public key `16·G = (1, 17)`. -/
def toyPrivLast : PrivateKey := { Curve := 0, X := 1, Y := 17, D := 16 }

/-- A ring of three keys with the key of `toyPrivLast` in the middle:
`3·G`, `16·G`, `7·G`. -/
def toyRingLast : List PublicKey :=
  [{ Curve := 0, X := 17, Y := 22 }, { Curve := 0, X := 1, Y := 17 }, { Curve := 0, X := 9, Y := 2 }]

/-- The draws of a strategy along a list of keys, for one message, the random
source handed on from each call to the next. -/
def draws (strategy : ParticipantRandInt) (msg : List Nat) :
    List PublicKey → Reader → Go (List Int × Reader)
  | [], rand => .ok ([], rand)
  | pub :: rest, rand =>
    match strategy rand pub msg with
    | .error e => .error e
    | .ok (s, rand) =>
      match draws strategy msg rest rand with
      | .error e => .error e
      | .ok (ss, rand) => .ok (s :: ss, rand)

/-- A verifying object of variant 1 over `toyRing` that holds no key of the
ring: its private part is all zero. -/
def toyVerifier1 : LinkableSignerVariant1 :=
  { publicKeys := toyRing, privateKey := { Curve := 0, X := 0, Y := 0, D := 0 } }

/-- A curve object of order `257` (nine bits, two bytes per block); only its
order is read by `randFieldElement`. -/
def toyOrder257 : Curve := { toyCurve with N := 257 }

/-! ## What is assumed of a curve object -/

/-- The curve object `C` computes in a commutative group `Pt` of prime
exponent `N`: `enc` gives the affine coordinates of a group element, `g` is the
base point, and a scalar is the big-endian value of the bytes passed. -/
structure Curve.Lawful (C : Curve) {Pt : Type} [AddCommGroup Pt] (enc : Pt → Int × Int)
    (g : Pt) : Prop where
  prime : Nat.Prime C.N
  gen : enc g = (C.Gx, C.Gy)
  add : ∀ p q : Pt, C.Add (enc p).1 (enc p).2 (enc q).1 (enc q).2 = enc (p + q)
  smul : ∀ (p : Pt) (k : List Nat), C.ScalarMult (enc p).1 (enc p).2 k = enc (SetBytes k • p)
  base : ∀ k : List Nat, C.ScalarBaseMult k = enc (SetBytes k • g)
  order : ∀ p : Pt, C.N • p = 0
  inverse : ∀ inv, C.Inverse = some inv →
    ∀ k : Int, k % (C.N : Int) ≠ 0 → (k * inv k) % (C.N : Int) = 1

/-- The generic shape of a signer's loop body: draw `s`, store it in slot
`i + off`, advance the challenge with `f`. -/
def walkBody (strategy : ParticipantRandInt) (pubs : List PublicKey) (msg : List Nat)
    (off : Nat) (f : PublicKey → Int → Int → Go Int) (i : Nat) (st : SignState) :
    Go SignState := do
  let (c, results, rand) := st
  let pub ← index pubs i
  let (s, rand) ← strategy rand pub msg
  let results ← assign results (i + off) (some s)
  let c ← f pub s c
  pure (c, results, rand)

/-- The generic shape of a verifier's loop body. -/
def replayBody (pubs : List PublicKey) (signature : List (Option Int)) (off : Nat)
    (f : PublicKey → Int → Int → Go Int) (i : Nat) (c : Int) : Go Int := do
  let pub ← index pubs i
  let s ← index signature (i + off)
  let s ← deref s
  f pub s c

/-- The generic tail of a signer, from its first loop to the store of its own
response: the walk over the slots behind the signer, the store of the seed in
slot `off - 1`, the walk over the slots in front of the signer, the closing
equation and the last store. -/
def ringWalk (strategy : ParticipantRandInt) (pubs : List PublicKey) (msg : List Nat)
    (off : Nat) (f : PublicKey → Int → Int → Go Int) (C : Curve) (priv : PrivateKey)
    (kPai : Int) (pai : Nat) (st : SignState) : Go (List (Option Int)) := do
  let (c, results, rand) ← forLoop (pai + 1) pubs.length (walkBody strategy pubs msg off f) st
  let results ← assign results (off - 1) (some c)
  let (c, results, _) ← forLoop 0 pai (walkBody strategy pubs msg off f) (c, results, rand)
  let kPai ← closeRing C priv kPai c
  let results ← assign results (pai + off) (some kPai)
  pure results

/-- A call that hands no `error` back to its caller: it delivers a value,
panics or hangs. -/
def NeverErrs {α : Type} (x : Go α) : Prop := ∀ m, x ≠ .error (.error m)

/-- The strategy returns the error `m` within `cnt` turns of a signer's loop
started at slot `i` in state `st`: `k < cnt` turns ran through, and the
strategy, called for slot `i + k` with the random source these turns left,
returned `m`. -/
def StrategyFailsIn (strategy : ParticipantRandInt) (pubs : List PublicKey) (msg : List Nat)
    (off : Nat) (f : PublicKey → Int → Int → Go Int) (cnt i : Nat) (st : SignState)
    (m : String) : Prop :=
  ∃ k c res rd pub, k < cnt ∧
    forLoopFrom (walkBody strategy pubs msg off f) k i st = .ok (c, res, rd) ∧
    pubs[i + k]? = some pub ∧ strategy rd pub msg = .error (.error m)

/-- The strategy returns the error `m` at a slot other than the signer's, in
the course of the two loops of a signer that start in state `st`: in the loop
over the slots `pai+1 … n-1`, or, that loop and the store of the seed having
gone through, in the loop over the slots `0 … pai-1`. -/
def StrategyFails (strategy : ParticipantRandInt) (pubs : List PublicKey) (msg : List Nat)
    (off : Nat) (f : PublicKey → Int → Int → Go Int) (pai : Nat) (st : SignState)
    (m : String) : Prop :=
  StrategyFailsIn strategy pubs msg off f (pubs.length - (pai + 1)) (pai + 1) st m ∨
  ∃ c res rd res1,
    forLoop (pai + 1) pubs.length (walkBody strategy pubs msg off f) st = .ok (c, res, rd) ∧
    assign res (off - 1) (some c) = .ok res1 ∧
    StrategyFailsIn strategy pubs msg off f pai 0 (c, res1, rd) m

/-- The slice of a linkable signer when its first loop starts: `n + 3` nil
entries with the tag `q` stored in slots 0 and 1. -/
def tagged (n : Nat) (q : Int × Int) : List (Option Int) :=
  ((List.replicate (n + 3) (none : Option Int)).set 0 (some q.1)).set 1 (some q.2)

/-! ## The signers with their two results

A signer returns a slice and an error.  The definitions above follow the rest
of the embedding: a call that returns an error is `.error (.error msg)`, and
what else the caller returned beside the error is not recorded.  Here the four
signers are written once more with every `return` statement and its two
values. -/

/-- The two results `([]*big.Int, error)` of a signer: the slice or nil, and
the error or nil. -/
abbrev Results := Option (List (Option Int)) × Option String

/-- What ends the body of a function with results of type `ρ` before its last
statement: a `return` statement with its values, or a fault of the run (a
panic, a loop that never ends). -/
inductive Stop (ρ : Type) where
  | ret (r : ρ)
  | fault (f : Fault)

/-- A statement inside a function whose results have type `ρ`. -/
abbrev Stmt (ρ α : Type) := Except (Stop ρ) α

/-- The statements `x, err := f(...); if err != nil { return r(err) }`: the
call, and the `return` the caller makes when the callee hands back an
error. -/
def orReturn {ρ α : Type} (x : Go α) (r : String → ρ) : Stmt ρ α :=
  match x with
  | .ok a => .ok a
  | .error (.error err) => .error (.ret (r err))
  | .error f => .error (.fault f)

/-- A call with no error result that the caller looks at: it delivers its
value or stops the function by a fault. -/
def call {ρ α : Type} (x : Go α) : Stmt ρ α :=
  match x with
  | .ok a => .ok a
  | .error f => .error (.fault f)

/-- The results of a function: the values of the `return` statement that
ended its body, which may be its last statement. -/
def runBody {ρ : Type} (body : Stmt ρ ρ) : Go ρ :=
  match body with
  | .ok r => .ok r
  | .error (.ret r) => .ok r
  | .error (.fault f) => .error f

/-- The loop `for i := lo; i < hi; i++ { st = body i st }` inside a function
with results of type `ρ`; `cnt` counts the iterations left. -/
def forLoopFromS {ρ σ : Type} (body : Nat → σ → Stmt ρ σ) : Nat → Nat → σ → Stmt ρ σ
  | 0, _, st => .ok st
  | cnt + 1, i, st =>
    match body i st with
    | .error e => .error e
    | .ok st1 => forLoopFromS body cnt (i + 1) st1

/-- The loop `for i := lo; i < hi; i++` inside a function with results of
type `ρ`. -/
def forLoopS {ρ σ : Type} (lo hi : Nat) (body : Nat → σ → Stmt ρ σ) (st : σ) : Stmt ρ σ :=
  forLoopFromS body (hi - lo) lo st

/-- Body of the two loops of `Sign` (ring_sign.go:170-182 and 185-197), with
the `return nil, err` at lines 172-174 and 187-189. -/
def Sign.returns.body (E : Env) (participantRandInt : ParticipantRandInt) (priv : PrivateKey)
    (pubs : List PublicKey) (msg : List Nat) (i : Nat) (st : SignState) :
    Stmt Results SignState := do
  let (c, results, rand) := st
  let pub ← call (index pubs i)
  let (s, rand) ← orReturn (participantRandInt rand pub msg) (fun err => (none, some err))
  let results ← call (assign results (i + 1) (some s))
  let c ← call (chainStep E priv.Curve pubs msg pub s c)
  pure (c, results, rand)

/-- `Sign` (ring_sign.go:153-218) with its two results: `return nil, err` at
lines 157 and 162 and in the two loops, `return results, nil` at line 217. -/
def Sign.returns (E : Env) (rand : Reader) (participantRandInt : ParticipantRandInt)
    (priv : PrivateKey) (pubs : List PublicKey) (msg : List Nat) : Go Results :=
  runBody (do
    let n := pubs.length
    let pai ← orReturn (getPai priv pubs) (fun err => (none, some err))
    let C := E.curve priv.Curve
    let (kPai, rand) ← orReturn (randFieldElement C rand) (fun err => (none, some err))
    let (kPaiGx, kPaiGy) := C.ScalarBaseMult (Bytes kPai)
    let c ← call (hash E pubs msg kPaiGx kPaiGy)
    let results := List.replicate (n + 1) (none : Option Int)
    let (c, results, rand) ←
      forLoopS (pai + 1) n (Sign.returns.body E participantRandInt priv pubs msg)
        (c, results, rand)
    let results ← call (assign results 0 (some c))
    let (c, results, _) ←
      forLoopS 0 pai (Sign.returns.body E participantRandInt priv pubs msg) (c, results, rand)
    let kPai ← call (closeRing C priv kPai c)
    let results ← call (assign results (pai + 1) (some kPai))
    pure (some results, none))

/-- Body of the two loops of `(*BaseLinkableSigner).Sign`, with its
`return nil, err`. -/
def BaseLinkableSigner.Sign.returns.body (E : Env) (participantRandInt : ParticipantRandInt)
    (priv : PrivateKey) (pubs : List PublicKey) (rx ry QpaiX QpaiY : Int) (msg : List Nat)
    (i : Nat) (st : SignState) : Stmt Results SignState := do
  let (c, results, rand) := st
  let pub ← call (index pubs i)
  let (s, rand) ← orReturn (participantRandInt rand pub msg) (fun err => (none, some err))
  let results ← call (assign results (i + 3) (some s))
  let c ← call (baseStep E priv.Curve pubs rx ry QpaiX QpaiY msg pub s c)
  pure (c, results, rand)

/-- `(*BaseLinkableSigner).Sign` (linkable_ring_sign.go:81-166) with its two
results. -/
def BaseLinkableSigner.Sign.returns (E : Env) (signer : BaseLinkableSigner) (rand : Reader)
    (participantRandInt : ParticipantRandInt) (msg : List Nat) : Go Results :=
  runBody (do
    let priv := signer.privateKey
    let pubs := signer.publicKeys
    let n := pubs.length
    let pai ← orReturn (getPai priv pubs) (fun err => (none, some err))
    let C := E.curve priv.Curve
    let (rx, ry) ← call (publicKeysToPoint E pubs)
    let (QpaiX, QpaiY) := C.ScalarMult rx ry (Bytes priv.D)
    let (kPai, rand) ← orReturn (randFieldElement C rand) (fun err => (none, some err))
    let (kPaiGx, kPaiGy) := C.ScalarBaseMult (Bytes kPai)
    let (krx, kry) := C.ScalarMult rx ry (Bytes kPai)
    let c ← call
      (hash1 E pubs QpaiX QpaiY msg (some kPaiGx) (some kPaiGy) (some krx) (some kry))
    let results := List.replicate (n + 3) (none : Option Int)
    let results ← call (assign results 0 (some QpaiX))
    let results ← call (assign results 1 (some QpaiY))
    let (c, results, rand) ←
      forLoopS (pai + 1) n
        (BaseLinkableSigner.Sign.returns.body E participantRandInt priv pubs rx ry QpaiX QpaiY
          msg)
        (c, results, rand)
    let results ← call (assign results 2 (some c))
    let (c, results, _) ←
      forLoopS 0 pai
        (BaseLinkableSigner.Sign.returns.body E participantRandInt priv pubs rx ry QpaiX QpaiY
          msg)
        (c, results, rand)
    let kPai ← call (closeRing C priv kPai c)
    let results ← call (assign results (pai + 3) (some kPai))
    pure (some results, none))

/-- Body of the two loops of `(*LinkableSignerVariant1).Sign`, with its
`return nil, err`. -/
def LinkableSignerVariant1.Sign.returns.body (E : Env)
    (participantRandInt : ParticipantRandInt) (priv : PrivateKey) (pubs : List PublicKey)
    (rx ry QpaiX QpaiY : Int) (msg : List Nat) (i : Nat) (st : SignState) :
    Stmt Results SignState := do
  let (c, results, rand) := st
  let pub ← call (index pubs i)
  let (s, rand) ← orReturn (participantRandInt rand pub msg) (fun err => (none, some err))
  let results ← call (assign results (i + 3) (some s))
  let c ← call (variant1Step E priv.Curve pubs rx ry QpaiX QpaiY msg pub s c)
  pure (c, results, rand)

/-- `(*LinkableSignerVariant1).Sign` (linkable_ring_sign.go:220-305) with its
two results. -/
def LinkableSignerVariant1.Sign.returns (E : Env) (signer : LinkableSignerVariant1)
    (rand : Reader) (participantRandInt : ParticipantRandInt) (msg : List Nat) : Go Results :=
  runBody (do
    let priv := signer.privateKey
    let pubs := signer.publicKeys
    let n := pubs.length
    let pai ← orReturn (getPai priv pubs) (fun err => (none, some err))
    let C := E.curve priv.Curve
    let (rx, ry) ← call (publicKeysToPoint E pubs)
    let (QpaiX, QpaiY) := C.ScalarMult rx ry (Bytes priv.D)
    let (rx, ry) := C.Add rx ry C.Gx C.Gy
    let (kPai, rand) ← orReturn (randFieldElement C rand) (fun err => (none, some err))
    let (krx, kry) := C.ScalarMult rx ry (Bytes kPai)
    let c ← call (hash1 E pubs QpaiX QpaiY msg (some krx) (some kry) none none)
    let results := List.replicate (n + 3) (none : Option Int)
    let results ← call (assign results 0 (some QpaiX))
    let results ← call (assign results 1 (some QpaiY))
    let (c, results, rand) ←
      forLoopS (pai + 1) n
        (LinkableSignerVariant1.Sign.returns.body E participantRandInt priv pubs rx ry QpaiX
          QpaiY msg)
        (c, results, rand)
    let results ← call (assign results 2 (some c))
    let (c, results, _) ←
      forLoopS 0 pai
        (LinkableSignerVariant1.Sign.returns.body E participantRandInt priv pubs rx ry QpaiX
          QpaiY msg)
        (c, results, rand)
    let kPai ← call (closeRing C priv kPai c)
    let results ← call (assign results (pai + 3) (some kPai))
    pure (some results, none))

/-- Body of the two loops of `(*LinkableSignerVariant2).Sign`, with its
`return nil, err`. -/
def LinkableSignerVariant2.Sign.returns.body (E : Env)
    (participantRandInt : ParticipantRandInt) (priv : PrivateKey) (pubs : List PublicKey)
    (rx ry QpaiX QpaiY : Int) (msg : List Nat) (i : Nat) (st : SignState) :
    Stmt Results SignState := do
  let (c, results, rand) := st
  let pub ← call (index pubs i)
  let (s, rand) ← orReturn (participantRandInt rand pub msg) (fun err => (none, some err))
  let results ← call (assign results (i + 3) (some s))
  let c ← call (variant2Step E priv.Curve pubs rx ry QpaiX QpaiY msg pub s c)
  pure (c, results, rand)

/-- `(*LinkableSignerVariant2).Sign` (linkable_ring_sign.go:355-446) with its
two results. -/
def LinkableSignerVariant2.Sign.returns (E : Env) (signer : LinkableSignerVariant2)
    (rand : Reader) (participantRandInt : ParticipantRandInt) (msg : List Nat) : Go Results :=
  runBody (do
    let priv := signer.privateKey
    let pubs := signer.publicKeys
    let n := pubs.length
    let pai ← orReturn (getPai priv pubs) (fun err => (none, some err))
    let C := E.curve priv.Curve
    let (rx, ry) ← call (publicKeysToPoint E pubs)
    let (QpaiX, QpaiY) := C.ScalarMult rx ry (Bytes priv.D)
    let (rx, ry) := C.Add rx ry C.Gx C.Gy
    let (kPai, rand) ← orReturn (randFieldElement C rand) (fun err => (none, some err))
    let (krx, _) := C.ScalarMult rx ry (Bytes kPai)
    let c ← call (hash1 E pubs QpaiX QpaiY msg none none none none)
    let c ← call (Mod (krx + c) C.N)
    let results := List.replicate (n + 3) (none : Option Int)
    let results ← call (assign results 0 (some QpaiX))
    let results ← call (assign results 1 (some QpaiY))
    let (c, results, rand) ←
      forLoopS (pai + 1) n
        (LinkableSignerVariant2.Sign.returns.body E participantRandInt priv pubs rx ry QpaiX
          QpaiY msg)
        (c, results, rand)
    let results ← call (assign results 2 (some c))
    let (c, results, _) ←
      forLoopS 0 pai
        (LinkableSignerVariant2.Sign.returns.body E participantRandInt priv pubs rx ry QpaiX
          QpaiY msg)
        (c, results, rand)
    let kPai ← call (closeRing C priv kPai c)
    let results ← call (assign results (pai + 3) (some kPai))
    pure (some results, none))

/-- The generic shape of a signer's loop body with its `return nil, err`. -/
def walkBodyS (strategy : ParticipantRandInt) (pubs : List PublicKey) (msg : List Nat)
    (off : Nat) (f : PublicKey → Int → Int → Go Int) (i : Nat) (st : SignState) :
    Stmt Results SignState := do
  let (c, results, rand) := st
  let pub ← call (index pubs i)
  let (s, rand) ← orReturn (strategy rand pub msg) (fun err => (none, some err))
  let results ← call (assign results (i + off) (some s))
  let c ← call (f pub s c)
  pure (c, results, rand)

/-- The generic tail of a signer with its two results. -/
def ringWalkS (strategy : ParticipantRandInt) (pubs : List PublicKey) (msg : List Nat)
    (off : Nat) (f : PublicKey → Int → Int → Go Int) (C : Curve) (priv : PrivateKey)
    (kPai : Int) (pai : Nat) (st : SignState) : Stmt Results Results := do
  let (c, results, rand) ← forLoopS (pai + 1) pubs.length (walkBodyS strategy pubs msg off f) st
  let results ← call (assign results (off - 1) (some c))
  let (c, results, _) ← forLoopS 0 pai (walkBodyS strategy pubs msg off f) (c, results, rand)
  let kPai ← call (closeRing C priv kPai c)
  let results ← call (assign results (pai + off) (some kPai))
  pure (some results, none)

/-- The two results that stand for a result of the embedding without them: a
returned list goes with a nil error, a returned error with a nil list. -/
def asResults (x : Go (List (Option Int))) : Go Results :=
  match x with
  | .ok sig => .ok (some sig, none)
  | .error (.error err) => .ok (none, some err)
  | .error f => .error f

/-- A call followed by the rest of a function, when an error of the call is
returned with a nil list. -/
def thenResults {α : Type} (x : Go α) (k : α → Go Results) : Go Results :=
  match x with
  | .ok a => k a
  | .error (.error err) => .ok (none, some err)
  | .error f => .error f

/-! ## Basic lemmas -/

theorem bind_eq_ok {α β : Type} {x : Go α} {f : α → Go β} {b : β} :
    (x >>= f) = .ok b ↔ ∃ a, x = .ok a ∧ f a = .ok b := by
  cases x with
  | error e => simp [bind, Except.bind]
  | ok a => simp [bind, Except.bind]

theorem index_eq_ok {α : Type} {xs : List α} {i : Nat} {x : α} :
    index xs i = .ok x ↔ xs[i]? = some x := by
  unfold index
  cases h : xs[i]? <;> simp

theorem assign_eq_ok {α : Type} {xs ys : List α} {i : Nat} {v : α} :
    assign xs i v = .ok ys ↔ i < xs.length ∧ ys = xs.set i v := by
  unfold assign
  split <;> simp_all [eq_comm]

theorem deref_eq_ok {p : Option Int} {x : Int} : deref p = .ok x ↔ p = some x := by
  cases p <;> simp [deref]

theorem Mod_eq_ok {x y : Int} {N : Nat} : Mod x N = .ok y ↔ N ≠ 0 ∧ y = x % (N : Int) := by
  unfold Mod
  split <;> simp_all [eq_comm]

theorem Sign_body_eq (E : Env) (strategy : ParticipantRandInt) (priv : PrivateKey)
    (pubs : List PublicKey) (msg : List Nat) :
    Sign.body E strategy priv pubs msg
      = walkBody strategy pubs msg 1 (chainStep E priv.Curve pubs msg) := rfl

theorem Verify_body_eq (E : Env) (pubs : List PublicKey) (msg : List Nat)
    (signature : List (Option Int)) :
    Verify.body E pubs msg signature
      = replayBody pubs signature 1 (fun pub => chainStep E pub.Curve pubs msg pub) := rfl

theorem walkBody_eq_ok {strategy : ParticipantRandInt} {pubs : List PublicKey}
    {msg : List Nat} {off : Nat} {f : PublicKey → Int → Int → Go Int} {i : Nat}
    {c c1 : Int} {res res1 : List (Option Int)} {rand rand1 : Reader}
    (h : walkBody strategy pubs msg off f i (c, res, rand) = .ok (c1, res1, rand1)) :
    ∃ pub s, pubs[i]? = some pub ∧ strategy rand pub msg = .ok (s, rand1) ∧
      i + off < res.length ∧ res1 = res.set (i + off) (some s) ∧ f pub s c = .ok c1 := by
  simp only [walkBody, bind_eq_ok, index_eq_ok, assign_eq_ok] at h
  obtain ⟨pub, hpub, ⟨s, r⟩, hs, res2, ⟨hlt, hres⟩, c2, hf, hpure⟩ := h
  simp only [pure, Except.pure, Except.ok.injEq, Prod.mk.injEq] at hpure
  obtain ⟨rfl, rfl, rfl⟩ := hpure
  exact ⟨pub, s, hpub, hs, hlt, hres, hf⟩

/-- What a signer's loop leaves behind: the slots it does not own are
untouched, and along the slots it owns the stored responses come from the
strategy and chain the challenge from `c` to `c1`. -/
theorem walk_spec (strategy : ParticipantRandInt) (pubs : List PublicKey) (msg : List Nat)
    (off : Nat) (f : PublicKey → Int → Int → Go Int) :
    ∀ (cnt i : Nat) (c : Int) (res : List (Option Int)) (rand : Reader) (c1 : Int)
      (res1 : List (Option Int)) (rand1 : Reader),
      forLoopFrom (walkBody strategy pubs msg off f) cnt i (c, res, rand)
          = .ok (c1, res1, rand1) →
      res1.length = res.length ∧
      (∀ j, (j < i + off ∨ i + cnt + off ≤ j) → res1[j]? = res[j]?) ∧
      ∃ cs : Nat → Int, cs i = c ∧ cs (i + cnt) = c1 ∧
        ∀ j, i ≤ j → j < i + cnt → ∃ pub s r r1, pubs[j]? = some pub ∧
          res1[j + off]? = some (some s) ∧ strategy r pub msg = .ok (s, r1) ∧
          f pub s (cs j) = .ok (cs (j + 1)) := by
  intro cnt
  induction cnt with
  | zero =>
    intro i c res rand c1 res1 rand1 h
    simp only [forLoopFrom, Except.ok.injEq, Prod.mk.injEq] at h
    obtain ⟨rfl, rfl, rfl⟩ := h
    refine ⟨rfl, fun _ _ => rfl, fun _ => c, rfl, rfl, ?_⟩
    intro j h1 h2
    omega
  | succ cnt ih =>
    intro i c res rand c1 res1 rand1 h
    unfold forLoopFrom at h
    cases hb : walkBody strategy pubs msg off f i (c, res, rand) with
    | error e => simp [hb] at h
    | ok st =>
      obtain ⟨c2, res2, rand2⟩ := st
      simp only [hb] at h
      obtain ⟨pub, s, hpub, hs, hlt, hres, hf⟩ := walkBody_eq_ok hb
      obtain ⟨hlen, hout, cs, hcs0, hcs1, hsteps⟩ := ih (i + 1) c2 res2 rand2 c1 res1 rand1 h
      have hlen2 : res2.length = res.length := by rw [hres, List.length_set]
      refine ⟨by rw [hlen, hlen2], ?_, fun j => if j = i then c else cs j, ?_, ?_, ?_⟩
      · intro j hj
        rw [hout j (by omega), hres, List.getElem?_set_ne (by omega)]
      · simp
      · have : i + (cnt + 1) ≠ i := by omega
        simp only [this, if_false]
        rw [← hcs1]
        congr 1
        omega
      · intro j h1 h2
        by_cases hji : j = i
        · subst hji
          refine ⟨pub, s, rand, rand2, hpub, ?_, hs, ?_⟩
          · rw [hout (j + off) (by omega), hres, List.getElem?_set_self hlt]
          · have : j + 1 ≠ j := by omega
            simp only [this, if_false, if_true, hcs0]
            exact hf
        · obtain ⟨pub1, s1, r, r1, hp1, hr1, hs1, hf1⟩ := hsteps j (by omega) (by omega)
          refine ⟨pub1, s1, r, r1, hp1, hr1, hs1, ?_⟩
          have : j + 1 ≠ i := by omega
          simp only [hji, this, if_false]
          exact hf1

/-- A verifier's loop follows any chain of challenges the signature supports. -/
theorem replay_spec (pubs : List PublicKey) (signature : List (Option Int)) (off : Nat)
    (f : PublicKey → Int → Int → Go Int) (cs : Nat → Int) :
    ∀ (cnt i : Nat),
      (∀ j, i ≤ j → j < i + cnt → ∃ pub s, pubs[j]? = some pub ∧
          signature[j + off]? = some (some s) ∧ f pub s (cs j) = .ok (cs (j + 1))) →
      forLoopFrom (replayBody pubs signature off f) cnt i (cs i) = .ok (cs (i + cnt)) := by
  intro cnt
  induction cnt with
  | zero => intro i _; rfl
  | succ cnt ih =>
    intro i h
    obtain ⟨pub, s, hpub, hs, hf⟩ := h i (Nat.le_refl i) (by omega)
    have hb : replayBody pubs signature off f i (cs i) = .ok (cs (i + 1)) := by
      simp only [replayBody, bind_eq_ok, index_eq_ok, deref_eq_ok]
      exact ⟨pub, hpub, some s, hs, s, rfl, hf⟩
    unfold forLoopFrom
    simp only [hb]
    have := ih (i + 1) (fun j h1 h2 => h j (by omega) (by omega))
    rw [this]
    congr 2
    omega

/-- The skeleton shared by the four signers, from the first loop to the last
store: the signature has the length of the initial slice, keeps what was in
front of the seed slot `off - 1`, holds the seed `c0` there, the signer's
response at `pai + off` and a response drawn by the strategy in every other
slot; and a verifier whose step agrees with the signer's and closes at the
signer's slot comes back to `c0`. -/
theorem ring_closes (strategy : ParticipantRandInt) (pubs : List PublicKey) (msg : List Nat)
    (off : Nat) (f : PublicKey → Int → Int → Go Int) (pai : Nat)
    (cinit c0 cpai spai : Int) (res0 res1 res2 res3 sig : List (Option Int))
    (rand1 rand2 rand3 : Reader)
    (hoff : 1 ≤ off) (hpai : pai < pubs.length)
    (h1 : forLoop (pai + 1) pubs.length (walkBody strategy pubs msg off f) (cinit, res0, rand1)
      = .ok (c0, res1, rand2))
    (h2 : assign res1 (off - 1) (some c0) = .ok res2)
    (h3 : forLoop 0 pai (walkBody strategy pubs msg off f) (c0, res2, rand2)
      = .ok (cpai, res3, rand3))
    (h4 : assign res3 (pai + off) (some spai) = .ok sig) :
    sig.length = res0.length ∧
    (∀ j, j < off - 1 → sig[j]? = res0[j]?) ∧
    sig[off - 1]? = some (some c0) ∧
    sig[pai + off]? = some (some spai) ∧
    (∀ j, j < pubs.length → j ≠ pai → ∃ pub s r r1, pubs[j]? = some pub ∧
      sig[j + off]? = some (some s) ∧ strategy r pub msg = .ok (s, r1)) ∧
    (c0 = cinit ∨ ∃ pub s c, f pub s c = .ok c0) ∧
    (∀ g : PublicKey → Int → Int → Go Int,
      (∀ pub, pubs[pai]? = some pub → g pub spai cpai = .ok cinit) →
      (∀ pub, pub ∈ pubs → g pub = f pub) →
      forLoop 0 pubs.length (replayBody pubs sig off g) c0 = .ok c0) := by
  unfold forLoop at h1 h3
  obtain ⟨hl1, ho1, cst, hcst0, hcst1, hst⟩ := walk_spec _ _ _ _ _ _ _ _ _ _ _ _ _ h1
  obtain ⟨hl3, ho3, csw, hcsw0, hcsw1, hsw⟩ := walk_spec _ _ _ _ _ _ _ _ _ _ _ _ _ h3
  rw [assign_eq_ok] at h2 h4
  obtain ⟨hlt2, hres2⟩ := h2
  obtain ⟨hlt4, hsig⟩ := h4
  have hl2 : res2.length = res1.length := by rw [hres2, List.length_set]
  have hn : pai + 1 + (pubs.length - (pai + 1)) = pubs.length := by omega
  rw [hn] at hcst1 hst
  simp only [Nat.sub_zero, Nat.zero_add] at hcsw1 hsw ho3
  -- every slot of the final slice
  have hseed : sig[off - 1]? = some (some c0) := by
    rw [hsig, List.getElem?_set_ne (by omega), ho3 _ (Or.inl (by omega)), hres2,
      List.getElem?_set_self hlt2]
  have htail : ∀ j, pai < j → j < pubs.length → sig[j + off]? = res1[j + off]? := by
    intro j hj1 hj2
    rw [hsig, List.getElem?_set_ne (by omega), ho3 _ (Or.inr (by omega)), hres2,
      List.getElem?_set_ne (by omega)]
  have hhead : ∀ j, j < pai → sig[j + off]? = res3[j + off]? := by
    intro j hj
    rw [hsig, List.getElem?_set_ne (by omega)]
  refine ⟨?_, ?_, hseed, ?_, ?_, ?_, ?_⟩
  · rw [hsig, List.length_set, hl3, hl2, hl1]
  · intro j hj
    rw [hsig, List.getElem?_set_ne (by omega), ho3 _ (Or.inl (by omega)), hres2,
      List.getElem?_set_ne (by omega), ho1 _ (Or.inl (by omega))]
  · rw [hsig, List.getElem?_set_self hlt4]
  · intro j hj hne
    rcases Nat.lt_or_gt_of_ne hne with hlt | hgt
    · obtain ⟨pub, s, r, r1, hp, hr, hs, _⟩ := hsw j (Nat.zero_le j) hlt
      exact ⟨pub, s, r, r1, hp, by rw [hhead j hlt, hr], hs⟩
    · obtain ⟨pub, s, r, r1, hp, hr, hs, _⟩ := hst j (by omega) hj
      exact ⟨pub, s, r, r1, hp, by rw [htail j hgt hj, hr], hs⟩
  · by_cases hlast : pai + 1 = pubs.length
    · left
      rw [← hcst1, ← hcst0, hlast]
    · right
      obtain ⟨pub, s, _, _, _, _, _, hf⟩ := hst (pubs.length - 1) (by omega) (by omega)
      have e : pubs.length - 1 + 1 = pubs.length := by omega
      rw [e, hcst1] at hf
      exact ⟨pub, s, _, hf⟩
  · intro g hclose hfg
    unfold forLoop
    have key := replay_spec pubs sig off g (fun j => if j ≤ pai then csw j else cst j)
      (pubs.length - 0) 0 ?_
    · have e1 : ¬ (0 + (pubs.length - 0) ≤ pai) := by omega
      simp only [Nat.zero_le, if_true, e1, if_false] at key
      have e2 : 0 + (pubs.length - 0) = pubs.length := by omega
      rw [e2, hcsw0, hcst1] at key
      exact key
    · intro j _ hj
      have hj : j < pubs.length := by omega
      rcases Nat.lt_trichotomy j pai with hlt | heq | hgt
      · obtain ⟨pub, s, r, r1, hp, hr, _, hf⟩ := hsw j (Nat.zero_le j) hlt
        refine ⟨pub, s, hp, by rw [hhead j hlt, hr], ?_⟩
        have e1 : j ≤ pai := by omega
        have e2 : j + 1 ≤ pai := by omega
        simp only [e1, e2, if_true]
        rw [hfg pub (List.getElem?_mem hp)]
        exact hf
      · subst heq
        obtain ⟨pub, hp⟩ : ∃ pub, pubs[j]? = some pub :=
          ⟨pubs[j], List.getElem?_eq_getElem hj⟩
        refine ⟨pub, spai, hp, by rw [hsig, List.getElem?_set_self hlt4], ?_⟩
        have e2 : ¬ (j + 1 ≤ j) := by omega
        simp only [Nat.le_refl, e2, if_true, if_false]
        rw [hcsw1, hcst0]
        exact hclose pub hp
      · obtain ⟨pub, s, r, r1, hp, hr, _, hf⟩ := hst j (by omega) hj
        refine ⟨pub, s, hp, by rw [htail j hgt hj, hr], ?_⟩
        have e1 : ¬ (j ≤ pai) := by omega
        have e2 : ¬ (j + 1 ≤ pai) := by omega
        simp only [e1, e2, if_false]
        rw [hfg pub (List.getElem?_mem hp)]
        exact hf

/-! ## Bytes and scalars -/

theorem natBytes_append (fuel v : Nat) (acc : List Nat) :
    natBytes fuel v acc = natBytes fuel v [] ++ acc := by
  induction fuel generalizing v acc with
  | zero => simp [natBytes]
  | succ fuel ih =>
    unfold natBytes
    split
    · simp
    · rw [ih (v / 256) (v % 256 :: acc), ih (v / 256) [v % 256]]
      simp

theorem SetBytes_append_singleton (l : List Nat) (d : Nat) :
    SetBytes (l ++ [d]) = SetBytes l * 256 + d % 256 := by
  simp [SetBytes, List.foldl_append]

theorem SetBytes_natBytes (fuel v : Nat) (h : v ≤ fuel) : SetBytes (natBytes fuel v []) = v := by
  induction fuel generalizing v with
  | zero =>
    have : v = 0 := by omega
    subst this
    simp [natBytes, SetBytes]
  | succ fuel ih =>
    unfold natBytes
    split
    · rename_i h0
      simp [SetBytes, h0]
    · rename_i h0
      have hdiv : v / 256 ≤ fuel := by
        have : v / 256 < v := Nat.div_lt_self (by omega) (by omega)
        omega
      rw [natBytes_append, SetBytes_append_singleton, ih (v / 256) hdiv]
      omega

/-- The round trip `SetBytes (x.Bytes()) = |x|`: a curve object reads back the
absolute value of the scalar it is passed. -/
theorem SetBytes_Bytes (x : Int) : SetBytes (Bytes x) = x.natAbs :=
  SetBytes_natBytes _ _ (Nat.le_refl _)

theorem smul_congr_of_modEq {Pt : Type} [AddCommGroup Pt] {N : Nat} {p : Pt}
    (hN : N • p = 0) {a b : Int} (h : a ≡ b [ZMOD (N : Int)]) : a • p = b • p := by
  obtain ⟨t, ht⟩ := h.dvd
  have hb : b = a + t * (N : Int) := by linarith
  rw [hb, add_smul, mul_smul, natCast_zsmul, hN, smul_zero, add_zero]

theorem natAbs_smul {Pt : Type} [AddCommGroup Pt] (p : Pt) {a : Int} (h : 0 ≤ a) :
    a.natAbs • p = a • p := by
  rw [← natCast_zsmul, Int.natAbs_of_nonneg h]

/-- The point identity behind every closing step: if `s + c·d ≡ k (mod N)`
then `s·P + c·(d·P) = k·P` for non-negative scalars. -/
theorem smul_close {Pt : Type} [AddCommGroup Pt] {N : Nat} {p : Pt} (hN : N • p = 0)
    {s c d k : Int} (hs : 0 ≤ s) (hc : 0 ≤ c) (hd : 0 ≤ d) (hk : 0 ≤ k)
    (h : s + c * d ≡ k [ZMOD (N : Int)]) :
    s.natAbs • p + c.natAbs • (d.natAbs • p) = k.natAbs • p := by
  rw [natAbs_smul p hs, natAbs_smul _ hc, natAbs_smul p hd, natAbs_smul p hk,
    ← mul_smul, ← add_smul]
  exact smul_congr_of_modEq hN h

/-! ## The closing equation -/

/-- The factor used by `closeRing` inverts `D + 1` modulo `N`. -/
theorem dp1Inv_spec {C : Curve} {Pt : Type} [AddCommGroup Pt] {enc : Pt → Int × Int} {g : Pt}
    (L : C.Lawful enc g) (D : Int) (h1 : 1 ≤ D) (h2 : D ≤ (C.N : Int) - 2) :
    ((D + 1) * (match C.Inverse with
      | some inv => inv (D + 1)
      | none => fermatInverse (D + 1) C.N)) ≡ 1 [ZMOD (C.N : Int)] := by
  have hN2 : 2 ≤ C.N := L.prime.two_le
  have hne : (D + 1) % (C.N : Int) ≠ 0 := by
    rw [Int.emod_eq_of_lt (by omega) (by omega)]
    omega
  cases hinv : C.Inverse with
  | some inv =>
    simp only
    have := L.inverse inv hinv (D + 1) hne
    unfold Int.ModEq
    rw [this]
    exact (Int.emod_eq_of_lt (by omega) (by omega)).symm
  | none =>
    simp only
    have hcop : IsCoprime (D + 1) (C.N : Int) := by
      rw [isCoprime_comm, Int.isCoprime_iff_gcd_eq_one, Int.gcd_eq_natAbs, Int.natAbs_ofNat]
      rw [← Nat.coprime_iff_gcd_eq_one, L.prime.coprime_iff_not_dvd]
      intro hdvd
      apply hne
      have : (C.N : Int) ∣ D + 1 := by
        rw [← Int.natAbs_dvd_natAbs, Int.natAbs_ofNat]
        exact hdvd
      exact Int.emod_eq_zero_of_dvd this
    have hf := Int.ModEq.pow_card_sub_one_eq_one L.prime hcop
    have hpow : (D + 1) * (D + 1) ^ (C.N - 2) = (D + 1) ^ (C.N - 1) := by
      rw [← pow_succ']
      congr 1
      omega
    have hfi : fermatInverse (D + 1) C.N = ((D + 1) ^ (C.N - 2)) % (C.N : Int) := by
      unfold fermatInverse
      have h0 : C.N ≠ 0 := by omega
      have e : ((C.N : Int) - 2).toNat = C.N - 2 := by omega
      simp only [h0, if_false, e]
    rw [hfi]
    calc (D + 1) * ((D + 1) ^ (C.N - 2) % (C.N : Int))
        ≡ (D + 1) * (D + 1) ^ (C.N - 2) [ZMOD (C.N : Int)] :=
          Int.ModEq.mul_left _ (Int.mod_modEq _ _)
      _ = (D + 1) ^ (C.N - 1) := hpow
      _ ≡ 1 [ZMOD (C.N : Int)] := hf

/-- The signer's response closes the ring: it lies in `[0, N-1]` and, with
the challenge `(s + c) mod N` a verifier forms from it, satisfies
`s + ((s + c) mod N)·D ≡ kPai (mod N)`. -/
theorem closeRing_spec {C : Curve} {Pt : Type} [AddCommGroup Pt] {enc : Pt → Int × Int}
    {g : Pt} (L : C.Lawful enc g) (priv : PrivateKey) (h1 : 1 ≤ priv.D)
    (h2 : priv.D ≤ (C.N : Int) - 2) (kPai c s : Int) (h : closeRing C priv kPai c = .ok s) :
    0 ≤ s ∧ s < (C.N : Int) ∧
      s + ((s + c) % (C.N : Int)) * priv.D ≡ kPai [ZMOD (C.N : Int)] := by
  have hN2 : 2 ≤ C.N := L.prime.two_le
  have hinv := dp1Inv_spec L priv.D h1 h2
  unfold closeRing at h
  simp only [Mod_eq_ok] at h
  obtain ⟨_, hs⟩ := h
  generalize (match C.Inverse with
      | some inv => inv (priv.D + 1)
      | none => fermatInverse (priv.D + 1) C.N) = w at hinv hs
  refine ⟨?_, ?_, ?_⟩
  · rw [hs]; exact Int.emod_nonneg _ (by omega)
  · rw [hs]; exact Int.emod_lt_of_pos _ (by omega)
  · have e1 : s ≡ (kPai - c * priv.D) * w [ZMOD (C.N : Int)] := by
      rw [hs]; exact Int.mod_modEq _ _
    have e2 : (s + c) % (C.N : Int) ≡ s + c [ZMOD (C.N : Int)] := Int.mod_modEq _ _
    calc s + ((s + c) % (C.N : Int)) * priv.D
        ≡ s + (s + c) * priv.D [ZMOD (C.N : Int)] :=
          Int.ModEq.add_left _ (Int.ModEq.mul_right _ e2)
      _ = s * (priv.D + 1) + c * priv.D := by ring
      _ ≡ ((kPai - c * priv.D) * w) * (priv.D + 1) + c * priv.D [ZMOD (C.N : Int)] :=
          Int.ModEq.add_right _ (Int.ModEq.mul_right _ e1)
      _ = (kPai - c * priv.D) * ((priv.D + 1) * w) + c * priv.D := by ring
      _ ≡ (kPai - c * priv.D) * 1 + c * priv.D [ZMOD (C.N : Int)] :=
          Int.ModEq.add_right _ (Int.ModEq.mul_left _ hinv)
      _ = kPai := by ring

/-! ## The shared primitives -/

theorem getPaiLoop_spec (priv : PrivateKey) :
    ∀ (l : List PublicKey) (i : Nat) (r : Int), getPaiLoop priv l i = .ok r →
      r = -1 ∨ ∃ j pub, r = ((i + j : Nat) : Int) ∧ l[j]? = some pub ∧
        priv.toPublicKey.Equal pub = true := by
  intro l
  induction l with
  | nil =>
    intro i r h
    simp only [getPaiLoop, Except.ok.injEq] at h
    exact Or.inl h.symm
  | cons pub rest ih =>
    intro i r h
    unfold getPaiLoop at h
    split at h
    · simp at h
    · split at h
      · rename_i heq
        simp only [Except.ok.injEq] at h
        exact Or.inr ⟨0, pub, by simp [← h], by simp, heq⟩
      · rcases ih (i + 1) r h with h1 | ⟨j, pub1, hr, hj, heq⟩
        · exact Or.inl h1
        · refine Or.inr ⟨j + 1, pub1, ?_, by simpa using hj, heq⟩
          rw [hr]
          congr 1
          omega

/-- When `getPai` succeeds the ring has at least two keys and the returned
index holds a key `Equal` to the signer's public key. -/
theorem getPai_spec (priv : PrivateKey) (pubs : List PublicKey) (pai : Nat)
    (h : getPai priv pubs = .ok pai) :
    2 ≤ pubs.length ∧ pai < pubs.length ∧
      ∃ pub, pubs[pai]? = some pub ∧ priv.toPublicKey.Equal pub = true := by
  unfold getPai at h
  simp only at h
  split at h
  · simp at h
  · rename_i hn
    cases hl : getPaiLoop priv pubs 0 with
    | error e => simp [hl] at h
    | ok r =>
      simp only [hl] at h
      split at h
      · simp at h
      · rename_i hneg
        simp only [Except.ok.injEq] at h
        rcases getPaiLoop_spec priv pubs 0 r hl with h1 | ⟨j, pub, hr, hj, heq⟩
        · omega
        · have hpj : pai = j := by omega
          subst hpj
          refine ⟨by omega, ?_, pub, hj, heq⟩
          exact (List.getElem?_eq_some.mp hj).1

theorem PublicKey.Equal_eq {a b : PublicKey} (h : a.Equal b = true) : a = b := by
  cases a; cases b
  simp only [PublicKey.Equal, Bool.and_eq_true, beq_iff_eq] at h
  simp [h.1.1, h.1.2, h.2]

theorem randFieldElementLoop_spec (c : Curve) :
    ∀ (fuel : Nat) (rand : Reader) (k : Int) (rand1 : Reader),
      randFieldElementLoop c fuel rand = .ok (k, rand1) → 1 ≤ k ∧ k < (c.N : Int) := by
  intro fuel
  induction fuel with
  | zero => intro rand k rand1 h; simp [randFieldElementLoop] at h
  | succ fuel ih =>
    intro rand k rand1 h
    unfold randFieldElementLoop at h
    cases hr : ReadFull rand ((BitLen c.N + 7) / 8) with
    | error e => simp [hr] at h
    | ok br =>
      obtain ⟨b, rand2⟩ := br
      simp only [hr] at h
      split at h <;> split at h
      all_goals first
        | exact ih _ _ _ h
        | (simp only [Except.ok.injEq, Prod.mk.injEq] at h
           omega)

/-- A field element returned by `randFieldElement` lies in `[1, N-1]`. -/
theorem randFieldElement_spec (c : Curve) (rand : Reader) (k : Int) (rand1 : Reader)
    (h : randFieldElement c rand = .ok (k, rand1)) : 1 ≤ k ∧ k < (c.N : Int) :=
  randFieldElementLoop_spec c _ _ _ _ h

/-! ## The fuel of the sampling loops is enough -/

theorem BitLen_pos {n : Nat} (h : 0 < n) : 0 < BitLen n := by
  unfold BitLen
  cases n with
  | zero => omega
  | succ m =>
    unfold bitLenAux
    simp

theorem ReadFull_eq_ok {rand : Reader} {n : Nat} {b : List Nat} {rand1 : Reader}
    (h : ReadFull rand n = .ok (b, rand1)) :
    n ≤ rand.length ∧ rand1 = rand.drop n ∧ b.length = n := by
  unfold ReadFull at h
  by_cases hlt : rand.length < n
  · rw [if_pos hlt] at h
    simp at h
  · rw [if_neg hlt] at h
    simp only [Except.ok.injEq, Prod.mk.injEq] at h
    obtain ⟨rfl, rfl⟩ := h
    refine ⟨by omega, rfl, ?_⟩
    simp only [List.length_map, List.length_take]
    omega

/-- With a positive order every draw of `randFieldElement` takes at least one
byte, so the loop never runs out of fuel: it returns a field element or the
read error of the stream. -/
theorem randFieldElementLoop_no_hang (c : Curve) (hN : 0 < c.N) :
    ∀ (fuel : Nat) (rand : Reader), rand.length < fuel →
      randFieldElementLoop c fuel rand ≠ .error .hang := by
  have hbl : 1 ≤ (BitLen c.N + 7) / 8 := by
    have := BitLen_pos hN
    omega
  intro fuel
  induction fuel with
  | zero => intro rand h; omega
  | succ fuel ih =>
    intro rand hlen
    unfold randFieldElementLoop
    cases hr : ReadFull rand ((BitLen c.N + 7) / 8) with
    | error e =>
      have he : e ≠ .hang := by
        unfold ReadFull at hr
        by_cases hlt : rand.length < (BitLen c.N + 7) / 8
        · rw [if_pos hlt] at hr
          simp only [Except.error.injEq] at hr
          subst hr
          simp
        · rw [if_neg hlt] at hr
          simp at hr
      simp only [hr, ne_eq, Except.error.injEq]
      exact he
    | ok br =>
      obtain ⟨b, rand2⟩ := br
      obtain ⟨h1, h2, _⟩ := ReadFull_eq_ok hr
      have hlen2 : rand2.length < fuel := by
        rw [h2, List.length_drop]
        omega
      simp only [hr]
      split <;> split
      all_goals first
        | exact ih _ hlen2
        | simp

/-- `randFieldElement` consumes at least one byte when it succeeds on a
positive order. -/
theorem randFieldElementLoop_consumes (c : Curve) (hN : 0 < c.N) :
    ∀ (fuel : Nat) (rand : Reader) (k : Int) (rand1 : Reader),
      randFieldElementLoop c fuel rand = .ok (k, rand1) → rand1.length < rand.length := by
  have hbl : 1 ≤ (BitLen c.N + 7) / 8 := by
    have := BitLen_pos hN
    omega
  intro fuel
  induction fuel with
  | zero => intro rand k rand1 h; simp [randFieldElementLoop] at h
  | succ fuel ih =>
    intro rand k rand1 h
    unfold randFieldElementLoop at h
    cases hr : ReadFull rand ((BitLen c.N + 7) / 8) with
    | error e => simp [hr] at h
    | ok br =>
      obtain ⟨b, rand2⟩ := br
      obtain ⟨h1, h2, _⟩ := ReadFull_eq_ok hr
      have hlen2 : rand2.length < rand.length := by
        rw [h2, List.length_drop]
        omega
      simp only [hr] at h
      split at h <;> split at h
      all_goals first
        | exact Nat.lt_trans (ih _ _ _ h) hlen2
        | (simp only [Except.ok.injEq, Prod.mk.injEq] at h
           obtain ⟨_, rfl⟩ := h
           exact hlen2)

theorem randFieldElement_no_hang (c : Curve) (hN : 0 < c.N) (rand : Reader) :
    randFieldElement c rand ≠ .error .hang :=
  randFieldElementLoop_no_hang c hN _ rand (Nat.lt_succ_self _)

/-- With a positive order the loop of `SM2ParticipantRandInt` never runs out
of fuel either. -/
theorem SM2ParticipantRandIntLoop_no_hang (c : Curve) (e : Int) (hN : 0 < c.N) :
    ∀ (fuel : Nat) (rand : Reader), rand.length < fuel →
      SM2ParticipantRandIntLoop c e fuel rand ≠ .error .hang := by
  intro fuel
  induction fuel with
  | zero => intro rand h; omega
  | succ fuel ih =>
    intro rand hlen
    unfold SM2ParticipantRandIntLoop
    cases hk : randFieldElement c rand with
    | error err =>
      simp only [hk]
      intro h
      simp only [Except.error.injEq] at h
      subst h
      exact randFieldElement_no_hang c hN rand hk
    | ok kr =>
      obtain ⟨k, rand2⟩ := kr
      have hlen2 := randFieldElementLoop_consumes c hN _ _ _ _ hk
      simp only [hk]
      cases hm : Mod ((c.ScalarBaseMult (Bytes k)).1 + e) c.N with
      | error err =>
        unfold Mod at hm
        split at hm
        · omega
        · simp at hm
      | ok r =>
        simp only [hm]
        split
        · simp
        · exact ih _ (by omega)

/-! ## The plain scheme -/

/-- At the signer's slot the verifier's step reproduces the initial challenge
`hash(ring, msg, kPai·G)`. -/
theorem chainStep_close (E : Env) {Pt : Type} [AddCommGroup Pt] (enc : Pt → Int × Int) (g : Pt)
    (priv : PrivateKey) (pubs : List PublicKey) (msg : List Nat) (pub : PublicKey)
    (kPai c s cinit : Int)
    (L : (E.curve priv.Curve).Lawful enc g)
    (hd1 : 1 ≤ priv.D) (hd2 : priv.D ≤ ((E.curve priv.Curve).N : Int) - 2)
    (hpub : (pub.X, pub.Y) = (E.curve priv.Curve).ScalarBaseMult (Bytes priv.D))
    (hk : 0 ≤ kPai)
    (hinit : hash E pubs msg ((E.curve priv.Curve).ScalarBaseMult (Bytes kPai)).1
      ((E.curve priv.Curve).ScalarBaseMult (Bytes kPai)).2 = .ok cinit)
    (hs : closeRing (E.curve priv.Curve) priv kPai c = .ok s) :
    chainStep E priv.Curve pubs msg pub s c = .ok cinit := by
  obtain ⟨hs0, hsN, hcong⟩ := closeRing_spec L priv hd1 hd2 kPai c s hs
  have hN2 : 2 ≤ (E.curve priv.Curve).N := L.prime.two_le
  have hX : pub.X = (enc (SetBytes (Bytes priv.D) • g)).1 := by
    rw [← L.base, ← hpub]
  have hY : pub.Y = (enc (SetBytes (Bytes priv.D) • g)).2 := by
    rw [← L.base, ← hpub]
  have hc0 : 0 ≤ (s + c) % ((E.curve priv.Curve).N : Int) := Int.emod_nonneg _ (by omega)
  have hpt : SetBytes (Bytes s) • g
      + SetBytes (Bytes ((s + c) % ((E.curve priv.Curve).N : Int)))
        • (SetBytes (Bytes priv.D) • g) = SetBytes (Bytes kPai) • g := by
    simp only [SetBytes_Bytes]
    exact smul_close (L.order g) hs0 hc0 (by omega) hk hcong
  simp only [chainStep, bind_eq_ok, Mod_eq_ok]
  refine ⟨_, ⟨by omega, rfl⟩, ?_⟩
  simp only [hX, hY, L.smul, L.base, L.add, hpt]
  simpa only [L.base] using hinit

/-- What a successful `Sign` went through. -/
theorem Sign_eq_ok {E : Env} {rand : Reader} {strategy : ParticipantRandInt}
    {priv : PrivateKey} {pubs : List PublicKey} {msg : List Nat} {sig : List (Option Int)}
    (h : Sign E rand strategy priv pubs msg = .ok sig) :
    ∃ pai kPai rand1 cinit c0 res1 rand2 res2 cpai res3 rand3 spai,
      getPai priv pubs = .ok pai ∧
      randFieldElement (E.curve priv.Curve) rand = .ok (kPai, rand1) ∧
      hash E pubs msg ((E.curve priv.Curve).ScalarBaseMult (Bytes kPai)).1
        ((E.curve priv.Curve).ScalarBaseMult (Bytes kPai)).2 = .ok cinit ∧
      forLoop (pai + 1) pubs.length
        (walkBody strategy pubs msg 1 (chainStep E priv.Curve pubs msg))
        (cinit, List.replicate (pubs.length + 1) none, rand1) = .ok (c0, res1, rand2) ∧
      assign res1 0 (some c0) = .ok res2 ∧
      forLoop 0 pai (walkBody strategy pubs msg 1 (chainStep E priv.Curve pubs msg))
        (c0, res2, rand2) = .ok (cpai, res3, rand3) ∧
      closeRing (E.curve priv.Curve) priv kPai cpai = .ok spai ∧
      assign res3 (pai + 1) (some spai) = .ok sig := by
  simp only [Sign, bind_eq_ok, Sign_body_eq] at h
  obtain ⟨pai, hpai, ⟨kPai, rand1⟩, hk, cinit, hinit, ⟨c0, res1, rand2⟩, h1, res2, h2,
    ⟨cpai, res3, rand3⟩, h3, spai, hclose, res4, h4, hpure⟩ := h
  simp only [pure, Except.pure, Except.ok.injEq] at hpure
  subst hpure
  exact ⟨pai, kPai, rand1, cinit, c0, res1, rand2, res2, cpai, res3, rand3, spai,
    hpai, hk, hinit, h1, h2, h3, hclose, h4⟩

/-- C1 (plain scheme round trip).  On a curve object that computes in a group
of prime order `N`, for every ring whose keys all carry the signer's curve,
every private key with `1 ≤ D ≤ N-2` and public key `D·G`, every message,
nonce strategy and random stream: a signature returned by `Sign` is accepted
by `Verify` over the same ring and message.  (That `Sign` succeeds already
says that the ring has at least two keys and contains the signer's key, at
whatever position.) -/
theorem Sign_Verify_round_trip (E : Env) {Pt : Type} [AddCommGroup Pt] (enc : Pt → Int × Int)
    (g : Pt) (rand : Reader) (strategy : ParticipantRandInt) (priv : PrivateKey)
    (pubs : List PublicKey) (msg : List Nat) (sig : List (Option Int))
    (L : (E.curve priv.Curve).Lawful enc g)
    (hcurve : ∀ pub, pub ∈ pubs → pub.Curve = priv.Curve)
    (hd1 : 1 ≤ priv.D) (hd2 : priv.D ≤ ((E.curve priv.Curve).N : Int) - 2)
    (hpub : (priv.X, priv.Y) = (E.curve priv.Curve).ScalarBaseMult (Bytes priv.D))
    (hsign : Sign E rand strategy priv pubs msg = .ok sig) :
    Verify E pubs msg sig = .ok true := by
  obtain ⟨pai, kPai, rand1, cinit, c0, res1, rand2, res2, cpai, res3, rand3, spai,
    hpai, hk, hinit, h1, h2, h3, hclose, h4⟩ := Sign_eq_ok hsign
  obtain ⟨_, hlt, pubpai, hpp, heq⟩ := getPai_spec priv pubs pai hpai
  have hk0 := (randFieldElement_spec _ _ _ _ hk).1
  obtain ⟨hlen, _, hseed, _, _, _, hreplay⟩ :=
    ring_closes strategy pubs msg 1 (chainStep E priv.Curve pubs msg)
      pai cinit c0 cpai spai _ res1 res2 res3
      sig rand1 rand2 rand3 (Nat.le_refl 1) hlt h1 h2 h3 h4
  have hloop := hreplay (fun pub => chainStep E pub.Curve pubs msg pub)
    (by
      intro pub hp
      rw [hpp] at hp
      cases hp
      have hpe := PublicKey.Equal_eq heq
      rw [← hpe]
      exact chainStep_close E enc g priv pubs msg priv.toPublicKey kPai cpai spai cinit L
        hd1 hd2 hpub (by omega) hinit hclose)
    (by
      intro pub hp
      simp only [hcurve pub hp])
  simp only [List.length_replicate] at hlen
  simp only [Nat.sub_self] at hseed
  unfold Verify
  rw [if_neg (by omega)]
  simp only [bind_eq_ok, index_eq_ok, deref_eq_ok, Verify_body_eq]
  exact ⟨some c0, hseed, c0, rfl, c0, hloop, some c0, hseed, c0, rfl, by simp [pure, Except.pure]⟩

/-! ## The linkable schemes -/

theorem BaseLinkableSigner_Sign_body_eq (E : Env) (strategy : ParticipantRandInt)
    (priv : PrivateKey) (pubs : List PublicKey) (rx ry QpaiX QpaiY : Int) (msg : List Nat) :
    BaseLinkableSigner.Sign.body E strategy priv pubs rx ry QpaiX QpaiY msg
      = walkBody strategy pubs msg 3 (baseStep E priv.Curve pubs rx ry QpaiX QpaiY msg) := rfl

theorem BaseLinkableVerfier_Verify_body_eq (E : Env) (pubs : List PublicKey)
    (rx ry QpaiX QpaiY : Int) (msg : List Nat) (signature : List (Option Int)) :
    BaseLinkableVerfier.Verify.body E pubs rx ry QpaiX QpaiY msg signature
      = replayBody pubs signature 3
          (fun pub => baseStep E pub.Curve pubs rx ry QpaiX QpaiY msg pub) := rfl

theorem LinkableSignerVariant1_Sign_body_eq (E : Env) (strategy : ParticipantRandInt)
    (priv : PrivateKey) (pubs : List PublicKey) (rx ry QpaiX QpaiY : Int) (msg : List Nat) :
    LinkableSignerVariant1.Sign.body E strategy priv pubs rx ry QpaiX QpaiY msg
      = walkBody strategy pubs msg 3 (variant1Step E priv.Curve pubs rx ry QpaiX QpaiY msg) :=
  rfl

theorem LinkableSignerVariant1_Verify_body_eq (E : Env) (pubs : List PublicKey)
    (rx ry QpaiX QpaiY : Int) (msg : List Nat) (signature : List (Option Int)) :
    LinkableSignerVariant1.Verify.body E pubs rx ry QpaiX QpaiY msg signature
      = replayBody pubs signature 3
          (fun pub => variant1Step E pub.Curve pubs rx ry QpaiX QpaiY msg pub) := rfl

theorem LinkableSignerVariant2_Sign_body_eq (E : Env) (strategy : ParticipantRandInt)
    (priv : PrivateKey) (pubs : List PublicKey) (rx ry QpaiX QpaiY : Int) (msg : List Nat) :
    LinkableSignerVariant2.Sign.body E strategy priv pubs rx ry QpaiX QpaiY msg
      = walkBody strategy pubs msg 3 (variant2Step E priv.Curve pubs rx ry QpaiX QpaiY msg) :=
  rfl

theorem LinkableSignerVariant2_Verify_body_eq (E : Env) (pubs : List PublicKey)
    (rx ry QpaiX QpaiY : Int) (msg : List Nat) (signature : List (Option Int)) :
    LinkableSignerVariant2.Verify.body E pubs rx ry QpaiX QpaiY msg signature
      = replayBody pubs signature 3
          (fun pub => variant2Step E pub.Curve pubs rx ry QpaiX QpaiY msg pub) := rfl

theorem foldl_Add_enc {C : Curve} {Pt : Type} [AddCommGroup Pt] {enc : Pt → Int × Int} {g : Pt}
    (L : C.Lawful enc g) (pt : PublicKey → Pt) :
    ∀ (rest : List PublicKey) (a : Pt),
      (∀ pub, pub ∈ rest → enc (pt pub) = (pub.X, pub.Y)) →
      rest.foldl (fun p pub => C.Add p.1 p.2 pub.X pub.Y) (enc a)
        = enc (a + (rest.map pt).sum) := by
  intro rest
  induction rest with
  | nil => intro a _; simp
  | cons pub rest ih =>
    intro a h
    have hp : enc (pt pub) = (pub.X, pub.Y) := h pub (List.mem_cons_self _ _)
    have hX : pub.X = (enc (pt pub)).1 := by rw [hp]
    have hY : pub.Y = (enc (pt pub)).2 := by rw [hp]
    simp only [List.foldl_cons, List.map_cons, List.sum_cons]
    rw [hX, hY, L.add, ih (a + pt pub) (fun q hq => h q (List.mem_cons_of_mem _ hq)), add_assoc]

/-- On a ring of points of the group, `publicKeysToPoint` returns the
coordinates of their sum. -/
theorem publicKeysToPoint_sum (E : Env) {Pt : Type} [AddCommGroup Pt] {enc : Pt → Int × Int}
    {g : Pt} (cv : CurveRef) (L : (E.curve cv).Lawful enc g) (pt : PublicKey → Pt)
    (pubs : List PublicKey) (hne : pubs ≠ [])
    (hcurve : ∀ pub, pub ∈ pubs → pub.Curve = cv)
    (hpt : ∀ pub, pub ∈ pubs → enc (pt pub) = (pub.X, pub.Y)) :
    publicKeysToPoint E pubs = .ok (enc ((pubs.map pt).sum)) := by
  cases pubs with
  | nil => exact absurd rfl hne
  | cons pub0 rest =>
    have h0 : enc (pt pub0) = (pub0.X, pub0.Y) := hpt pub0 (List.mem_cons_self _ _)
    have hc0 : pub0.Curve = cv := hcurve pub0 (List.mem_cons_self _ _)
    simp only [publicKeysToPoint, List.map_cons, List.sum_cons, hc0]
    rw [← h0, foldl_Add_enc L pt rest (pt pub0) (fun q hq => hpt q (List.mem_cons_of_mem _ hq))]

/-- What a successful `BaseLinkableSigner.Sign` went through, and the layout
of what it returns: the tag `D·R` in slots 0 and 1, the seed in slot 2, the
signer's response at `pai + 3`, a strategy draw in every other response slot. -/
theorem BaseLinkableSigner_Sign_eq_ok {E : Env} {signer : BaseLinkableSigner} {rand : Reader}
    {strategy : ParticipantRandInt} {msg : List Nat} {sig : List (Option Int)}
    (h : BaseLinkableSigner.Sign E signer rand strategy msg = .ok sig) :
    ∃ pai rx ry kPai rand1 cinit c0 cpai spai,
      getPai signer.privateKey signer.publicKeys = .ok pai ∧
      publicKeysToPoint E signer.publicKeys = .ok (rx, ry) ∧
      randFieldElement (E.curve signer.privateKey.Curve) rand = .ok (kPai, rand1) ∧
      hash1 E signer.publicKeys
        ((E.curve signer.privateKey.Curve).ScalarMult rx ry (Bytes signer.privateKey.D)).1
        ((E.curve signer.privateKey.Curve).ScalarMult rx ry (Bytes signer.privateKey.D)).2 msg
        (some ((E.curve signer.privateKey.Curve).ScalarBaseMult (Bytes kPai)).1)
        (some ((E.curve signer.privateKey.Curve).ScalarBaseMult (Bytes kPai)).2)
        (some ((E.curve signer.privateKey.Curve).ScalarMult rx ry (Bytes kPai)).1)
        (some ((E.curve signer.privateKey.Curve).ScalarMult rx ry (Bytes kPai)).2)
        = .ok cinit ∧
      closeRing (E.curve signer.privateKey.Curve) signer.privateKey kPai cpai = .ok spai ∧
      sig.length = signer.publicKeys.length + 3 ∧
      sig[0]? = some (some
        ((E.curve signer.privateKey.Curve).ScalarMult rx ry (Bytes signer.privateKey.D)).1) ∧
      sig[1]? = some (some
        ((E.curve signer.privateKey.Curve).ScalarMult rx ry (Bytes signer.privateKey.D)).2) ∧
      sig[2]? = some (some c0) ∧
      sig[pai + 3]? = some (some spai) ∧
      (∀ j, j < signer.publicKeys.length → j ≠ pai → ∃ pub s r r1,
        signer.publicKeys[j]? = some pub ∧ sig[j + 3]? = some (some s) ∧
        strategy r pub msg = .ok (s, r1)) ∧
      (c0 = cinit ∨ ∃ pub s c, baseStep E signer.privateKey.Curve signer.publicKeys rx ry
        ((E.curve signer.privateKey.Curve).ScalarMult rx ry (Bytes signer.privateKey.D)).1
        ((E.curve signer.privateKey.Curve).ScalarMult rx ry (Bytes signer.privateKey.D)).2
        msg pub s c = .ok c0) ∧
      ∀ g : PublicKey → Int → Int → Go Int,
        (∀ pub, signer.publicKeys[pai]? = some pub → g pub spai cpai = .ok cinit) →
        (∀ pub, pub ∈ signer.publicKeys → g pub
          = baseStep E signer.privateKey.Curve signer.publicKeys rx ry
            ((E.curve signer.privateKey.Curve).ScalarMult rx ry (Bytes signer.privateKey.D)).1
            ((E.curve signer.privateKey.Curve).ScalarMult rx ry (Bytes signer.privateKey.D)).2
            msg pub) →
        forLoop 0 signer.publicKeys.length (replayBody signer.publicKeys sig 3 g) c0
          = .ok c0 := by
  simp only [BaseLinkableSigner.Sign, bind_eq_ok, BaseLinkableSigner_Sign_body_eq] at h
  obtain ⟨pai, hpai, ⟨rx, ry⟩, hR, ⟨kPai, rand1⟩, hk, cinit, hinit, resa, ha, resb, hb,
    ⟨c0, res1, rand2⟩, h1, res2, h2, ⟨cpai, res3, rand3⟩, h3, spai, hclose, res4, h4, hpure⟩ := h
  simp only [pure, Except.pure, Except.ok.injEq] at hpure
  subst hpure
  obtain ⟨_, hlt, _⟩ := getPai_spec _ _ pai hpai
  obtain ⟨hlen, hpre, hseed, hown, hothers, hsrc, hreplay⟩ :=
    ring_closes strategy signer.publicKeys msg 3 _ pai cinit c0 cpai spai resb res1 res2 res3
      res4 rand1 rand2 rand3 (by omega) hlt h1 h2 h3 h4
  rw [assign_eq_ok] at ha hb
  obtain ⟨hlta, hresa⟩ := ha
  obtain ⟨hltb, hresb⟩ := hb
  have hlenb : resb.length = signer.publicKeys.length + 3 := by
    rw [hresb, List.length_set, hresa, List.length_set, List.length_replicate]
  have h0 : resb[0]? = some (some
      ((E.curve signer.privateKey.Curve).ScalarMult rx ry (Bytes signer.privateKey.D)).1) := by
    rw [hresb, List.getElem?_set_ne (by omega), hresa, List.getElem?_set_self hlta]
  have h1' : resb[1]? = some (some
      ((E.curve signer.privateKey.Curve).ScalarMult rx ry (Bytes signer.privateKey.D)).2) := by
    rw [hresb, List.getElem?_set_self hltb]
  refine ⟨pai, rx, ry, kPai, rand1, cinit, c0, cpai, spai, hpai, hR, hk, hinit, hclose,
    by rw [hlen, hlenb], by rw [hpre 0 (by omega), h0], by rw [hpre 1 (by omega), h1'],
    hseed, hown, hothers, hsrc, ?_⟩
  intro g hg1 hg2
  exact hreplay g hg1 hg2

/-- On a ring of points of the group that all carry the curve `cv`,
`publicKeysToPoint` returns the coordinates of a group element. -/
theorem publicKeysToPoint_valid (E : Env) {Pt : Type} [AddCommGroup Pt] {enc : Pt → Int × Int}
    {g : Pt} (cv : CurveRef) (L : (E.curve cv).Lawful enc g) (pubs : List PublicKey)
    (hne : pubs ≠ []) (hcurve : ∀ pub, pub ∈ pubs → pub.Curve = cv)
    (hvalid : ∀ pub, pub ∈ pubs → ∃ p, enc p = (pub.X, pub.Y)) :
    ∃ R, publicKeysToPoint E pubs = .ok (enc R) := by
  classical
  refine ⟨(pubs.map (fun pub => if h : ∃ p, enc p = (pub.X, pub.Y) then h.choose else 0)).sum,
    publicKeysToPoint_sum E cv L _ pubs hne hcurve ?_⟩
  intro pub hp
  have h := hvalid pub hp
  simp only [h, dite_true]
  exact h.choose_spec

/-- The two point identities of the base scheme at the signer's slot. -/
theorem baseStep_close (E : Env) {Pt : Type} [AddCommGroup Pt] (enc : Pt → Int × Int) (g : Pt)
    (priv : PrivateKey) (pubs : List PublicKey) (msg : List Nat) (pub : PublicKey)
    (R : Pt) (kPai c s cinit : Int)
    (L : (E.curve priv.Curve).Lawful enc g)
    (hd1 : 1 ≤ priv.D) (hd2 : priv.D ≤ ((E.curve priv.Curve).N : Int) - 2)
    (hpub : (pub.X, pub.Y) = (E.curve priv.Curve).ScalarBaseMult (Bytes priv.D))
    (hk : 0 ≤ kPai)
    (hinit : hash1 E pubs
        ((E.curve priv.Curve).ScalarMult (enc R).1 (enc R).2 (Bytes priv.D)).1
        ((E.curve priv.Curve).ScalarMult (enc R).1 (enc R).2 (Bytes priv.D)).2 msg
        (some ((E.curve priv.Curve).ScalarBaseMult (Bytes kPai)).1)
        (some ((E.curve priv.Curve).ScalarBaseMult (Bytes kPai)).2)
        (some ((E.curve priv.Curve).ScalarMult (enc R).1 (enc R).2 (Bytes kPai)).1)
        (some ((E.curve priv.Curve).ScalarMult (enc R).1 (enc R).2 (Bytes kPai)).2)
        = .ok cinit)
    (hs : closeRing (E.curve priv.Curve) priv kPai c = .ok s) :
    baseStep E priv.Curve pubs (enc R).1 (enc R).2
      ((E.curve priv.Curve).ScalarMult (enc R).1 (enc R).2 (Bytes priv.D)).1
      ((E.curve priv.Curve).ScalarMult (enc R).1 (enc R).2 (Bytes priv.D)).2
      msg pub s c = .ok cinit := by
  obtain ⟨hs0, hsN, hcong⟩ := closeRing_spec L priv hd1 hd2 kPai c s hs
  have hN2 : 2 ≤ (E.curve priv.Curve).N := L.prime.two_le
  have hX : pub.X = (enc (SetBytes (Bytes priv.D) • g)).1 := by
    rw [← L.base, ← hpub]
  have hY : pub.Y = (enc (SetBytes (Bytes priv.D) • g)).2 := by
    rw [← L.base, ← hpub]
  have hc0 : 0 ≤ (s + c) % ((E.curve priv.Curve).N : Int) := Int.emod_nonneg _ (by omega)
  have hpt : ∀ p : Pt, SetBytes (Bytes s) • p
      + SetBytes (Bytes ((s + c) % ((E.curve priv.Curve).N : Int)))
        • (SetBytes (Bytes priv.D) • p) = SetBytes (Bytes kPai) • p := by
    intro p
    simp only [SetBytes_Bytes]
    exact smul_close (L.order p) hs0 hc0 (by omega) hk hcong
  simp only [baseStep, bind_eq_ok, Mod_eq_ok]
  refine ⟨_, ⟨by omega, rfl⟩, ?_⟩
  simp only [hX, hY, L.smul, L.base, L.add, hpt]
  simpa only [L.base, L.smul] using hinit

/-- C2 (base linkable scheme round trip).  On a curve object that computes in
a group of prime order `N`, for every ring of points of that group carrying
the signer's curve, every private key with `1 ≤ D ≤ N-2` and public key `D·G`,
every message, nonce strategy and random stream: a signature returned by
`BaseLinkableSigner.Sign` is accepted by `BaseLinkableVerfier.Verify` over the
same ring and message. -/
theorem BaseLinkable_round_trip (E : Env) {Pt : Type} [AddCommGroup Pt]
    (enc : Pt → Int × Int) (g : Pt) (rand : Reader) (strategy : ParticipantRandInt)
    (signer : BaseLinkableSigner) (msg : List Nat) (sig : List (Option Int))
    (L : (E.curve signer.privateKey.Curve).Lawful enc g)
    (hcurve : ∀ pub, pub ∈ signer.publicKeys → pub.Curve = signer.privateKey.Curve)
    (hvalid : ∀ pub, pub ∈ signer.publicKeys → ∃ p, enc p = (pub.X, pub.Y))
    (hd1 : 1 ≤ signer.privateKey.D)
    (hd2 : signer.privateKey.D ≤ ((E.curve signer.privateKey.Curve).N : Int) - 2)
    (hpub : (signer.privateKey.X, signer.privateKey.Y)
      = (E.curve signer.privateKey.Curve).ScalarBaseMult (Bytes signer.privateKey.D))
    (hsign : BaseLinkableSigner.Sign E signer rand strategy msg = .ok sig) :
    BaseLinkableVerfier.Verify E signer.toBaseLinkableVerfier msg sig = .ok true := by
  obtain ⟨pai, rx, ry, kPai, rand1, cinit, c0, cpai, spai, hpai, hR, hk, hinit, hclose,
    hlen, hq0, hq1, hseed, _, _, _, hreplay⟩ := BaseLinkableSigner_Sign_eq_ok hsign
  obtain ⟨hn2, hlt, pubpai, hpp, heq⟩ := getPai_spec _ _ pai hpai
  have hk0 := (randFieldElement_spec _ _ _ _ hk).1
  have hne : signer.publicKeys ≠ [] := by
    intro h0
    rw [h0] at hn2
    simp at hn2
  obtain ⟨R, hR1⟩ := publicKeysToPoint_valid E _ L signer.publicKeys hne hcurve hvalid
  rw [hR] at hR1
  simp only [Except.ok.injEq] at hR1
  obtain ⟨rfl, rfl⟩ : rx = (enc R).1 ∧ ry = (enc R).2 := by
    rw [← hR1]
    exact ⟨rfl, rfl⟩
  have hloop := hreplay
    (fun pub => baseStep E pub.Curve signer.publicKeys (enc R).1 (enc R).2
      ((E.curve signer.privateKey.Curve).ScalarMult (enc R).1 (enc R).2
        (Bytes signer.privateKey.D)).1
      ((E.curve signer.privateKey.Curve).ScalarMult (enc R).1 (enc R).2
        (Bytes signer.privateKey.D)).2 msg pub)
    (by
      intro pub hp
      rw [hpp] at hp
      cases hp
      have hpe := PublicKey.Equal_eq heq
      rw [← hpe]
      exact baseStep_close E enc g signer.privateKey signer.publicKeys msg
        signer.privateKey.toPublicKey R kPai cpai spai cinit L hd1 hd2 hpub (by omega) hinit
        hclose)
    (by
      intro pub hp
      simp only [hcurve pub hp])
  unfold BaseLinkableVerfier.Verify
  simp only
  rw [if_neg (by omega)]
  simp only [bind_eq_ok, index_eq_ok, deref_eq_ok, BaseLinkableVerfier_Verify_body_eq]
  exact ⟨_, hR, _, hq0, _, rfl, _, hq1, _, rfl, _, hseed, _, rfl, c0, hloop, _, hseed, _, rfl,
    by simp [pure, Except.pure]⟩

/-- What a successful `LinkableSignerVariant1.Sign` went through, and the
layout of what it returns. -/
theorem LinkableSignerVariant1_Sign_eq_ok {E : Env} {signer : LinkableSignerVariant1}
    {rand : Reader} {strategy : ParticipantRandInt} {msg : List Nat}
    {sig : List (Option Int)}
    (h : LinkableSignerVariant1.Sign E signer rand strategy msg = .ok sig) :
    ∃ pai rx ry QpaiX QpaiY tx ty kPai rand1 cinit c0 cpai spai,
      getPai signer.privateKey signer.publicKeys = .ok pai ∧
      publicKeysToPoint E signer.publicKeys = .ok (rx, ry) ∧
      (E.curve signer.privateKey.Curve).ScalarMult rx ry (Bytes signer.privateKey.D)
        = (QpaiX, QpaiY) ∧
      (E.curve signer.privateKey.Curve).Add rx ry (E.curve signer.privateKey.Curve).Gx
        (E.curve signer.privateKey.Curve).Gy = (tx, ty) ∧
      randFieldElement (E.curve signer.privateKey.Curve) rand = .ok (kPai, rand1) ∧
      hash1 E signer.publicKeys QpaiX QpaiY msg
        (some ((E.curve signer.privateKey.Curve).ScalarMult tx ty (Bytes kPai)).1)
        (some ((E.curve signer.privateKey.Curve).ScalarMult tx ty (Bytes kPai)).2) none none
        = .ok cinit ∧
      closeRing (E.curve signer.privateKey.Curve) signer.privateKey kPai cpai = .ok spai ∧
      sig.length = signer.publicKeys.length + 3 ∧
      sig[0]? = some (some QpaiX) ∧
      sig[1]? = some (some QpaiY) ∧
      sig[2]? = some (some c0) ∧
      sig[pai + 3]? = some (some spai) ∧
      (∀ j, j < signer.publicKeys.length → j ≠ pai → ∃ pub s r r1,
        signer.publicKeys[j]? = some pub ∧ sig[j + 3]? = some (some s) ∧
        strategy r pub msg = .ok (s, r1)) ∧
      (c0 = cinit ∨ ∃ pub s c, variant1Step E signer.privateKey.Curve signer.publicKeys tx ty
        QpaiX QpaiY msg pub s c = .ok c0) ∧
      ∀ g : PublicKey → Int → Int → Go Int,
        (∀ pub, signer.publicKeys[pai]? = some pub → g pub spai cpai = .ok cinit) →
        (∀ pub, pub ∈ signer.publicKeys → g pub
          = variant1Step E signer.privateKey.Curve signer.publicKeys tx ty QpaiX QpaiY msg pub) →
        forLoop 0 signer.publicKeys.length (replayBody signer.publicKeys sig 3 g) c0
          = .ok c0 := by
  simp only [LinkableSignerVariant1.Sign, bind_eq_ok,
    LinkableSignerVariant1_Sign_body_eq] at h
  obtain ⟨pai, hpai, ⟨rx, ry⟩, hR, ⟨kPai, rand1⟩, hk, cinit, hinit, resa, ha, resb, hb,
    ⟨c0, res1, rand2⟩, h1, res2, h2, ⟨cpai, res3, rand3⟩, h3, spai, hclose, res4, h4, hpure⟩ := h
  simp only [pure, Except.pure, Except.ok.injEq] at hpure
  subst hpure
  obtain ⟨_, hlt, _⟩ := getPai_spec _ _ pai hpai
  obtain ⟨hlen, hpre, hseed, hown, hothers, hsrc, hreplay⟩ :=
    ring_closes strategy signer.publicKeys msg 3 _ pai cinit c0 cpai spai resb res1 res2 res3
      res4 rand1 rand2 rand3 (by omega) hlt h1 h2 h3 h4
  rw [assign_eq_ok] at ha hb
  obtain ⟨hlta, hresa⟩ := ha
  obtain ⟨hltb, hresb⟩ := hb
  have hlenb : resb.length = signer.publicKeys.length + 3 := by
    rw [hresb, List.length_set, hresa, List.length_set, List.length_replicate]
  have h0 : resb[0]? = some (some
      ((E.curve signer.privateKey.Curve).ScalarMult rx ry (Bytes signer.privateKey.D)).1) := by
    rw [hresb, List.getElem?_set_ne (by omega), hresa, List.getElem?_set_self hlta]
  have h1' : resb[1]? = some (some
      ((E.curve signer.privateKey.Curve).ScalarMult rx ry (Bytes signer.privateKey.D)).2) := by
    rw [hresb, List.getElem?_set_self hltb]
  exact ⟨pai, rx, ry, _, _, _, _, kPai, rand1, cinit, c0, cpai, spai, hpai, hR, rfl, rfl, hk,
    hinit, hclose, by rw [hlen, hlenb], by rw [hpre 0 (by omega), h0],
    by rw [hpre 1 (by omega), h1'], hseed, hown, hothers, hsrc, hreplay⟩

/-- What a successful `LinkableSignerVariant2.Sign` went through, and the
layout of what it returns. -/
theorem LinkableSignerVariant2_Sign_eq_ok {E : Env} {signer : LinkableSignerVariant2}
    {rand : Reader} {strategy : ParticipantRandInt} {msg : List Nat}
    {sig : List (Option Int)}
    (h : LinkableSignerVariant2.Sign E signer rand strategy msg = .ok sig) :
    ∃ pai rx ry QpaiX QpaiY tx ty kPai rand1 cinit c0 cpai spai,
      getPai signer.privateKey signer.publicKeys = .ok pai ∧
      publicKeysToPoint E signer.publicKeys = .ok (rx, ry) ∧
      (E.curve signer.privateKey.Curve).ScalarMult rx ry (Bytes signer.privateKey.D)
        = (QpaiX, QpaiY) ∧
      (E.curve signer.privateKey.Curve).Add rx ry (E.curve signer.privateKey.Curve).Gx
        (E.curve signer.privateKey.Curve).Gy = (tx, ty) ∧
      randFieldElement (E.curve signer.privateKey.Curve) rand = .ok (kPai, rand1) ∧
      (∃ h0, hash1 E signer.publicKeys QpaiX QpaiY msg none none none none = .ok h0 ∧
        Mod (((E.curve signer.privateKey.Curve).ScalarMult tx ty (Bytes kPai)).1 + h0)
          (E.curve signer.privateKey.Curve).N = .ok cinit) ∧
      closeRing (E.curve signer.privateKey.Curve) signer.privateKey kPai cpai = .ok spai ∧
      sig.length = signer.publicKeys.length + 3 ∧
      sig[0]? = some (some QpaiX) ∧
      sig[1]? = some (some QpaiY) ∧
      sig[2]? = some (some c0) ∧
      sig[pai + 3]? = some (some spai) ∧
      (∀ j, j < signer.publicKeys.length → j ≠ pai → ∃ pub s r r1,
        signer.publicKeys[j]? = some pub ∧ sig[j + 3]? = some (some s) ∧
        strategy r pub msg = .ok (s, r1)) ∧
      (c0 = cinit ∨ ∃ pub s c, variant2Step E signer.privateKey.Curve signer.publicKeys tx ty
        QpaiX QpaiY msg pub s c = .ok c0) ∧
      ∀ g : PublicKey → Int → Int → Go Int,
        (∀ pub, signer.publicKeys[pai]? = some pub → g pub spai cpai = .ok cinit) →
        (∀ pub, pub ∈ signer.publicKeys → g pub
          = variant2Step E signer.privateKey.Curve signer.publicKeys tx ty QpaiX QpaiY msg pub) →
        forLoop 0 signer.publicKeys.length (replayBody signer.publicKeys sig 3 g) c0
          = .ok c0 := by
  simp only [LinkableSignerVariant2.Sign, bind_eq_ok,
    LinkableSignerVariant2_Sign_body_eq] at h
  obtain ⟨pai, hpai, ⟨rx, ry⟩, hR, ⟨kPai, rand1⟩, hk, hv, hhv, cinit, hinit, resa, ha, resb, hb,
    ⟨c0, res1, rand2⟩, h1, res2, h2, ⟨cpai, res3, rand3⟩, h3, spai, hclose, res4, h4, hpure⟩ := h
  simp only [pure, Except.pure, Except.ok.injEq] at hpure
  subst hpure
  obtain ⟨_, hlt, _⟩ := getPai_spec _ _ pai hpai
  obtain ⟨hlen, hpre, hseed, hown, hothers, hsrc, hreplay⟩ :=
    ring_closes strategy signer.publicKeys msg 3 _ pai cinit c0 cpai spai resb res1 res2 res3
      res4 rand1 rand2 rand3 (by omega) hlt h1 h2 h3 h4
  rw [assign_eq_ok] at ha hb
  obtain ⟨hlta, hresa⟩ := ha
  obtain ⟨hltb, hresb⟩ := hb
  have hlenb : resb.length = signer.publicKeys.length + 3 := by
    rw [hresb, List.length_set, hresa, List.length_set, List.length_replicate]
  have h0 : resb[0]? = some (some
      ((E.curve signer.privateKey.Curve).ScalarMult rx ry (Bytes signer.privateKey.D)).1) := by
    rw [hresb, List.getElem?_set_ne (by omega), hresa, List.getElem?_set_self hlta]
  have h1' : resb[1]? = some (some
      ((E.curve signer.privateKey.Curve).ScalarMult rx ry (Bytes signer.privateKey.D)).2) := by
    rw [hresb, List.getElem?_set_self hltb]
  exact ⟨pai, rx, ry, _, _, _, _, kPai, rand1, cinit, c0, cpai, spai, hpai, hR, rfl, rfl, hk,
    ⟨hv, hhv, hinit⟩, hclose, by rw [hlen, hlenb], by rw [hpre 0 (by omega), h0],
    by rw [hpre 1 (by omega), h1'], hseed, hown, hothers, hsrc, hreplay⟩

/-- The point identity of variants 1 and 2 at the signer's slot:
`s·R' + c·(D·G + D·R) = kPai·R'` with `R' = R + G`. -/
theorem variant_point_close {C : Curve} {Pt : Type} [AddCommGroup Pt] {enc : Pt → Int × Int}
    {g : Pt} (L : C.Lawful enc g) (priv : PrivateKey) (hd1 : 1 ≤ priv.D)
    (hd2 : priv.D ≤ (C.N : Int) - 2) (R : Pt) (kPai c s : Int) (hk : 0 ≤ kPai)
    (hs : closeRing C priv kPai c = .ok s) :
    SetBytes (Bytes s) • (R + g) + SetBytes (Bytes ((s + c) % (C.N : Int)))
      • (SetBytes (Bytes priv.D) • g + SetBytes (Bytes priv.D) • R)
      = SetBytes (Bytes kPai) • (R + g) := by
  obtain ⟨hs0, hsN, hcong⟩ := closeRing_spec L priv hd1 hd2 kPai c s hs
  have hN2 : 2 ≤ C.N := L.prime.two_le
  have hc0 : 0 ≤ (s + c) % (C.N : Int) := Int.emod_nonneg _ (by omega)
  have hsum : SetBytes (Bytes priv.D) • g + SetBytes (Bytes priv.D) • R
      = SetBytes (Bytes priv.D) • (R + g) := by
    rw [smul_add, add_comm]
  rw [hsum]
  simp only [SetBytes_Bytes]
  exact smul_close (L.order (R + g)) hs0 hc0 (by omega) hk hcong

/-- Variant 1 at the signer's slot. -/
theorem variant1Step_close (E : Env) {Pt : Type} [AddCommGroup Pt] (enc : Pt → Int × Int)
    (g : Pt) (priv : PrivateKey) (pubs : List PublicKey) (msg : List Nat) (pub : PublicKey)
    (R : Pt) (QpaiX QpaiY tx ty kPai c s cinit : Int)
    (L : (E.curve priv.Curve).Lawful enc g)
    (hd1 : 1 ≤ priv.D) (hd2 : priv.D ≤ ((E.curve priv.Curve).N : Int) - 2)
    (hpub : (pub.X, pub.Y) = (E.curve priv.Curve).ScalarBaseMult (Bytes priv.D))
    (hQ : (E.curve priv.Curve).ScalarMult (enc R).1 (enc R).2 (Bytes priv.D) = (QpaiX, QpaiY))
    (hT : (E.curve priv.Curve).Add (enc R).1 (enc R).2 (E.curve priv.Curve).Gx
      (E.curve priv.Curve).Gy = (tx, ty))
    (hk : 0 ≤ kPai)
    (hinit : hash1 E pubs QpaiX QpaiY msg
        (some ((E.curve priv.Curve).ScalarMult tx ty (Bytes kPai)).1)
        (some ((E.curve priv.Curve).ScalarMult tx ty (Bytes kPai)).2) none none = .ok cinit)
    (hs : closeRing (E.curve priv.Curve) priv kPai c = .ok s) :
    variant1Step E priv.Curve pubs tx ty QpaiX QpaiY msg pub s c = .ok cinit := by
  have hN2 : 2 ≤ (E.curve priv.Curve).N := L.prime.two_le
  have hpt := variant_point_close L priv hd1 hd2 R kPai c s hk hs
  have hX : pub.X = (enc (SetBytes (Bytes priv.D) • g)).1 := by
    rw [← L.base, ← hpub]
  have hY : pub.Y = (enc (SetBytes (Bytes priv.D) • g)).2 := by
    rw [← L.base, ← hpub]
  have hGx : (E.curve priv.Curve).Gx = (enc g).1 := by rw [L.gen]
  have hGy : (E.curve priv.Curve).Gy = (enc g).2 := by rw [L.gen]
  rw [hGx, hGy, L.add] at hT
  rw [L.smul] at hQ
  obtain ⟨rfl, rfl⟩ : tx = (enc (R + g)).1 ∧ ty = (enc (R + g)).2 := by
    rw [hT]
    exact ⟨rfl, rfl⟩
  obtain ⟨rfl, rfl⟩ : QpaiX = (enc (SetBytes (Bytes priv.D) • R)).1
      ∧ QpaiY = (enc (SetBytes (Bytes priv.D) • R)).2 := by
    rw [hQ]
    exact ⟨rfl, rfl⟩
  simp only [variant1Step, bind_eq_ok, Mod_eq_ok]
  refine ⟨_, ⟨by omega, rfl⟩, ?_⟩
  simp only [hX, hY, L.smul, L.add, hpt]
  simpa only [L.smul] using hinit

/-- Variant 2 at the signer's slot. -/
theorem variant2Step_close (E : Env) {Pt : Type} [AddCommGroup Pt] (enc : Pt → Int × Int)
    (g : Pt) (priv : PrivateKey) (pubs : List PublicKey) (msg : List Nat) (pub : PublicKey)
    (R : Pt) (QpaiX QpaiY tx ty kPai c s hv cinit : Int)
    (L : (E.curve priv.Curve).Lawful enc g)
    (hd1 : 1 ≤ priv.D) (hd2 : priv.D ≤ ((E.curve priv.Curve).N : Int) - 2)
    (hpub : (pub.X, pub.Y) = (E.curve priv.Curve).ScalarBaseMult (Bytes priv.D))
    (hQ : (E.curve priv.Curve).ScalarMult (enc R).1 (enc R).2 (Bytes priv.D) = (QpaiX, QpaiY))
    (hT : (E.curve priv.Curve).Add (enc R).1 (enc R).2 (E.curve priv.Curve).Gx
      (E.curve priv.Curve).Gy = (tx, ty))
    (hk : 0 ≤ kPai)
    (hhv : hash1 E pubs QpaiX QpaiY msg none none none none = .ok hv)
    (hinit : Mod (((E.curve priv.Curve).ScalarMult tx ty (Bytes kPai)).1 + hv)
      (E.curve priv.Curve).N = .ok cinit)
    (hs : closeRing (E.curve priv.Curve) priv kPai c = .ok s) :
    variant2Step E priv.Curve pubs tx ty QpaiX QpaiY msg pub s c = .ok cinit := by
  have hN2 : 2 ≤ (E.curve priv.Curve).N := L.prime.two_le
  have hpt := variant_point_close L priv hd1 hd2 R kPai c s hk hs
  have hX : pub.X = (enc (SetBytes (Bytes priv.D) • g)).1 := by
    rw [← L.base, ← hpub]
  have hY : pub.Y = (enc (SetBytes (Bytes priv.D) • g)).2 := by
    rw [← L.base, ← hpub]
  have hGx : (E.curve priv.Curve).Gx = (enc g).1 := by rw [L.gen]
  have hGy : (E.curve priv.Curve).Gy = (enc g).2 := by rw [L.gen]
  rw [hGx, hGy, L.add] at hT
  rw [L.smul] at hQ
  obtain ⟨rfl, rfl⟩ : tx = (enc (R + g)).1 ∧ ty = (enc (R + g)).2 := by
    rw [hT]
    exact ⟨rfl, rfl⟩
  obtain ⟨rfl, rfl⟩ : QpaiX = (enc (SetBytes (Bytes priv.D) • R)).1
      ∧ QpaiY = (enc (SetBytes (Bytes priv.D) • R)).2 := by
    rw [hQ]
    exact ⟨rfl, rfl⟩
  simp only [variant2Step, bind_eq_ok, Mod_eq_ok]
  refine ⟨_, ⟨by omega, rfl⟩, hv, hhv, ?_⟩
  simp only [hX, hY, L.smul, L.add, hpt]
  simpa only [L.smul, Mod_eq_ok] using hinit

/-- C3 (linkable variant 1 round trip).  On a curve object that computes in
a group of prime order `N`, for every ring of points of that group carrying
the signer's curve, every private key with `1 ≤ D ≤ N-2` and public key `D·G`,
every message, nonce strategy and random stream: a signature returned by
`LinkableSignerVariant1.Sign` is accepted by `LinkableSignerVariant1.Verify`
over the same ring and message: the single point
`v_i = s_i·R' + c·(ring[i] + Q)` with `R' = sum(ring) + G` closes the chain at
the signer's slot. -/
theorem LinkableVariant1_round_trip (E : Env) {Pt : Type} [AddCommGroup Pt]
    (enc : Pt → Int × Int) (g : Pt) (rand : Reader) (strategy : ParticipantRandInt)
    (signer : LinkableSignerVariant1) (msg : List Nat) (sig : List (Option Int))
    (L : (E.curve signer.privateKey.Curve).Lawful enc g)
    (hcurve : ∀ pub, pub ∈ signer.publicKeys → pub.Curve = signer.privateKey.Curve)
    (hvalid : ∀ pub, pub ∈ signer.publicKeys → ∃ p, enc p = (pub.X, pub.Y))
    (hd1 : 1 ≤ signer.privateKey.D)
    (hd2 : signer.privateKey.D ≤ ((E.curve signer.privateKey.Curve).N : Int) - 2)
    (hpub : (signer.privateKey.X, signer.privateKey.Y)
      = (E.curve signer.privateKey.Curve).ScalarBaseMult (Bytes signer.privateKey.D))
    (hsign : LinkableSignerVariant1.Sign E signer rand strategy msg = .ok sig) :
    LinkableSignerVariant1.Verify E signer msg sig = .ok true := by
  obtain ⟨pai, rx, ry, QpaiX, QpaiY, tx, ty, kPai, rand1, cinit, c0, cpai, spai, hpai, hR, hQ,
    hT, hk, hinit, hclose, hlen, hq0, hq1, hseed, _, _, _, hreplay⟩ :=
    LinkableSignerVariant1_Sign_eq_ok hsign
  obtain ⟨hn2, hlt, pubpai, hpp, heq⟩ := getPai_spec _ _ pai hpai
  have hk0 := (randFieldElement_spec _ _ _ _ hk).1
  have hne : signer.publicKeys ≠ [] := by
    intro h0
    rw [h0] at hn2
    simp at hn2
  obtain ⟨pub0, hpub0⟩ : ∃ pub0, signer.publicKeys[0]? = some pub0 :=
    ⟨signer.publicKeys[0], List.getElem?_eq_getElem (by omega)⟩
  have hc0 : pub0.Curve = signer.privateKey.Curve := hcurve pub0 (List.getElem?_mem hpub0)
  obtain ⟨R, hR1⟩ := publicKeysToPoint_valid E _ L signer.publicKeys hne hcurve hvalid
  rw [hR] at hR1
  simp only [Except.ok.injEq] at hR1
  obtain ⟨rfl, rfl⟩ : rx = (enc R).1 ∧ ry = (enc R).2 := by
    rw [← hR1]
    exact ⟨rfl, rfl⟩
  have hloop := hreplay
    (fun pub => variant1Step E pub.Curve signer.publicKeys tx ty QpaiX QpaiY msg pub)
    (by
      intro pub hp
      rw [hpp] at hp
      cases hp
      have hpe := PublicKey.Equal_eq heq
      rw [← hpe]
      exact variant1Step_close E enc g signer.privateKey signer.publicKeys msg
        signer.privateKey.toPublicKey R QpaiX QpaiY tx ty kPai cpai spai cinit L hd1 hd2 hpub
        hQ hT (by omega) hinit hclose)
    (by
      intro pub hp
      simp only [hcurve pub hp])
  unfold LinkableSignerVariant1.Verify
  simp only
  rw [if_neg (by omega)]
  simp only [bind_eq_ok, index_eq_ok, deref_eq_ok, LinkableSignerVariant1_Verify_body_eq]
  refine ⟨_, hR, pub0, hpub0, ?_⟩
  simp only [hc0, hT]
  exact ⟨_, hq0, _, rfl, _, hq1, _, rfl, _, hseed, _, rfl, c0, hloop, _, hseed, _, rfl,
    by simp [pure, Except.pure]⟩

/-- C4 (linkable variant 2 round trip).  On a curve object that computes in
a group of prime order `N`, for every ring of points of that group carrying
the signer's curve, every private key with `1 ≤ D ≤ N-2` and public key `D·G`,
every message, nonce strategy and random stream: a signature returned by
`LinkableSignerVariant2.Sign` is accepted by `LinkableSignerVariant2.Verify`
over the same ring and message, where the challenge
is `(c_base + x(v_i)) mod N` with `c_base = hash1(ring, Q, msg)` and no point
is fed to the hash. -/
theorem LinkableVariant2_round_trip (E : Env) {Pt : Type} [AddCommGroup Pt]
    (enc : Pt → Int × Int) (g : Pt) (rand : Reader) (strategy : ParticipantRandInt)
    (signer : LinkableSignerVariant2) (msg : List Nat) (sig : List (Option Int))
    (L : (E.curve signer.privateKey.Curve).Lawful enc g)
    (hcurve : ∀ pub, pub ∈ signer.publicKeys → pub.Curve = signer.privateKey.Curve)
    (hvalid : ∀ pub, pub ∈ signer.publicKeys → ∃ p, enc p = (pub.X, pub.Y))
    (hd1 : 1 ≤ signer.privateKey.D)
    (hd2 : signer.privateKey.D ≤ ((E.curve signer.privateKey.Curve).N : Int) - 2)
    (hpub : (signer.privateKey.X, signer.privateKey.Y)
      = (E.curve signer.privateKey.Curve).ScalarBaseMult (Bytes signer.privateKey.D))
    (hsign : LinkableSignerVariant2.Sign E signer rand strategy msg = .ok sig) :
    LinkableSignerVariant2.Verify E signer msg sig = .ok true := by
  obtain ⟨pai, rx, ry, QpaiX, QpaiY, tx, ty, kPai, rand1, cinit, c0, cpai, spai, hpai, hR, hQ,
    hT, hk, ⟨hv, hhv, hinit⟩, hclose, hlen, hq0, hq1, hseed, _, _, _, hreplay⟩ :=
    LinkableSignerVariant2_Sign_eq_ok hsign
  obtain ⟨hn2, hlt, pubpai, hpp, heq⟩ := getPai_spec _ _ pai hpai
  have hk0 := (randFieldElement_spec _ _ _ _ hk).1
  have hne : signer.publicKeys ≠ [] := by
    intro h0
    rw [h0] at hn2
    simp at hn2
  obtain ⟨pub0, hpub0⟩ : ∃ pub0, signer.publicKeys[0]? = some pub0 :=
    ⟨signer.publicKeys[0], List.getElem?_eq_getElem (by omega)⟩
  have hc0 : pub0.Curve = signer.privateKey.Curve := hcurve pub0 (List.getElem?_mem hpub0)
  obtain ⟨R, hR1⟩ := publicKeysToPoint_valid E _ L signer.publicKeys hne hcurve hvalid
  rw [hR] at hR1
  simp only [Except.ok.injEq] at hR1
  obtain ⟨rfl, rfl⟩ : rx = (enc R).1 ∧ ry = (enc R).2 := by
    rw [← hR1]
    exact ⟨rfl, rfl⟩
  have hloop := hreplay
    (fun pub => variant2Step E pub.Curve signer.publicKeys tx ty QpaiX QpaiY msg pub)
    (by
      intro pub hp
      rw [hpp] at hp
      cases hp
      have hpe := PublicKey.Equal_eq heq
      rw [← hpe]
      exact variant2Step_close E enc g signer.privateKey signer.publicKeys msg
        signer.privateKey.toPublicKey R QpaiX QpaiY tx ty kPai cpai spai hv cinit L hd1 hd2
        hpub hQ hT (by omega) hhv hinit hclose)
    (by
      intro pub hp
      simp only [hcurve pub hp])
  unfold LinkableSignerVariant2.Verify
  simp only
  rw [if_neg (by omega)]
  simp only [bind_eq_ok, index_eq_ok, deref_eq_ok, LinkableSignerVariant2_Verify_body_eq]
  refine ⟨_, hR, pub0, hpub0, ?_⟩
  simp only [hc0, hT]
  exact ⟨_, hq0, _, rfl, _, hq1, _, rfl, _, hseed, _, rfl, c0, hloop, _, hseed, _, rfl,
    by simp [pure, Except.pure]⟩

/-! ## The linking tag -/

/-- Signatures with the same two leading entries are linked. -/
theorem Linkable_of_tags {sig1 sig2 : List (Option Int)} {a b : Int}
    (h10 : sig1[0]? = some (some a)) (h11 : sig1[1]? = some (some b))
    (h20 : sig2[0]? = some (some a)) (h21 : sig2[1]? = some (some b)) :
    Linkable sig1 sig2 = .ok true := by
  have i10 := index_eq_ok.mpr h10
  have i11 := index_eq_ok.mpr h11
  have i20 := index_eq_ok.mpr h20
  have i21 := index_eq_ok.mpr h21
  simp [Linkable, i10, i11, i20, i21, Cmp, bind, Except.bind, pure, Except.pure]

theorem BaseLinkableSigner_Sign_tag {E : Env} {signer : BaseLinkableSigner} {rand : Reader}
    {strategy : ParticipantRandInt} {msg : List Nat} {sig : List (Option Int)}
    (h : BaseLinkableSigner.Sign E signer rand strategy msg = .ok sig) :
    ∃ rx ry, publicKeysToPoint E signer.publicKeys = .ok (rx, ry) ∧
      sig[0]? = some (some
        ((E.curve signer.privateKey.Curve).ScalarMult rx ry (Bytes signer.privateKey.D)).1) ∧
      sig[1]? = some (some
        ((E.curve signer.privateKey.Curve).ScalarMult rx ry (Bytes signer.privateKey.D)).2) := by
  obtain ⟨pai, rx, ry, kPai, rand1, cinit, c0, cpai, spai, hpai, hR, hk, hinit, hclose,
    hlen, hq0, hq1, _⟩ := BaseLinkableSigner_Sign_eq_ok h
  exact ⟨rx, ry, hR, hq0, hq1⟩

theorem LinkableSignerVariant1_Sign_tag {E : Env} {signer : LinkableSignerVariant1}
    {rand : Reader} {strategy : ParticipantRandInt} {msg : List Nat}
    {sig : List (Option Int)}
    (h : LinkableSignerVariant1.Sign E signer rand strategy msg = .ok sig) :
    ∃ rx ry, publicKeysToPoint E signer.publicKeys = .ok (rx, ry) ∧
      sig[0]? = some (some
        ((E.curve signer.privateKey.Curve).ScalarMult rx ry (Bytes signer.privateKey.D)).1) ∧
      sig[1]? = some (some
        ((E.curve signer.privateKey.Curve).ScalarMult rx ry (Bytes signer.privateKey.D)).2) := by
  obtain ⟨pai, rx, ry, QpaiX, QpaiY, tx, ty, kPai, rand1, cinit, c0, cpai, spai, hpai, hR, hQ,
    hT, hk, hinit, hclose, hlen, hq0, hq1, _⟩ := LinkableSignerVariant1_Sign_eq_ok h
  refine ⟨rx, ry, hR, ?_, ?_⟩
  · rw [hq0, hQ]
  · rw [hq1, hQ]

theorem LinkableSignerVariant2_Sign_tag {E : Env} {signer : LinkableSignerVariant2}
    {rand : Reader} {strategy : ParticipantRandInt} {msg : List Nat}
    {sig : List (Option Int)}
    (h : LinkableSignerVariant2.Sign E signer rand strategy msg = .ok sig) :
    ∃ rx ry, publicKeysToPoint E signer.publicKeys = .ok (rx, ry) ∧
      sig[0]? = some (some
        ((E.curve signer.privateKey.Curve).ScalarMult rx ry (Bytes signer.privateKey.D)).1) ∧
      sig[1]? = some (some
        ((E.curve signer.privateKey.Curve).ScalarMult rx ry (Bytes signer.privateKey.D)).2) := by
  obtain ⟨pai, rx, ry, QpaiX, QpaiY, tx, ty, kPai, rand1, cinit, c0, cpai, spai, hpai, hR, hQ,
    hT, hk, hinit, hclose, hlen, hq0, hq1, _⟩ := LinkableSignerVariant2_Sign_eq_ok h
  refine ⟨rx, ry, hR, ?_, ?_⟩
  · rw [hq0, hQ]
  · rw [hq1, hQ]

/-- Two signatures whose tags are computed from the same key and from rings
with the same sum are linked. -/
theorem linked_of_same_sum {E : Env} {priv : PrivateKey} {pubs1 pubs2 : List PublicKey}
    {sig1 sig2 : List (Option Int)}
    (hsum : publicKeysToPoint E pubs1 = publicKeysToPoint E pubs2)
    (h1 : ∃ rx ry, publicKeysToPoint E pubs1 = .ok (rx, ry) ∧
      sig1[0]? = some (some ((E.curve priv.Curve).ScalarMult rx ry (Bytes priv.D)).1) ∧
      sig1[1]? = some (some ((E.curve priv.Curve).ScalarMult rx ry (Bytes priv.D)).2))
    (h2 : ∃ rx ry, publicKeysToPoint E pubs2 = .ok (rx, ry) ∧
      sig2[0]? = some (some ((E.curve priv.Curve).ScalarMult rx ry (Bytes priv.D)).1) ∧
      sig2[1]? = some (some ((E.curve priv.Curve).ScalarMult rx ry (Bytes priv.D)).2)) :
    sig1[0]? = sig2[0]? ∧ sig1[1]? = sig2[1]? ∧ Linkable sig1 sig2 = .ok true := by
  obtain ⟨rx, ry, hR1, h10, h11⟩ := h1
  obtain ⟨rx2, ry2, hR2, h20, h21⟩ := h2
  rw [hsum, hR2] at hR1
  simp only [Except.ok.injEq, Prod.mk.injEq] at hR1
  obtain ⟨rfl, rfl⟩ := hR1
  exact ⟨by rw [h10, h20], by rw [h11, h21], Linkable_of_tags h10 h11 h20 h21⟩

/-- On rings of points of the group carrying the curve `cv`, the ring sum
does not depend on the order of the keys. -/
theorem publicKeysToPoint_perm (E : Env) {Pt : Type} [AddCommGroup Pt] {enc : Pt → Int × Int}
    {g : Pt} (cv : CurveRef) (L : (E.curve cv).Lawful enc g) (pubs pubs1 : List PublicKey)
    (hperm : pubs.Perm pubs1) (hcurve : ∀ pub, pub ∈ pubs → pub.Curve = cv)
    (hvalid : ∀ pub, pub ∈ pubs → ∃ p, enc p = (pub.X, pub.Y)) :
    publicKeysToPoint E pubs = publicKeysToPoint E pubs1 := by
  classical
  by_cases hne : pubs = []
  · subst hne
    rw [List.Perm.nil_eq hperm]
  · have hne1 : pubs1 ≠ [] := by
      intro h1
      subst h1
      exact hne (List.Perm.eq_nil hperm)
    have hpt : ∀ pub, pub ∈ pubs →
        enc ((fun pub : PublicKey => if h : ∃ p, enc p = (pub.X, pub.Y) then h.choose else 0) pub)
          = (pub.X, pub.Y) := by
      intro pub hp
      have h := hvalid pub hp
      simp only [h, dite_true]
      exact h.choose_spec
    rw [publicKeysToPoint_sum E cv L _ pubs hne hcurve hpt,
      publicKeysToPoint_sum E cv L _ pubs1 hne1
        (fun pub hp => hcurve pub (hperm.mem_iff.mpr hp))
        (fun pub hp => hpt pub (hperm.mem_iff.mpr hp)),
      (hperm.map _).sum_eq]

/-- C5 (linkability).  In each linkable scheme, two signatures made with the
same private key over the same ring, whatever the messages, random streams
and nonce strategies, carry the same tag: entries 0 and 1 of both are the
coordinates of `D` times the ring sum, and `Linkable` returns true. -/
theorem same_signer_Linkable (E : Env) :
    (∀ (signer : BaseLinkableSigner) (rand1 rand2 : Reader) (strategy1 strategy2 : ParticipantRandInt)
        (msg1 msg2 : List Nat) (sig1 sig2 : List (Option Int)),
        BaseLinkableSigner.Sign E signer rand1 strategy1 msg1 = .ok sig1 →
        BaseLinkableSigner.Sign E signer rand2 strategy2 msg2 = .ok sig2 →
        (∃ rx ry, publicKeysToPoint E signer.publicKeys = .ok (rx, ry) ∧
          sig1[0]? = some (some ((E.curve signer.privateKey.Curve).ScalarMult rx ry
            (Bytes signer.privateKey.D)).1) ∧
          sig1[1]? = some (some ((E.curve signer.privateKey.Curve).ScalarMult rx ry
            (Bytes signer.privateKey.D)).2)) ∧
        sig1[0]? = sig2[0]? ∧ sig1[1]? = sig2[1]? ∧ Linkable sig1 sig2 = .ok true) ∧
    (∀ (signer : LinkableSignerVariant1) (rand1 rand2 : Reader) (strategy1 strategy2 : ParticipantRandInt)
        (msg1 msg2 : List Nat) (sig1 sig2 : List (Option Int)),
        LinkableSignerVariant1.Sign E signer rand1 strategy1 msg1 = .ok sig1 →
        LinkableSignerVariant1.Sign E signer rand2 strategy2 msg2 = .ok sig2 →
        (∃ rx ry, publicKeysToPoint E signer.publicKeys = .ok (rx, ry) ∧
          sig1[0]? = some (some ((E.curve signer.privateKey.Curve).ScalarMult rx ry
            (Bytes signer.privateKey.D)).1) ∧
          sig1[1]? = some (some ((E.curve signer.privateKey.Curve).ScalarMult rx ry
            (Bytes signer.privateKey.D)).2)) ∧
        sig1[0]? = sig2[0]? ∧ sig1[1]? = sig2[1]? ∧ Linkable sig1 sig2 = .ok true) ∧
    (∀ (signer : LinkableSignerVariant2) (rand1 rand2 : Reader) (strategy1 strategy2 : ParticipantRandInt)
        (msg1 msg2 : List Nat) (sig1 sig2 : List (Option Int)),
        LinkableSignerVariant2.Sign E signer rand1 strategy1 msg1 = .ok sig1 →
        LinkableSignerVariant2.Sign E signer rand2 strategy2 msg2 = .ok sig2 →
        (∃ rx ry, publicKeysToPoint E signer.publicKeys = .ok (rx, ry) ∧
          sig1[0]? = some (some ((E.curve signer.privateKey.Curve).ScalarMult rx ry
            (Bytes signer.privateKey.D)).1) ∧
          sig1[1]? = some (some ((E.curve signer.privateKey.Curve).ScalarMult rx ry
            (Bytes signer.privateKey.D)).2)) ∧
        sig1[0]? = sig2[0]? ∧ sig1[1]? = sig2[1]? ∧ Linkable sig1 sig2 = .ok true) := by
  refine ⟨?_, ?_, ?_⟩
  · intro signer rand1 rand2 strategy1 strategy2 msg1 msg2 sig1 sig2 h1 h2
    exact ⟨BaseLinkableSigner_Sign_tag h1,
      linked_of_same_sum rfl (BaseLinkableSigner_Sign_tag h1) (BaseLinkableSigner_Sign_tag h2)⟩
  · intro signer rand1 rand2 strategy1 strategy2 msg1 msg2 sig1 sig2 h1 h2
    exact ⟨LinkableSignerVariant1_Sign_tag h1,
      linked_of_same_sum rfl (LinkableSignerVariant1_Sign_tag h1)
        (LinkableSignerVariant1_Sign_tag h2)⟩
  · intro signer rand1 rand2 strategy1 strategy2 msg1 msg2 sig1 sig2 h1 h2
    exact ⟨LinkableSignerVariant2_Sign_tag h1,
      linked_of_same_sum rfl (LinkableSignerVariant2_Sign_tag h1)
        (LinkableSignerVariant2_Sign_tag h2)⟩

/-- C7 (ring-order invariance of the tag).  On a curve object that computes
in a group, for every ring of points of that group carrying the signer's
curve and every permutation of it, `publicKeysToPoint` returns the same point;
so in each linkable scheme the signatures of one private key over the ring and
over the permuted ring carry the same tag and `Linkable` returns true. -/
theorem tag_ring_order_invariant (E : Env) {Pt : Type} [AddCommGroup Pt] (enc : Pt → Int × Int)
    (g : Pt) (priv : PrivateKey) (pubs pubs1 : List PublicKey)
    (L : (E.curve priv.Curve).Lawful enc g) (hperm : pubs.Perm pubs1)
    (hcurve : ∀ pub, pub ∈ pubs → pub.Curve = priv.Curve)
    (hvalid : ∀ pub, pub ∈ pubs → ∃ p, enc p = (pub.X, pub.Y)) :
    publicKeysToPoint E pubs = publicKeysToPoint E pubs1 ∧
    (∀ (rand rand1 : Reader) (strategy strategy1 : ParticipantRandInt) (msg msg1 : List Nat)
        (sig sig1 : List (Option Int)),
        BaseLinkableSigner.Sign E { publicKeys := pubs, privateKey := priv } rand strategy msg = .ok sig →
        BaseLinkableSigner.Sign E { publicKeys := pubs1, privateKey := priv } rand1 strategy1 msg1 = .ok sig1 →
        sig[0]? = sig1[0]? ∧ sig[1]? = sig1[1]? ∧ Linkable sig sig1 = .ok true) ∧
    (∀ (rand rand1 : Reader) (strategy strategy1 : ParticipantRandInt) (msg msg1 : List Nat)
        (sig sig1 : List (Option Int)),
        LinkableSignerVariant1.Sign E { publicKeys := pubs, privateKey := priv } rand strategy msg = .ok sig →
        LinkableSignerVariant1.Sign E { publicKeys := pubs1, privateKey := priv } rand1 strategy1 msg1 = .ok sig1 →
        sig[0]? = sig1[0]? ∧ sig[1]? = sig1[1]? ∧ Linkable sig sig1 = .ok true) ∧
    (∀ (rand rand1 : Reader) (strategy strategy1 : ParticipantRandInt) (msg msg1 : List Nat)
        (sig sig1 : List (Option Int)),
        LinkableSignerVariant2.Sign E { publicKeys := pubs, privateKey := priv } rand strategy msg = .ok sig →
        LinkableSignerVariant2.Sign E { publicKeys := pubs1, privateKey := priv } rand1 strategy1 msg1 = .ok sig1 →
        sig[0]? = sig1[0]? ∧ sig[1]? = sig1[1]? ∧ Linkable sig sig1 = .ok true) := by
  have hsum := publicKeysToPoint_perm E priv.Curve L pubs pubs1 hperm hcurve hvalid
  refine ⟨hsum, ?_, ?_, ?_⟩
  · intro rand rand1 strategy strategy1 msg msg1 sig sig1 h1 h2
    exact linked_of_same_sum hsum (BaseLinkableSigner_Sign_tag h1)
      (BaseLinkableSigner_Sign_tag h2)
  · intro rand rand1 strategy strategy1 msg msg1 sig sig1 h1 h2
    exact linked_of_same_sum hsum (LinkableSignerVariant1_Sign_tag h1)
      (LinkableSignerVariant1_Sign_tag h2)
  · intro rand rand1 strategy strategy1 msg msg1 sig sig1 h1 h2
    exact linked_of_same_sum hsum (LinkableSignerVariant2_Sign_tag h1)
      (LinkableSignerVariant2_Sign_tag h2)

/-! ## Ranges of the scalars -/

theorem foldl_SetBytes_lt (l : List Nat) :
    ∀ acc : Nat, l.foldl (fun acc x => acc * 256 + x % 256) acc < (acc + 1) * 256 ^ l.length := by
  induction l with
  | nil => intro acc; simp
  | cons x l ih =>
    intro acc
    simp only [List.foldl_cons, List.length_cons]
    have h1 := ih (acc * 256 + x % 256)
    have h2 : x % 256 < 256 := Nat.mod_lt _ (by omega)
    have h3 : (acc * 256 + x % 256 + 1) * 256 ^ l.length ≤ (acc + 1) * 256 * 256 ^ l.length :=
      Nat.mul_le_mul_right _ (by omega)
    calc _ < (acc * 256 + x % 256 + 1) * 256 ^ l.length := h1
      _ ≤ (acc + 1) * 256 * 256 ^ l.length := h3
      _ = (acc + 1) * 256 ^ (l.length + 1) := by ring

theorem SetBytes_lt (l : List Nat) : SetBytes l < 256 ^ l.length := by
  have := foldl_SetBytes_lt l 0
  simpa [SetBytes] using this

/-- `hashToInt` returns a non-negative integer of at most `bitlen(N)` bits; it
is not reduced modulo `N`. -/
theorem hashToInt_bound (h : List Nat) (C : Curve) :
    0 ≤ hashToInt h C ∧ hashToInt h C < 2 ^ BitLen C.N := by
  unfold hashToInt
  simp only
  generalize hh : (if h.length > (BitLen C.N + 7) / 8 then h.take ((BitLen C.N + 7) / 8) else h)
    = h1
  have hlen : h1.length ≤ (BitLen C.N + 7) / 8 := by
    subst hh
    split
    · simp only [List.length_take]
      omega
    · omega
  have hlt := SetBytes_lt h1
  have h256 : (256 : Nat) ^ h1.length = 2 ^ (h1.length * 8) := by
    rw [show (256 : Nat) = 2 ^ 8 by norm_num, ← pow_mul, Nat.mul_comm]
  rw [h256] at hlt
  split
  · rename_i hex
    refine ⟨Int.natCast_nonneg _, ?_⟩
    have : SetBytes h1 >>> (h1.length * 8 - BitLen C.N) < 2 ^ BitLen C.N := by
      rw [Nat.shiftRight_eq_div_pow, Nat.div_lt_iff_lt_mul (by positivity), ← pow_add]
      have e : BitLen C.N + (h1.length * 8 - BitLen C.N) = h1.length * 8 := by omega
      rw [e]
      exact hlt
    exact_mod_cast this
  · rename_i hex
    refine ⟨Int.natCast_nonneg _, ?_⟩
    have : SetBytes h1 < 2 ^ BitLen C.N :=
      lt_of_lt_of_le hlt (Nat.pow_le_pow_right (by omega) (by omega))
    exact_mod_cast this

theorem hash_bound {E : Env} {pubs : List PublicKey} {msg : List Nat} {cx cy c : Int}
    (h : hash E pubs msg cx cy = .ok c) :
    ∃ pub0, pubs[0]? = some pub0 ∧ 0 ≤ c ∧ c < 2 ^ BitLen (E.curve pub0.Curve).N := by
  simp only [hash, bind_eq_ok, index_eq_ok] at h
  obtain ⟨_, _, _, _, _, _, pub0, hp, hc⟩ := h
  simp only [pure, Except.pure, Except.ok.injEq] at hc
  subst hc
  exact ⟨pub0, hp, hashToInt_bound _ _⟩

theorem hash1_bound {E : Env} {pubs : List PublicKey} {QpaiX QpaiY : Int} {msg : List Nat}
    {vx vy wx wy : Option Int} {c : Int}
    (h : hash1 E pubs QpaiX QpaiY msg vx vy wx wy = .ok c) :
    ∃ pub0, pubs[0]? = some pub0 ∧ 0 ≤ c ∧ c < 2 ^ BitLen (E.curve pub0.Curve).N := by
  simp only [hash1, bind_eq_ok, index_eq_ok] at h
  obtain ⟨_, _, _, _, _, _, _, _, _, _, pub0, hp, hc⟩ := h
  simp only [pure, Except.pure, Except.ok.injEq] at hc
  subst hc
  exact ⟨pub0, hp, hashToInt_bound _ _⟩

theorem chainStep_bound {E : Env} {cv : CurveRef} {pubs : List PublicKey} {msg : List Nat}
    {pub : PublicKey} {s c c1 : Int} (h : chainStep E cv pubs msg pub s c = .ok c1) :
    ∃ pub0, pubs[0]? = some pub0 ∧ 0 ≤ c1 ∧ c1 < 2 ^ BitLen (E.curve pub0.Curve).N := by
  simp only [chainStep, bind_eq_ok] at h
  obtain ⟨_, _, h⟩ := h
  exact hash_bound h

theorem baseStep_bound {E : Env} {cv : CurveRef} {pubs : List PublicKey}
    {rx ry QpaiX QpaiY : Int} {msg : List Nat} {pub : PublicKey} {s c c1 : Int}
    (h : baseStep E cv pubs rx ry QpaiX QpaiY msg pub s c = .ok c1) :
    ∃ pub0, pubs[0]? = some pub0 ∧ 0 ≤ c1 ∧ c1 < 2 ^ BitLen (E.curve pub0.Curve).N := by
  simp only [baseStep, bind_eq_ok] at h
  obtain ⟨_, _, h⟩ := h
  exact hash1_bound h

theorem variant1Step_bound {E : Env} {cv : CurveRef} {pubs : List PublicKey}
    {rx ry QpaiX QpaiY : Int} {msg : List Nat} {pub : PublicKey} {s c c1 : Int}
    (h : variant1Step E cv pubs rx ry QpaiX QpaiY msg pub s c = .ok c1) :
    ∃ pub0, pubs[0]? = some pub0 ∧ 0 ≤ c1 ∧ c1 < 2 ^ BitLen (E.curve pub0.Curve).N := by
  simp only [variant1Step, bind_eq_ok] at h
  obtain ⟨_, _, h⟩ := h
  exact hash1_bound h

theorem Mod_bound {x y : Int} {N : Nat} (h : Mod x N = .ok y) : 0 ≤ y ∧ y ≤ (N : Int) - 1 := by
  rw [Mod_eq_ok] at h
  obtain ⟨hN, rfl⟩ := h
  have h1 := Int.emod_nonneg x (b := (N : Int)) (by omega)
  have h2 := Int.emod_lt_of_pos x (b := (N : Int)) (by omega)
  omega

theorem variant2Step_bound {E : Env} {cv : CurveRef} {pubs : List PublicKey}
    {rx ry QpaiX QpaiY : Int} {msg : List Nat} {pub : PublicKey} {s c c1 : Int}
    (h : variant2Step E cv pubs rx ry QpaiX QpaiY msg pub s c = .ok c1) :
    0 ≤ c1 ∧ c1 ≤ ((E.curve cv).N : Int) - 1 := by
  simp only [variant2Step, bind_eq_ok] at h
  obtain ⟨_, _, _, _, h⟩ := h
  exact Mod_bound h

theorem closeRing_bound {C : Curve} {priv : PrivateKey} {kPai c s : Int}
    (h : closeRing C priv kPai c = .ok s) : 0 ≤ s ∧ s ≤ (C.N : Int) - 1 := by
  unfold closeRing at h
  exact Mod_bound h

theorem SM2ParticipantRandIntLoop_spec (c : Curve) (e : Int) :
    ∀ (fuel : Nat) (rand : Reader) (s : Int) (rand1 : Reader),
      SM2ParticipantRandIntLoop c e fuel rand = .ok (s, rand1) →
      2 ≤ s ∧ s ≤ 2 * (c.N : Int) - 2 ∧ s ≠ (c.N : Int) := by
  intro fuel
  induction fuel with
  | zero => intro rand s rand1 h; simp [SM2ParticipantRandIntLoop] at h
  | succ fuel ih =>
    intro rand s rand1 h
    unfold SM2ParticipantRandIntLoop at h
    cases hk : randFieldElement c rand with
    | error err => simp [hk] at h
    | ok kr =>
      obtain ⟨k, rand2⟩ := kr
      have hkr := randFieldElement_spec c rand k rand2 hk
      simp only [hk] at h
      cases hm : Mod ((c.ScalarBaseMult (Bytes k)).1 + e) c.N with
      | error err => simp [hm] at h
      | ok r =>
        have hr := Mod_bound hm
        simp only [hm] at h
        split at h
        · rename_i hc
          simp only [Except.ok.injEq, Prod.mk.injEq] at h
          obtain ⟨rfl, _⟩ := h
          refine ⟨?_, ?_, hc.2⟩
          · have : r ≠ 0 := hc.1
            omega
          · omega
        · exact ih _ _ _ h

/-- A value returned by `SM2ParticipantRandInt` is `r + k` with `r` and `k`
in `[1, N-1]`: it lies in `[2, 2N-2]` and differs from `N`. -/
theorem SM2ParticipantRandInt_spec (E : Env) (rand : Reader) (pub : PublicKey) (msg : List Nat)
    (s : Int) (rand1 : Reader) (h : SM2ParticipantRandInt E rand pub msg = .ok (s, rand1)) :
    2 ≤ s ∧ s ≤ 2 * ((E.curve pub.Curve).N : Int) - 2 ∧ s ≠ ((E.curve pub.Curve).N : Int) := by
  unfold SM2ParticipantRandInt at h
  cases hm : calculateSM2Hash E pub msg [] with
  | error err => simp [hm] at h
  | ok m =>
    simp only [hm] at h
    exact SM2ParticipantRandIntLoop_spec _ _ _ _ _ _ h

theorem Sign_shape {E : Env} {rand : Reader} {strategy : ParticipantRandInt}
    {priv : PrivateKey} {pubs : List PublicKey} {msg : List Nat} {sig : List (Option Int)}
    (h : Sign E rand strategy priv pubs msg = .ok sig) :
    ∃ pai kPai cinit c0 cpai spai,
      getPai priv pubs = .ok pai ∧
      hash E pubs msg ((E.curve priv.Curve).ScalarBaseMult (Bytes kPai)).1
        ((E.curve priv.Curve).ScalarBaseMult (Bytes kPai)).2 = .ok cinit ∧
      closeRing (E.curve priv.Curve) priv kPai cpai = .ok spai ∧
      sig.length = pubs.length + 1 ∧
      sig[0]? = some (some c0) ∧
      sig[pai + 1]? = some (some spai) ∧
      (∀ j, j < pubs.length → j ≠ pai → ∃ pub s r r1, pubs[j]? = some pub ∧
        sig[j + 1]? = some (some s) ∧ strategy r pub msg = .ok (s, r1)) ∧
      (c0 = cinit ∨ ∃ pub s c, chainStep E priv.Curve pubs msg pub s c = .ok c0) := by
  obtain ⟨pai, kPai, rand1, cinit, c0, res1, rand2, res2, cpai, res3, rand3, spai,
    hpai, hk, hinit, h1, h2, h3, hclose, h4⟩ := Sign_eq_ok h
  obtain ⟨_, hlt, _⟩ := getPai_spec priv pubs pai hpai
  obtain ⟨hlen, _, hseed, hown, hothers, hsrc, _⟩ :=
    ring_closes strategy pubs msg 1 (chainStep E priv.Curve pubs msg)
      pai cinit c0 cpai spai _ res1 res2 res3
      sig rand1 rand2 rand3 (Nat.le_refl 1) hlt h1 h2 h3 h4
  simp only [List.length_replicate] at hlen
  exact ⟨pai, kPai, cinit, c0, cpai, spai, hpai, hinit, hclose, hlen, hseed, hown, hothers, hsrc⟩

/-- C8, as the code has it.  For a ring of keys on the signer's curve, in each
of the four schemes a signature returned by `Sign` holds: at the signer's
index a response in `[0, N-1]`; in every other response slot a value in
`[1, N-1]` under `SimpleParticipantRandInt` and in `[2, 2N-2]` under
`SM2ParticipantRandInt` (which returns `r + k` unreduced); as seed a value in
`[0, 2^bitlen(N) - 1]` in the plain, base and variant 1 schemes (a `hashToInt`
value, not reduced modulo `N`) and in `[0, N-1]` in variant 2. -/
theorem scalar_ranges (E : Env) (priv : PrivateKey) (pubs : List PublicKey) (msg : List Nat)
    (strategy : ParticipantRandInt) (lo B : Int)
    (hcurve : ∀ pub, pub ∈ pubs → pub.Curve = priv.Curve)
    (hstr : (strategy = SimpleParticipantRandInt E ∧ lo = 1
        ∧ B = ((E.curve priv.Curve).N : Int) - 1)
      ∨ (strategy = SM2ParticipantRandInt E ∧ lo = 2
        ∧ B = 2 * ((E.curve priv.Curve).N : Int) - 2)) :
    (∀ (rand : Reader) (sig : List (Option Int)),
        Sign E rand strategy priv pubs msg = .ok sig →
        ∃ pai, getPai priv pubs = .ok pai ∧
          ScalarRanges sig 1 pubs.length pai (2 ^ BitLen (E.curve priv.Curve).N - 1)
            ((E.curve priv.Curve).N : Int) lo B) ∧
    (∀ (rand : Reader) (sig : List (Option Int)),
        BaseLinkableSigner.Sign E { publicKeys := pubs, privateKey := priv } rand strategy msg = .ok sig →
        ∃ pai, getPai priv pubs = .ok pai ∧
          ScalarRanges sig 3 pubs.length pai (2 ^ BitLen (E.curve priv.Curve).N - 1)
            ((E.curve priv.Curve).N : Int) lo B) ∧
    (∀ (rand : Reader) (sig : List (Option Int)),
        LinkableSignerVariant1.Sign E { publicKeys := pubs, privateKey := priv } rand strategy msg = .ok sig →
        ∃ pai, getPai priv pubs = .ok pai ∧
          ScalarRanges sig 3 pubs.length pai (2 ^ BitLen (E.curve priv.Curve).N - 1)
            ((E.curve priv.Curve).N : Int) lo B) ∧
    (∀ (rand : Reader) (sig : List (Option Int)),
        LinkableSignerVariant2.Sign E { publicKeys := pubs, privateKey := priv } rand strategy msg = .ok sig →
        ∃ pai, getPai priv pubs = .ok pai ∧
          ScalarRanges sig 3 pubs.length pai (((E.curve priv.Curve).N : Int) - 1)
            ((E.curve priv.Curve).N : Int) lo B) := by
  have hrange : ∀ (r : Reader) (pub : PublicKey) (s : Int) (r1 : Reader), pub ∈ pubs →
      strategy r pub msg = .ok (s, r1) → lo ≤ s ∧ s ≤ B := by
    intro r pub s r1 hp hs
    rcases hstr with ⟨rfl, rfl, rfl⟩ | ⟨rfl, rfl, rfl⟩
    · have := randFieldElement_spec _ _ _ _ hs
      rw [hcurve pub hp] at this
      omega
    · have := SM2ParticipantRandInt_spec E r pub msg s r1 hs
      rw [hcurve pub hp] at this
      omega
  refine ⟨?_, ?_, ?_, ?_⟩
  · intro rand sig h
    obtain ⟨pai, kPai, cinit, c0, cpai, spai, hpai, hinit, hclose, hlen, hseed, hown, hothers, hsrc⟩ := Sign_shape h
    refine ⟨pai, hpai, ?_, ⟨spai, hown, closeRing_bound hclose⟩, ?_⟩
    · refine ⟨c0, hseed, ?_⟩
      have key : ∃ pub0, pubs[0]? = some pub0 ∧ 0 ≤ c0 ∧
          c0 < 2 ^ BitLen (E.curve pub0.Curve).N := by
        rcases hsrc with rfl | ⟨pub, s, c, hstep⟩
        · exact hash_bound hinit
        · exact chainStep_bound hstep
      obtain ⟨pub0, hp0, h1, h2⟩ := key
      rw [hcurve pub0 (List.getElem?_mem hp0)] at h2
      exact ⟨h1, by omega⟩
    · intro j hj hne
      obtain ⟨pub, s, r, r1, hp, hs, hstrat⟩ := hothers j hj hne
      exact ⟨s, hs, hrange r pub s r1 (List.getElem?_mem hp) hstrat⟩
  · intro rand sig h
    obtain ⟨pai, rx, ry, kPai, rand1, cinit, c0, cpai, spai, hpai, hR, hk, hinit, hclose, hlen, hq0, hq1, hseed, hown, hothers, hsrc, _⟩ := BaseLinkableSigner_Sign_eq_ok h
    refine ⟨pai, hpai, ?_, ⟨spai, hown, closeRing_bound hclose⟩, ?_⟩
    · refine ⟨c0, hseed, ?_⟩
      have key : ∃ pub0, pubs[0]? = some pub0 ∧ 0 ≤ c0 ∧
          c0 < 2 ^ BitLen (E.curve pub0.Curve).N := by
        rcases hsrc with rfl | ⟨pub, s, c, hstep⟩
        · exact hash1_bound hinit
        · exact baseStep_bound hstep
      obtain ⟨pub0, hp0, h1, h2⟩ := key
      rw [hcurve pub0 (List.getElem?_mem hp0)] at h2
      exact ⟨h1, by omega⟩
    · intro j hj hne
      obtain ⟨pub, s, r, r1, hp, hs, hstrat⟩ := hothers j hj hne
      exact ⟨s, hs, hrange r pub s r1 (List.getElem?_mem hp) hstrat⟩
  · intro rand sig h
    obtain ⟨pai, rx, ry, QpaiX, QpaiY, tx, ty, kPai, rand1, cinit, c0, cpai, spai, hpai, hR, hQ, hT, hk, hinit, hclose, hlen, hq0, hq1, hseed, hown, hothers, hsrc, _⟩ := LinkableSignerVariant1_Sign_eq_ok h
    refine ⟨pai, hpai, ?_, ⟨spai, hown, closeRing_bound hclose⟩, ?_⟩
    · refine ⟨c0, hseed, ?_⟩
      have key : ∃ pub0, pubs[0]? = some pub0 ∧ 0 ≤ c0 ∧
          c0 < 2 ^ BitLen (E.curve pub0.Curve).N := by
        rcases hsrc with rfl | ⟨pub, s, c, hstep⟩
        · exact hash1_bound hinit
        · exact variant1Step_bound hstep
      obtain ⟨pub0, hp0, h1, h2⟩ := key
      rw [hcurve pub0 (List.getElem?_mem hp0)] at h2
      exact ⟨h1, by omega⟩
    · intro j hj hne
      obtain ⟨pub, s, r, r1, hp, hs, hstrat⟩ := hothers j hj hne
      exact ⟨s, hs, hrange r pub s r1 (List.getElem?_mem hp) hstrat⟩
  · intro rand sig h
    obtain ⟨pai, rx, ry, QpaiX, QpaiY, tx, ty, kPai, rand1, cinit, c0, cpai, spai, hpai, hR, hQ, hT, hk, ⟨hv, hhv, hinit⟩, hclose, hlen, hq0, hq1, hseed, hown, hothers, hsrc, _⟩ := LinkableSignerVariant2_Sign_eq_ok h
    refine ⟨pai, hpai, ?_, ⟨spai, hown, closeRing_bound hclose⟩, ?_⟩
    · refine ⟨c0, hseed, ?_⟩
      rcases hsrc with rfl | ⟨pub, s, c, hstep⟩
      · exact Mod_bound hinit
      · exact variant2Step_bound hstep
    · intro j hj hne
      obtain ⟨pub, s, r, r1, hp, hs, hstrat⟩ := hothers j hj hne
      exact ⟨s, hs, hrange r pub s r1 (List.getElem?_mem hp) hstrat⟩

/-! ## Verification reads the responses modulo `N` -/

theorem scalar_add_order {C : Curve} {Pt : Type} [AddCommGroup Pt] {enc : Pt → Int × Int}
    {g : Pt} (L : C.Lawful enc g) {s : Int} (hs : 0 ≤ s) (p : Pt) :
    SetBytes (Bytes (s + (C.N : Int))) • p = SetBytes (Bytes s) • p := by
  simp only [SetBytes_Bytes]
  rw [natAbs_smul p (by omega), natAbs_smul p hs, add_smul, natCast_zsmul, L.order, add_zero]

theorem Mod_add_order (s c : Int) (N : Nat) : Mod (s + (N : Int) + c) N = Mod (s + c) N := by
  unfold Mod
  split
  · rfl
  · have : s + (N : Int) + c = s + c + (N : Int) := by ring
    rw [this, Int.add_emod_self]

theorem chainStep_add_order (E : Env) {Pt : Type} [AddCommGroup Pt] {enc : Pt → Int × Int}
    {g : Pt} (cv : CurveRef) (L : (E.curve cv).Lawful enc g) (pubs : List PublicKey)
    (msg : List Nat) (pub : PublicKey) (s c : Int) (hs : 0 ≤ s) :
    chainStep E cv pubs msg pub (s + ((E.curve cv).N : Int)) c
      = chainStep E cv pubs msg pub s c := by
  simp only [chainStep, L.base, scalar_add_order L hs, Mod_add_order]

theorem baseStep_add_order (E : Env) {Pt : Type} [AddCommGroup Pt] {enc : Pt → Int × Int}
    {g : Pt} (cv : CurveRef) (L : (E.curve cv).Lawful enc g) (pubs : List PublicKey)
    (R : Pt) (QpaiX QpaiY : Int) (msg : List Nat) (pub : PublicKey) (s c : Int) (hs : 0 ≤ s) :
    baseStep E cv pubs (enc R).1 (enc R).2 QpaiX QpaiY msg pub (s + ((E.curve cv).N : Int)) c
      = baseStep E cv pubs (enc R).1 (enc R).2 QpaiX QpaiY msg pub s c := by
  simp only [baseStep, L.base, L.smul, scalar_add_order L hs, Mod_add_order]

theorem variant1Step_add_order (E : Env) {Pt : Type} [AddCommGroup Pt] {enc : Pt → Int × Int}
    {g : Pt} (cv : CurveRef) (L : (E.curve cv).Lawful enc g) (pubs : List PublicKey)
    (R : Pt) (QpaiX QpaiY : Int) (msg : List Nat) (pub : PublicKey) (s c : Int) (hs : 0 ≤ s) :
    variant1Step E cv pubs (enc R).1 (enc R).2 QpaiX QpaiY msg pub (s + ((E.curve cv).N : Int)) c
      = variant1Step E cv pubs (enc R).1 (enc R).2 QpaiX QpaiY msg pub s c := by
  simp only [variant1Step, L.smul, scalar_add_order L hs, Mod_add_order]

theorem variant2Step_add_order (E : Env) {Pt : Type} [AddCommGroup Pt] {enc : Pt → Int × Int}
    {g : Pt} (cv : CurveRef) (L : (E.curve cv).Lawful enc g) (pubs : List PublicKey)
    (R : Pt) (QpaiX QpaiY : Int) (msg : List Nat) (pub : PublicKey) (s c : Int) (hs : 0 ≤ s) :
    variant2Step E cv pubs (enc R).1 (enc R).2 QpaiX QpaiY msg pub (s + ((E.curve cv).N : Int)) c
      = variant2Step E cv pubs (enc R).1 (enc R).2 QpaiX QpaiY msg pub s c := by
  simp only [variant2Step, L.smul, scalar_add_order L hs, Mod_add_order]

/-- A verifier's loop body does not notice the change of one response to a
value its step treats alike. -/
theorem replayBody_set (pubs : List PublicKey) (sig : List (Option Int)) (off : Nat)
    (f : PublicKey → Int → Int → Go Int) (i : Nat) (s t : Int)
    (hsi : sig[i + off]? = some (some s))
    (hf : ∀ pub, pub ∈ pubs → ∀ c, f pub t c = f pub s c) :
    replayBody pubs (sig.set (i + off) (some t)) off f = replayBody pubs sig off f := by
  funext j c
  have hlt : i + off < sig.length := (List.getElem?_eq_some.mp hsi).1
  unfold replayBody
  cases hp : index pubs j with
  | error e => rfl
  | ok pub =>
    have hmem : pub ∈ pubs := List.getElem?_mem (index_eq_ok.mp hp)
    by_cases hji : j = i
    · subst hji
      have h1 : index (sig.set (j + off) (some t)) (j + off) = .ok (some t) := by
        rw [index_eq_ok, List.getElem?_set_self hlt]
      have h2 : index sig (j + off) = .ok (some s) := index_eq_ok.mpr hsi
      simp only [h1, h2, bind, Except.bind, deref]
      exact hf pub hmem c
    · have h1 : index (sig.set (i + off) (some t)) (j + off) = index sig (j + off) := by
        unfold index
        rw [List.getElem?_set_ne (by omega)]
      rw [h1]

theorem index_set_ne {α : Type} (xs : List α) (i j : Nat) (v : α) (h : i ≠ j) :
    index (xs.set i v) j = index xs j := by
  unfold index
  rw [List.getElem?_set_ne h]

theorem publicKeysToPoint_nil (E : Env) :
    publicKeysToPoint E [] = .error (.panic "index out of range") := rfl

/-- C9, as the code has it.  No verifier checks the range of a response: a
response enters the chain through `(c + s) mod N` and through scalar
multiplications by `|s|`.  On a curve object that computes in a group of
order `N`, for a ring of keys carrying that curve (points of the group, for
the linkable verifiers), raising a non-negative response `s` of a signature
to `s + N` leaves the result of each of the four `Verify` operations
unchanged. -/
theorem Verify_ignores_order_multiple (E : Env) {Pt : Type} [AddCommGroup Pt]
    (enc : Pt → Int × Int) (g : Pt) (cv : CurveRef) (pubs : List PublicKey) (msg : List Nat)
    (sig : List (Option Int)) (i : Nat) (s : Int)
    (L : (E.curve cv).Lawful enc g)
    (hcurve : ∀ pub, pub ∈ pubs → pub.Curve = cv)
    (hs : 0 ≤ s) :
    (sig[i + 1]? = some (some s) →
      Verify E pubs msg (sig.set (i + 1) (some (s + ((E.curve cv).N : Int))))
        = Verify E pubs msg sig) ∧
    ((∀ pub, pub ∈ pubs → ∃ p, enc p = (pub.X, pub.Y)) → sig[i + 3]? = some (some s) →
      BaseLinkableVerfier.Verify E { publicKeys := pubs } msg
          (sig.set (i + 3) (some (s + ((E.curve cv).N : Int))))
        = BaseLinkableVerfier.Verify E { publicKeys := pubs } msg sig ∧
      (∀ priv : PrivateKey,
        LinkableSignerVariant1.Verify E { publicKeys := pubs, privateKey := priv } msg
            (sig.set (i + 3) (some (s + ((E.curve cv).N : Int))))
          = LinkableSignerVariant1.Verify E { publicKeys := pubs, privateKey := priv } msg
            sig) ∧
      (∀ priv : PrivateKey,
        LinkableSignerVariant2.Verify E { publicKeys := pubs, privateKey := priv } msg
            (sig.set (i + 3) (some (s + ((E.curve cv).N : Int))))
          = LinkableSignerVariant2.Verify E { publicKeys := pubs, privateKey := priv } msg
            sig)) := by
  have hG : (E.curve cv).Gx = (enc g).1 ∧ (E.curve cv).Gy = (enc g).2 := by
    rw [L.gen]
    exact ⟨rfl, rfl⟩
  refine ⟨?_, ?_⟩
  · intro hsi
    have hbody : Verify.body E pubs msg (sig.set (i + 1) (some (s + ((E.curve cv).N : Int))))
        = Verify.body E pubs msg sig := by
      rw [Verify_body_eq, Verify_body_eq]
      refine replayBody_set pubs sig 1 _ i s _ hsi ?_
      intro pub hp c
      simp only [hcurve pub hp]
      exact chainStep_add_order E cv L pubs msg pub s c hs
    unfold Verify
    simp only [List.length_set, hbody, index_set_ne _ _ _ _ (show i + 1 ≠ 0 by omega)]
  · intro hvalid hsi
    have hsum : pubs = [] ∨ ∃ R, publicKeysToPoint E pubs = .ok (enc R) := by
      by_cases hne : pubs = []
      · exact Or.inl hne
      · exact Or.inr (publicKeysToPoint_valid E cv L pubs hne hcurve hvalid)
    refine ⟨?_, ?_, ?_⟩
    · have hbody : ∀ (R : Pt) (QpaiX QpaiY : Int),
          BaseLinkableVerfier.Verify.body E pubs (enc R).1 (enc R).2 QpaiX QpaiY msg
            (sig.set (i + 3) (some (s + ((E.curve cv).N : Int))))
          = BaseLinkableVerfier.Verify.body E pubs (enc R).1 (enc R).2 QpaiX QpaiY msg sig := by
        intro R QpaiX QpaiY
        rw [BaseLinkableVerfier_Verify_body_eq, BaseLinkableVerfier_Verify_body_eq]
        refine replayBody_set pubs sig 3 _ i s _ hsi ?_
        intro pub hp c
        simp only [hcurve pub hp]
        exact baseStep_add_order E cv L pubs R QpaiX QpaiY msg pub s c hs
      unfold BaseLinkableVerfier.Verify
      simp only [List.length_set, index_set_ne _ _ _ _ (show i + 3 ≠ 0 by omega),
        index_set_ne _ _ _ _ (show i + 3 ≠ 1 by omega),
        index_set_ne _ _ _ _ (show i + 3 ≠ 2 by omega)]
      rcases hsum with rfl | ⟨R, hR⟩
      · simp only [publicKeysToPoint_nil, bind, Except.bind]
      · simp only [hR, bind, Except.bind, hbody]
    · intro priv
      have hbody : ∀ (R : Pt) (QpaiX QpaiY : Int),
          LinkableSignerVariant1.Verify.body E pubs (enc R).1 (enc R).2 QpaiX QpaiY msg
            (sig.set (i + 3) (some (s + ((E.curve cv).N : Int))))
          = LinkableSignerVariant1.Verify.body E pubs (enc R).1 (enc R).2 QpaiX QpaiY msg
            sig := by
        intro R QpaiX QpaiY
        rw [LinkableSignerVariant1_Verify_body_eq, LinkableSignerVariant1_Verify_body_eq]
        refine replayBody_set pubs sig 3 _ i s _ hsi ?_
        intro pub hp c
        simp only [hcurve pub hp]
        exact variant1Step_add_order E cv L pubs R QpaiX QpaiY msg pub s c hs
      unfold LinkableSignerVariant1.Verify
      simp only [List.length_set, index_set_ne _ _ _ _ (show i + 3 ≠ 0 by omega),
        index_set_ne _ _ _ _ (show i + 3 ≠ 1 by omega),
        index_set_ne _ _ _ _ (show i + 3 ≠ 2 by omega)]
      rcases hsum with rfl | ⟨R, hR⟩
      · simp only [publicKeysToPoint_nil, bind, Except.bind]
      · cases hp0 : index pubs 0 with
        | error e => simp only [hR, hp0, bind, Except.bind]
        | ok pub0 =>
          have hc0 : pub0.Curve = cv := hcurve pub0 (List.getElem?_mem (index_eq_ok.mp hp0))
          simp only [hR, hp0, bind, Except.bind, hc0, hG.1, hG.2, L.add, hbody]
    · intro priv
      have hbody : ∀ (R : Pt) (QpaiX QpaiY : Int),
          LinkableSignerVariant2.Verify.body E pubs (enc R).1 (enc R).2 QpaiX QpaiY msg
            (sig.set (i + 3) (some (s + ((E.curve cv).N : Int))))
          = LinkableSignerVariant2.Verify.body E pubs (enc R).1 (enc R).2 QpaiX QpaiY msg
            sig := by
        intro R QpaiX QpaiY
        rw [LinkableSignerVariant2_Verify_body_eq, LinkableSignerVariant2_Verify_body_eq]
        refine replayBody_set pubs sig 3 _ i s _ hsi ?_
        intro pub hp c
        simp only [hcurve pub hp]
        exact variant2Step_add_order E cv L pubs R QpaiX QpaiY msg pub s c hs
      unfold LinkableSignerVariant2.Verify
      simp only [List.length_set, index_set_ne _ _ _ _ (show i + 3 ≠ 0 by omega),
        index_set_ne _ _ _ _ (show i + 3 ≠ 1 by omega),
        index_set_ne _ _ _ _ (show i + 3 ≠ 2 by omega)]
      rcases hsum with rfl | ⟨R, hR⟩
      · simp only [publicKeysToPoint_nil, bind, Except.bind]
      · cases hp0 : index pubs 0 with
        | error e => simp only [hR, hp0, bind, Except.bind]
        | ok pub0 =>
          have hc0 : pub0.Curve = cv := hcurve pub0 (List.getElem?_mem (index_eq_ok.mp hp0))
          simp only [hR, hp0, bind, Except.bind, hc0, hG.1, hG.2, L.add, hbody]

/-! ## The length check -/

/-- C11 (length check).  The plain `Verify` returns false whenever
`len(signature) ≠ len(ring) + 1`, and each linkable `Verify` returns false
whenever `len(signature) ≠ len(ring) + 3`, whatever the ring, the message and
the entries of the signature (nil entries included). -/
theorem Verify_length_check (E : Env) (pubs : List PublicKey) (msg : List Nat)
    (sig : List (Option Int)) :
    (pubs.length + 1 ≠ sig.length → Verify E pubs msg sig = .ok false) ∧
    (pubs.length + 3 ≠ sig.length →
      BaseLinkableVerfier.Verify E { publicKeys := pubs } msg sig = .ok false ∧
      (∀ priv : PrivateKey,
        LinkableSignerVariant1.Verify E { publicKeys := pubs, privateKey := priv } msg sig
          = .ok false) ∧
      (∀ priv : PrivateKey,
        LinkableSignerVariant2.Verify E { publicKeys := pubs, privateKey := priv } msg sig
          = .ok false)) := by
  refine ⟨?_, ?_⟩
  · intro h
    unfold Verify
    rw [if_pos h]
  · intro h
    refine ⟨?_, ?_, ?_⟩
    · unfold BaseLinkableVerfier.Verify
      simp only
      rw [if_pos h]
    · intro priv
      unfold LinkableSignerVariant1.Verify
      simp only
      rw [if_pos h]
    · intro priv
      unfold LinkableSignerVariant2.Verify
      simp only
      rw [if_pos h]

/-! ## The layout of a signature -/

/-- A `for` loop runs its body on the indices `lo, lo+1, …, hi-1`, in order. -/
theorem forLoopFrom_eq_foldlM {σ : Type} (body : Nat → σ → Go σ) :
    ∀ (cnt i : Nat) (st : σ),
      forLoopFrom body cnt i st = (List.range' i cnt).foldlM (fun st j => body j st) st := by
  intro cnt
  induction cnt with
  | zero => intro i st; rfl
  | succ cnt ih =>
    intro i st
    rw [List.range'_succ, List.foldlM_cons]
    unfold forLoopFrom
    cases body i st with
    | error e => rfl
    | ok st1 => exact ih (i + 1) st1

theorem forLoop_eq_foldlM {σ : Type} (lo hi : Nat) (body : Nat → σ → Go σ) (st : σ) :
    forLoop lo hi body st = (List.range' lo (hi - lo)).foldlM (fun st j => body j st) st :=
  forLoopFrom_eq_foldlM body _ _ _

/-- The two walks and the closing store visit every response slot once. -/
theorem writeOrder_perm (pai n : Nat) (h : pai < n) : (writeOrder pai n).Perm (List.range n) := by
  have e : List.range n
      = List.range' 0 pai ++ [pai] ++ List.range' (pai + 1) (n - (pai + 1)) := by
    have a : List.range' 0 (pai + 1) = List.range' 0 pai ++ [pai] := by
      simpa using List.range'_1_concat 0 pai
    have b := List.range'_append_1 0 (pai + 1) (n - (pai + 1))
    have c : n - (pai + 1) + (pai + 1) = n := by omega
    rw [c, Nat.zero_add] at b
    rw [List.range_eq_range', ← b, a]
  rw [e]
  unfold writeOrder
  have p1 : (List.range' (pai + 1) (n - (pai + 1)) ++ (List.range' 0 pai ++ [pai])).Perm
      ((List.range' 0 pai ++ [pai]) ++ List.range' (pai + 1) (n - (pai + 1))) :=
    List.perm_append_comm
  simpa [List.append_assoc] using p1

/-- A slice with a tag in front of the seed slot, a seed, and a response in
every later slot has no nil entry. -/
theorem all_slots_filled {sig : List (Option Int)} {off n pai : Nat} (hoff : 1 ≤ off)
    (hlen : sig.length = n + off)
    (hpre : ∀ j, j < off - 1 → ∃ x, sig[j]? = some (some x))
    (hseed : ∃ x, sig[off - 1]? = some (some x))
    (hown : ∃ x, sig[pai + off]? = some (some x))
    (hothers : ∀ j, j < n → j ≠ pai → ∃ x, sig[j + off]? = some (some x)) :
    ∀ j, j < n + off → ∃ x, sig[j]? = some (some x) := by
  intro j hj
  by_cases h1 : j < off - 1
  · exact hpre j h1
  · by_cases h2 : j = off - 1
    · rw [h2]; exact hseed
    · have e : j = (j - off) + off := by omega
      by_cases h3 : j - off = pai
      · rw [e, h3]; exact hown
      · rw [e]; exact hothers (j - off) (by omega) h3

/-- C12 (anonymity by shape).  Whenever signing succeeds, the plain `Sign`
returns `n + 1` entries and each linkable `Sign` returns `n + 3`, none of them
nil: the tag in slots 0 and 1 (linkable schemes), the seed in front of the
responses, the closing response at the signer's index and a strategy draw at
every other index.  The slots written by the tail walk `pai+1 … n-1`, the wrap
walk `0 … pai-1` and the closing store are a permutation of `0 … n-1`: each
response slot is written once, wherever the signer stands. -/
theorem signature_layout (E : Env) (priv : PrivateKey) (pubs : List PublicKey)
    (msg : List Nat) (strategy : ParticipantRandInt) :
    (∀ (rand : Reader) (sig : List (Option Int)),
      Sign E rand strategy priv pubs msg = .ok sig →
      ∃ pai c0 spai, getPai priv pubs = .ok pai ∧
        sig.length = pubs.length + 1 ∧
        sig[0]? = some (some c0) ∧
        sig[pai + 1]? = some (some spai) ∧
        (∀ j, j < pubs.length → j ≠ pai → ∃ pub s r r1, pubs[j]? = some pub ∧
          sig[j + 1]? = some (some s) ∧ strategy r pub msg = .ok (s, r1)) ∧
        (∀ j, j < pubs.length + 1 → ∃ x, sig[j]? = some (some x)) ∧
        (writeOrder pai pubs.length).Perm (List.range pubs.length)) ∧
    (∀ (rand : Reader) (sig : List (Option Int)),
      BaseLinkableSigner.Sign E { publicKeys := pubs, privateKey := priv } rand strategy msg = .ok sig →
      ∃ pai c0 spai, getPai priv pubs = .ok pai ∧
        sig.length = pubs.length + 3 ∧
        sig[2]? = some (some c0) ∧
        sig[pai + 3]? = some (some spai) ∧
        (∀ j, j < pubs.length → j ≠ pai → ∃ pub s r r1, pubs[j]? = some pub ∧
          sig[j + 3]? = some (some s) ∧ strategy r pub msg = .ok (s, r1)) ∧
        (∀ j, j < pubs.length + 3 → ∃ x, sig[j]? = some (some x)) ∧
        (writeOrder pai pubs.length).Perm (List.range pubs.length)) ∧
    (∀ (rand : Reader) (sig : List (Option Int)),
      LinkableSignerVariant1.Sign E { publicKeys := pubs, privateKey := priv } rand strategy msg = .ok sig →
      ∃ pai c0 spai, getPai priv pubs = .ok pai ∧
        sig.length = pubs.length + 3 ∧
        sig[2]? = some (some c0) ∧
        sig[pai + 3]? = some (some spai) ∧
        (∀ j, j < pubs.length → j ≠ pai → ∃ pub s r r1, pubs[j]? = some pub ∧
          sig[j + 3]? = some (some s) ∧ strategy r pub msg = .ok (s, r1)) ∧
        (∀ j, j < pubs.length + 3 → ∃ x, sig[j]? = some (some x)) ∧
        (writeOrder pai pubs.length).Perm (List.range pubs.length)) ∧
    (∀ (rand : Reader) (sig : List (Option Int)),
      LinkableSignerVariant2.Sign E { publicKeys := pubs, privateKey := priv } rand strategy msg = .ok sig →
      ∃ pai c0 spai, getPai priv pubs = .ok pai ∧
        sig.length = pubs.length + 3 ∧
        sig[2]? = some (some c0) ∧
        sig[pai + 3]? = some (some spai) ∧
        (∀ j, j < pubs.length → j ≠ pai → ∃ pub s r r1, pubs[j]? = some pub ∧
          sig[j + 3]? = some (some s) ∧ strategy r pub msg = .ok (s, r1)) ∧
        (∀ j, j < pubs.length + 3 → ∃ x, sig[j]? = some (some x)) ∧
        (writeOrder pai pubs.length).Perm (List.range pubs.length)) := by
  refine ⟨?_, ?_, ?_, ?_⟩
  · intro rand sig h
    obtain ⟨pai, kPai, cinit, c0, cpai, spai, hpai, hinit, hclose, hlen, hseed, hown, hothers, hsrc⟩ := Sign_shape h
    obtain ⟨_, hlt, _⟩ := getPai_spec _ _ pai hpai
    refine ⟨pai, c0, spai, hpai, hlen, hseed, hown, hothers, ?_, writeOrder_perm pai _ hlt⟩
    refine all_slots_filled (by omega) hlen ?_ ⟨c0, hseed⟩ ⟨spai, hown⟩ ?_
    · intro j hj
      omega
    · intro j hj hne
      obtain ⟨pub, s, r, r1, _, hs, _⟩ := hothers j hj hne
      exact ⟨s, hs⟩
  · intro rand sig h
    obtain ⟨pai, rx, ry, kPai, rand1, cinit, c0, cpai, spai, hpai, hR, hk, hinit, hclose, hlen, hq0, hq1, hseed, hown, hothers, hsrc, _⟩ := BaseLinkableSigner_Sign_eq_ok h
    obtain ⟨_, hlt, _⟩ := getPai_spec _ _ pai hpai
    refine ⟨pai, c0, spai, hpai, hlen, hseed, hown, hothers, ?_, writeOrder_perm pai _ hlt⟩
    refine all_slots_filled (by omega) hlen ?_ ⟨c0, hseed⟩ ⟨spai, hown⟩ ?_
    · intro j hj
      have hj01 : j = 0 ∨ j = 1 := by omega
      rcases hj01 with rfl | rfl
      · exact ⟨_, hq0⟩
      · exact ⟨_, hq1⟩
    · intro j hj hne
      obtain ⟨pub, s, r, r1, _, hs, _⟩ := hothers j hj hne
      exact ⟨s, hs⟩
  · intro rand sig h
    obtain ⟨pai, rx, ry, QpaiX, QpaiY, tx, ty, kPai, rand1, cinit, c0, cpai, spai, hpai, hR, hQ, hT, hk, hinit, hclose, hlen, hq0, hq1, hseed, hown, hothers, hsrc, _⟩ := LinkableSignerVariant1_Sign_eq_ok h
    obtain ⟨_, hlt, _⟩ := getPai_spec _ _ pai hpai
    refine ⟨pai, c0, spai, hpai, hlen, hseed, hown, hothers, ?_, writeOrder_perm pai _ hlt⟩
    refine all_slots_filled (by omega) hlen ?_ ⟨c0, hseed⟩ ⟨spai, hown⟩ ?_
    · intro j hj
      have hj01 : j = 0 ∨ j = 1 := by omega
      rcases hj01 with rfl | rfl
      · exact ⟨_, hq0⟩
      · exact ⟨_, hq1⟩
    · intro j hj hne
      obtain ⟨pub, s, r, r1, _, hs, _⟩ := hothers j hj hne
      exact ⟨s, hs⟩
  · intro rand sig h
    obtain ⟨pai, rx, ry, QpaiX, QpaiY, tx, ty, kPai, rand1, cinit, c0, cpai, spai, hpai, hR, hQ, hT, hk, hinit, hclose, hlen, hq0, hq1, hseed, hown, hothers, hsrc, _⟩ := LinkableSignerVariant2_Sign_eq_ok h
    obtain ⟨_, hlt, _⟩ := getPai_spec _ _ pai hpai
    refine ⟨pai, c0, spai, hpai, hlen, hseed, hown, hothers, ?_, writeOrder_perm pai _ hlt⟩
    refine all_slots_filled (by omega) hlen ?_ ⟨c0, hseed⟩ ⟨spai, hown⟩ ?_
    · intro j hj
      have hj01 : j = 0 ∨ j = 1 := by omega
      rcases hj01 with rfl | rfl
      · exact ⟨_, hq0⟩
      · exact ⟨_, hq1⟩
    · intro j hj hne
      obtain ⟨pub, s, r, r1, _, hs, _⟩ := hothers j hj hne
      exact ⟨s, hs⟩

/-! ## Tags of different signers -/

/-- In a group of prime exponent `N` a non-zero element is killed only by the
multiples of `N`. -/
theorem dvd_of_zsmul_eq_zero {Pt : Type} [AddCommGroup Pt] {N : Nat} (hN : Nat.Prime N)
    {p : Pt} (hp : p ≠ 0) (hord : N • p = 0) {a : Int} (ha : a • p = 0) : (N : Int) ∣ a := by
  by_contra hnd
  have hcop : IsCoprime a (N : Int) := by
    rw [isCoprime_comm, Int.isCoprime_iff_gcd_eq_one, Int.gcd_eq_natAbs, Int.natAbs_ofNat,
      ← Nat.coprime_iff_gcd_eq_one, hN.coprime_iff_not_dvd]
    intro hdvd
    apply hnd
    rw [← Int.natAbs_dvd_natAbs, Int.natAbs_ofNat]
    exact hdvd
  obtain ⟨u, v, huv⟩ := hcop
  apply hp
  have h1 : (u * a + v * (N : Int)) • p = 0 := by
    rw [add_smul, mul_smul, mul_smul, ha, natCast_zsmul, hord, smul_zero, smul_zero, add_zero]
  rw [huv, one_smul] at h1
  exact h1

/-- `Linkable` returns false on signatures whose tag pairs differ. -/
theorem not_Linkable_of_tags {sig1 sig2 : List (Option Int)} {a1 b1 a2 b2 : Int}
    (h10 : sig1[0]? = some (some a1)) (h11 : sig1[1]? = some (some b1))
    (h20 : sig2[0]? = some (some a2)) (h21 : sig2[1]? = some (some b2))
    (hne : ¬ (a1 = a2 ∧ b1 = b2)) :
    Linkable sig1 sig2 = .ok false := by
  have i10 := index_eq_ok.mpr h10
  have i11 := index_eq_ok.mpr h11
  have i20 := index_eq_ok.mpr h20
  have i21 := index_eq_ok.mpr h21
  have hcmp : ∀ x y : Int, (if x < y then (-1 : Int) else if x = y then 0 else 1) = 0 ↔ x = y := by
    intro x y
    by_cases hlt : x < y
    · simp only [hlt, if_true]
      constructor
      · intro h; omega
      · intro h; omega
    · by_cases he : x = y
      · simp [he]
      · simp [hlt, he]
  have hcmp2 : ∀ x y : Int, x ≠ y → ¬ (if x < y then (-1 : Int) else 1) = 0 := by
    intro x y _
    split <;> simp
  by_cases ha : a1 = a2
  · have hb : b1 ≠ b2 := fun hb => hne ⟨ha, hb⟩
    simp [Linkable, i10, i11, i20, i21, Cmp, bind, Except.bind, pure, Except.pure, hcmp, ha, hb,
      hcmp2 b1 b2 hb]
  · simp [Linkable, i10, i11, i20, i21, Cmp, bind, Except.bind, pure, Except.pure, hcmp, ha,
      hcmp2 a1 a2 ha]

/-- Tags computed by two different scalars from a ring whose sum is not the
identity differ. -/
theorem tags_differ (E : Env) {Pt : Type} [AddCommGroup Pt] (enc : Pt → Int × Int) (g : Pt)
    (cv : CurveRef) (D1 D2 : Int) (pubs : List PublicKey)
    (L : (E.curve cv).Lawful enc g) (henc : Function.Injective enc)
    (hcurve : ∀ pub, pub ∈ pubs → pub.Curve = cv)
    (hvalid : ∀ pub, pub ∈ pubs → ∃ p, enc p = (pub.X, pub.Y))
    (hsum : publicKeysToPoint E pubs ≠ .ok (enc 0))
    (h11 : 1 ≤ D1) (h12 : D1 ≤ ((E.curve cv).N : Int) - 1)
    (h21 : 1 ≤ D2) (h22 : D2 ≤ ((E.curve cv).N : Int) - 1) (hne : D1 ≠ D2)
    {sig1 sig2 : List (Option Int)}
    (t1 : ∃ rx ry, publicKeysToPoint E pubs = .ok (rx, ry) ∧
      sig1[0]? = some (some ((E.curve cv).ScalarMult rx ry (Bytes D1)).1) ∧
      sig1[1]? = some (some ((E.curve cv).ScalarMult rx ry (Bytes D1)).2))
    (t2 : ∃ rx ry, publicKeysToPoint E pubs = .ok (rx, ry) ∧
      sig2[0]? = some (some ((E.curve cv).ScalarMult rx ry (Bytes D2)).1) ∧
      sig2[1]? = some (some ((E.curve cv).ScalarMult rx ry (Bytes D2)).2)) :
    ¬ (sig1[0]? = sig2[0]? ∧ sig1[1]? = sig2[1]?) ∧ Linkable sig1 sig2 = .ok false := by
  obtain ⟨rx, ry, hR1, h10, h1b⟩ := t1
  obtain ⟨rx2, ry2, hR2, h20, h2b⟩ := t2
  rw [hR1] at hR2
  simp only [Except.ok.injEq, Prod.mk.injEq] at hR2
  obtain ⟨rfl, rfl⟩ := hR2
  have hne0 : pubs ≠ [] := by
    intro h0
    rw [h0] at hR1
    simp [publicKeysToPoint] at hR1
  obtain ⟨R, hR⟩ := publicKeysToPoint_valid E cv L pubs hne0 hcurve hvalid
  have hR0 : R ≠ 0 := by
    intro h0
    rw [h0] at hR
    exact hsum hR
  rw [hR1] at hR
  simp only [Except.ok.injEq] at hR
  obtain ⟨rfl, rfl⟩ : rx = (enc R).1 ∧ ry = (enc R).2 := by
    rw [← hR]
    exact ⟨rfl, rfl⟩
  have key : ¬ (((E.curve cv).ScalarMult (enc R).1 (enc R).2 (Bytes D1)).1
        = ((E.curve cv).ScalarMult (enc R).1 (enc R).2 (Bytes D2)).1
      ∧ ((E.curve cv).ScalarMult (enc R).1 (enc R).2 (Bytes D1)).2
        = ((E.curve cv).ScalarMult (enc R).1 (enc R).2 (Bytes D2)).2) := by
    rintro ⟨e1, e2⟩
    have e : enc (SetBytes (Bytes D1) • R) = enc (SetBytes (Bytes D2) • R) := by
      rw [← L.smul, ← L.smul]
      exact Prod.ext e1 e2
    have e3 := henc e
    simp only [SetBytes_Bytes] at e3
    rw [natAbs_smul R (by omega), natAbs_smul R (by omega)] at e3
    have e4 : (D1 - D2) • R = 0 := by
      rw [sub_smul, e3, sub_self]
    have hdvd := dvd_of_zsmul_eq_zero L.prime hR0 (L.order R) e4
    obtain ⟨t, ht⟩ := hdvd
    have hN2 : 2 ≤ (E.curve cv).N := L.prime.two_le
    have ht0 : t = 0 := by
      by_contra ht0
      have : t ≤ -1 ∨ 1 ≤ t := by omega
      rcases this with h | h
      · nlinarith
      · nlinarith
    rw [ht0, mul_zero] at ht
    omega
  refine ⟨?_, not_Linkable_of_tags h10 h1b h20 h2b key⟩
  rintro ⟨e1, e2⟩
  rw [h10, h20] at e1
  rw [h1b, h2b] at e2
  simp only [Option.some.injEq] at e1 e2
  exact key ⟨e1, e2⟩

theorem getPai_curve {priv : PrivateKey} {pubs : List PublicKey} {cv : CurveRef}
    (h : ∃ pai, getPai priv pubs = .ok pai) (hcurve : ∀ pub, pub ∈ pubs → pub.Curve = cv) :
    priv.Curve = cv := by
  obtain ⟨pai, hpai⟩ := h
  obtain ⟨_, _, pub, hp, heq⟩ := getPai_spec priv pubs pai hpai
  have hpe := PublicKey.Equal_eq heq
  rw [← hcurve pub (List.getElem?_mem hp), ← hpe]

theorem BaseLinkableSigner_Sign_getPai {E : Env} {signer : BaseLinkableSigner} {rand : Reader}
    {strategy : ParticipantRandInt} {msg : List Nat} {sig : List (Option Int)}
    (h : BaseLinkableSigner.Sign E signer rand strategy msg = .ok sig) :
    ∃ pai, getPai signer.privateKey signer.publicKeys = .ok pai := by
  obtain ⟨pai, rx, ry, kPai, rand1, cinit, c0, cpai, spai, hpai, _⟩ :=
    BaseLinkableSigner_Sign_eq_ok h
  exact ⟨pai, hpai⟩

theorem LinkableSignerVariant1_Sign_getPai {E : Env} {signer : LinkableSignerVariant1}
    {rand : Reader} {strategy : ParticipantRandInt} {msg : List Nat}
    {sig : List (Option Int)}
    (h : LinkableSignerVariant1.Sign E signer rand strategy msg = .ok sig) :
    ∃ pai, getPai signer.privateKey signer.publicKeys = .ok pai := by
  obtain ⟨pai, rx, ry, QpaiX, QpaiY, tx, ty, kPai, rand1, cinit, c0, cpai, spai, hpai, _⟩ :=
    LinkableSignerVariant1_Sign_eq_ok h
  exact ⟨pai, hpai⟩

theorem LinkableSignerVariant2_Sign_getPai {E : Env} {signer : LinkableSignerVariant2}
    {rand : Reader} {strategy : ParticipantRandInt} {msg : List Nat}
    {sig : List (Option Int)}
    (h : LinkableSignerVariant2.Sign E signer rand strategy msg = .ok sig) :
    ∃ pai, getPai signer.privateKey signer.publicKeys = .ok pai := by
  obtain ⟨pai, rx, ry, QpaiX, QpaiY, tx, ty, kPai, rand1, cinit, c0, cpai, spai, hpai, _⟩ :=
    LinkableSignerVariant2_Sign_eq_ok h
  exact ⟨pai, hpai⟩

/-- C13, as the code has it.  On a curve object that computes in a group of
prime order `N` and gives different points different coordinates, for a ring
of points of that group carrying one curve **whose sum is not the point at
infinity**, and two private keys `D1 ≠ D2` in `[1, N-1]`: in each linkable
scheme the signatures of the two keys over that ring carry different tags and
`Linkable` returns false.  (The tag is `D` times the ring sum; a ring that
sums to the point at infinity gives every signer the same tag.) -/
theorem distinct_signers_not_linked (E : Env) {Pt : Type} [AddCommGroup Pt]
    (enc : Pt → Int × Int) (g : Pt) (cv : CurveRef) (priv1 priv2 : PrivateKey)
    (pubs : List PublicKey)
    (L : (E.curve cv).Lawful enc g) (henc : Function.Injective enc)
    (hcurve : ∀ pub, pub ∈ pubs → pub.Curve = cv)
    (hvalid : ∀ pub, pub ∈ pubs → ∃ p, enc p = (pub.X, pub.Y))
    (hsum : publicKeysToPoint E pubs ≠ .ok (enc 0))
    (h11 : 1 ≤ priv1.D) (h12 : priv1.D ≤ ((E.curve cv).N : Int) - 1)
    (h21 : 1 ≤ priv2.D) (h22 : priv2.D ≤ ((E.curve cv).N : Int) - 1)
    (hne : priv1.D ≠ priv2.D) :
    (∀ (rand1 rand2 : Reader) (strategy1 strategy2 : ParticipantRandInt) (msg1 msg2 : List Nat)
        (sig1 sig2 : List (Option Int)),
      BaseLinkableSigner.Sign E { publicKeys := pubs, privateKey := priv1 } rand1 strategy1 msg1 = .ok sig1 →
      BaseLinkableSigner.Sign E { publicKeys := pubs, privateKey := priv2 } rand2 strategy2 msg2 = .ok sig2 →
      ¬ (sig1[0]? = sig2[0]? ∧ sig1[1]? = sig2[1]?) ∧ Linkable sig1 sig2 = .ok false) ∧
    (∀ (rand1 rand2 : Reader) (strategy1 strategy2 : ParticipantRandInt) (msg1 msg2 : List Nat)
        (sig1 sig2 : List (Option Int)),
      LinkableSignerVariant1.Sign E { publicKeys := pubs, privateKey := priv1 } rand1 strategy1 msg1 = .ok sig1 →
      LinkableSignerVariant1.Sign E { publicKeys := pubs, privateKey := priv2 } rand2 strategy2 msg2 = .ok sig2 →
      ¬ (sig1[0]? = sig2[0]? ∧ sig1[1]? = sig2[1]?) ∧ Linkable sig1 sig2 = .ok false) ∧
    (∀ (rand1 rand2 : Reader) (strategy1 strategy2 : ParticipantRandInt) (msg1 msg2 : List Nat)
        (sig1 sig2 : List (Option Int)),
      LinkableSignerVariant2.Sign E { publicKeys := pubs, privateKey := priv1 } rand1 strategy1 msg1 = .ok sig1 →
      LinkableSignerVariant2.Sign E { publicKeys := pubs, privateKey := priv2 } rand2 strategy2 msg2 = .ok sig2 →
      ¬ (sig1[0]? = sig2[0]? ∧ sig1[1]? = sig2[1]?) ∧ Linkable sig1 sig2 = .ok false) := by
  refine ⟨?_, ?_, ?_⟩
  · intro rand1 rand2 strategy1 strategy2 msg1 msg2 sig1 sig2 hs1 hs2
    have hc1 : priv1.Curve = cv := getPai_curve (BaseLinkableSigner_Sign_getPai hs1) hcurve
    have hc2 : priv2.Curve = cv := getPai_curve (BaseLinkableSigner_Sign_getPai hs2) hcurve
    have t1 := BaseLinkableSigner_Sign_tag hs1
    have t2 := BaseLinkableSigner_Sign_tag hs2
    simp only [hc1] at t1
    simp only [hc2] at t2
    exact tags_differ E enc g cv priv1.D priv2.D pubs L henc hcurve hvalid hsum h11 h12 h21 h22
      hne t1 t2
  · intro rand1 rand2 strategy1 strategy2 msg1 msg2 sig1 sig2 hs1 hs2
    have hc1 : priv1.Curve = cv := getPai_curve (LinkableSignerVariant1_Sign_getPai hs1) hcurve
    have hc2 : priv2.Curve = cv := getPai_curve (LinkableSignerVariant1_Sign_getPai hs2) hcurve
    have t1 := LinkableSignerVariant1_Sign_tag hs1
    have t2 := LinkableSignerVariant1_Sign_tag hs2
    simp only [hc1] at t1
    simp only [hc2] at t2
    exact tags_differ E enc g cv priv1.D priv2.D pubs L henc hcurve hvalid hsum h11 h12 h21 h22
      hne t1 t2
  · intro rand1 rand2 strategy1 strategy2 msg1 msg2 sig1 sig2 hs1 hs2
    have hc1 : priv1.Curve = cv := getPai_curve (LinkableSignerVariant2_Sign_getPai hs1) hcurve
    have hc2 : priv2.Curve = cv := getPai_curve (LinkableSignerVariant2_Sign_getPai hs2) hcurve
    have t1 := LinkableSignerVariant2_Sign_tag hs1
    have t2 := LinkableSignerVariant2_Sign_tag hs2
    simp only [hc1] at t1
    simp only [hc2] at t2
    exact tags_differ E enc g cv priv1.D priv2.D pubs L henc hcurve hvalid hsum h11 h12 h21 h22
      hne t1 t2

/-! ## The signer's index -/

theorem PublicKey.Equal_self (pub : PublicKey) : pub.Equal pub = true := by
  simp [PublicKey.Equal]

theorem getPaiLoop_found (priv : PrivateKey) :
    ∀ (l : List PublicKey) (start i : Nat) (pub : PublicKey),
      l[i]? = some pub → pub.Curve = priv.Curve → priv.toPublicKey.Equal pub = true →
      (∀ j, j < i → ∀ q, l[j]? = some q →
        q.Curve = priv.Curve ∧ priv.toPublicKey.Equal q = false) →
      getPaiLoop priv l start = .ok ((start + i : Nat) : Int) := by
  intro l
  induction l with
  | nil => intro start i pub h; simp at h
  | cons q rest ih =>
    intro start i pub h hc heq hbefore
    unfold getPaiLoop
    cases i with
    | zero =>
      simp only [List.getElem?_cons_zero, Option.some.injEq] at h
      subst h
      simp [hc, heq]
    | succ i =>
      obtain ⟨hq1, hq2⟩ := hbefore 0 (by omega) q (by simp)
      simp only [List.getElem?_cons_succ] at h
      simp only [hq1, ne_eq, not_true_eq_false, if_false, hq2, Bool.false_eq_true]
      rw [ih (start + 1) i pub h hc heq
        (fun j hj r hr => hbefore (j + 1) (by omega) r (by simpa using hr))]
      congr 2
      omega

theorem getPaiLoop_foreign (priv : PrivateKey) :
    ∀ (l : List PublicKey) (start i : Nat) (pub : PublicKey),
      l[i]? = some pub → pub.Curve ≠ priv.Curve →
      (∀ j, j < i → ∀ q, l[j]? = some q →
        q.Curve = priv.Curve ∧ priv.toPublicKey.Equal q = false) →
      getPaiLoop priv l start = .error (.error "contains non SM2 public key") := by
  intro l
  induction l with
  | nil => intro start i pub h; simp at h
  | cons q rest ih =>
    intro start i pub h hc hbefore
    unfold getPaiLoop
    cases i with
    | zero =>
      simp only [List.getElem?_cons_zero, Option.some.injEq] at h
      subst h
      simp [hc]
    | succ i =>
      obtain ⟨hq1, hq2⟩ := hbefore 0 (by omega) q (by simp)
      simp only [List.getElem?_cons_succ] at h
      simp only [hq1, ne_eq, not_true_eq_false, if_false, hq2, Bool.false_eq_true]
      exact ih (start + 1) i pub h hc
        (fun j hj r hr => hbefore (j + 1) (by omega) r (by simpa using hr))

theorem getPaiLoop_absent (priv : PrivateKey) :
    ∀ (l : List PublicKey) (start : Nat),
      (∀ q, q ∈ l → q.Curve = priv.Curve ∧ priv.toPublicKey.Equal q = false) →
      getPaiLoop priv l start = .ok (-1) := by
  intro l
  induction l with
  | nil => intro start _; rfl
  | cons q rest ih =>
    intro start h
    obtain ⟨hq1, hq2⟩ := h q (List.mem_cons_self _ _)
    unfold getPaiLoop
    simp only [hq1, ne_eq, not_true_eq_false, if_false, hq2, Bool.false_eq_true]
    exact ih (start + 1) (fun r hr => h r (List.mem_cons_of_mem _ hr))

/-- C15 (signer index lookup).  `getPai` fails on every ring of fewer than two
keys; on a ring of at least two keys, all on the signer's curve, it fails when
no key is `Equal` to the signer's public key and otherwise returns the least
index holding such a key, also when the key occurs several times. -/
theorem getPai_least_index (priv : PrivateKey) (pubs : List PublicKey) :
    (pubs.length < 2 →
      getPai priv pubs = .error (.error "require multiple SM2 public keys")) ∧
    (2 ≤ pubs.length → (∀ pub, pub ∈ pubs → pub.Curve = priv.Curve) →
      (∀ pub, pub ∈ pubs → priv.toPublicKey.Equal pub = false) →
      getPai priv pubs
        = .error (.error "does not contain public key of the private key")) ∧
    (2 ≤ pubs.length → (∀ pub, pub ∈ pubs → pub.Curve = priv.Curve) →
      ∀ (i : Nat) (pub : PublicKey), pubs[i]? = some pub →
        priv.toPublicKey.Equal pub = true →
        (∀ j, j < i → ∀ q, pubs[j]? = some q → priv.toPublicKey.Equal q = false) →
        getPai priv pubs = .ok i) := by
  refine ⟨?_, ?_, ?_⟩
  · intro h
    unfold getPai
    simp only [h, if_true]
  · intro h hcurve hnone
    unfold getPai
    simp only [show ¬ pubs.length < 2 by omega, if_false]
    rw [getPaiLoop_absent priv pubs 0 (fun q hq => ⟨hcurve q hq, hnone q hq⟩)]
    simp
  · intro h hcurve i pub hp heq hbefore
    unfold getPai
    simp only [show ¬ pubs.length < 2 by omega, if_false]
    rw [getPaiLoop_found priv pubs 0 i pub hp (hcurve pub (List.getElem?_mem hp)) heq
      (fun j hj q hq => ⟨hcurve q (List.getElem?_mem hq), hbefore j hj q hq⟩)]
    simp

/-- A key on a foreign curve in front of the first key `Equal` to the signer's
makes `getPai` fail. -/
theorem getPai_foreign_in_front (priv : PrivateKey) (pubs : List PublicKey) (i : Nat)
    (pub : PublicKey) (h : 2 ≤ pubs.length) (hp : pubs[i]? = some pub)
    (hc : pub.Curve ≠ priv.Curve)
    (hbefore : ∀ j, j < i → ∀ q, pubs[j]? = some q →
      q.Curve = priv.Curve ∧ priv.toPublicKey.Equal q = false) :
    getPai priv pubs = .error (.error "contains non SM2 public key") := by
  unfold getPai
  simp only [show ¬ pubs.length < 2 by omega, if_false]
  rw [getPaiLoop_foreign priv pubs 0 i pub hp hc hbefore]

/-! ## `hashToInt` -/

theorem foldl_SetBytes_eq (l : List Nat) :
    ∀ acc : Nat, l.foldl (fun acc x => acc * 256 + x % 256) acc
      = acc * 256 ^ l.length + bigEndian l := by
  induction l with
  | nil => intro acc; simp [bigEndian]
  | cons x l ih =>
    intro acc
    simp only [List.foldl_cons, List.length_cons, bigEndian]
    rw [ih]
    ring

/-- `SetBytes` reads a byte string big-endian. -/
theorem SetBytes_eq_bigEndian (l : List Nat) : SetBytes l = bigEndian l := by
  have := foldl_SetBytes_eq l 0
  simpa [SetBytes] using this

theorem bitLenAux_spec :
    ∀ (fuel n : Nat), n ≤ fuel → 0 < n →
      2 ^ (bitLenAux fuel n - 1) ≤ n ∧ n < 2 ^ bitLenAux fuel n := by
  intro fuel
  induction fuel with
  | zero => intro n h1 h2; omega
  | succ fuel ih =>
    intro n hle hpos
    unfold bitLenAux
    simp only [show n ≠ 0 by omega, if_false, Nat.add_sub_cancel]
    by_cases h1 : n / 2 = 0
    · have hn : n = 1 := by omega
      subst hn
      cases fuel <;> simp [bitLenAux]
    · obtain ⟨ha, hb⟩ := ih (n / 2) (by omega) (by omega)
      have hpos2 : 0 < bitLenAux fuel (n / 2) := by
        by_contra h0
        have : bitLenAux fuel (n / 2) = 0 := by omega
        rw [this] at hb
        omega
      constructor
      · have e : bitLenAux fuel (n / 2) = (bitLenAux fuel (n / 2) - 1) + 1 := by omega
        rw [e, pow_succ]
        omega
      · rw [pow_succ]
        omega

/-- `BitLen n` is the number of binary digits of `n`. -/
theorem BitLen_spec (n : Nat) (h : 0 < n) : 2 ^ (BitLen n - 1) ≤ n ∧ n < 2 ^ BitLen n :=
  bitLenAux_spec n n (Nat.le_refl n) h

theorem bigEndian_replicate_255 (B : Nat) : bigEndian (List.replicate B 255) + 1 = 256 ^ B := by
  induction B with
  | zero => simp [bigEndian]
  | succ B ih =>
    simp only [List.replicate_succ, bigEndian, List.length_replicate]
    have : 255 % 256 = 255 := by norm_num
    rw [this, pow_succ]
    omega

/-- C19 (`hashToInt` truncation).  For every byte string `h` and every order
`N`, `hashToInt` returns the big-endian value of the first
`min(len(h), ⌈bitlen(N)/8⌉)` bytes of `h`, shifted right by the excess
`max(0, 8·len(h') − bitlen(N))`; the result is non-negative and below
`2^bitlen(N)`, and it is not reduced modulo `N`: for `N > 0` the digest of
`⌈bitlen(N)/8⌉` bytes `0xFF` gives `2^bitlen(N) − 1 ≥ N`. -/
theorem hashToInt_truncation (h : List Nat) (C : Curve) :
    hashToInt h C = hashToIntSpec h C.N ∧
    0 ≤ hashToInt h C ∧ hashToInt h C < 2 ^ BitLen C.N ∧
    (0 < C.N →
      hashToInt (List.replicate ((BitLen C.N + 7) / 8) 255) C = 2 ^ BitLen C.N - 1 ∧
      (C.N : Int) ≤ hashToInt (List.replicate ((BitLen C.N + 7) / 8) 255) C) := by
  refine ⟨?_, (hashToInt_bound h C).1, (hashToInt_bound h C).2, ?_⟩
  · unfold hashToInt hashToIntSpec
    simp only
    have e : (if h.length > (BitLen C.N + 7) / 8 then h.take ((BitLen C.N + 7) / 8) else h)
        = h.take (min h.length ((BitLen C.N + 7) / 8)) := by
      split
      · rename_i hgt
        rw [Nat.min_eq_right (by omega)]
      · rename_i hle
        rw [Nat.min_eq_left (by omega), List.take_length]
    rw [e]
    generalize h.take (min h.length ((BitLen C.N + 7) / 8)) = h1
    have e2 : (max 0 ((8 * h1.length : Int) - (BitLen C.N : Int))).toNat
        = h1.length * 8 - BitLen C.N := by omega
    rw [e2, SetBytes_eq_bigEndian]
    split
    · rfl
    · rename_i h0
      have : h1.length * 8 - BitLen C.N = 0 := by omega
      rw [this, Nat.shiftRight_zero]
  · intro hN
    have hbl := BitLen_spec C.N hN
    have key : hashToInt (List.replicate ((BitLen C.N + 7) / 8) 255) C
        = 2 ^ BitLen C.N - 1 := by
      unfold hashToInt
      simp only [List.length_replicate, gt_iff_lt, lt_self_iff_false, if_false,
        SetBytes_eq_bigEndian]
      have hB := bigEndian_replicate_255 ((BitLen C.N + 7) / 8)
      have h256 : (256 : Nat) ^ ((BitLen C.N + 7) / 8)
          = 2 ^ BitLen C.N * 2 ^ ((BitLen C.N + 7) / 8 * 8 - BitLen C.N) := by
        rw [show (256 : Nat) = 2 ^ 8 by norm_num, ← pow_mul, ← pow_add]
        congr 1
        omega
      have hpos : 0 < 2 ^ ((BitLen C.N + 7) / 8 * 8 - BitLen C.N) := by positivity
      have hpos2 : 0 < 2 ^ BitLen C.N := by positivity
      have hdiv : bigEndian (List.replicate ((BitLen C.N + 7) / 8) 255)
          / 2 ^ ((BitLen C.N + 7) / 8 * 8 - BitLen C.N) = 2 ^ BitLen C.N - 1 := by
        apply Nat.div_eq_of_lt_le
        · rw [Nat.sub_mul, one_mul]
          have : 2 ^ ((BitLen C.N + 7) / 8 * 8 - BitLen C.N)
              ≤ 2 ^ BitLen C.N * 2 ^ ((BitLen C.N + 7) / 8 * 8 - BitLen C.N) :=
            Nat.le_mul_of_pos_left _ hpos2
          omega
        · rw [Nat.sub_add_cancel hpos2]
          omega
      split
      · rw [Nat.shiftRight_eq_div_pow, hdiv]
        push_cast [Nat.cast_sub hpos2]
        rfl
      · rename_i h0
        have e0 : (BitLen C.N + 7) / 8 * 8 - BitLen C.N = 0 := by omega
        rw [e0, pow_zero, Nat.div_one] at hdiv
        rw [hdiv]
        push_cast [Nat.cast_sub hpos2]
        rfl
    refine ⟨key, ?_⟩
    rw [key]
    have : (C.N : Int) < 2 ^ BitLen C.N := by exact_mod_cast hbl.2
    omega

/-! ## `randFieldElement` -/

theorem block_zero (rand : Reader) (B : Nat) :
    block rand B 0 = (rand.take B).map (fun x => x % 256) := by
  simp [block]

theorem block_drop (rand : Reader) (B j : Nat) :
    block (rand.drop B) B j = block rand B (j + 1) := by
  unfold block
  rw [List.drop_drop]
  congr 3
  ring

/-- One turn of the loop of `randFieldElement`, in terms of blocks and
candidates. -/
theorem randFieldElementLoop_succ (c : Curve) (fuel : Nat) (rand : Reader) :
    randFieldElementLoop c (fuel + 1) rand
      = if rand.length < (BitLen c.N + 7) / 8 then
          .error (.error (if rand.length = 0 then "EOF" else "unexpected EOF"))
        else if candidate c.N (block rand ((BitLen c.N + 7) / 8) 0) ≠ 0
            ∧ candidate c.N (block rand ((BitLen c.N + 7) / 8) 0) < c.N then
          .ok ((candidate c.N (block rand ((BitLen c.N + 7) / 8) 0) : Int),
            rand.drop ((BitLen c.N + 7) / 8))
        else randFieldElementLoop c fuel (rand.drop ((BitLen c.N + 7) / 8)) := by
  rw [randFieldElementLoop]
  by_cases hlt : rand.length < (BitLen c.N + 7) / 8
  · simp only [ReadFull, hlt, if_true]
  · simp only [ReadFull, hlt, if_false, block_zero]
    generalize List.map (fun x => x % 256) (List.take ((BitLen c.N + 7) / 8) rand) = b
    cases b with
    | nil => simp [candidate, shiftFirst, SetBytes_eq_bigEndian]
    | cons b0 bs =>
      by_cases he : (b0 :: bs).length * 8 - BitLen c.N > 0
      · simp only [he, if_true, candidate, shiftFirst, SetBytes_eq_bigEndian]
      · have e0 : (b0 :: bs).length * 8 - BitLen c.N = 0 := by omega
        simp only [candidate, shiftFirst, SetBytes_eq_bigEndian, e0, Nat.shiftRight_zero,
          gt_iff_lt, lt_self_iff_false, if_false]

/-- The loop of `randFieldElement` with enough fuel, block by block: it
returns the candidate of the first block that is accepted, and fails with the
read error when every complete block is rejected: `EOF` when the stream ends
on a block boundary, `unexpected EOF` when it ends inside a block. -/
theorem randFieldElementLoop_blocks (c : Curve) (hB : 1 ≤ (BitLen c.N + 7) / 8) :
    ∀ (fuel : Nat) (rand : Reader), rand.length < fuel →
      (∀ (k : Int) (rand1 : Reader), randFieldElementLoop c fuel rand = .ok (k, rand1) ↔
        ∃ m, (m + 1) * ((BitLen c.N + 7) / 8) ≤ rand.length ∧
          k = (candidate c.N (block rand ((BitLen c.N + 7) / 8) m) : Int) ∧
          (candidate c.N (block rand ((BitLen c.N + 7) / 8) m) ≠ 0 ∧
            candidate c.N (block rand ((BitLen c.N + 7) / 8) m) < c.N) ∧
          (∀ j, j < m → ¬ (candidate c.N (block rand ((BitLen c.N + 7) / 8) j) ≠ 0 ∧
            candidate c.N (block rand ((BitLen c.N + 7) / 8) j) < c.N)) ∧
          rand1 = rand.drop ((m + 1) * ((BitLen c.N + 7) / 8))) ∧
      (∀ e : Fault, randFieldElementLoop c fuel rand = .error e ↔
        e = .error (if rand.length % ((BitLen c.N + 7) / 8) = 0 then "EOF"
            else "unexpected EOF") ∧
          ∀ j, (j + 1) * ((BitLen c.N + 7) / 8) ≤ rand.length →
            ¬ (candidate c.N (block rand ((BitLen c.N + 7) / 8) j) ≠ 0 ∧
              candidate c.N (block rand ((BitLen c.N + 7) / 8) j) < c.N)) := by
  intro fuel
  induction fuel with
  | zero => intro rand h; omega
  | succ fuel ih =>
    intro rand hlen
    rw [randFieldElementLoop_succ]
    generalize hBdef : (BitLen c.N + 7) / 8 = B at *
    by_cases hlt : rand.length < B
    · rw [if_pos hlt]
      have hno : ∀ j, ¬ (j + 1) * B ≤ rand.length := by
        intro j hj
        have : B ≤ (j + 1) * B := Nat.le_mul_of_pos_left B (by omega)
        omega
      refine ⟨?_, ?_⟩
      · intro k rand1
        constructor
        · intro h; simp at h
        · rintro ⟨m, hm, _⟩
          exact absurd hm (hno m)
      · intro e
        rw [Nat.mod_eq_of_lt hlt]
        constructor
        · intro h
          simp only [Except.error.injEq] at h
          exact ⟨h.symm, fun j hj => absurd hj (hno j)⟩
        · rintro ⟨rfl, _⟩
          rfl
    · rw [if_neg hlt]
      by_cases hacc : candidate c.N (block rand B 0) ≠ 0 ∧ candidate c.N (block rand B 0) < c.N
      · rw [if_pos hacc]
        refine ⟨?_, ?_⟩
        · intro k rand1
          constructor
          · intro h
            simp only [Except.ok.injEq, Prod.mk.injEq] at h
            obtain ⟨rfl, rfl⟩ := h
            exact ⟨0, by omega, rfl, hacc, fun j hj => by omega, by simp⟩
          · rintro ⟨m, hm, hk, hma, hbefore, hr⟩
            have hm0 : m = 0 := by
              by_contra h0
              exact hbefore 0 (by omega) hacc
            subst hm0
            rw [hk, hr]
            simp
        · intro e
          constructor
          · intro h; simp at h
          · rintro ⟨_, hall⟩
            exact absurd hacc (hall 0 (by omega))
      · rw [if_neg hacc]
        have hlen2 : (rand.drop B).length < fuel := by
          rw [List.length_drop]
          omega
        obtain ⟨ih1, ih2⟩ := ih (rand.drop B) hlen2
        have hshift : ∀ m, (m + 1) * B ≤ (rand.drop B).length ↔ (m + 1 + 1) * B ≤ rand.length := by
          intro m
          rw [List.length_drop]
          have : (m + 1 + 1) * B = (m + 1) * B + B := by ring
          omega
        refine ⟨?_, ?_⟩
        · intro k rand1
          rw [ih1]
          constructor
          · rintro ⟨m, hm, hk, hma, hbefore, hr⟩
            refine ⟨m + 1, (hshift m).mp hm, ?_, ?_, ?_, ?_⟩
            · rw [hk, block_drop]
            · rw [block_drop] at hma
              exact hma
            · intro j hj
              cases j with
              | zero => exact hacc
              | succ j =>
                have := hbefore j (by omega)
                rw [block_drop] at this
                exact this
            · rw [hr, List.drop_drop]
              congr 1
              ring
          · rintro ⟨m, hm, hk, hma, hbefore, hr⟩
            cases m with
            | zero => exact absurd hma hacc
            | succ m =>
              refine ⟨m, (hshift m).mpr hm, ?_, ?_, ?_, ?_⟩
              · rw [hk, block_drop]
              · rw [block_drop]
                exact hma
              · intro j hj
                rw [block_drop]
                exact hbefore (j + 1) (by omega)
              · rw [hr, List.drop_drop]
                congr 1
                ring
        · intro e
          have hmod : (rand.drop B).length % B = rand.length % B := by
            rw [List.length_drop]
            exact (Nat.mod_eq_sub_mod (by omega)).symm
          rw [ih2, hmod]
          constructor
          · rintro ⟨he, hall⟩
            refine ⟨he, ?_⟩
            intro j hj
            cases j with
            | zero => exact hacc
            | succ j =>
              have := hall j ((hshift j).mpr hj)
              rw [block_drop] at this
              exact this
          · rintro ⟨he, hall⟩
            refine ⟨he, ?_⟩
            intro j hj
            rw [block_drop]
            exact hall (j + 1) ((hshift j).mp hj)

/-- C20: `randFieldElement` over an order `N ≥ 2` and any (finite) random
stream.  With `B = ⌈bitlen(N)/8⌉`, it returns `(k, rest)` exactly when some
complete block `m` of `B` bytes has a candidate in `[1, N-1]`, every earlier
block was rejected, `k` is the candidate of block `m` and `rest` is the stream
behind block `m`; a returned `k` satisfies `1 ≤ k ≤ N-1`; and it fails exactly
when every complete block of the stream is rejected, so that the read of the
next block fails, with the error of that read: `EOF` when the stream ends on a
block boundary (no byte is left), `unexpected EOF` when it ends inside a
block.  It never runs out of fuel.  The candidate of a block is the big-endian value of the block
after its first byte was shifted right by the excess bits. -/
theorem randFieldElement_first_accepted (c : Curve) (hN : 2 ≤ c.N) (rand : Reader) :
    (∀ (k : Int) (rand1 : Reader), randFieldElement c rand = .ok (k, rand1) ↔
      ∃ m, (m + 1) * ((BitLen c.N + 7) / 8) ≤ rand.length ∧
        k = (candidate c.N (block rand ((BitLen c.N + 7) / 8) m) : Int) ∧
        (candidate c.N (block rand ((BitLen c.N + 7) / 8) m) ≠ 0 ∧
          candidate c.N (block rand ((BitLen c.N + 7) / 8) m) < c.N) ∧
        (∀ j, j < m → ¬ (candidate c.N (block rand ((BitLen c.N + 7) / 8) j) ≠ 0 ∧
          candidate c.N (block rand ((BitLen c.N + 7) / 8) j) < c.N)) ∧
        rand1 = rand.drop ((m + 1) * ((BitLen c.N + 7) / 8))) ∧
    (∀ (k : Int) (rand1 : Reader), randFieldElement c rand = .ok (k, rand1) →
      1 ≤ k ∧ k ≤ (c.N : Int) - 1) ∧
    (∀ e : Fault, randFieldElement c rand = .error e ↔
      e = .error (if rand.length % ((BitLen c.N + 7) / 8) = 0 then "EOF"
          else "unexpected EOF") ∧
        ∀ j, (j + 1) * ((BitLen c.N + 7) / 8) ≤ rand.length →
          ¬ (candidate c.N (block rand ((BitLen c.N + 7) / 8) j) ≠ 0 ∧
            candidate c.N (block rand ((BitLen c.N + 7) / 8) j) < c.N)) := by
  have hB : 1 ≤ (BitLen c.N + 7) / 8 := by
    have := BitLen_pos (show 0 < c.N by omega)
    omega
  obtain ⟨h1, h2⟩ := randFieldElementLoop_blocks c hB (rand.length + 1) rand (Nat.lt_succ_self _)
  refine ⟨h1, ?_, h2⟩
  intro k rand1 h
  have := randFieldElement_spec c rand k rand1 h
  omega

/-! ## The SM2-style strategy -/

/-- The loop of `SM2ParticipantRandInt` returns `r + k` for the first field
element `k` drawn from the stream that passes the test. -/
theorem SM2ParticipantRandIntLoop_first (c : Curve) (e : Int) :
    ∀ (fuel : Nat) (rand : Reader) (s : Int) (rand1 : Reader),
      SM2ParticipantRandIntLoop c e fuel rand = .ok (s, rand1) ↔
      ∃ k, (fieldElements c fuel rand).find? (fun kr => sm2Accepts c e kr.1) = some (k, rand1) ∧
        s = sm2R c e k + k := by
  intro fuel
  induction fuel with
  | zero => intro rand s rand1; simp [SM2ParticipantRandIntLoop, fieldElements]
  | succ fuel ih =>
    intro rand s rand1
    unfold SM2ParticipantRandIntLoop fieldElements
    cases hk : randFieldElement c rand with
    | error err => simp
    | ok kr =>
      obtain ⟨k, rand2⟩ := kr
      have hkr := randFieldElement_spec c rand k rand2 hk
      have hN : c.N ≠ 0 := by
        intro h0
        rw [h0] at hkr
        simp at hkr
        omega
      have hm : Mod ((c.ScalarBaseMult (Bytes k)).1 + e) c.N = .ok (sm2R c e k) :=
        Mod_eq_ok.mpr ⟨hN, rfl⟩
      simp only [hm, List.find?_cons]
      by_cases hacc : sm2R c e k ≠ 0 ∧ sm2R c e k + k ≠ (c.N : Int)
      · have hb : sm2Accepts c e k = true := by simp [sm2Accepts, hacc]
        rw [if_pos hacc]
        simp only [hb, Except.ok.injEq, Prod.mk.injEq, Option.some.injEq]
        constructor
        · rintro ⟨rfl, rfl⟩
          exact ⟨k, ⟨rfl, rfl⟩, rfl⟩
        · rintro ⟨k1, ⟨rfl, rfl⟩, rfl⟩
          exact ⟨rfl, rfl⟩
      · have hb : sm2Accepts c e k = false := by simp only [sm2Accepts, hacc, decide_False]
        rw [if_neg hacc]
        simp only [hb]
        exact ih rand2 s rand1

/-- Fuel beyond the length of the stream adds no draw: the list of field
elements is the same for every sufficient fuel. -/
theorem fieldElements_fuel (c : Curve) (hN : 0 < c.N) :
    ∀ (fuel : Nat) (rand : Reader), rand.length < fuel →
      ∀ fuel2, rand.length < fuel2 → fieldElements c fuel rand = fieldElements c fuel2 rand := by
  intro fuel
  induction fuel with
  | zero => intro rand h; omega
  | succ fuel ih =>
    intro rand hlen fuel2 hlen2
    cases fuel2 with
    | zero => omega
    | succ fuel2 =>
      unfold fieldElements
      cases hk : randFieldElement c rand with
      | error err => rfl
      | ok kr =>
        obtain ⟨k, rand2⟩ := kr
        have hc := randFieldElementLoop_consumes c hN _ _ _ _ hk
        simp only
        rw [ih rand2 (by omega) fuel2 (by omega)]

/-- Every field element in the list of draws lies in `[1, N-1]`. -/
theorem fieldElements_range (c : Curve) (k : Int) (rand1 : Reader) :
    ∀ (fuel : Nat) (r0 : Reader), (k, rand1) ∈ fieldElements c fuel r0 →
      1 ≤ k ∧ k < (c.N : Int) := by
  intro fuel
  induction fuel with
  | zero => intro r0 hm; simp [fieldElements] at hm
  | succ fuel ih =>
    intro r0 hm
    unfold fieldElements at hm
    cases hr : randFieldElement c r0 with
    | error err => simp [hr] at hm
    | ok kr =>
      obtain ⟨k0, r1⟩ := kr
      simp only [hr, List.mem_cons, Prod.mk.injEq] at hm
      rcases hm with ⟨rfl, rfl⟩ | hm
      · exact randFieldElement_spec _ _ _ _ hr
      · exact ih r1 hm

/-- C18: whenever `SM2ParticipantRandInt` returns `s` (and the stream left),
`ZA` was computed from the public key with the default user id of 16 bytes,
`e = hashToInt(SM3(ZA ‖ msg))`, and `s = r + k` as an integer (not reduced
modulo `N`), where `k` is the first of the field elements drawn successively
from the stream by `randFieldElement` for which `r = (x(k·G) + e) mod N` is
not zero and `r + k ≠ N`; the converse holds too.  Hence `1 ≤ k ≤ N-1`,
`1 ≤ r ≤ N-1`, `2 ≤ s ≤ 2N-2` and `s ≠ N`. -/
theorem SM2ParticipantRandInt_postcondition (E : Env) (rand : Reader) (pub : PublicKey)
    (msg : List Nat) (s : Int) (rand1 : Reader) :
    defaultUID.length = 16 ∧
    (SM2ParticipantRandInt E rand pub msg = .ok (s, rand1) ↔
      ∃ za k, E.CalculateZA pub defaultUID = .ok za ∧
        (fieldElements (E.curve pub.Curve) (rand.length + 1) rand).find?
          (fun kr => sm2Accepts (E.curve pub.Curve)
            (hashToInt (E.sm3 (za ++ msg)) (E.curve pub.Curve)) kr.1) = some (k, rand1) ∧
        s = sm2R (E.curve pub.Curve) (hashToInt (E.sm3 (za ++ msg)) (E.curve pub.Curve)) k + k) ∧
    (SM2ParticipantRandInt E rand pub msg = .ok (s, rand1) →
      ∃ za k, E.CalculateZA pub defaultUID = .ok za ∧
        s = sm2R (E.curve pub.Curve) (hashToInt (E.sm3 (za ++ msg)) (E.curve pub.Curve)) k + k ∧
        (1 ≤ k ∧ k ≤ ((E.curve pub.Curve).N : Int) - 1) ∧
        (1 ≤ sm2R (E.curve pub.Curve) (hashToInt (E.sm3 (za ++ msg)) (E.curve pub.Curve)) k ∧
          sm2R (E.curve pub.Curve) (hashToInt (E.sm3 (za ++ msg)) (E.curve pub.Curve)) k
            ≤ ((E.curve pub.Curve).N : Int) - 1) ∧
        2 ≤ s ∧ s ≤ 2 * ((E.curve pub.Curve).N : Int) - 2 ∧
        s ≠ ((E.curve pub.Curve).N : Int)) := by
  have hiff : SM2ParticipantRandInt E rand pub msg = .ok (s, rand1) ↔
      ∃ za k, E.CalculateZA pub defaultUID = .ok za ∧
        (fieldElements (E.curve pub.Curve) (rand.length + 1) rand).find?
          (fun kr => sm2Accepts (E.curve pub.Curve)
            (hashToInt (E.sm3 (za ++ msg)) (E.curve pub.Curve)) kr.1) = some (k, rand1) ∧
        s = sm2R (E.curve pub.Curve) (hashToInt (E.sm3 (za ++ msg)) (E.curve pub.Curve)) k + k := by
    unfold SM2ParticipantRandInt calculateSM2Hash
    simp only [List.length_nil, if_true]
    cases hza : E.CalculateZA pub defaultUID with
    | error err => simp
    | ok za =>
      simp only [SM2ParticipantRandIntLoop_first, Except.ok.injEq]
      constructor
      · rintro ⟨k, hk, hs⟩
        exact ⟨za, k, rfl, hk, hs⟩
      · rintro ⟨za1, k, rfl, hk, hs⟩
        exact ⟨k, hk, hs⟩
  refine ⟨rfl, hiff, ?_⟩
  intro h
  obtain ⟨za, k, hza, hk, hs⟩ := hiff.mp h
  have hkb := fieldElements_range _ _ _ _ _ (List.mem_of_find?_eq_some hk)
  have hacc := List.find?_some hk
  simp only [sm2Accepts, decide_eq_true_eq] at hacc
  have hr0 : 0 ≤ sm2R (E.curve pub.Curve) (hashToInt (E.sm3 (za ++ msg)) (E.curve pub.Curve)) k :=
    Int.emod_nonneg _ (by omega)
  have hr1 : sm2R (E.curve pub.Curve) (hashToInt (E.sm3 (za ++ msg)) (E.curve pub.Curve)) k
      < ((E.curve pub.Curve).N : Int) := Int.emod_lt_of_pos _ (by omega)
  have hne := hacc.1
  refine ⟨za, k, hza, hs, ⟨hkb.1, by omega⟩, ⟨by omega, by omega⟩, by omega, by omega, ?_⟩
  rw [hs]
  exact hacc.2

/-! ## Errors of the signers -/

theorem bind_eq_error {α β : Type} {x : Go α} {f : α → Go β} {e : Fault} :
    (x >>= f) = .error e ↔ x = .error e ∨ ∃ a, x = .ok a ∧ f a = .error e := by
  cases x with
  | error e1 => simp [bind, Except.bind]
  | ok a => simp [bind, Except.bind]

theorem NeverErrs_pure {α : Type} (a : α) : NeverErrs (pure a : Go α) := by
  intro m h
  simp [pure, Except.pure] at h

theorem NeverErrs_bind {α β : Type} {x : Go α} {f : α → Go β} (hx : NeverErrs x)
    (hf : ∀ a, NeverErrs (f a)) : NeverErrs (x >>= f) := by
  intro m h
  rcases bind_eq_error.mp h with h1 | ⟨a, _, h2⟩
  · exact hx m h1
  · exact hf a m h2

theorem NeverErrs_index {α : Type} (xs : List α) (i : Nat) : NeverErrs (index xs i) := by
  intro m h
  unfold index at h
  split at h <;> simp at h

theorem NeverErrs_assign {α : Type} (xs : List α) (i : Nat) (v : α) :
    NeverErrs (assign xs i v) := by
  intro m h
  unfold assign at h
  split at h <;> simp at h

theorem NeverErrs_FillBytes (x : Int) (n : Nat) : NeverErrs (FillBytes x n) := by
  intro m h
  unfold FillBytes at h
  split at h <;> simp at h

theorem NeverErrs_Mod (x : Int) (N : Nat) : NeverErrs (Mod x N) := by
  intro m h
  unfold Mod at h
  split at h <;> simp at h

theorem NeverErrs_writeKeys : ∀ (pubs : List PublicKey) (h : List Nat),
    NeverErrs (writeKeys pubs h) := by
  intro pubs
  induction pubs with
  | nil => intro h m hm; simp [writeKeys] at hm
  | cons pub rest ih =>
    intro h m hm
    unfold writeKeys at hm
    cases hx : FillBytes pub.X 32 with
    | error e =>
      simp only [hx, Except.error.injEq] at hm
      exact NeverErrs_FillBytes _ _ m (hm ▸ hx)
    | ok bx =>
      simp only [hx] at hm
      cases hy : FillBytes pub.Y 32 with
      | error e =>
        simp only [hy, Except.error.injEq] at hm
        exact NeverErrs_FillBytes _ _ m (hm ▸ hy)
      | ok b =>
        simp only [hy] at hm
        exact ih _ m hm

theorem NeverErrs_writePoint (h : List Nat) (vx vy : Option Int) :
    NeverErrs (writePoint h vx vy) := by
  intro m hm
  unfold writePoint at hm
  split at hm
  · rename_i x y
    cases hx : FillBytes x 32 with
    | error e =>
      simp only [hx, Except.error.injEq] at hm
      exact NeverErrs_FillBytes _ _ m (hm ▸ hx)
    | ok bx =>
      simp only [hx] at hm
      cases hy : FillBytes y 32 with
      | error e =>
        simp only [hy, Except.error.injEq] at hm
        exact NeverErrs_FillBytes _ _ m (hm ▸ hy)
      | ok b => simp [hy] at hm
  · simp at hm

theorem NeverErrs_hash (E : Env) (pubs : List PublicKey) (msg : List Nat) (cx cy : Int) :
    NeverErrs (hash E pubs msg cx cy) := by
  unfold hash
  refine NeverErrs_bind (NeverErrs_writeKeys _ _) fun _ => ?_
  refine NeverErrs_bind (NeverErrs_FillBytes _ _) fun _ => ?_
  refine NeverErrs_bind (NeverErrs_FillBytes _ _) fun _ => ?_
  exact NeverErrs_bind (NeverErrs_index _ _) fun _ => NeverErrs_pure _

theorem NeverErrs_hash1 (E : Env) (pubs : List PublicKey) (QpaiX QpaiY : Int) (msg : List Nat)
    (vx vy wx wy : Option Int) : NeverErrs (hash1 E pubs QpaiX QpaiY msg vx vy wx wy) := by
  unfold hash1
  refine NeverErrs_bind (NeverErrs_writeKeys _ _) fun _ => ?_
  refine NeverErrs_bind (NeverErrs_FillBytes _ _) fun _ => ?_
  refine NeverErrs_bind (NeverErrs_FillBytes _ _) fun _ => ?_
  refine NeverErrs_bind (NeverErrs_writePoint _ _ _) fun _ => ?_
  refine NeverErrs_bind (NeverErrs_writePoint _ _ _) fun _ => ?_
  exact NeverErrs_bind (NeverErrs_index _ _) fun _ => NeverErrs_pure _

theorem NeverErrs_chainStep (E : Env) (cv : CurveRef) (pubs : List PublicKey) (msg : List Nat)
    (pub : PublicKey) (s c : Int) : NeverErrs (chainStep E cv pubs msg pub s c) := by
  unfold chainStep
  exact NeverErrs_bind (NeverErrs_Mod _ _) fun _ => NeverErrs_hash _ _ _ _ _

theorem NeverErrs_baseStep (E : Env) (cv : CurveRef) (pubs : List PublicKey)
    (rx ry QpaiX QpaiY : Int) (msg : List Nat) (pub : PublicKey) (s c : Int) :
    NeverErrs (baseStep E cv pubs rx ry QpaiX QpaiY msg pub s c) := by
  unfold baseStep
  exact NeverErrs_bind (NeverErrs_Mod _ _) fun _ => NeverErrs_hash1 _ _ _ _ _ _ _ _ _

theorem NeverErrs_variant1Step (E : Env) (cv : CurveRef) (pubs : List PublicKey)
    (rx ry QpaiX QpaiY : Int) (msg : List Nat) (pub : PublicKey) (s c : Int) :
    NeverErrs (variant1Step E cv pubs rx ry QpaiX QpaiY msg pub s c) := by
  unfold variant1Step
  exact NeverErrs_bind (NeverErrs_Mod _ _) fun _ => NeverErrs_hash1 _ _ _ _ _ _ _ _ _

theorem NeverErrs_variant2Step (E : Env) (cv : CurveRef) (pubs : List PublicKey)
    (rx ry QpaiX QpaiY : Int) (msg : List Nat) (pub : PublicKey) (s c : Int) :
    NeverErrs (variant2Step E cv pubs rx ry QpaiX QpaiY msg pub s c) := by
  unfold variant2Step
  refine NeverErrs_bind (NeverErrs_Mod _ _) fun _ => ?_
  exact NeverErrs_bind (NeverErrs_hash1 _ _ _ _ _ _ _ _ _) fun _ => NeverErrs_Mod _ _

theorem NeverErrs_closeRing (C : Curve) (priv : PrivateKey) (kPai c : Int) :
    NeverErrs (closeRing C priv kPai c) := by
  unfold closeRing
  exact NeverErrs_Mod _ _

/-- A turn of a signer's loop returns an error exactly when the strategy
does. -/
theorem walkBody_eq_error {strategy : ParticipantRandInt} {pubs : List PublicKey}
    {msg : List Nat} {off : Nat} {f : PublicKey → Int → Int → Go Int}
    (hf : ∀ pub s c, NeverErrs (f pub s c)) (i : Nat) (c : Int) (res : List (Option Int))
    (rand : Reader) (m : String) :
    walkBody strategy pubs msg off f i (c, res, rand) = .error (.error m) ↔
      ∃ pub, pubs[i]? = some pub ∧ strategy rand pub msg = .error (.error m) := by
  simp only [walkBody, bind_eq_error, index_eq_ok]
  constructor
  · rintro (h | ⟨pub, hpub, h | ⟨⟨s, r⟩, hs, h | ⟨res1, hres, h | ⟨c1, hc, h⟩⟩⟩⟩)
    · exact absurd h (NeverErrs_index _ _ m)
    · exact ⟨pub, hpub, h⟩
    · exact absurd h (NeverErrs_assign _ _ _ m)
    · exact absurd h (hf _ _ _ m)
    · simp [pure, Except.pure] at h
  · rintro ⟨pub, hpub, h⟩
    exact Or.inr ⟨pub, hpub, Or.inl h⟩

/-- A signer's loop returns an error exactly when the strategy does at a slot
the loop reaches. -/
theorem forLoopFrom_walk_error {strategy : ParticipantRandInt} {pubs : List PublicKey}
    {msg : List Nat} {off : Nat} {f : PublicKey → Int → Int → Go Int}
    (hf : ∀ pub s c, NeverErrs (f pub s c)) (m : String) :
    ∀ (cnt i : Nat) (st : SignState),
      forLoopFrom (walkBody strategy pubs msg off f) cnt i st = .error (.error m) ↔
        StrategyFailsIn strategy pubs msg off f cnt i st m := by
  intro cnt
  induction cnt with
  | zero =>
    intro i st
    simp [forLoopFrom, StrategyFailsIn]
  | succ cnt ih =>
    intro i st
    obtain ⟨c, res, rand⟩ := st
    unfold forLoopFrom
    cases hb : walkBody strategy pubs msg off f i (c, res, rand) with
    | error e =>
      simp only [Except.error.injEq]
      constructor
      · rintro rfl
        obtain ⟨pub, hpub, hs⟩ := (walkBody_eq_error hf i c res rand m).mp hb
        exact ⟨0, c, res, rand, pub, by omega, rfl, hpub, hs⟩
      · rintro ⟨k, c1, res1, rd, pub, hk, hrun, hpub, hs⟩
        cases k with
        | zero =>
          simp only [forLoopFrom, Except.ok.injEq, Prod.mk.injEq] at hrun
          obtain ⟨rfl, rfl, rfl⟩ := hrun
          have hw : walkBody strategy pubs msg off f i (c, res, rand) = .error (.error m) :=
            (walkBody_eq_error hf i c res rand m).mpr ⟨pub, hpub, hs⟩
          rw [hb] at hw
          simpa using hw
        | succ k =>
          unfold forLoopFrom at hrun
          simp [hb] at hrun
    | ok st1 =>
      simp only
      rw [ih (i + 1) st1]
      constructor
      · rintro ⟨k, c1, res1, rd, pub, hk, hrun, hpub, hs⟩
        refine ⟨k + 1, c1, res1, rd, pub, by omega, ?_, ?_, hs⟩
        · unfold forLoopFrom
          simp only [hb]
          exact hrun
        · rw [← hpub]
          congr 1
          omega
      · rintro ⟨k, c1, res1, rd, pub, hk, hrun, hpub, hs⟩
        cases k with
        | zero =>
          simp only [forLoopFrom, Except.ok.injEq, Prod.mk.injEq] at hrun
          obtain ⟨rfl, rfl, rfl⟩ := hrun
          have hw : walkBody strategy pubs msg off f i (c, res, rand) = .error (.error m) :=
            (walkBody_eq_error hf i c res rand m).mpr ⟨pub, hpub, hs⟩
          rw [hb] at hw
          simp at hw
        | succ k =>
          unfold forLoopFrom at hrun
          simp only [hb] at hrun
          refine ⟨k, c1, res1, rd, pub, by omega, hrun, ?_, hs⟩
          rw [← hpub]
          congr 1
          omega

/-- The tail of a signer returns an error exactly when the strategy does at a
slot one of its two loops reaches. -/
theorem ringWalk_eq_error {strategy : ParticipantRandInt} {pubs : List PublicKey}
    {msg : List Nat} {off : Nat} {f : PublicKey → Int → Int → Go Int}
    (hf : ∀ pub s c, NeverErrs (f pub s c)) (C : Curve) (priv : PrivateKey) (kPai : Int)
    (pai : Nat) (st : SignState) (m : String) :
    ringWalk strategy pubs msg off f C priv kPai pai st = .error (.error m) ↔
      StrategyFails strategy pubs msg off f pai st m := by
  simp only [ringWalk, bind_eq_error, forLoop, forLoopFrom_walk_error hf, StrategyFails,
    Nat.sub_zero]
  constructor
  · rintro (h | ⟨⟨c, res, rd⟩, h1, h | ⟨res1, h2, h | ⟨⟨c2, res2, rd2⟩, h3, h | ⟨s, h4, h | ⟨res3, h5, h⟩⟩⟩⟩⟩)
    · exact Or.inl h
    · exact absurd h (NeverErrs_assign _ _ _ m)
    · exact Or.inr ⟨c, res, rd, res1, h1, h2, h⟩
    · exact absurd h (NeverErrs_closeRing _ _ _ _ m)
    · exact absurd h (NeverErrs_assign _ _ _ m)
    · simp [pure, Except.pure] at h
  · rintro (h | ⟨c, res, rd, res1, h1, h2, h⟩)
    · exact Or.inl h
    · exact Or.inr ⟨(c, res, rd), h1, Or.inr ⟨res1, h2, Or.inl h⟩⟩

theorem Sign_eq_ringWalk (E : Env) (rand : Reader) (strategy : ParticipantRandInt)
    (priv : PrivateKey) (pubs : List PublicKey) (msg : List Nat) :
    Sign E rand strategy priv pubs msg =
      (getPai priv pubs >>= fun pai =>
        randFieldElement (E.curve priv.Curve) rand >>= fun kr =>
        hash E pubs msg ((E.curve priv.Curve).ScalarBaseMult (Bytes kr.1)).1
          ((E.curve priv.Curve).ScalarBaseMult (Bytes kr.1)).2 >>= fun c =>
        ringWalk strategy pubs msg 1 (chainStep E priv.Curve pubs msg) (E.curve priv.Curve)
          priv kr.1 pai (c, List.replicate (pubs.length + 1) none, kr.2)) := rfl

theorem BaseLinkableSigner_Sign_eq_ringWalk (E : Env) (rand : Reader)
    (strategy : ParticipantRandInt) (priv : PrivateKey) (pubs : List PublicKey)
    (msg : List Nat) :
    BaseLinkableSigner.Sign E { publicKeys := pubs, privateKey := priv } rand strategy msg =
      (getPai priv pubs >>= fun pai =>
        publicKeysToPoint E pubs >>= fun r =>
        randFieldElement (E.curve priv.Curve) rand >>= fun kr =>
        hash1 E pubs ((E.curve priv.Curve).ScalarMult r.1 r.2 (Bytes priv.D)).1
          ((E.curve priv.Curve).ScalarMult r.1 r.2 (Bytes priv.D)).2 msg
          (some ((E.curve priv.Curve).ScalarBaseMult (Bytes kr.1)).1)
          (some ((E.curve priv.Curve).ScalarBaseMult (Bytes kr.1)).2)
          (some ((E.curve priv.Curve).ScalarMult r.1 r.2 (Bytes kr.1)).1)
          (some ((E.curve priv.Curve).ScalarMult r.1 r.2 (Bytes kr.1)).2) >>= fun c =>
        assign (List.replicate (pubs.length + 3) none) 0
          (some ((E.curve priv.Curve).ScalarMult r.1 r.2 (Bytes priv.D)).1) >>= fun res =>
        assign res 1 (some ((E.curve priv.Curve).ScalarMult r.1 r.2 (Bytes priv.D)).2)
          >>= fun res =>
        ringWalk strategy pubs msg 3
          (baseStep E priv.Curve pubs r.1 r.2
            ((E.curve priv.Curve).ScalarMult r.1 r.2 (Bytes priv.D)).1
            ((E.curve priv.Curve).ScalarMult r.1 r.2 (Bytes priv.D)).2 msg)
          (E.curve priv.Curve) priv kr.1 pai (c, res, kr.2)) := rfl

/-- A slot at which the strategy fails in the course of a signer's loops is
not the signer's. -/
theorem StrategyFails_slot {strategy : ParticipantRandInt} {pubs : List PublicKey}
    {msg : List Nat} {off : Nat} {f : PublicKey → Int → Int → Go Int} {pai : Nat}
    {st : SignState} {m : String} (h : StrategyFails strategy pubs msg off f pai st m) :
    ∃ j pub rd, j < pubs.length ∧ j ≠ pai ∧ pubs[j]? = some pub ∧
      strategy rd pub msg = .error (.error m) := by
  rcases h with ⟨k, c, res, rd, pub, hk, _, hpub, hs⟩ | ⟨_, _, _, _, _, _, k, c, res, rd, pub, hk, _, hpub, hs⟩
  · have hlt : pai + 1 + k < pubs.length := by
      by_contra hge
      rw [List.getElem?_eq_none (by omega)] at hpub
      simp at hpub
    exact ⟨pai + 1 + k, pub, rd, hlt, by omega, hpub, hs⟩
  · have hlt : 0 + k < pubs.length := by
      by_contra hge
      rw [List.getElem?_eq_none (by omega)] at hpub
      simp at hpub
    exact ⟨0 + k, pub, rd, hlt, by omega, hpub, hs⟩

theorem publicKeysToPoint_ok {E : Env} {priv : PrivateKey} {pubs : List PublicKey} {pai : Nat}
    (h : getPai priv pubs = .ok pai) : ∃ r, publicKeysToPoint E pubs = .ok r := by
  obtain ⟨_, hlt, _⟩ := getPai_spec _ _ pai h
  cases pubs with
  | nil => simp at hlt
  | cons pub0 rest => exact ⟨_, rfl⟩

theorem Sign_eq_error (E : Env) (rand : Reader) (strategy : ParticipantRandInt)
    (priv : PrivateKey) (pubs : List PublicKey) (msg : List Nat) (m : String) :
    Sign E rand strategy priv pubs msg = .error (.error m) ↔
      getPai priv pubs = .error (.error m) ∨
      (∃ pai, getPai priv pubs = .ok pai ∧
        randFieldElement (E.curve priv.Curve) rand = .error (.error m)) ∨
      (∃ pai kPai rand1 c, getPai priv pubs = .ok pai ∧
        randFieldElement (E.curve priv.Curve) rand = .ok (kPai, rand1) ∧
        hash E pubs msg ((E.curve priv.Curve).ScalarBaseMult (Bytes kPai)).1
          ((E.curve priv.Curve).ScalarBaseMult (Bytes kPai)).2 = .ok c ∧
        StrategyFails strategy pubs msg 1 (chainStep E priv.Curve pubs msg) pai
          (c, List.replicate (pubs.length + 1) none, rand1) m) := by
  rw [Sign_eq_ringWalk]
  simp only [bind_eq_error, ringWalk_eq_error (NeverErrs_chainStep E priv.Curve pubs msg)]
  constructor
  · rintro (h | ⟨pai, hpai, h | ⟨⟨kPai, rand1⟩, hk, h | ⟨c, hc, h⟩⟩⟩)
    · exact Or.inl h
    · exact Or.inr (Or.inl ⟨pai, hpai, h⟩)
    · exact absurd h (NeverErrs_hash _ _ _ _ _ m)
    · exact Or.inr (Or.inr ⟨pai, kPai, rand1, c, hpai, hk, hc, h⟩)
  · rintro (h | ⟨pai, hpai, h⟩ | ⟨pai, kPai, rand1, c, hpai, hk, hc, h⟩)
    · exact Or.inl h
    · exact Or.inr ⟨pai, hpai, Or.inl h⟩
    · exact Or.inr ⟨pai, hpai, Or.inr ⟨(kPai, rand1), hk, Or.inr ⟨c, hc, h⟩⟩⟩

theorem LinkableSignerVariant1_Sign_eq_ringWalk (E : Env) (rand : Reader)
    (strategy : ParticipantRandInt) (priv : PrivateKey) (pubs : List PublicKey)
    (msg : List Nat) :
    LinkableSignerVariant1.Sign E { publicKeys := pubs, privateKey := priv } rand strategy msg =
      (getPai priv pubs >>= fun pai =>
        publicKeysToPoint E pubs >>= fun r =>
        randFieldElement (E.curve priv.Curve) rand >>= fun kr =>
        hash1 E pubs ((E.curve priv.Curve).ScalarMult r.1 r.2 (Bytes priv.D)).1
          ((E.curve priv.Curve).ScalarMult r.1 r.2 (Bytes priv.D)).2 msg
          (some ((E.curve priv.Curve).ScalarMult
            ((E.curve priv.Curve).Add r.1 r.2 (E.curve priv.Curve).Gx (E.curve priv.Curve).Gy).1
            ((E.curve priv.Curve).Add r.1 r.2 (E.curve priv.Curve).Gx (E.curve priv.Curve).Gy).2
            (Bytes kr.1)).1)
          (some ((E.curve priv.Curve).ScalarMult
            ((E.curve priv.Curve).Add r.1 r.2 (E.curve priv.Curve).Gx (E.curve priv.Curve).Gy).1
            ((E.curve priv.Curve).Add r.1 r.2 (E.curve priv.Curve).Gx (E.curve priv.Curve).Gy).2
            (Bytes kr.1)).2) none none >>= fun c =>
        assign (List.replicate (pubs.length + 3) none) 0
          (some ((E.curve priv.Curve).ScalarMult r.1 r.2 (Bytes priv.D)).1) >>= fun res =>
        assign res 1 (some ((E.curve priv.Curve).ScalarMult r.1 r.2 (Bytes priv.D)).2)
          >>= fun res =>
        ringWalk strategy pubs msg 3
          (variant1Step E priv.Curve pubs
            ((E.curve priv.Curve).Add r.1 r.2 (E.curve priv.Curve).Gx (E.curve priv.Curve).Gy).1
            ((E.curve priv.Curve).Add r.1 r.2 (E.curve priv.Curve).Gx (E.curve priv.Curve).Gy).2
            ((E.curve priv.Curve).ScalarMult r.1 r.2 (Bytes priv.D)).1
            ((E.curve priv.Curve).ScalarMult r.1 r.2 (Bytes priv.D)).2 msg)
          (E.curve priv.Curve) priv kr.1 pai (c, res, kr.2)) := rfl

theorem LinkableSignerVariant2_Sign_eq_ringWalk (E : Env) (rand : Reader)
    (strategy : ParticipantRandInt) (priv : PrivateKey) (pubs : List PublicKey)
    (msg : List Nat) :
    LinkableSignerVariant2.Sign E { publicKeys := pubs, privateKey := priv } rand strategy msg =
      (getPai priv pubs >>= fun pai =>
        publicKeysToPoint E pubs >>= fun r =>
        randFieldElement (E.curve priv.Curve) rand >>= fun kr =>
        hash1 E pubs ((E.curve priv.Curve).ScalarMult r.1 r.2 (Bytes priv.D)).1
          ((E.curve priv.Curve).ScalarMult r.1 r.2 (Bytes priv.D)).2 msg
          none none none none >>= fun h =>
        Mod (((E.curve priv.Curve).ScalarMult
            ((E.curve priv.Curve).Add r.1 r.2 (E.curve priv.Curve).Gx (E.curve priv.Curve).Gy).1
            ((E.curve priv.Curve).Add r.1 r.2 (E.curve priv.Curve).Gx (E.curve priv.Curve).Gy).2
            (Bytes kr.1)).1 + h) (E.curve priv.Curve).N >>= fun c =>
        assign (List.replicate (pubs.length + 3) none) 0
          (some ((E.curve priv.Curve).ScalarMult r.1 r.2 (Bytes priv.D)).1) >>= fun res =>
        assign res 1 (some ((E.curve priv.Curve).ScalarMult r.1 r.2 (Bytes priv.D)).2)
          >>= fun res =>
        ringWalk strategy pubs msg 3
          (variant2Step E priv.Curve pubs
            ((E.curve priv.Curve).Add r.1 r.2 (E.curve priv.Curve).Gx (E.curve priv.Curve).Gy).1
            ((E.curve priv.Curve).Add r.1 r.2 (E.curve priv.Curve).Gx (E.curve priv.Curve).Gy).2
            ((E.curve priv.Curve).ScalarMult r.1 r.2 (Bytes priv.D)).1
            ((E.curve priv.Curve).ScalarMult r.1 r.2 (Bytes priv.D)).2 msg)
          (E.curve priv.Curve) priv kr.1 pai (c, res, kr.2)) := rfl

/-- The two stores of the tag go through. -/
theorem assign_tag (n : Nat) (q : Int × Int) (k : List (Option Int) → Go (List (Option Int))) :
    (assign (List.replicate (n + 3) none) 0 (some q.1) >>= fun res =>
      assign res 1 (some q.2) >>= k) = k (tagged n q) := by
  have h0 : assign (List.replicate (n + 3) (none : Option Int)) 0 (some q.1)
      = .ok ((List.replicate (n + 3) none).set 0 (some q.1)) := by
    rw [assign_eq_ok]
    exact ⟨by simp, rfl⟩
  have h1 : assign ((List.replicate (n + 3) (none : Option Int)).set 0 (some q.1)) 1 (some q.2)
      = .ok (tagged n q) := by
    rw [assign_eq_ok]
    exact ⟨by simp, rfl⟩
  rw [h0]
  show (assign ((List.replicate (n + 3) (none : Option Int)).set 0 (some q.1)) 1 (some q.2)
    >>= k) = _
  rw [h1]
  rfl

theorem BaseLinkableSigner_Sign_eq_error (E : Env) (rand : Reader)
    (strategy : ParticipantRandInt) (priv : PrivateKey) (pubs : List PublicKey)
    (msg : List Nat) (m : String) :
    BaseLinkableSigner.Sign E { publicKeys := pubs, privateKey := priv } rand strategy msg
        = .error (.error m) ↔
      getPai priv pubs = .error (.error m) ∨
      (∃ pai, getPai priv pubs = .ok pai ∧
        randFieldElement (E.curve priv.Curve) rand = .error (.error m)) ∨
      (∃ pai kPai rand1 rx ry c, getPai priv pubs = .ok pai ∧
        publicKeysToPoint E pubs = .ok (rx, ry) ∧
        randFieldElement (E.curve priv.Curve) rand = .ok (kPai, rand1) ∧
        hash1 E pubs ((E.curve priv.Curve).ScalarMult rx ry (Bytes priv.D)).1
          ((E.curve priv.Curve).ScalarMult rx ry (Bytes priv.D)).2 msg
          (some ((E.curve priv.Curve).ScalarBaseMult (Bytes kPai)).1)
          (some ((E.curve priv.Curve).ScalarBaseMult (Bytes kPai)).2)
          (some ((E.curve priv.Curve).ScalarMult rx ry (Bytes kPai)).1)
          (some ((E.curve priv.Curve).ScalarMult rx ry (Bytes kPai)).2) = .ok c ∧
        StrategyFails strategy pubs msg 3
          (baseStep E priv.Curve pubs rx ry
            ((E.curve priv.Curve).ScalarMult rx ry (Bytes priv.D)).1
            ((E.curve priv.Curve).ScalarMult rx ry (Bytes priv.D)).2 msg) pai
          (c, tagged pubs.length ((E.curve priv.Curve).ScalarMult rx ry (Bytes priv.D)), rand1)
          m) := by
  rw [BaseLinkableSigner_Sign_eq_ringWalk]
  simp only [assign_tag, bind_eq_error]
  constructor
  · rintro (h | ⟨pai, hpai, h | ⟨⟨rx, ry⟩, hr, h | ⟨⟨kPai, rand1⟩, hk, h | ⟨c, hc, h⟩⟩⟩⟩)
    · exact Or.inl h
    · obtain ⟨r, hr⟩ := publicKeysToPoint_ok (E := E) hpai
      rw [hr] at h
      simp at h
    · exact Or.inr (Or.inl ⟨pai, hpai, h⟩)
    · exact absurd h (NeverErrs_hash1 _ _ _ _ _ _ _ _ _ m)
    · exact Or.inr (Or.inr ⟨pai, kPai, rand1, rx, ry, c, hpai, hr, hk, hc,
        (ringWalk_eq_error (NeverErrs_baseStep _ _ _ _ _ _ _ _) _ _ _ _ _ _).mp h⟩)
  · rintro (h | ⟨pai, hpai, h⟩ | ⟨pai, kPai, rand1, rx, ry, c, hpai, hr, hk, hc, h⟩)
    · exact Or.inl h
    · obtain ⟨r, hr⟩ := publicKeysToPoint_ok (E := E) hpai
      exact Or.inr ⟨pai, hpai, Or.inr ⟨r, hr, Or.inl h⟩⟩
    · exact Or.inr ⟨pai, hpai, Or.inr ⟨(rx, ry), hr, Or.inr ⟨(kPai, rand1), hk,
        Or.inr ⟨c, hc, (ringWalk_eq_error (NeverErrs_baseStep _ _ _ _ _ _ _ _) _ _ _ _ _ _).mpr h⟩⟩⟩⟩

theorem LinkableSignerVariant1_Sign_eq_error (E : Env) (rand : Reader)
    (strategy : ParticipantRandInt) (priv : PrivateKey) (pubs : List PublicKey)
    (msg : List Nat) (m : String) :
    LinkableSignerVariant1.Sign E { publicKeys := pubs, privateKey := priv } rand strategy msg
        = .error (.error m) ↔
      getPai priv pubs = .error (.error m) ∨
      (∃ pai, getPai priv pubs = .ok pai ∧
        randFieldElement (E.curve priv.Curve) rand = .error (.error m)) ∨
      (∃ pai kPai rand1 rx ry tx ty c, getPai priv pubs = .ok pai ∧
        publicKeysToPoint E pubs = .ok (rx, ry) ∧
        (E.curve priv.Curve).Add rx ry (E.curve priv.Curve).Gx (E.curve priv.Curve).Gy
          = (tx, ty) ∧
        randFieldElement (E.curve priv.Curve) rand = .ok (kPai, rand1) ∧
        hash1 E pubs ((E.curve priv.Curve).ScalarMult rx ry (Bytes priv.D)).1
          ((E.curve priv.Curve).ScalarMult rx ry (Bytes priv.D)).2 msg
          (some ((E.curve priv.Curve).ScalarMult tx ty (Bytes kPai)).1)
          (some ((E.curve priv.Curve).ScalarMult tx ty (Bytes kPai)).2) none none = .ok c ∧
        StrategyFails strategy pubs msg 3
          (variant1Step E priv.Curve pubs tx ty
            ((E.curve priv.Curve).ScalarMult rx ry (Bytes priv.D)).1
            ((E.curve priv.Curve).ScalarMult rx ry (Bytes priv.D)).2 msg) pai
          (c, tagged pubs.length ((E.curve priv.Curve).ScalarMult rx ry (Bytes priv.D)), rand1)
          m) := by
  rw [LinkableSignerVariant1_Sign_eq_ringWalk]
  simp only [assign_tag, bind_eq_error]
  constructor
  · rintro (h | ⟨pai, hpai, h | ⟨⟨rx, ry⟩, hr, h | ⟨⟨kPai, rand1⟩, hk, h | ⟨c, hc, h⟩⟩⟩⟩)
    · exact Or.inl h
    · obtain ⟨r, hr⟩ := publicKeysToPoint_ok (E := E) hpai
      rw [hr] at h
      simp at h
    · exact Or.inr (Or.inl ⟨pai, hpai, h⟩)
    · exact absurd h (NeverErrs_hash1 _ _ _ _ _ _ _ _ _ m)
    · exact Or.inr (Or.inr ⟨pai, kPai, rand1, rx, ry, _, _, c, hpai, hr, rfl, hk, hc,
        (ringWalk_eq_error (NeverErrs_variant1Step _ _ _ _ _ _ _ _) _ _ _ _ _ _).mp h⟩)
  · rintro (h | ⟨pai, hpai, h⟩ | ⟨pai, kPai, rand1, rx, ry, tx, ty, c, hpai, hr, ht, hk, hc, h⟩)
    · exact Or.inl h
    · obtain ⟨r, hr⟩ := publicKeysToPoint_ok (E := E) hpai
      exact Or.inr ⟨pai, hpai, Or.inr ⟨r, hr, Or.inl h⟩⟩
    · refine Or.inr ⟨pai, hpai, Or.inr ⟨(rx, ry), hr, Or.inr ⟨(kPai, rand1), hk,
        Or.inr ⟨c, ?_, ?_⟩⟩⟩⟩
      · simp only [ht]
        exact hc
      · simp only [ht]
        exact (ringWalk_eq_error (NeverErrs_variant1Step _ _ _ _ _ _ _ _) _ _ _ _ _ _).mpr h

theorem LinkableSignerVariant2_Sign_eq_error (E : Env) (rand : Reader)
    (strategy : ParticipantRandInt) (priv : PrivateKey) (pubs : List PublicKey)
    (msg : List Nat) (m : String) :
    LinkableSignerVariant2.Sign E { publicKeys := pubs, privateKey := priv } rand strategy msg
        = .error (.error m) ↔
      getPai priv pubs = .error (.error m) ∨
      (∃ pai, getPai priv pubs = .ok pai ∧
        randFieldElement (E.curve priv.Curve) rand = .error (.error m)) ∨
      (∃ pai kPai rand1 rx ry tx ty h c, getPai priv pubs = .ok pai ∧
        publicKeysToPoint E pubs = .ok (rx, ry) ∧
        (E.curve priv.Curve).Add rx ry (E.curve priv.Curve).Gx (E.curve priv.Curve).Gy
          = (tx, ty) ∧
        randFieldElement (E.curve priv.Curve) rand = .ok (kPai, rand1) ∧
        hash1 E pubs ((E.curve priv.Curve).ScalarMult rx ry (Bytes priv.D)).1
          ((E.curve priv.Curve).ScalarMult rx ry (Bytes priv.D)).2 msg
          none none none none = .ok h ∧
        Mod (((E.curve priv.Curve).ScalarMult tx ty (Bytes kPai)).1 + h) (E.curve priv.Curve).N
          = .ok c ∧
        StrategyFails strategy pubs msg 3
          (variant2Step E priv.Curve pubs tx ty
            ((E.curve priv.Curve).ScalarMult rx ry (Bytes priv.D)).1
            ((E.curve priv.Curve).ScalarMult rx ry (Bytes priv.D)).2 msg) pai
          (c, tagged pubs.length ((E.curve priv.Curve).ScalarMult rx ry (Bytes priv.D)), rand1)
          m) := by
  rw [LinkableSignerVariant2_Sign_eq_ringWalk]
  simp only [assign_tag, bind_eq_error]
  constructor
  · rintro (h | ⟨pai, hpai, h | ⟨⟨rx, ry⟩, hr, h | ⟨⟨kPai, rand1⟩, hk, h | ⟨h1, hh, h | ⟨c, hc, h⟩⟩⟩⟩⟩)
    · exact Or.inl h
    · obtain ⟨r, hr⟩ := publicKeysToPoint_ok (E := E) hpai
      rw [hr] at h
      simp at h
    · exact Or.inr (Or.inl ⟨pai, hpai, h⟩)
    · exact absurd h (NeverErrs_hash1 _ _ _ _ _ _ _ _ _ m)
    · exact absurd h (NeverErrs_Mod _ _ m)
    · exact Or.inr (Or.inr ⟨pai, kPai, rand1, rx, ry, _, _, h1, c, hpai, hr, rfl, hk, hh, hc,
        (ringWalk_eq_error (NeverErrs_variant2Step _ _ _ _ _ _ _ _) _ _ _ _ _ _).mp h⟩)
  · rintro (h | ⟨pai, hpai, h⟩ |
      ⟨pai, kPai, rand1, rx, ry, tx, ty, h1, c, hpai, hr, ht, hk, hh, hc, h⟩)
    · exact Or.inl h
    · obtain ⟨r, hr⟩ := publicKeysToPoint_ok (E := E) hpai
      exact Or.inr ⟨pai, hpai, Or.inr ⟨r, hr, Or.inl h⟩⟩
    · refine Or.inr ⟨pai, hpai, Or.inr ⟨(rx, ry), hr, Or.inr ⟨(kPai, rand1), hk,
        Or.inr ⟨h1, hh, Or.inr ⟨c, ?_, ?_⟩⟩⟩⟩⟩
      · simp only [ht]
        exact hc
      · simp only [ht]
        exact (ringWalk_eq_error (NeverErrs_variant2Step _ _ _ _ _ _ _ _) _ _ _ _ _ _).mpr h

/-- A list returned by one of the four signers has no nil entry. -/
theorem returned_list_filled (E : Env) (rand : Reader) (strategy : ParticipantRandInt)
    (priv : PrivateKey) (pubs : List PublicKey) (msg : List Nat) (sig : List (Option Int))
    (h : Sign E rand strategy priv pubs msg = .ok sig ∨
      BaseLinkableSigner.Sign E { publicKeys := pubs, privateKey := priv } rand strategy msg
        = .ok sig ∨
      LinkableSignerVariant1.Sign E { publicKeys := pubs, privateKey := priv } rand strategy msg
        = .ok sig ∨
      LinkableSignerVariant2.Sign E { publicKeys := pubs, privateKey := priv } rand strategy msg
        = .ok sig) :
    ∀ j, j < sig.length → ∃ x, sig[j]? = some (some x) := by
  rcases h with h | h | h | h
  · obtain ⟨pai, kPai, cinit, c0, cpai, spai, hpai, hinit, hclose, hlen, hseed, hown, hothers,
      hsrc⟩ := Sign_shape h
    rw [hlen]
    refine all_slots_filled (by omega) hlen ?_ ⟨c0, hseed⟩ ⟨spai, hown⟩ ?_
    · intro j hj
      omega
    · intro j hj hne
      obtain ⟨pub, s, r, r1, _, hs, _⟩ := hothers j hj hne
      exact ⟨s, hs⟩
  · obtain ⟨pai, rx, ry, kPai, rand1, cinit, c0, cpai, spai, hpai, hR, hk, hinit, hclose, hlen,
      hq0, hq1, hseed, hown, hothers, hsrc, _⟩ := BaseLinkableSigner_Sign_eq_ok h
    rw [hlen]
    refine all_slots_filled (by omega) hlen ?_ ⟨c0, hseed⟩ ⟨spai, hown⟩ ?_
    · intro j hj
      have hj01 : j = 0 ∨ j = 1 := by omega
      rcases hj01 with rfl | rfl
      · exact ⟨_, hq0⟩
      · exact ⟨_, hq1⟩
    · intro j hj hne
      obtain ⟨pub, s, r, r1, _, hs, _⟩ := hothers j hj hne
      exact ⟨s, hs⟩
  · obtain ⟨pai, rx, ry, QpaiX, QpaiY, tx, ty, kPai, rand1, cinit, c0, cpai, spai, hpai, hR, hQ,
      hT, hk, hinit, hclose, hlen, hq0, hq1, hseed, hown, hothers, hsrc, _⟩ :=
      LinkableSignerVariant1_Sign_eq_ok h
    rw [hlen]
    refine all_slots_filled (by omega) hlen ?_ ⟨c0, hseed⟩ ⟨spai, hown⟩ ?_
    · intro j hj
      have hj01 : j = 0 ∨ j = 1 := by omega
      rcases hj01 with rfl | rfl
      · exact ⟨_, hq0⟩
      · exact ⟨_, hq1⟩
    · intro j hj hne
      obtain ⟨pub, s, r, r1, _, hs, _⟩ := hothers j hj hne
      exact ⟨s, hs⟩
  · obtain ⟨pai, rx, ry, QpaiX, QpaiY, tx, ty, kPai, rand1, cinit, c0, cpai, spai, hpai, hR, hQ,
      hT, hk, hinit, hclose, hlen, hq0, hq1, hseed, hown, hothers, hsrc, _⟩ :=
      LinkableSignerVariant2_Sign_eq_ok h
    rw [hlen]
    refine all_slots_filled (by omega) hlen ?_ ⟨c0, hseed⟩ ⟨spai, hown⟩ ?_
    · intro j hj
      have hj01 : j = 0 ∨ j = 1 := by omega
      rcases hj01 with rfl | rfl
      · exact ⟨_, hq0⟩
      · exact ⟨_, hq1⟩
    · intro j hj hne
      obtain ⟨pub, s, r, r1, _, hs, _⟩ := hothers j hj hne
      exact ⟨s, hs⟩

/-! ### The two results of the signers -/

theorem runBody_orReturn_bind {α : Type} (x : Go α) (k : α → Stmt Results Results) :
    runBody (orReturn x (fun err => (none, some err)) >>= k)
      = thenResults x (fun a => runBody (k a)) := by
  cases x with
  | ok a => rfl
  | error e => cases e <;> rfl

theorem runBody_call_bind {α : Type} {x : Go α} (hx : NeverErrs x)
    (k : α → Stmt Results Results) :
    runBody (call x >>= k) = thenResults x (fun a => runBody (k a)) := by
  cases x with
  | ok a => rfl
  | error e =>
    cases e with
    | error m => exact absurd rfl (hx m)
    | panic m => rfl
    | hang => rfl

theorem asResults_bind {α : Type} (x : Go α) (k : α → Go (List (Option Int))) :
    asResults (x >>= k) = thenResults x (fun a => asResults (k a)) := by
  cases x with
  | ok a => rfl
  | error e => cases e <;> rfl

theorem thenResults_bind {α β : Type} (x : Go α) (g : α → Go β) (k : β → Go Results) :
    thenResults (x >>= g) k = thenResults x (fun a => thenResults (g a) k) := by
  cases x with
  | ok a => rfl
  | error e => cases e <;> rfl

theorem thenResults_congr {α : Type} (x : Go α) {k1 k2 : α → Go Results}
    (h : ∀ a, k1 a = k2 a) : thenResults x k1 = thenResults x k2 := by
  have : k1 = k2 := funext h
  rw [this]

/-- A turn of a signer's loop, followed by the rest of the function. -/
theorem walkBodyS_bind (strategy : ParticipantRandInt) (pubs : List PublicKey)
    (msg : List Nat) (off : Nat) (f : PublicKey → Int → Int → Go Int)
    (hf : ∀ pub s c, NeverErrs (f pub s c)) (i : Nat) (st : SignState)
    (k : SignState → Stmt Results Results) :
    runBody (walkBodyS strategy pubs msg off f i st >>= k)
      = thenResults (walkBody strategy pubs msg off f i st) (fun a => runBody (k a)) := by
  obtain ⟨c, res, rd⟩ := st
  simp only [walkBodyS, walkBody, bind_assoc, pure_bind]
  rw [runBody_call_bind (NeverErrs_index _ _), thenResults_bind]
  apply thenResults_congr
  intro pub
  rw [runBody_orReturn_bind, thenResults_bind]
  apply thenResults_congr
  rintro ⟨s, rd1⟩
  simp only
  rw [runBody_call_bind (NeverErrs_assign _ _ _), thenResults_bind]
  apply thenResults_congr
  intro res1
  rw [runBody_call_bind (hf _ _ _), thenResults_bind]
  apply thenResults_congr
  intro c1
  rfl

theorem forLoopFromS_succ_bind {ρ σ β : Type} (body : Nat → σ → Stmt ρ σ) (cnt i : Nat)
    (st : σ) (k : σ → Stmt ρ β) :
    (forLoopFromS body (cnt + 1) i st >>= k)
      = (body i st >>= fun st1 => forLoopFromS body cnt (i + 1) st1 >>= k) := by
  rw [forLoopFromS]
  cases body i st <;> rfl

theorem forLoopFrom_succ_eq {σ : Type} (body : Nat → σ → Go σ) (cnt i : Nat) (st : σ) :
    forLoopFrom body (cnt + 1) i st = (body i st >>= fun st1 => forLoopFrom body cnt (i + 1) st1) := by
  rw [forLoopFrom]
  cases body i st <;> rfl

/-- A loop of a signer, followed by the rest of the function. -/
theorem forLoopFromS_bind {σ : Type} (bodyS : Nat → σ → Stmt Results σ)
    (body : Nat → σ → Go σ)
    (hb : ∀ i st (k : σ → Stmt Results Results),
      runBody (bodyS i st >>= k) = thenResults (body i st) (fun a => runBody (k a))) :
    ∀ (cnt i : Nat) (st : σ) (k : σ → Stmt Results Results),
      runBody (forLoopFromS bodyS cnt i st >>= k)
        = thenResults (forLoopFrom body cnt i st) (fun a => runBody (k a)) := by
  intro cnt
  induction cnt with
  | zero => intro i st k; rfl
  | succ cnt ih =>
    intro i st k
    rw [forLoopFromS_succ_bind, hb, forLoopFrom_succ_eq, thenResults_bind]
    apply thenResults_congr
    intro st1
    exact ih (i + 1) st1 k

/-- The tail of a signer with its two results gives the results that stand
for the tail without them. -/
theorem ringWalkS_eq (strategy : ParticipantRandInt) (pubs : List PublicKey) (msg : List Nat)
    (off : Nat) (f : PublicKey → Int → Int → Go Int)
    (hf : ∀ pub s c, NeverErrs (f pub s c)) (C : Curve) (priv : PrivateKey) (kPai : Int)
    (pai : Nat) (st : SignState) :
    runBody (ringWalkS strategy pubs msg off f C priv kPai pai st)
      = asResults (ringWalk strategy pubs msg off f C priv kPai pai st) := by
  simp only [ringWalkS, ringWalk, forLoopS, forLoop]
  rw [forLoopFromS_bind _ _ (walkBodyS_bind strategy pubs msg off f hf), asResults_bind]
  apply thenResults_congr
  rintro ⟨c, res, rd⟩
  simp only
  rw [runBody_call_bind (NeverErrs_assign _ _ _), asResults_bind]
  apply thenResults_congr
  intro res1
  rw [forLoopFromS_bind _ _ (walkBodyS_bind strategy pubs msg off f hf), asResults_bind]
  apply thenResults_congr
  rintro ⟨c2, res2, rd2⟩
  simp only
  rw [runBody_call_bind (NeverErrs_closeRing _ _ _ _), asResults_bind]
  apply thenResults_congr
  intro s
  rw [runBody_call_bind (NeverErrs_assign _ _ _), asResults_bind]
  apply thenResults_congr
  intro res3
  rfl

theorem Sign_returns_eq_ringWalkS (E : Env) (rand : Reader) (strategy : ParticipantRandInt)
    (priv : PrivateKey) (pubs : List PublicKey) (msg : List Nat) :
    Sign.returns E rand strategy priv pubs msg =
      runBody (orReturn (getPai priv pubs) (fun err => (none, some err)) >>= fun pai =>
        orReturn (randFieldElement (E.curve priv.Curve) rand) (fun err => (none, some err))
          >>= fun kr =>
        call (hash E pubs msg ((E.curve priv.Curve).ScalarBaseMult (Bytes kr.1)).1
          ((E.curve priv.Curve).ScalarBaseMult (Bytes kr.1)).2) >>= fun c =>
        ringWalkS strategy pubs msg 1 (chainStep E priv.Curve pubs msg) (E.curve priv.Curve)
          priv kr.1 pai (c, List.replicate (pubs.length + 1) none, kr.2)) := rfl

/-- `Sign` with its two results returns the results that stand for the result
of `Sign`. -/
theorem Sign_returns_eq (E : Env) (rand : Reader) (strategy : ParticipantRandInt)
    (priv : PrivateKey) (pubs : List PublicKey) (msg : List Nat) :
    Sign.returns E rand strategy priv pubs msg
      = asResults (Sign E rand strategy priv pubs msg) := by
  rw [Sign_returns_eq_ringWalkS, Sign_eq_ringWalk, runBody_orReturn_bind, asResults_bind]
  apply thenResults_congr
  intro pai
  rw [runBody_orReturn_bind, asResults_bind]
  apply thenResults_congr
  intro kr
  rw [runBody_call_bind (NeverErrs_hash _ _ _ _ _), asResults_bind]
  apply thenResults_congr
  intro c
  exact ringWalkS_eq strategy pubs msg 1 _ (NeverErrs_chainStep E priv.Curve pubs msg) _ _ _ _ _

theorem NeverErrs_publicKeysToPoint (E : Env) (pubs : List PublicKey) :
    NeverErrs (publicKeysToPoint E pubs) := by
  intro m h
  cases pubs with
  | nil => simp [publicKeysToPoint] at h
  | cons pub0 rest => simp [publicKeysToPoint] at h

theorem BaseLinkableSigner_Sign_returns_eq_ringWalkS (E : Env) (rand : Reader)
    (strategy : ParticipantRandInt) (priv : PrivateKey) (pubs : List PublicKey)
    (msg : List Nat) :
    BaseLinkableSigner.Sign.returns E { publicKeys := pubs, privateKey := priv } rand strategy
        msg =
      runBody (orReturn (getPai priv pubs) (fun err => (none, some err)) >>= fun pai =>
        call (publicKeysToPoint E pubs) >>= fun r =>
        orReturn (randFieldElement (E.curve priv.Curve) rand) (fun err => (none, some err))
          >>= fun kr =>
        call (hash1 E pubs ((E.curve priv.Curve).ScalarMult r.1 r.2 (Bytes priv.D)).1
          ((E.curve priv.Curve).ScalarMult r.1 r.2 (Bytes priv.D)).2 msg
          (some ((E.curve priv.Curve).ScalarBaseMult (Bytes kr.1)).1)
          (some ((E.curve priv.Curve).ScalarBaseMult (Bytes kr.1)).2)
          (some ((E.curve priv.Curve).ScalarMult r.1 r.2 (Bytes kr.1)).1)
          (some ((E.curve priv.Curve).ScalarMult r.1 r.2 (Bytes kr.1)).2)) >>= fun c =>
        call (assign (List.replicate (pubs.length + 3) none) 0
          (some ((E.curve priv.Curve).ScalarMult r.1 r.2 (Bytes priv.D)).1)) >>= fun res =>
        call (assign res 1 (some ((E.curve priv.Curve).ScalarMult r.1 r.2 (Bytes priv.D)).2))
          >>= fun res =>
        ringWalkS strategy pubs msg 3
          (baseStep E priv.Curve pubs r.1 r.2
            ((E.curve priv.Curve).ScalarMult r.1 r.2 (Bytes priv.D)).1
            ((E.curve priv.Curve).ScalarMult r.1 r.2 (Bytes priv.D)).2 msg)
          (E.curve priv.Curve) priv kr.1 pai (c, res, kr.2)) := rfl

/-- `(*BaseLinkableSigner).Sign` with its two results returns the results that
stand for the result of the signer. -/
theorem BaseLinkableSigner_Sign_returns_eq (E : Env) (rand : Reader)
    (strategy : ParticipantRandInt) (priv : PrivateKey) (pubs : List PublicKey)
    (msg : List Nat) :
    BaseLinkableSigner.Sign.returns E { publicKeys := pubs, privateKey := priv } rand strategy
        msg
      = asResults (BaseLinkableSigner.Sign E { publicKeys := pubs, privateKey := priv } rand
          strategy msg) := by
  rw [BaseLinkableSigner_Sign_returns_eq_ringWalkS, BaseLinkableSigner_Sign_eq_ringWalk,
    runBody_orReturn_bind, asResults_bind]
  apply thenResults_congr
  intro pai
  rw [runBody_call_bind (NeverErrs_publicKeysToPoint _ _), asResults_bind]
  apply thenResults_congr
  intro r
  rw [runBody_orReturn_bind, asResults_bind]
  apply thenResults_congr
  intro kr
  rw [runBody_call_bind (NeverErrs_hash1 _ _ _ _ _ _ _ _ _), asResults_bind]
  apply thenResults_congr
  intro c
  rw [runBody_call_bind (NeverErrs_assign _ _ _), asResults_bind]
  apply thenResults_congr
  intro res
  rw [runBody_call_bind (NeverErrs_assign _ _ _), asResults_bind]
  apply thenResults_congr
  intro res1
  exact ringWalkS_eq strategy pubs msg 3 _ (NeverErrs_baseStep _ _ _ _ _ _ _ _) _ _ _ _ _

theorem LinkableSignerVariant1_Sign_returns_eq_ringWalkS (E : Env) (rand : Reader)
    (strategy : ParticipantRandInt) (priv : PrivateKey) (pubs : List PublicKey)
    (msg : List Nat) :
    LinkableSignerVariant1.Sign.returns E { publicKeys := pubs, privateKey := priv } rand
        strategy msg =
      runBody (orReturn (getPai priv pubs) (fun err => (none, some err)) >>= fun pai =>
        call (publicKeysToPoint E pubs) >>= fun r =>
        orReturn (randFieldElement (E.curve priv.Curve) rand) (fun err => (none, some err))
          >>= fun kr =>
        call (hash1 E pubs ((E.curve priv.Curve).ScalarMult r.1 r.2 (Bytes priv.D)).1
          ((E.curve priv.Curve).ScalarMult r.1 r.2 (Bytes priv.D)).2 msg
          (some ((E.curve priv.Curve).ScalarMult
            ((E.curve priv.Curve).Add r.1 r.2 (E.curve priv.Curve).Gx (E.curve priv.Curve).Gy).1
            ((E.curve priv.Curve).Add r.1 r.2 (E.curve priv.Curve).Gx (E.curve priv.Curve).Gy).2
            (Bytes kr.1)).1)
          (some ((E.curve priv.Curve).ScalarMult
            ((E.curve priv.Curve).Add r.1 r.2 (E.curve priv.Curve).Gx (E.curve priv.Curve).Gy).1
            ((E.curve priv.Curve).Add r.1 r.2 (E.curve priv.Curve).Gx (E.curve priv.Curve).Gy).2
            (Bytes kr.1)).2) none none) >>= fun c =>
        call (assign (List.replicate (pubs.length + 3) none) 0
          (some ((E.curve priv.Curve).ScalarMult r.1 r.2 (Bytes priv.D)).1)) >>= fun res =>
        call (assign res 1 (some ((E.curve priv.Curve).ScalarMult r.1 r.2 (Bytes priv.D)).2))
          >>= fun res =>
        ringWalkS strategy pubs msg 3
          (variant1Step E priv.Curve pubs
            ((E.curve priv.Curve).Add r.1 r.2 (E.curve priv.Curve).Gx (E.curve priv.Curve).Gy).1
            ((E.curve priv.Curve).Add r.1 r.2 (E.curve priv.Curve).Gx (E.curve priv.Curve).Gy).2
            ((E.curve priv.Curve).ScalarMult r.1 r.2 (Bytes priv.D)).1
            ((E.curve priv.Curve).ScalarMult r.1 r.2 (Bytes priv.D)).2 msg)
          (E.curve priv.Curve) priv kr.1 pai (c, res, kr.2)) := rfl

/-- `(*LinkableSignerVariant1).Sign` with its two results returns the results
that stand for the result of the signer. -/
theorem LinkableSignerVariant1_Sign_returns_eq (E : Env) (rand : Reader)
    (strategy : ParticipantRandInt) (priv : PrivateKey) (pubs : List PublicKey)
    (msg : List Nat) :
    LinkableSignerVariant1.Sign.returns E { publicKeys := pubs, privateKey := priv } rand
        strategy msg
      = asResults (LinkableSignerVariant1.Sign E { publicKeys := pubs, privateKey := priv }
          rand strategy msg) := by
  rw [LinkableSignerVariant1_Sign_returns_eq_ringWalkS, LinkableSignerVariant1_Sign_eq_ringWalk,
    runBody_orReturn_bind, asResults_bind]
  apply thenResults_congr
  intro pai
  rw [runBody_call_bind (NeverErrs_publicKeysToPoint _ _), asResults_bind]
  apply thenResults_congr
  intro r
  rw [runBody_orReturn_bind, asResults_bind]
  apply thenResults_congr
  intro kr
  rw [runBody_call_bind (NeverErrs_hash1 _ _ _ _ _ _ _ _ _), asResults_bind]
  apply thenResults_congr
  intro c
  rw [runBody_call_bind (NeverErrs_assign _ _ _), asResults_bind]
  apply thenResults_congr
  intro res
  rw [runBody_call_bind (NeverErrs_assign _ _ _), asResults_bind]
  apply thenResults_congr
  intro res1
  exact ringWalkS_eq strategy pubs msg 3 _ (NeverErrs_variant1Step _ _ _ _ _ _ _ _) _ _ _ _ _

theorem LinkableSignerVariant2_Sign_returns_eq_ringWalkS (E : Env) (rand : Reader)
    (strategy : ParticipantRandInt) (priv : PrivateKey) (pubs : List PublicKey)
    (msg : List Nat) :
    LinkableSignerVariant2.Sign.returns E { publicKeys := pubs, privateKey := priv } rand
        strategy msg =
      runBody (orReturn (getPai priv pubs) (fun err => (none, some err)) >>= fun pai =>
        call (publicKeysToPoint E pubs) >>= fun r =>
        orReturn (randFieldElement (E.curve priv.Curve) rand) (fun err => (none, some err))
          >>= fun kr =>
        call (hash1 E pubs ((E.curve priv.Curve).ScalarMult r.1 r.2 (Bytes priv.D)).1
          ((E.curve priv.Curve).ScalarMult r.1 r.2 (Bytes priv.D)).2 msg
          none none none none) >>= fun h =>
        call (Mod (((E.curve priv.Curve).ScalarMult
            ((E.curve priv.Curve).Add r.1 r.2 (E.curve priv.Curve).Gx (E.curve priv.Curve).Gy).1
            ((E.curve priv.Curve).Add r.1 r.2 (E.curve priv.Curve).Gx (E.curve priv.Curve).Gy).2
            (Bytes kr.1)).1 + h) (E.curve priv.Curve).N) >>= fun c =>
        call (assign (List.replicate (pubs.length + 3) none) 0
          (some ((E.curve priv.Curve).ScalarMult r.1 r.2 (Bytes priv.D)).1)) >>= fun res =>
        call (assign res 1 (some ((E.curve priv.Curve).ScalarMult r.1 r.2 (Bytes priv.D)).2))
          >>= fun res =>
        ringWalkS strategy pubs msg 3
          (variant2Step E priv.Curve pubs
            ((E.curve priv.Curve).Add r.1 r.2 (E.curve priv.Curve).Gx (E.curve priv.Curve).Gy).1
            ((E.curve priv.Curve).Add r.1 r.2 (E.curve priv.Curve).Gx (E.curve priv.Curve).Gy).2
            ((E.curve priv.Curve).ScalarMult r.1 r.2 (Bytes priv.D)).1
            ((E.curve priv.Curve).ScalarMult r.1 r.2 (Bytes priv.D)).2 msg)
          (E.curve priv.Curve) priv kr.1 pai (c, res, kr.2)) := rfl

/-- `(*LinkableSignerVariant2).Sign` with its two results returns the results
that stand for the result of the signer. -/
theorem LinkableSignerVariant2_Sign_returns_eq (E : Env) (rand : Reader)
    (strategy : ParticipantRandInt) (priv : PrivateKey) (pubs : List PublicKey)
    (msg : List Nat) :
    LinkableSignerVariant2.Sign.returns E { publicKeys := pubs, privateKey := priv } rand
        strategy msg
      = asResults (LinkableSignerVariant2.Sign E { publicKeys := pubs, privateKey := priv }
          rand strategy msg) := by
  rw [LinkableSignerVariant2_Sign_returns_eq_ringWalkS, LinkableSignerVariant2_Sign_eq_ringWalk,
    runBody_orReturn_bind, asResults_bind]
  apply thenResults_congr
  intro pai
  rw [runBody_call_bind (NeverErrs_publicKeysToPoint _ _), asResults_bind]
  apply thenResults_congr
  intro r
  rw [runBody_orReturn_bind, asResults_bind]
  apply thenResults_congr
  intro kr
  rw [runBody_call_bind (NeverErrs_hash1 _ _ _ _ _ _ _ _ _), asResults_bind]
  apply thenResults_congr
  intro h
  rw [runBody_call_bind (NeverErrs_Mod _ _), asResults_bind]
  apply thenResults_congr
  intro c
  rw [runBody_call_bind (NeverErrs_assign _ _ _), asResults_bind]
  apply thenResults_congr
  intro res
  rw [runBody_call_bind (NeverErrs_assign _ _ _), asResults_bind]
  apply thenResults_congr
  intro res1
  exact ringWalkS_eq strategy pubs msg 3 _ (NeverErrs_variant2Step _ _ _ _ _ _ _ _) _ _ _ _ _

/-- What the two results that stand for a result can be: a list with a nil
error, or a nil list with an error. -/
theorem asResults_eq_ok {x : Go (List (Option Int))} {r : Option (List (Option Int))}
    {err : Option String} (h : asResults x = .ok (r, err)) :
    (err = none ∧ ∃ sig, r = some sig ∧ x = .ok sig) ∨
    (r = none ∧ ∃ m, err = some m ∧ x = .error (.error m)) := by
  cases x with
  | ok sig =>
    simp only [asResults, Except.ok.injEq, Prod.mk.injEq] at h
    exact Or.inl ⟨h.2.symm, sig, h.1.symm, rfl⟩
  | error e =>
    cases e with
    | error m =>
      simp only [asResults, Except.ok.injEq, Prod.mk.injEq] at h
      exact Or.inr ⟨h.1.symm, m, h.2.symm, rfl⟩
    | panic m => simp [asResults] at h
    | hang => simp [asResults] at h

theorem asResults_error {x : Go (List (Option Int))} {r : Option (List (Option Int))}
    {m : String} (h : asResults x = .ok (r, some m)) : r = none ∧ x = .error (.error m) := by
  rcases asResults_eq_ok h with ⟨h1, _⟩ | ⟨h1, m1, h2, h3⟩
  · simp at h1
  · simp only [Option.some.injEq] at h2
    subst h2
    exact ⟨h1, h3⟩

theorem asResults_list {x : Go (List (Option Int))} {r : Option (List (Option Int))}
    (h : asResults x = .ok (r, none)) : ∃ sig, r = some sig ∧ x = .ok sig := by
  rcases asResults_eq_ok h with ⟨_, h1⟩ | ⟨_, m1, h2, _⟩
  · exact h1
  · simp at h2

/-- C16 (signing is atomic).  Each of the four `Sign` operations returns the
error `m` exactly when `getPai` returned it, or `getPai` went through and the
draw of `k_pi` by `randFieldElement` returned it, or both went through, the
first challenge was computed and the nonce strategy returned it at a slot
reached by one of the two loops; such a slot is never the signer's.  No other
step hands an error back.  A list that is returned has no nil entry.  And on
the signers written with their two results (`Sign.returns` and the three
linkable ones): whenever the error returned is not nil the list returned is
nil, and that happens exactly in the cases above; whenever the error is nil a
list is returned, the one of `Sign`.  So no partially filled list leaves a
signer. -/
theorem Sign_atomic (E : Env) (priv : PrivateKey) (pubs : List PublicKey) (msg : List Nat)
    (strategy : ParticipantRandInt) (rand : Reader) :
    (∀ m, Sign E rand strategy priv pubs msg = .error (.error m) ↔
      getPai priv pubs = .error (.error m) ∨
      (∃ pai, getPai priv pubs = .ok pai ∧
        randFieldElement (E.curve priv.Curve) rand = .error (.error m)) ∨
      (∃ pai kPai rand1 c, getPai priv pubs = .ok pai ∧
        randFieldElement (E.curve priv.Curve) rand = .ok (kPai, rand1) ∧
        hash E pubs msg ((E.curve priv.Curve).ScalarBaseMult (Bytes kPai)).1
          ((E.curve priv.Curve).ScalarBaseMult (Bytes kPai)).2 = .ok c ∧
        StrategyFails strategy pubs msg 1 (chainStep E priv.Curve pubs msg) pai
          (c, List.replicate (pubs.length + 1) none, rand1) m)) ∧
    (∀ m, BaseLinkableSigner.Sign E { publicKeys := pubs, privateKey := priv } rand strategy msg
        = .error (.error m) ↔
      getPai priv pubs = .error (.error m) ∨
      (∃ pai, getPai priv pubs = .ok pai ∧
        randFieldElement (E.curve priv.Curve) rand = .error (.error m)) ∨
      (∃ pai kPai rand1 rx ry c, getPai priv pubs = .ok pai ∧
        publicKeysToPoint E pubs = .ok (rx, ry) ∧
        randFieldElement (E.curve priv.Curve) rand = .ok (kPai, rand1) ∧
        hash1 E pubs ((E.curve priv.Curve).ScalarMult rx ry (Bytes priv.D)).1
          ((E.curve priv.Curve).ScalarMult rx ry (Bytes priv.D)).2 msg
          (some ((E.curve priv.Curve).ScalarBaseMult (Bytes kPai)).1)
          (some ((E.curve priv.Curve).ScalarBaseMult (Bytes kPai)).2)
          (some ((E.curve priv.Curve).ScalarMult rx ry (Bytes kPai)).1)
          (some ((E.curve priv.Curve).ScalarMult rx ry (Bytes kPai)).2) = .ok c ∧
        StrategyFails strategy pubs msg 3
          (baseStep E priv.Curve pubs rx ry
            ((E.curve priv.Curve).ScalarMult rx ry (Bytes priv.D)).1
            ((E.curve priv.Curve).ScalarMult rx ry (Bytes priv.D)).2 msg) pai
          (c, tagged pubs.length ((E.curve priv.Curve).ScalarMult rx ry (Bytes priv.D)), rand1)
          m)) ∧
    (∀ m, LinkableSignerVariant1.Sign E { publicKeys := pubs, privateKey := priv } rand strategy
        msg = .error (.error m) ↔
      getPai priv pubs = .error (.error m) ∨
      (∃ pai, getPai priv pubs = .ok pai ∧
        randFieldElement (E.curve priv.Curve) rand = .error (.error m)) ∨
      (∃ pai kPai rand1 rx ry tx ty c, getPai priv pubs = .ok pai ∧
        publicKeysToPoint E pubs = .ok (rx, ry) ∧
        (E.curve priv.Curve).Add rx ry (E.curve priv.Curve).Gx (E.curve priv.Curve).Gy
          = (tx, ty) ∧
        randFieldElement (E.curve priv.Curve) rand = .ok (kPai, rand1) ∧
        hash1 E pubs ((E.curve priv.Curve).ScalarMult rx ry (Bytes priv.D)).1
          ((E.curve priv.Curve).ScalarMult rx ry (Bytes priv.D)).2 msg
          (some ((E.curve priv.Curve).ScalarMult tx ty (Bytes kPai)).1)
          (some ((E.curve priv.Curve).ScalarMult tx ty (Bytes kPai)).2) none none = .ok c ∧
        StrategyFails strategy pubs msg 3
          (variant1Step E priv.Curve pubs tx ty
            ((E.curve priv.Curve).ScalarMult rx ry (Bytes priv.D)).1
            ((E.curve priv.Curve).ScalarMult rx ry (Bytes priv.D)).2 msg) pai
          (c, tagged pubs.length ((E.curve priv.Curve).ScalarMult rx ry (Bytes priv.D)), rand1)
          m)) ∧
    (∀ m, LinkableSignerVariant2.Sign E { publicKeys := pubs, privateKey := priv } rand strategy
        msg = .error (.error m) ↔
      getPai priv pubs = .error (.error m) ∨
      (∃ pai, getPai priv pubs = .ok pai ∧
        randFieldElement (E.curve priv.Curve) rand = .error (.error m)) ∨
      (∃ pai kPai rand1 rx ry tx ty h c, getPai priv pubs = .ok pai ∧
        publicKeysToPoint E pubs = .ok (rx, ry) ∧
        (E.curve priv.Curve).Add rx ry (E.curve priv.Curve).Gx (E.curve priv.Curve).Gy
          = (tx, ty) ∧
        randFieldElement (E.curve priv.Curve) rand = .ok (kPai, rand1) ∧
        hash1 E pubs ((E.curve priv.Curve).ScalarMult rx ry (Bytes priv.D)).1
          ((E.curve priv.Curve).ScalarMult rx ry (Bytes priv.D)).2 msg
          none none none none = .ok h ∧
        Mod (((E.curve priv.Curve).ScalarMult tx ty (Bytes kPai)).1 + h) (E.curve priv.Curve).N
          = .ok c ∧
        StrategyFails strategy pubs msg 3
          (variant2Step E priv.Curve pubs tx ty
            ((E.curve priv.Curve).ScalarMult rx ry (Bytes priv.D)).1
            ((E.curve priv.Curve).ScalarMult rx ry (Bytes priv.D)).2 msg) pai
          (c, tagged pubs.length ((E.curve priv.Curve).ScalarMult rx ry (Bytes priv.D)), rand1)
          m)) ∧
    (∀ (off : Nat) (f : PublicKey → Int → Int → Go Int) (pai : Nat) (st : SignState) (m : String),
      StrategyFails strategy pubs msg off f pai st m →
      ∃ j pub rd, j < pubs.length ∧ j ≠ pai ∧ pubs[j]? = some pub ∧
        strategy rd pub msg = .error (.error m)) ∧
    (∀ sig, (Sign E rand strategy priv pubs msg = .ok sig ∨
        BaseLinkableSigner.Sign E { publicKeys := pubs, privateKey := priv } rand strategy msg
          = .ok sig ∨
        LinkableSignerVariant1.Sign E { publicKeys := pubs, privateKey := priv } rand strategy
          msg = .ok sig ∨
        LinkableSignerVariant2.Sign E { publicKeys := pubs, privateKey := priv } rand strategy
          msg = .ok sig) →
      ∀ j, j < sig.length → ∃ x, sig[j]? = some (some x)) ∧
    (∀ (r : Option (List (Option Int))) (m : String),
      (Sign.returns E rand strategy priv pubs msg = .ok (r, some m) →
        r = none ∧ Sign E rand strategy priv pubs msg = .error (.error m)) ∧
      (BaseLinkableSigner.Sign.returns E { publicKeys := pubs, privateKey := priv } rand
          strategy msg = .ok (r, some m) →
        r = none ∧ BaseLinkableSigner.Sign E { publicKeys := pubs, privateKey := priv } rand
          strategy msg = .error (.error m)) ∧
      (LinkableSignerVariant1.Sign.returns E { publicKeys := pubs, privateKey := priv } rand
          strategy msg = .ok (r, some m) →
        r = none ∧ LinkableSignerVariant1.Sign E { publicKeys := pubs, privateKey := priv }
          rand strategy msg = .error (.error m)) ∧
      (LinkableSignerVariant2.Sign.returns E { publicKeys := pubs, privateKey := priv } rand
          strategy msg = .ok (r, some m) →
        r = none ∧ LinkableSignerVariant2.Sign E { publicKeys := pubs, privateKey := priv }
          rand strategy msg = .error (.error m))) ∧
    (∀ m : String,
      (Sign E rand strategy priv pubs msg = .error (.error m) →
        Sign.returns E rand strategy priv pubs msg = .ok (none, some m)) ∧
      (BaseLinkableSigner.Sign E { publicKeys := pubs, privateKey := priv } rand strategy msg
          = .error (.error m) →
        BaseLinkableSigner.Sign.returns E { publicKeys := pubs, privateKey := priv } rand
          strategy msg = .ok (none, some m)) ∧
      (LinkableSignerVariant1.Sign E { publicKeys := pubs, privateKey := priv } rand strategy
          msg = .error (.error m) →
        LinkableSignerVariant1.Sign.returns E { publicKeys := pubs, privateKey := priv } rand
          strategy msg = .ok (none, some m)) ∧
      (LinkableSignerVariant2.Sign E { publicKeys := pubs, privateKey := priv } rand strategy
          msg = .error (.error m) →
        LinkableSignerVariant2.Sign.returns E { publicKeys := pubs, privateKey := priv } rand
          strategy msg = .ok (none, some m))) ∧
    (∀ r : Option (List (Option Int)),
      (Sign.returns E rand strategy priv pubs msg = .ok (r, none) →
        ∃ sig, r = some sig ∧ Sign E rand strategy priv pubs msg = .ok sig) ∧
      (BaseLinkableSigner.Sign.returns E { publicKeys := pubs, privateKey := priv } rand
          strategy msg = .ok (r, none) →
        ∃ sig, r = some sig ∧ BaseLinkableSigner.Sign E
          { publicKeys := pubs, privateKey := priv } rand strategy msg = .ok sig) ∧
      (LinkableSignerVariant1.Sign.returns E { publicKeys := pubs, privateKey := priv } rand
          strategy msg = .ok (r, none) →
        ∃ sig, r = some sig ∧ LinkableSignerVariant1.Sign E
          { publicKeys := pubs, privateKey := priv } rand strategy msg = .ok sig) ∧
      (LinkableSignerVariant2.Sign.returns E { publicKeys := pubs, privateKey := priv } rand
          strategy msg = .ok (r, none) →
        ∃ sig, r = some sig ∧ LinkableSignerVariant2.Sign E
          { publicKeys := pubs, privateKey := priv } rand strategy msg = .ok sig)) ∧
    (∀ sig : List (Option Int),
      (Sign E rand strategy priv pubs msg = .ok sig →
        Sign.returns E rand strategy priv pubs msg = .ok (some sig, none)) ∧
      (BaseLinkableSigner.Sign E { publicKeys := pubs, privateKey := priv } rand strategy msg
          = .ok sig →
        BaseLinkableSigner.Sign.returns E { publicKeys := pubs, privateKey := priv } rand
          strategy msg = .ok (some sig, none)) ∧
      (LinkableSignerVariant1.Sign E { publicKeys := pubs, privateKey := priv } rand strategy
          msg = .ok sig →
        LinkableSignerVariant1.Sign.returns E { publicKeys := pubs, privateKey := priv } rand
          strategy msg = .ok (some sig, none)) ∧
      (LinkableSignerVariant2.Sign E { publicKeys := pubs, privateKey := priv } rand strategy
          msg = .ok sig →
        LinkableSignerVariant2.Sign.returns E { publicKeys := pubs, privateKey := priv } rand
          strategy msg = .ok (some sig, none))) := by
  have e1 := Sign_returns_eq E rand strategy priv pubs msg
  have e2 := BaseLinkableSigner_Sign_returns_eq E rand strategy priv pubs msg
  have e3 := LinkableSignerVariant1_Sign_returns_eq E rand strategy priv pubs msg
  have e4 := LinkableSignerVariant2_Sign_returns_eq E rand strategy priv pubs msg
  refine ⟨Sign_eq_error E rand strategy priv pubs msg,
    BaseLinkableSigner_Sign_eq_error E rand strategy priv pubs msg,
    LinkableSignerVariant1_Sign_eq_error E rand strategy priv pubs msg,
    LinkableSignerVariant2_Sign_eq_error E rand strategy priv pubs msg,
    fun _ _ _ _ _ h => StrategyFails_slot h,
    returned_list_filled E rand strategy priv pubs msg, ?_, ?_, ?_, ?_⟩
  · intro r m
    rw [e1, e2, e3, e4]
    exact ⟨asResults_error, asResults_error, asResults_error, asResults_error⟩
  · intro m
    rw [e1, e2, e3, e4]
    refine ⟨?_, ?_, ?_, ?_⟩ <;>
    · intro h
      rw [h]
      rfl
  · intro r
    rw [e1, e2, e3, e4]
    exact ⟨asResults_list, asResults_list, asResults_list, asResults_list⟩
  · intro sig
    rw [e1, e2, e3, e4]
    refine ⟨?_, ?_, ?_, ?_⟩ <;>
    · intro h
      rw [h]
      rfl

/-! ## `fermatInverse` -/

/-- For `N ≥ 2` the value of `fermatInverse` is `k^(N-2) mod N`. -/
theorem fermatInverse_eq (k : Int) {N : Nat} (hN : 2 ≤ N) :
    fermatInverse k N = k ^ (N - 2) % (N : Int) := by
  unfold fermatInverse
  have h0 : N ≠ 0 := by omega
  have e : ((N : Int) - 2).toNat = N - 2 := by omega
  simp only [h0, if_false, e]

/-- C21, as the code has it.  For `N ≥ 2`, `fermatInverse k N` is
`k^(N-2) mod N`.  For every prime `N` and every `k` not divisible by `N`,
`(k * fermatInverse k N) mod N = 1`.  For every prime `N ≥ 3` and every `k`
divisible by `N` it is `0`.  For `N = 2` the exponent is `0` and the value is
`1` for every `k`, the even ones included. -/
theorem fermatInverse_spec (k : Int) (N : Nat) :
    (2 ≤ N → fermatInverse k N = k ^ (N - 2) % (N : Int)) ∧
    (N.Prime → ¬ (N : Int) ∣ k → (k * fermatInverse k N) % (N : Int) = 1) ∧
    (N.Prime → N ≠ 2 → (N : Int) ∣ k → fermatInverse k N = 0) ∧
    (N = 2 → fermatInverse k N = 1) := by
  refine ⟨fermatInverse_eq k, ?_, ?_, ?_⟩
  · intro hp hnd
    have hN2 : 2 ≤ N := hp.two_le
    have hcop : IsCoprime k (N : Int) := by
      rw [isCoprime_comm, Int.isCoprime_iff_gcd_eq_one, Int.gcd_eq_natAbs, Int.natAbs_ofNat]
      rw [← Nat.coprime_iff_gcd_eq_one, hp.coprime_iff_not_dvd]
      intro hdvd
      apply hnd
      rw [← Int.natAbs_dvd_natAbs, Int.natAbs_ofNat]
      exact hdvd
    have hf := Int.ModEq.pow_card_sub_one_eq_one hp hcop
    have hpow : k * k ^ (N - 2) = k ^ (N - 1) := by
      rw [← pow_succ']
      congr 1
      omega
    rw [fermatInverse_eq k hN2]
    have hm : k * (k ^ (N - 2) % (N : Int)) ≡ 1 [ZMOD (N : Int)] :=
      calc k * (k ^ (N - 2) % (N : Int))
          ≡ k * k ^ (N - 2) [ZMOD (N : Int)] := Int.ModEq.mul_left _ (Int.mod_modEq _ _)
        _ = k ^ (N - 1) := hpow
        _ ≡ 1 [ZMOD (N : Int)] := hf
    unfold Int.ModEq at hm
    rw [hm]
    exact Int.emod_eq_of_lt (by omega) (by omega)
  · intro hp h2 hdvd
    have hN2 : 2 ≤ N := hp.two_le
    rw [fermatInverse_eq k hN2]
    apply Int.emod_eq_zero_of_dvd
    have h1 : N - 2 ≠ 0 := by omega
    exact dvd_pow hdvd h1
  · intro h2
    subst h2
    rw [fermatInverse_eq k (le_refl 2)]
    simp

/-! ## The ring size on the verifying side -/

/-- C23: the plain `Verify` does not enforce a ring size.  For the empty ring,
every message and every signature `[x]` of one scalar it returns true: the
length check passes (`0 + 1 = 1`), the loop runs no turn and the challenge,
read from slot 0, is compared with slot 0. -/
theorem Verify_empty_ring (E : Env) (msg : List Nat) (x : Int) :
    Verify E [] msg [some x] = .ok true := by
  simp [Verify, forLoop, forLoopFrom, index, deref, bind, Except.bind, pure, Except.pure]

/-! ## Steps that go through -/

theorem FillBytes_ok {x : Int} (h : Fits32 x) : ∃ b, FillBytes x 32 = .ok b := by
  unfold FillBytes
  have : ¬ 32 < (Bytes x).length := by
    unfold Fits32 at h
    omega
  simp only [this, if_false]
  exact ⟨_, rfl⟩

theorem writeKeys_ok : ∀ (pubs : List PublicKey) (h : List Nat),
    (∀ pub, pub ∈ pubs → Fits32 pub.X ∧ Fits32 pub.Y) → ∃ h1, writeKeys pubs h = .ok h1 := by
  intro pubs
  induction pubs with
  | nil => intro h _; exact ⟨h, rfl⟩
  | cons pub rest ih =>
    intro h hfit
    obtain ⟨hx, hy⟩ := hfit pub (List.mem_cons_self _ _)
    obtain ⟨bx, hbx⟩ := FillBytes_ok hx
    obtain ⟨b, hb⟩ := FillBytes_ok hy
    unfold writeKeys
    simp only [hbx, hb]
    exact ih _ (fun q hq => hfit q (List.mem_cons_of_mem _ hq))

theorem index_zero_ok {α : Type} {xs : List α} (h : xs ≠ []) : ∃ x, index xs 0 = .ok x := by
  cases xs with
  | nil => exact absurd rfl h
  | cons x rest => exact ⟨x, by simp [index]⟩

/-- `hash` goes through on a non-empty ring when the coordinates fit. -/
theorem hash_ok (E : Env) {pubs : List PublicKey} (msg : List Nat) {cx cy : Int}
    (hne : pubs ≠ []) (hfit : ∀ pub, pub ∈ pubs → Fits32 pub.X ∧ Fits32 pub.Y)
    (hx : Fits32 cx) (hy : Fits32 cy) : ∃ c, hash E pubs msg cx cy = .ok c := by
  obtain ⟨h1, hh1⟩ := writeKeys_ok pubs [] hfit
  obtain ⟨bx, hbx⟩ := FillBytes_ok hx
  obtain ⟨b, hb⟩ := FillBytes_ok hy
  obtain ⟨pub0, hp0⟩ := index_zero_ok hne
  simp only [hash, bind_eq_ok]
  exact ⟨_, h1, hh1, bx, hbx, b, hb, pub0, hp0, rfl⟩

theorem writePoint_ok (h : List Nat) {vx vy : Option Int}
    (hx : ∀ x, vx = some x → Fits32 x) (hy : ∀ y, vy = some y → Fits32 y) :
    ∃ h1, writePoint h vx vy = .ok h1 := by
  cases vx with
  | none => exact ⟨h, rfl⟩
  | some x =>
    cases vy with
    | none => exact ⟨h, rfl⟩
    | some y =>
      obtain ⟨bx, hbx⟩ := FillBytes_ok (hx x rfl)
      obtain ⟨b, hb⟩ := FillBytes_ok (hy y rfl)
      unfold writePoint
      simp only [hbx, hb]
      exact ⟨_, rfl⟩

/-- `hash1` goes through on a non-empty ring when the coordinates fit. -/
theorem hash1_ok (E : Env) {pubs : List PublicKey} {QpaiX QpaiY : Int} (msg : List Nat)
    {vx vy wx wy : Option Int}
    (hne : pubs ≠ []) (hfit : ∀ pub, pub ∈ pubs → Fits32 pub.X ∧ Fits32 pub.Y)
    (hqx : Fits32 QpaiX) (hqy : Fits32 QpaiY)
    (hvx : ∀ x, vx = some x → Fits32 x) (hvy : ∀ y, vy = some y → Fits32 y)
    (hwx : ∀ x, wx = some x → Fits32 x) (hwy : ∀ y, wy = some y → Fits32 y) :
    ∃ c, hash1 E pubs QpaiX QpaiY msg vx vy wx wy = .ok c := by
  obtain ⟨h1, hh1⟩ := writeKeys_ok pubs [] hfit
  obtain ⟨bx, hbx⟩ := FillBytes_ok hqx
  obtain ⟨b, hb⟩ := FillBytes_ok hqy
  obtain ⟨h2, hh2⟩ := writePoint_ok (h1 ++ bx ++ b ++ msg) hvx hvy
  obtain ⟨h3, hh3⟩ := writePoint_ok h2 hwx hwy
  obtain ⟨pub0, hp0⟩ := index_zero_ok hne
  simp only [hash1, bind_eq_ok]
  exact ⟨_, h1, hh1, bx, hbx, b, hb, h2, hh2, h3, hh3, pub0, hp0, rfl⟩

/-- The loop of a verifier in one more turn. -/
theorem forLoopFrom_succ_last {σ : Type} (body : Nat → σ → Go σ) :
    ∀ (cnt i : Nat) (st : σ),
      forLoopFrom body (cnt + 1) i st = (forLoopFrom body cnt i st >>= body (i + cnt)) := by
  intro cnt
  induction cnt with
  | zero =>
    intro i st
    simp only [forLoopFrom, Nat.add_zero]
    cases hb : body i st <;> simp [bind, Except.bind, hb]
  | succ cnt ih =>
    intro i st
    rw [forLoopFrom]
    cases hb : body i st with
    | error e => simp [forLoopFrom, hb, bind, Except.bind]
    | ok st1 =>
      simp only
      rw [ih (i + 1) st1]
      have e : i + 1 + cnt = i + (cnt + 1) := by omega
      rw [e]
      conv_rhs => rw [forLoopFrom]
      simp only [hb]

/-- A verifier's loop goes through when every slot it visits holds a scalar
and its step goes through there. -/
theorem replay_total (pubs : List PublicKey) (signature : List (Option Int)) (off : Nat)
    (f : PublicKey → Int → Int → Go Int) :
    ∀ (cnt i : Nat),
      (∀ j, i ≤ j → j < i + cnt → ∃ pub s, pubs[j]? = some pub ∧
          signature[j + off]? = some (some s) ∧ ∀ c, ∃ c1, f pub s c = .ok c1) →
      ∀ c, ∃ c1, forLoopFrom (replayBody pubs signature off f) cnt i c = .ok c1 := by
  intro cnt
  induction cnt with
  | zero => intro i _ c; exact ⟨c, rfl⟩
  | succ cnt ih =>
    intro i h c
    obtain ⟨pub, s, hpub, hs, hf⟩ := h i (Nat.le_refl i) (by omega)
    obtain ⟨c1, hc1⟩ := hf c
    have hb : replayBody pubs signature off f i c = .ok c1 := by
      simp only [replayBody, bind_eq_ok, index_eq_ok, deref_eq_ok]
      exact ⟨pub, hpub, some s, hs, s, rfl, hc1⟩
    unfold forLoopFrom
    simp only [hb]
    exact ih (i + 1) (fun j h1 h2 => h j (by omega) (by omega)) c1

theorem draws_append (strategy : ParticipantRandInt) (msg : List Nat) :
    ∀ (l1 l2 : List PublicKey) (rd : Reader) (ss : List Int) (rd2 : Reader),
      draws strategy msg (l1 ++ l2) rd = .ok (ss, rd2) →
      ∃ ss1 rd1 ss2, draws strategy msg l1 rd = .ok (ss1, rd1) ∧
        draws strategy msg l2 rd1 = .ok (ss2, rd2) := by
  intro l1
  induction l1 with
  | nil =>
    intro l2 rd ss rd2 h
    exact ⟨[], rd, ss, rfl, h⟩
  | cons pub rest ih =>
    intro l2 rd ss rd2 h
    simp only [List.cons_append, draws, List.append_eq] at h
    cases hs : strategy rd pub msg with
    | error e => simp [hs] at h
    | ok sr =>
      obtain ⟨s, rd1⟩ := sr
      simp only [hs] at h
      cases hd : draws strategy msg (rest ++ l2) rd1 with
      | error e => simp [hd] at h
      | ok r =>
        obtain ⟨ss0, rd3⟩ := r
        simp only [hd, Except.ok.injEq, Prod.mk.injEq] at h
        obtain ⟨_, rfl⟩ := h
        obtain ⟨ss1, rd4, ss2, h1, h2⟩ := ih l2 rd1 ss0 rd3 hd
        refine ⟨s :: ss1, rd4, ss2, ?_, h2⟩
        simp only [draws, hs, h1]

/-- A signer's loop goes through when the strategy serves the keys of its
slots in turn and the step goes through. -/
theorem walk_draws (strategy : ParticipantRandInt) (pubs : List PublicKey) (msg : List Nat)
    (off : Nat) (f : PublicKey → Int → Int → Go Int)
    (hf : ∀ pub, pub ∈ pubs → ∀ s c, ∃ c1, f pub s c = .ok c1) :
    ∀ (cnt i : Nat) (c : Int) (res : List (Option Int)) (rd : Reader) (ss : List Int)
      (rd1 : Reader),
      i + cnt ≤ pubs.length → pubs.length + off ≤ res.length →
      draws strategy msg ((pubs.drop i).take cnt) rd = .ok (ss, rd1) →
      ∃ c1 res1, forLoopFrom (walkBody strategy pubs msg off f) cnt i (c, res, rd)
          = .ok (c1, res1, rd1) ∧ res1.length = res.length := by
  intro cnt
  induction cnt with
  | zero =>
    intro i c res rd ss rd1 _ _ h
    simp only [List.take_zero, draws, Except.ok.injEq, Prod.mk.injEq] at h
    obtain ⟨_, rfl⟩ := h
    exact ⟨c, res, rfl, rfl⟩
  | succ cnt ih =>
    intro i c res rd ss rd1 hi hlen h
    have hlt : i < pubs.length := by omega
    have hpub : pubs[i]? = some pubs[i] := List.getElem?_eq_getElem hlt
    have hmem : pubs[i] ∈ pubs := List.getElem_mem hlt
    have hd : (pubs.drop i).take (cnt + 1) = pubs[i] :: (pubs.drop (i + 1)).take cnt := by
      rw [List.drop_eq_getElem_cons hlt, List.take_succ_cons]
    rw [hd] at h
    simp only [draws] at h
    cases hs : strategy rd pubs[i] msg with
    | error e => simp [hs] at h
    | ok sr =>
      obtain ⟨s, rd2⟩ := sr
      simp only [hs] at h
      cases hdr : draws strategy msg ((pubs.drop (i + 1)).take cnt) rd2 with
      | error e => simp [hdr] at h
      | ok r =>
        obtain ⟨ss0, rd3⟩ := r
        simp only [hdr, Except.ok.injEq, Prod.mk.injEq] at h
        obtain ⟨_, rfl⟩ := h
        obtain ⟨c1, hc1⟩ := hf pubs[i] hmem s c
        have hb : walkBody strategy pubs msg off f i (c, res, rd)
            = .ok (c1, res.set (i + off) (some s), rd2) := by
          simp only [walkBody, bind_eq_ok, index_eq_ok, assign_eq_ok]
          exact ⟨pubs[i], hpub, (s, rd2), hs, _, ⟨by omega, rfl⟩, c1, hc1, rfl⟩
        unfold forLoopFrom
        simp only [hb]
        obtain ⟨c2, res2, h2, hl2⟩ := ih (i + 1) c1 (res.set (i + off) (some s)) rd2 ss0 rd3
          (by omega) (by rw [List.length_set]; exact hlen) hdr
        exact ⟨c2, res2, h2, by rw [hl2, List.length_set]⟩

/-- The tail of a signer goes through when the strategy serves the keys
behind the signer and then those in front of it, in the order its two loops
visit them, the step goes through and the order is not zero; the signer's slot
then holds the value of the closing equation. -/
theorem ringWalk_draws (strategy : ParticipantRandInt) (pubs : List PublicKey) (msg : List Nat)
    (off : Nat) (f : PublicKey → Int → Int → Go Int) (C : Curve) (priv : PrivateKey)
    (kPai : Int) (pai : Nat) (c : Int) (res : List (Option Int)) (rd : Reader)
    (ss : List Int) (rd1 : Reader)
    (hs : draws strategy msg (pubs.drop (pai + 1) ++ pubs.take pai) rd = .ok (ss, rd1))
    (hf : ∀ pub, pub ∈ pubs → ∀ s c, ∃ c1, f pub s c = .ok c1)
    (hN : C.N ≠ 0) (hoff : 1 ≤ off) (hpai : pai < pubs.length)
    (hlen : res.length = pubs.length + off) :
    ∃ sig cpai s, ringWalk strategy pubs msg off f C priv kPai pai (c, res, rd) = .ok sig ∧
      closeRing C priv kPai cpai = .ok s ∧ sig.length = pubs.length + off ∧
      sig[pai + off]? = some (some s) := by
  obtain ⟨ss1, rdm, ss2, hd1, hd2⟩ := draws_append strategy msg _ _ rd ss rd1 hs
  have e1 : (pubs.drop (pai + 1)).take (pubs.length - (pai + 1)) = pubs.drop (pai + 1) := by
    apply List.take_of_length_le
    rw [List.length_drop]
  have e2 : (pubs.drop 0).take pai = pubs.take pai := by
    rw [List.drop_zero]
  rw [← e1] at hd1
  rw [← e2] at hd2
  obtain ⟨c1, res1, h1, hl1⟩ := walk_draws strategy pubs msg off f hf
    (pubs.length - (pai + 1)) (pai + 1) c res rd ss1 rdm (by omega) (by omega) hd1
  obtain ⟨c2, res2, h2, hl2⟩ := walk_draws strategy pubs msg off f hf
    pai 0 c1 (res1.set (off - 1) (some c1)) rdm ss2 rd1 (by omega)
    (by rw [List.length_set]; omega) hd2
  rw [List.length_set] at hl2
  obtain ⟨s, hclose⟩ : ∃ s, closeRing C priv kPai c2 = .ok s := by
    unfold closeRing
    exact ⟨_, Mod_eq_ok.mpr ⟨hN, rfl⟩⟩
  refine ⟨res2.set (pai + off) (some s), c2, s, ?_, hclose, ?_, ?_⟩
  · simp only [ringWalk, forLoop, bind_eq_ok, assign_eq_ok, Nat.sub_zero]
    exact ⟨(c1, res1, rdm), h1, res1.set (off - 1) (some c1),
      ⟨show off - 1 < res1.length by omega, rfl⟩, (c2, res2, rd1), h2, s, hclose,
      res2.set (pai + off) (some s), ⟨show pai + off < res2.length by omega, rfl⟩, rfl⟩
  · rw [List.length_set]
    omega
  · exact List.getElem?_set_self (by omega)

/-! ## The private key `N - 1` -/

theorem getPaiLoop_ok_of_mem (priv : PrivateKey) :
    ∀ (l : List PublicKey) (start : Nat),
      (∀ pub, pub ∈ l → pub.Curve = priv.Curve) → priv.toPublicKey ∈ l →
      ∃ i : Nat, getPaiLoop priv l start = .ok (i : Int) := by
  intro l
  induction l with
  | nil => intro start _ h; simp at h
  | cons q rest ih =>
    intro start hcurve hmem
    unfold getPaiLoop
    have hq : q.Curve = priv.Curve := hcurve q (List.mem_cons_self _ _)
    simp only [hq, ne_eq, not_true_eq_false, if_false]
    by_cases heq : priv.toPublicKey.Equal q = true
    · simp only [heq, if_true]
      exact ⟨start, rfl⟩
    · simp only [heq, Bool.false_eq_true, if_false]
      rcases List.mem_cons.mp hmem with h | h
      · rw [← h, PublicKey.Equal_self] at heq
        exact absurd rfl heq
      · exact ih (start + 1) (fun pub hp => hcurve pub (List.mem_cons_of_mem _ hp)) h

/-- On a ring of at least two keys of the signer's curve that holds the
signer's public key, `getPai` returns an index. -/
theorem getPai_ok_of_mem (priv : PrivateKey) (pubs : List PublicKey) (hn : 2 ≤ pubs.length)
    (hcurve : ∀ pub, pub ∈ pubs → pub.Curve = priv.Curve) (hmem : priv.toPublicKey ∈ pubs) :
    ∃ pai, getPai priv pubs = .ok pai := by
  obtain ⟨i, hi⟩ := getPaiLoop_ok_of_mem priv pubs 0 hcurve hmem
  unfold getPai
  have hi0 : ¬ ((i : Int) < 0) := by omega
  simp only [show ¬ pubs.length < 2 by omega, if_false, hi, hi0]
  exact ⟨_, rfl⟩

/-- The step of the plain scheme goes through on a lawful curve whose
coordinates fit 32 bytes. -/
theorem chainStep_ok (E : Env) {Pt : Type} [AddCommGroup Pt] {enc : Pt → Int × Int} {g : Pt}
    (cv : CurveRef) (L : (E.curve cv).Lawful enc g)
    (hfit : ∀ p : Pt, Fits32 (enc p).1 ∧ Fits32 (enc p).2)
    (pubs : List PublicKey) (msg : List Nat) (hne : pubs ≠ [])
    (hvalid : ∀ pub, pub ∈ pubs → ∃ p, enc p = (pub.X, pub.Y))
    (pub : PublicKey) (hpub : pub ∈ pubs) (s c : Int) :
    ∃ c1, chainStep E cv pubs msg pub s c = .ok c1 := by
  have hN : (E.curve cv).N ≠ 0 := L.prime.ne_zero
  have hkeys : ∀ q, q ∈ pubs → Fits32 q.X ∧ Fits32 q.Y := by
    intro q hq
    obtain ⟨p, hp⟩ := hvalid q hq
    have := hfit p
    rw [hp] at this
    exact this
  obtain ⟨p, hp⟩ := hvalid pub hpub
  have hX : pub.X = (enc p).1 := by rw [hp]
  have hY : pub.Y = (enc p).2 := by rw [hp]
  obtain ⟨c1, hc1⟩ := hash_ok E msg hne hkeys
    (hfit (SetBytes (Bytes s) • g
      + SetBytes (Bytes ((s + c) % ((E.curve cv).N : Int))) • p)).1
    (hfit (SetBytes (Bytes s) • g
      + SetBytes (Bytes ((s + c) % ((E.curve cv).N : Int))) • p)).2
  simp only [chainStep, bind_eq_ok, Mod_eq_ok]
  refine ⟨c1, _, ⟨hN, rfl⟩, ?_⟩
  simp only [hX, hY, L.base, L.smul, L.add]
  exact hc1

/-- With `D = N - 1`, `N ≥ 3` and the inverse taken from `fermatInverse`, the
closing equation multiplies by `N^(N-2) mod N = 0`. -/
theorem closeRing_order_minus_one (C : Curve) (priv : PrivateKey) (kPai c : Int)
    (hN : 3 ≤ C.N) (hD : priv.D = (C.N : Int) - 1) (hinv : C.Inverse = none) :
    closeRing C priv kPai c = .ok 0 := by
  have hf : fermatInverse (priv.D + 1) C.N = 0 := by
    rw [fermatInverse_eq _ (by omega)]
    apply Int.emod_eq_zero_of_dvd
    have h1 : C.N - 2 ≠ 0 := by omega
    have hd : ((C.N : Int)) ∣ priv.D + 1 := by
      rw [hD]
      simp
    exact dvd_pow hd h1
  unfold closeRing
  simp only [hinv, hf, mul_zero]
  rw [Mod_eq_ok]
  exact ⟨by omega, by simp⟩

/-- C24: `Sign` does not reject the private key `D = N - 1`, for which
`D + 1` has no inverse modulo `N`.  On a curve object that computes in a group
of prime order `N ≥ 3` with coordinates that fit 32 bytes, for every ring of
at least two points of that group on the signer's curve that holds the
signer's public key, every message, and every random stream and strategy that
do not fail on this run, that is, `k_pi` is drawn from the stream and the
strategy then serves, on the stream left, the keys behind the signer and the
keys in front of it in the order the two loops call it: `Sign` returns a
signature of `n + 1` entries, and when the curve does not implement
`invertible`, so that the inverse is taken from `fermatInverse`, the response
at the signer's index is `0`. -/
theorem Sign_accepts_order_minus_one (E : Env) {Pt : Type} [AddCommGroup Pt]
    (enc : Pt → Int × Int) (g : Pt) (rand : Reader) (strategy : ParticipantRandInt)
    (priv : PrivateKey) (pubs : List PublicKey) (msg : List Nat) (kPai : Int) (rand1 : Reader)
    (L : (E.curve priv.Curve).Lawful enc g) (hN : 3 ≤ (E.curve priv.Curve).N)
    (hfit : ∀ p : Pt, Fits32 (enc p).1 ∧ Fits32 (enc p).2)
    (hn : 2 ≤ pubs.length)
    (hcurve : ∀ pub, pub ∈ pubs → pub.Curve = priv.Curve)
    (hvalid : ∀ pub, pub ∈ pubs → ∃ p, enc p = (pub.X, pub.Y))
    (hmem : priv.toPublicKey ∈ pubs)
    (hD : priv.D = ((E.curve priv.Curve).N : Int) - 1)
    (hk : randFieldElement (E.curve priv.Curve) rand = .ok (kPai, rand1))
    (hs : ∀ pai, getPai priv pubs = .ok pai →
      ∃ ss rd, draws strategy msg (pubs.drop (pai + 1) ++ pubs.take pai) rand1
        = .ok (ss, rd)) :
    (∀ x : Int, ((priv.D + 1) * x) % ((E.curve priv.Curve).N : Int) ≠ 1) ∧
    ∃ pai sig, getPai priv pubs = .ok pai ∧
      Sign E rand strategy priv pubs msg = .ok sig ∧
      sig.length = pubs.length + 1 ∧
      ((E.curve priv.Curve).Inverse = none → sig[pai + 1]? = some (some 0)) := by
  refine ⟨?_, ?_⟩
  · intro x
    rw [hD]
    have : ((E.curve priv.Curve).N : Int) - 1 + 1 = (E.curve priv.Curve).N := by ring
    rw [this, Int.mul_emod_right]
    omega
  · obtain ⟨pai, hpai⟩ := getPai_ok_of_mem priv pubs hn hcurve hmem
    obtain ⟨_, hlt, _⟩ := getPai_spec _ _ pai hpai
    have hne : pubs ≠ [] := by
      intro h0
      rw [h0] at hn
      simp at hn
    have hkeys : ∀ q, q ∈ pubs → Fits32 q.X ∧ Fits32 q.Y := by
      intro q hq
      obtain ⟨p, hp⟩ := hvalid q hq
      have := hfit p
      rw [hp] at this
      exact this
    obtain ⟨c, hc⟩ : ∃ c, hash E pubs msg
        ((E.curve priv.Curve).ScalarBaseMult (Bytes kPai)).1
        ((E.curve priv.Curve).ScalarBaseMult (Bytes kPai)).2 = .ok c := by
      rw [L.base]
      exact hash_ok E msg hne hkeys (hfit _).1 (hfit _).2
    obtain ⟨ss, rd, hdraws⟩ := hs pai hpai
    obtain ⟨sig, cpai, s, hwalk, hclose, hlen, hown⟩ :=
      ringWalk_draws strategy pubs msg 1 (chainStep E priv.Curve pubs msg) (E.curve priv.Curve)
        priv kPai pai c (List.replicate (pubs.length + 1) none) rand1 ss rd hdraws
        (fun pub hp s c => chainStep_ok E priv.Curve L hfit pubs msg hne hvalid pub hp s c)
        (by omega) (le_refl 1) hlt (by simp)
    refine ⟨pai, sig, hpai, ?_, hlen, ?_⟩
    · rw [Sign_eq_ringWalk]
      simp only [bind_eq_ok]
      exact ⟨pai, hpai, (kPai, rand1), hk, c, hc, hwalk⟩
    · intro hinv
      rw [closeRing_order_minus_one _ priv kPai cpai hN hD hinv] at hclose
      simp only [Except.ok.injEq] at hclose
      rw [hown, ← hclose]

/-! ## A variant 1 signature from public data -/

/-- The step of variant 1 goes through on a lawful curve whose coordinates fit
32 bytes. -/
theorem variant1Step_ok (E : Env) {Pt : Type} [AddCommGroup Pt] {enc : Pt → Int × Int} {g : Pt}
    (cv : CurveRef) (L : (E.curve cv).Lawful enc g)
    (hfit : ∀ p : Pt, Fits32 (enc p).1 ∧ Fits32 (enc p).2)
    (pubs : List PublicKey) (msg : List Nat) (hne : pubs ≠ [])
    (hvalid : ∀ pub, pub ∈ pubs → ∃ p, enc p = (pub.X, pub.Y))
    (T q : Pt) (pub : PublicKey) (hpub : pub ∈ pubs) (s c : Int) :
    ∃ c1, variant1Step E cv pubs (enc T).1 (enc T).2 (enc q).1 (enc q).2 msg pub s c
      = .ok c1 := by
  have hN : (E.curve cv).N ≠ 0 := L.prime.ne_zero
  have hkeys : ∀ r, r ∈ pubs → Fits32 r.X ∧ Fits32 r.Y := by
    intro r hr
    obtain ⟨p, hp⟩ := hvalid r hr
    have := hfit p
    rw [hp] at this
    exact this
  obtain ⟨p, hp⟩ := hvalid pub hpub
  have hX : pub.X = (enc p).1 := by rw [hp]
  have hY : pub.Y = (enc p).2 := by rw [hp]
  obtain ⟨c1, hc1⟩ := @hash1_ok E pubs (enc q).1 (enc q).2 msg
    (some (enc (SetBytes (Bytes s) • T
      + SetBytes (Bytes ((s + c) % ((E.curve cv).N : Int))) • (p + q))).1)
    (some (enc (SetBytes (Bytes s) • T
      + SetBytes (Bytes ((s + c) % ((E.curve cv).N : Int))) • (p + q))).2)
    none none hne hkeys (hfit q).1 (hfit q).2
    (by intro x hx; cases hx; exact (hfit _).1)
    (by intro y hy; cases hy; exact (hfit _).2)
    (by intro x hx; cases hx) (by intro y hy; cases hy)
  simp only [variant1Step, bind_eq_ok, Mod_eq_ok]
  refine ⟨c1, _, ⟨hN, rfl⟩, ?_⟩
  simp only [hX, hY, L.smul, L.add]
  exact hc1

/-- The last step of variant 1 when the tag is the negation of the key: the
point fed to `hash1` is `t·R'`, whatever the challenge. -/
theorem variant1Step_negated_key (E : Env) {Pt : Type} [AddCommGroup Pt]
    {enc : Pt → Int × Int} {g : Pt} (cv : CurveRef) (L : (E.curve cv).Lawful enc g)
    (pubs : List PublicKey) (msg : List Nat) (T p : Pt) (pub : PublicKey)
    (hp : enc p = (pub.X, pub.Y)) (t c c0 : Int)
    (hc0 : hash1 E pubs (enc (-p)).1 (enc (-p)).2 msg
      (some ((E.curve cv).ScalarMult (enc T).1 (enc T).2 (Bytes t)).1)
      (some ((E.curve cv).ScalarMult (enc T).1 (enc T).2 (Bytes t)).2) none none = .ok c0) :
    variant1Step E cv pubs (enc T).1 (enc T).2 (enc (-p)).1 (enc (-p)).2 msg pub t c
      = .ok c0 := by
  have hN : (E.curve cv).N ≠ 0 := L.prime.ne_zero
  have hX : pub.X = (enc p).1 := by rw [hp]
  have hY : pub.Y = (enc p).2 := by rw [hp]
  simp only [variant1Step, bind_eq_ok, Mod_eq_ok]
  refine ⟨_, ⟨hN, rfl⟩, ?_⟩
  simp only [hX, hY, L.smul, L.add, add_neg_cancel, smul_zero, add_zero]
  simpa only [L.smul] using hc0

/-- C22: the verifier of variant 1 accepts a signature built from public data
only.  On a curve object that computes in a group of prime order with
coordinates that fit 32 bytes, for every ring `front ++ [last]` of points of
that group on one curve (`n ≥ 1` keys), every message, every scalars
`s_0 … s_{n-2}` and `t`, and every private key stored in the verifying object:
with the tag `Q = -last`, `R' = sum(ring) + G` and the seed
`c0 = hash1(ring, Q, msg, t·R')`, the list `[Q_X, Q_Y, c0, s_0, …, s_{n-2}, t]`
is accepted by `LinkableSignerVariant1.Verify`.  At the last slot
`last + Q` is the identity, so the point fed to `hash1` is `t·R'` whatever the
challenge that arrives there. -/
theorem variant1_accepts_public_signature (E : Env) {Pt : Type} [AddCommGroup Pt]
    (enc : Pt → Int × Int) (g : Pt) (cv : CurveRef) (v : LinkableSignerVariant1)
    (msg : List Nat) (front : List PublicKey) (last : PublicKey) (p : Pt) (ss : List Int)
    (t : Int)
    (L : (E.curve cv).Lawful enc g)
    (hfit : ∀ p : Pt, Fits32 (enc p).1 ∧ Fits32 (enc p).2)
    (hring : v.publicKeys = front ++ [last])
    (hcurve : ∀ pub, pub ∈ v.publicKeys → pub.Curve = cv)
    (hvalid : ∀ pub, pub ∈ v.publicKeys → ∃ p, enc p = (pub.X, pub.Y))
    (hlast : enc p = (last.X, last.Y))
    (hss : ss.length = front.length) :
    ∃ rx ry c0, publicKeysToPoint E v.publicKeys = .ok (rx, ry) ∧
      hash1 E v.publicKeys (enc (-p)).1 (enc (-p)).2 msg
        (some ((E.curve cv).ScalarMult
          ((E.curve cv).Add rx ry (E.curve cv).Gx (E.curve cv).Gy).1
          ((E.curve cv).Add rx ry (E.curve cv).Gx (E.curve cv).Gy).2 (Bytes t)).1)
        (some ((E.curve cv).ScalarMult
          ((E.curve cv).Add rx ry (E.curve cv).Gx (E.curve cv).Gy).1
          ((E.curve cv).Add rx ry (E.curve cv).Gx (E.curve cv).Gy).2 (Bytes t)).2)
        none none = .ok c0 ∧
      LinkableSignerVariant1.Verify E v msg
        (some (enc (-p)).1 :: some (enc (-p)).2 :: some c0 :: (ss.map some ++ [some t]))
        = .ok true := by
  have hne : v.publicKeys ≠ [] := by
    rw [hring]
    simp
  have hlen : v.publicKeys.length = front.length + 1 := by
    rw [hring]
    simp
  obtain ⟨pub0, hpub0⟩ : ∃ pub0, v.publicKeys[0]? = some pub0 :=
    ⟨v.publicKeys[0], List.getElem?_eq_getElem (by omega)⟩
  have hcv0 : pub0.Curve = cv := hcurve pub0 (List.getElem?_mem hpub0)
  obtain ⟨R, hR⟩ := publicKeysToPoint_valid E cv L v.publicKeys hne hcurve hvalid
  have hGx : (E.curve cv).Gx = (enc g).1 := by rw [L.gen]
  have hGy : (E.curve cv).Gy = (enc g).2 := by rw [L.gen]
  have hT : (E.curve cv).Add (enc R).1 (enc R).2 (E.curve cv).Gx (E.curve cv).Gy
      = enc (R + g) := by
    rw [hGx, hGy, L.add]
  have hkeys : ∀ r, r ∈ v.publicKeys → Fits32 r.X ∧ Fits32 r.Y := by
    intro r hr
    obtain ⟨p1, hp1⟩ := hvalid r hr
    have := hfit p1
    rw [hp1] at this
    exact this
  obtain ⟨c0, hc0⟩ : ∃ c0, hash1 E v.publicKeys (enc (-p)).1 (enc (-p)).2 msg
      (some ((E.curve cv).ScalarMult (enc (R + g)).1 (enc (R + g)).2 (Bytes t)).1)
      (some ((E.curve cv).ScalarMult (enc (R + g)).1 (enc (R + g)).2 (Bytes t)).2)
      none none = .ok c0 := by
    rw [L.smul]
    exact hash1_ok E msg hne hkeys (hfit _).1 (hfit _).2
      (by intro x hx; cases hx; exact (hfit _).1)
      (by intro y hy; cases hy; exact (hfit _).2)
      (by intro x hx; cases hx) (by intro y hy; cases hy)
  refine ⟨(enc R).1, (enc R).2, c0, hR, ?_, ?_⟩
  · rw [hT]
    exact hc0
  -- the slots of the list
  have hslot : ∀ j, j < front.length → ∃ pub s, v.publicKeys[j]? = some pub ∧
      (some (enc (-p)).1 :: some (enc (-p)).2 :: some c0 :: (ss.map some ++ [some t]))[j + 3]?
        = some (some s) := by
    intro j hj
    refine ⟨front[j], ss[j], ?_, ?_⟩
    · rw [hring, List.getElem?_append_left (by omega), List.getElem?_eq_getElem hj]
    · simp only [List.getElem?_cons_succ]
      rw [List.getElem?_append_left (by simp; omega)]
      simp [List.getElem?_eq_getElem (show j < ss.length by omega)]
  have hlastslot : v.publicKeys[front.length]? = some last ∧
      (some (enc (-p)).1 :: some (enc (-p)).2 :: some c0
        :: (ss.map some ++ [some t]))[front.length + 3]? = some (some t) := by
    refine ⟨?_, ?_⟩
    · rw [hring, List.getElem?_append_right (le_refl _)]
      simp
    · simp only [List.getElem?_cons_succ]
      rw [List.getElem?_append_right (by simp; omega)]
      simp [hss]
  -- the turns in front of the last slot go through
  obtain ⟨c1, hc1⟩ := replay_total v.publicKeys
    (some (enc (-p)).1 :: some (enc (-p)).2 :: some c0 :: (ss.map some ++ [some t])) 3
    (fun pub => variant1Step E pub.Curve v.publicKeys (enc (R + g)).1 (enc (R + g)).2
      (enc (-p)).1 (enc (-p)).2 msg pub) front.length 0
    (by
      intro j _ hj
      obtain ⟨pub, s, hpub, hs⟩ := hslot j (by omega)
      refine ⟨pub, s, hpub, hs, ?_⟩
      intro c
      have hmem := List.getElem?_mem hpub
      simp only [hcurve pub hmem]
      exact variant1Step_ok E cv L hfit v.publicKeys msg hne hvalid (R + g) (-p) pub hmem s c)
    c0
  have hcl : last.Curve = cv := hcurve last (List.getElem?_mem hlastslot.1)
  have hstep : replayBody v.publicKeys
      (some (enc (-p)).1 :: some (enc (-p)).2 :: some c0 :: (ss.map some ++ [some t])) 3
      (fun pub => variant1Step E pub.Curve v.publicKeys (enc (R + g)).1 (enc (R + g)).2
        (enc (-p)).1 (enc (-p)).2 msg pub) (0 + front.length) c1 = .ok c0 := by
    simp only [replayBody, bind_eq_ok, index_eq_ok, deref_eq_ok, Nat.zero_add]
    refine ⟨last, hlastslot.1, some t, hlastslot.2, t, rfl, ?_⟩
    rw [hcl]
    exact variant1Step_negated_key E cv L v.publicKeys msg (R + g) p last hlast t c1 c0 hc0
  have hloop : forLoop 0 v.publicKeys.length (replayBody v.publicKeys
      (some (enc (-p)).1 :: some (enc (-p)).2 :: some c0 :: (ss.map some ++ [some t])) 3
      (fun pub => variant1Step E pub.Curve v.publicKeys (enc (R + g)).1 (enc (R + g)).2
        (enc (-p)).1 (enc (-p)).2 msg pub)) c0 = .ok c0 := by
    unfold forLoop
    rw [Nat.sub_zero, hlen, forLoopFrom_succ_last, hc1]
    exact hstep
  unfold LinkableSignerVariant1.Verify
  simp only
  rw [if_neg (by simp; omega)]
  simp only [bind_eq_ok, index_eq_ok, deref_eq_ok, LinkableSignerVariant1_Verify_body_eq]
  refine ⟨_, hR, pub0, hpub0, ?_⟩
  simp only [hcv0, hT]
  have h0 : (some (enc (-p)).1 :: some (enc (-p)).2 :: some c0
      :: (ss.map some ++ [some t]))[0]? = some (some (enc (-p)).1) := rfl
  have h1 : (some (enc (-p)).1 :: some (enc (-p)).2 :: some c0
      :: (ss.map some ++ [some t]))[1]? = some (some (enc (-p)).2) := rfl
  have h2 : (some (enc (-p)).1 :: some (enc (-p)).2 :: some c0
      :: (ss.map some ++ [some t]))[2]? = some (some c0) := by simp
  exact ⟨some (enc (-p)).1, h0, (enc (-p)).1, rfl, some (enc (-p)).2, h1, (enc (-p)).2, rfl,
    some c0, h2, c0, rfl, c0, hloop, some c0, h2, c0, rfl, by simp [pure, Except.pure]⟩

/-! ## The two readings of `Equal` -/

theorem Bytes_eq_iff {x y : Int} (hx : 0 ≤ x) (hy : 0 ≤ y) : Bytes x = Bytes y ↔ x = y := by
  constructor
  · intro h
    have h1 := congrArg SetBytes h
    rw [SetBytes_Bytes, SetBytes_Bytes] at h1
    omega
  · intro h
    rw [h]

/-- On keys whose coordinates are not negative, comparing the coordinates and
comparing their bytes is the same. -/
theorem PublicKey.Equal_eq_EqualBytes (a b : PublicKey) (ha : 0 ≤ a.X ∧ 0 ≤ a.Y)
    (hb : 0 ≤ b.X ∧ 0 ≤ b.Y) : a.Equal b = a.EqualBytes b := by
  have hX : (Bytes a.X == Bytes b.X) = (a.X == b.X) := by
    rw [Bool.eq_iff_iff]
    simp only [beq_iff_eq]
    exact Bytes_eq_iff ha.1 hb.1
  have hY : (Bytes a.Y == Bytes b.Y) = (a.Y == b.Y) := by
    rw [Bool.eq_iff_iff]
    simp only [beq_iff_eq]
    exact Bytes_eq_iff ha.2 hb.2
  simp only [PublicKey.Equal, PublicKey.EqualBytes, hX, hY]

/-! ## The small curve object is lawful -/

theorem toyLog_toyPoint : ∀ i : Fin 17, toyLog (toyPoint i.val).1 (toyPoint i.val).2 = i.val := by
  decide

theorem toyLog_toyEnc (p : ZMod 17) : toyLog (toyEnc p).1 (toyEnc p).2 = p.val :=
  toyLog_toyPoint p

theorem toyPoint_mod (i : Nat) : toyPoint (i % 17) = toyPoint i := by
  simp [toyPoint]

/-- The small curve object computes in `ZMod 17`. -/
theorem toyCurve_lawful : toyCurve.Lawful toyEnc 1 where
  prime := by norm_num [toyCurve]
  gen := by decide
  add := by
    intro p q
    show toyPoint (toyLog (toyEnc p).1 (toyEnc p).2 + toyLog (toyEnc q).1 (toyEnc q).2)
      = toyPoint (p + q).val
    rw [toyLog_toyEnc, toyLog_toyEnc, ZMod.val_add, toyPoint_mod]
  smul := by
    intro p k
    show toyPoint (SetBytes k * toyLog (toyEnc p).1 (toyEnc p).2) = toyPoint (SetBytes k • p).val
    rw [toyLog_toyEnc, nsmul_eq_mul, ZMod.val_mul, ZMod.val_natCast, ← toyPoint_mod,
      Nat.mod_mul_mod, toyPoint_mod]
  base := by
    intro k
    show toyPoint (SetBytes k) = toyPoint (SetBytes k • (1 : ZMod 17)).val
    rw [nsmul_eq_mul, mul_one, ZMod.val_natCast, toyPoint_mod]
  order := by
    intro p
    show 17 • p = 0
    rw [nsmul_eq_mul]
    have : ((17 : Nat) : ZMod 17) = 0 := ZMod.natCast_self 17
    rw [this, zero_mul]
  inverse := by
    intro inv h
    simp [toyCurve] at h

/-! ## Concrete runs on the small curve -/

set_option maxRecDepth 1000000

/-- The plain round trip on the small curve: signer in the middle of a ring of three. -/
theorem Sign_Verify_round_trip_witness :
    Verify toyEnv toyRing toyMsg [some 24, some 11, some 3, some 3] = .ok true :=
  Sign_Verify_round_trip toyEnv toyEnc 1 toyRand (SimpleParticipantRandInt toyEnv) toyPriv
    toyRing toyMsg [some 24, some 11, some 3, some 3] toyCurve_lawful (by decide) (by decide)
    (by decide) (by decide) (by decide)

/-- The keys of `toyRing` carry the signer's curve. -/
theorem toyRing_curve : ∀ pub, pub ∈ toyRing → pub.Curve = toyPriv.Curve := by decide

/-- The keys of `toyRing` are points of the small curve. -/
theorem toyRing_valid : ∀ pub, pub ∈ toyRing → ∃ p, toyEnc p = (pub.X, pub.Y) := by
  intro pub hp
  simp only [toyRing, List.mem_cons, List.mem_singleton, List.not_mem_nil, or_false] at hp
  rcases hp with rfl | rfl | rfl
  · exact ⟨3, by decide⟩
  · exact ⟨5, by decide⟩
  · exact ⟨7, by decide⟩

/-- The base linkable round trip on the small curve. -/
theorem BaseLinkable_round_trip_witness :
    BaseLinkableVerfier.Verify toyEnv toyBaseSigner.toBaseLinkableVerfier toyMsg
      [some 9, some 2, some 3, some 11, some 3, some 3] = .ok true :=
  BaseLinkable_round_trip toyEnv toyEnc 1 toyRand (SimpleParticipantRandInt toyEnv)
    toyBaseSigner toyMsg [some 9, some 2, some 3, some 11, some 3, some 3] toyCurve_lawful
    toyRing_curve toyRing_valid (by decide) (by decide) (by decide) (by decide)

/-- The variant 1 round trip on the small curve. -/
theorem LinkableVariant1_round_trip_witness :
    LinkableSignerVariant1.Verify toyEnv toySigner1 toyMsg
      [some 9, some 2, some 31, some 11, some 2, some 3] = .ok true :=
  LinkableVariant1_round_trip toyEnv toyEnc 1 toyRand (SimpleParticipantRandInt toyEnv)
    toySigner1 toyMsg [some 9, some 2, some 31, some 11, some 2, some 3] toyCurve_lawful
    toyRing_curve toyRing_valid (by decide) (by decide) (by decide) (by decide)

/-- The variant 2 round trip on the small curve, under `SM2ParticipantRandInt`. -/
theorem LinkableVariant2_round_trip_witness :
    LinkableSignerVariant2.Verify toyEnv toySigner2 toyMsg
      [some 9, some 2, some 16, some 12, some 12, some 6] = .ok true :=
  LinkableVariant2_round_trip toyEnv toyEnc 1 toyRand (SM2ParticipantRandInt toyEnv)
    toySigner2 toyMsg [some 9, some 2, some 16, some 12, some 12, some 6] toyCurve_lawful
    toyRing_curve toyRing_valid (by decide) (by decide) (by decide) (by decide)

/-- Two messages, two random streams and two strategies: the signatures of each
linkable scheme are linked. -/
theorem same_signer_Linkable_witness :
    Linkable [some 9, some 2, some 3, some 11, some 3, some 3]
        [some 9, some 2, some 30, some 9, some 4, some 8] = .ok true ∧
      Linkable [some 9, some 2, some 31, some 11, some 2, some 3]
        [some 9, some 2, some 28, some 9, some 6, some 8] = .ok true ∧
      Linkable [some 9, some 2, some 16, some 12, some 12, some 6]
        [some 9, some 2, some 4, some 8, some 1, some 4] = .ok true :=
  ⟨((same_signer_Linkable toyEnv).1 toyBaseSigner toyRand toyRand2
      (SimpleParticipantRandInt toyEnv) (SM2ParticipantRandInt toyEnv) toyMsg toyMsg2
      [some 9, some 2, some 3, some 11, some 3, some 3]
      [some 9, some 2, some 30, some 9, some 4, some 8] (by decide) (by decide)).2.2.2,
    ((same_signer_Linkable toyEnv).2.1 toySigner1 toyRand toyRand2
      (SimpleParticipantRandInt toyEnv) (SM2ParticipantRandInt toyEnv) toyMsg toyMsg2
      [some 9, some 2, some 31, some 11, some 2, some 3]
      [some 9, some 2, some 28, some 9, some 6, some 8] (by decide) (by decide)).2.2.2,
    ((same_signer_Linkable toyEnv).2.2 toySigner2 toyRand toyRand2
      (SM2ParticipantRandInt toyEnv) (SimpleParticipantRandInt toyEnv) toyMsg toyMsg2
      [some 9, some 2, some 16, some 12, some 12, some 6]
      [some 9, some 2, some 4, some 8, some 1, some 4] (by decide) (by decide)).2.2.2⟩

/-- The signer moved from index 1 to index 0: same ring sum, linked signatures. -/
theorem tag_ring_order_invariant_witness :
    publicKeysToPoint toyEnv toyRing = publicKeysToPoint toyEnv toyRing2 ∧
      Linkable [some 9, some 2, some 3, some 11, some 3, some 3]
        [some 9, some 2, some 31, some 14, some 9, some 4] = .ok true :=
  have h := tag_ring_order_invariant toyEnv toyEnc 1 toyPriv toyRing toyRing2 toyCurve_lawful
    (by decide) toyRing_curve toyRing_valid
  ⟨h.1, (h.2.1 toyRand toyRand2 (SimpleParticipantRandInt toyEnv) (SM2ParticipantRandInt toyEnv)
    toyMsg toyMsg2 [some 9, some 2, some 3, some 11, some 3, some 3]
    [some 9, some 2, some 31, some 14, some 9, some 4] (by decide) (by decide)).2.2⟩

/-- C6: the signer returned by `NewLinkableSignerVariant2` is a
`LinkableSignerVariant1`, so its methods are those of variant 1.  On the same
key, ring, message and random stream its `Sign` returns the variant 1
signature, which differs from what `LinkableSignerVariant2.Sign` returns, and
its `Verify` rejects the variant 2 signature that
`LinkableSignerVariant2.Verify` accepts. -/
theorem NewLinkableSignerVariant2_runs_variant1 :
    (∀ (priv : PrivateKey) (pubs : List PublicKey),
      NewLinkableSignerVariant2 priv pubs = NewLinkableSignerVariant1 priv pubs) ∧
    (NewLinkableSignerVariant2 toyPriv toyRing).Sign toyEnv toyRand
        (SimpleParticipantRandInt toyEnv) toyMsg
      = .ok [some 9, some 2, some 31, some 11, some 2, some 3] ∧
    toySigner2.Sign toyEnv toyRand (SimpleParticipantRandInt toyEnv) toyMsg
      = .ok [some 9, some 2, some 12, some 11, some 8, some 3] ∧
    (NewLinkableSignerVariant2 toyPriv toyRing).Verify toyEnv toyMsg
        [some 9, some 2, some 12, some 11, some 8, some 3] = .ok false ∧
    toySigner2.Verify toyEnv toyMsg [some 9, some 2, some 12, some 11, some 8, some 3]
      = .ok true := by
  refine ⟨fun _ _ => rfl, ?_, ?_, ?_, ?_⟩ <;> decide

/-- C8 fails as stated: with `N = 17`, a plain signature under
`SimpleParticipantRandInt` has seed `24`; a plain signature under
`SM2ParticipantRandInt` has the responses `23` and `26`; a base linkable
signature has the tag coordinates `19` and `20`. -/
theorem scalar_range_counterexample :
    (Sign toyEnv toyRand (SimpleParticipantRandInt toyEnv) toyPriv toyRing toyMsg
        = .ok [some 24, some 11, some 3, some 3]
      ∧ ¬ ((24 : Int) ≤ ((toyEnv.curve toyPriv.Curve).N : Int) - 1)) ∧
    (Sign toyEnv toyRand3 (SM2ParticipantRandInt toyEnv) toyPriv toyRing toyMsg
        = .ok [some 25, some 23, some 3, some 26]
      ∧ ¬ ((23 : Int) ≤ ((toyEnv.curve toyPriv.Curve).N : Int) - 1)) ∧
    (BaseLinkableSigner.Sign toyEnv (NewBaseLinkableSigner toyPriv toyRingB) toyRand
        (SimpleParticipantRandInt toyEnv) toyMsg
        = .ok [some 19, some 20, some 25, some 9, some 3]
      ∧ ¬ ((19 : Int) ≤ ((toyEnv.curve toyPriv.Curve).N : Int) - 1)) := by
  refine ⟨⟨?_, ?_⟩, ⟨?_, ?_⟩, ⟨?_, ?_⟩⟩ <;> decide

/-- The ranges of a plain signature under `SM2ParticipantRandInt` with `N = 17`:
responses up to `2N - 2 = 32`, seed below `2^5`. -/
theorem scalar_ranges_witness :
    ∃ pai, getPai toyPriv toyRing = .ok pai ∧
      ScalarRanges [some 25, some 23, some 3, some 26] 1 toyRing.length pai
        (2 ^ BitLen (toyEnv.curve toyPriv.Curve).N - 1)
        ((toyEnv.curve toyPriv.Curve).N : Int) 2 32 :=
  (scalar_ranges toyEnv toyPriv toyRing toyMsg (SM2ParticipantRandInt toyEnv) 2 32
    toyRing_curve (Or.inr ⟨rfl, rfl, by decide⟩)).1 toyRand3
    [some 25, some 23, some 3, some 26] (by decide)

/-- C10: the linkable verifiers panic.  On the empty ring with a signature of
three integers, `publicKeysToPoint` indexes `pubs[0]`; and on a ring of valid
keys a tag coordinate of `2^256` does not fit the 32-byte buffer of `hash1`. -/
theorem linkable_Verify_panics :
    (∀ (E : Env) (msg : List Nat) (a b c : Int),
      BaseLinkableVerfier.Verify E (NewBaseLinkableVerfier []) msg [some a, some b, some c]
        = .error (.panic "index out of range")) ∧
    (∀ (E : Env) (priv : PrivateKey) (msg : List Nat) (a b c : Int),
      LinkableSignerVariant1.Verify E (NewLinkableSignerVariant1 priv []) msg
        [some a, some b, some c] = .error (.panic "index out of range")) ∧
    (∀ (E : Env) (priv : PrivateKey) (msg : List Nat) (a b c : Int),
      LinkableSignerVariant2.Verify E { publicKeys := [], privateKey := priv } msg
        [some a, some b, some c] = .error (.panic "index out of range")) ∧
    BaseLinkableVerfier.Verify toyEnv toyBaseSigner.toBaseLinkableVerfier toyMsg
        [some (2 ^ 256), some 2, some 3, some 11, some 3, some 3]
      = .error (.panic "math/big: buffer too small to fit value") ∧
    LinkableSignerVariant1.Verify toyEnv toySigner1 toyMsg
        [some (2 ^ 256), some 2, some 31, some 11, some 2, some 3]
      = .error (.panic "math/big: buffer too small to fit value") ∧
    LinkableSignerVariant2.Verify toyEnv toySigner2 toyMsg
        [some (2 ^ 256), some 2, some 16, some 12, some 12, some 6]
      = .error (.panic "math/big: buffer too small to fit value") := by
  refine ⟨fun _ _ _ _ _ => rfl, fun _ _ _ _ _ _ => rfl, fun _ _ _ _ _ _ => rfl, ?_, ?_, ?_⟩
    <;> decide

/-- C9 fails as stated: with `N = 17`, each verifier accepts a signature whose
first response has been raised from `11` (or `12`) to `28` (or `29`). -/
theorem out_of_range_response_accepted :
    ¬ ((28 : Int) ≤ ((toyEnv.curve toyPriv.Curve).N : Int) - 1) ∧
    Verify toyEnv toyRing toyMsg [some 24, some 28, some 3, some 3] = .ok true ∧
    BaseLinkableVerfier.Verify toyEnv toyBaseSigner.toBaseLinkableVerfier toyMsg
      [some 9, some 2, some 3, some 28, some 3, some 3] = .ok true ∧
    LinkableSignerVariant1.Verify toyEnv toySigner1 toyMsg
      [some 9, some 2, some 31, some 28, some 2, some 3] = .ok true ∧
    LinkableSignerVariant2.Verify toyEnv toySigner2 toyMsg
      [some 9, some 2, some 16, some 29, some 12, some 6] = .ok true := by
  refine ⟨?_, ?_, ?_, ?_, ?_⟩ <;> decide

/-- Raising the first response from `11` to `11 + 17` does not change the verdict. -/
theorem Verify_ignores_order_multiple_witness :
    Verify toyEnv toyRing toyMsg [some 24, some 28, some 3, some 3]
        = Verify toyEnv toyRing toyMsg [some 24, some 11, some 3, some 3] ∧
      BaseLinkableVerfier.Verify toyEnv { publicKeys := toyRing } toyMsg
          [some 9, some 2, some 3, some 28, some 3, some 3]
        = BaseLinkableVerfier.Verify toyEnv { publicKeys := toyRing } toyMsg
          [some 9, some 2, some 3, some 11, some 3, some 3] :=
  ⟨(Verify_ignores_order_multiple toyEnv toyEnc 1 0 toyRing toyMsg
      [some 24, some 11, some 3, some 3] 0 11 toyCurve_lawful toyRing_curve (by decide)).1
      (by decide),
    ((Verify_ignores_order_multiple toyEnv toyEnc 1 0 toyRing toyMsg
      [some 9, some 2, some 3, some 11, some 3, some 3] 0 11 toyCurve_lawful toyRing_curve
      (by decide)).2 toyRing_valid (by decide)).1⟩

/-- A signature one entry short, and one entry long, on `toyRing`: rejected by
the plain verifier and by the base linkable verifier, on the empty ring too. -/
theorem Verify_length_check_witness :
    Verify toyEnv toyRing toyMsg [some 24, some 11, some 3] = .ok false ∧
      BaseLinkableVerfier.Verify toyEnv { publicKeys := toyRing } toyMsg
        [some 9, some 2, some 3, some 11, some 3, some 3, some 3] = .ok false ∧
      LinkableSignerVariant1.Verify toyEnv { publicKeys := [], privateKey := toyPriv } toyMsg
        [some 9, some 2] = .ok false :=
  ⟨(Verify_length_check toyEnv toyRing toyMsg [some 24, some 11, some 3]).1 (by decide),
    ((Verify_length_check toyEnv toyRing toyMsg
      [some 9, some 2, some 3, some 11, some 3, some 3, some 3]).2 (by decide)).1,
    ((Verify_length_check toyEnv [] toyMsg [some 9, some 2]).2 (by decide)).2.1 toyPriv⟩

/-- The layout of a plain signature over `toyRing`, the
signer at index 1. -/
theorem signature_layout_witness :
    (∃ pai c0 spai, getPai toyPriv toyRing = .ok pai ∧
        [some 24, some 11, some 3, some (3 : Int)].length = toyRing.length + 1 ∧
        [some 24, some 11, some 3, some (3 : Int)][0]? = some (some c0) ∧
        [some 24, some 11, some 3, some (3 : Int)][pai + 1]? = some (some spai) ∧
        (∀ j, j < toyRing.length → j ≠ pai → ∃ pub s r r1, toyRing[j]? = some pub ∧
          [some 24, some 11, some 3, some (3 : Int)][j + 1]? = some (some s) ∧
          SimpleParticipantRandInt toyEnv r pub toyMsg = .ok (s, r1)) ∧
        (∀ j, j < toyRing.length + 1 →
          ∃ x, [some 24, some 11, some 3, some (3 : Int)][j]? = some (some x)) ∧
        (writeOrder pai toyRing.length).Perm (List.range toyRing.length)) :=
  (signature_layout toyEnv toyPriv toyRing toyMsg (SimpleParticipantRandInt toyEnv)).1 toyRand
    [some 24, some 11, some 3, some 3] (by decide)

/-- Different points of the small curve have different coordinates. -/
theorem toyEnc_injective : Function.Injective toyEnc := by
  intro a b h
  have ha := toyLog_toyEnc a
  rw [h, toyLog_toyEnc] at ha
  exact ZMod.val_injective 17 ha.symm

/-- C13 fails as stated: the signers `D = 5` and `D = 12` both have their key
in the ring `[5·G, 12·G]`, which sums to the point at infinity; both tags are
`(0, 0)` and `Linkable` returns true. -/
theorem degenerate_ring_links_signers :
    toyPriv.D ≠ toyPrivNeg.D ∧
    (1 ≤ toyPriv.D ∧ toyPriv.D ≤ ((toyEnv.curve toyPriv.Curve).N : Int) - 1) ∧
    (1 ≤ toyPrivNeg.D ∧ toyPrivNeg.D ≤ ((toyEnv.curve toyPrivNeg.Curve).N : Int) - 1) ∧
    BaseLinkableSigner.Sign toyEnv { publicKeys := toyRingZero, privateKey := toyPriv } toyRand
        (SimpleParticipantRandInt toyEnv) toyMsg
      = .ok [some 0, some 0, some 28, some 15, some 3] ∧
    BaseLinkableSigner.Sign toyEnv { publicKeys := toyRingZero, privateKey := toyPrivNeg }
        toyRand2 (SimpleParticipantRandInt toyEnv) toyMsg2
      = .ok [some 0, some 0, some 21, some 4, some 8] ∧
    Linkable [some 0, some 0, some 28, some 15, some 3]
      [some 0, some 0, some 21, some 4, some 8] = .ok true := by
  refine ⟨?_, ⟨?_, ?_⟩, ⟨?_, ?_⟩, ?_, ?_, ?_⟩ <;> decide

/-- The signers `D = 5` and `D = 7` of `toyRing` (sum `15·G`): tags `(9, 2)`
and `(17, 22)`, not linked. -/
theorem distinct_signers_not_linked_witness :
    ¬ ([some 9, some 2, some 3, some 11, some 3, some (3 : Int)][0]?
          = [some 17, some 22, some 0, some 9, some 4, some (3 : Int)][0]?
        ∧ [some 9, some 2, some 3, some 11, some 3, some (3 : Int)][1]?
          = [some 17, some 22, some 0, some 9, some 4, some (3 : Int)][1]?) ∧
      Linkable [some 9, some 2, some 3, some 11, some 3, some 3]
        [some 17, some 22, some 0, some 9, some 4, some 3] = .ok false :=
  (distinct_signers_not_linked toyEnv toyEnc 1 0 toyPriv toyPriv7 toyRing toyCurve_lawful
    toyEnc_injective toyRing_curve toyRing_valid (by decide) (by decide) (by decide) (by decide)
    (by decide) (by decide)).1 toyRand toyRand2 (SimpleParticipantRandInt toyEnv)
    (SM2ParticipantRandInt toyEnv) toyMsg toyMsg2
    [some 9, some 2, some 3, some 11, some 3, some 3]
    [some 17, some 22, some 0, some 9, some 4, some 3] (by decide) (by decide)

/-- The signer's key at indices 1 and 2: `getPai` returns 1. -/
theorem getPai_least_index_witness : getPai toyPriv toyRingDup = .ok 1 :=
  (getPai_least_index toyPriv toyRingDup).2.2 (by decide) (by decide) 1
    { Curve := 0, X := 11, Y := 5 } (by decide) (by decide) (by decide)

/-- C14: `getPai` stops at the first key `Equal` to the signer's, so the keys
behind it are never compared with the signer's curve.  A ring that starts with
the signer's key is accepted whatever follows, and `Sign` returns a signature
for it; with the foreign key in front, `getPai` fails. -/
theorem getPai_skips_keys_behind_signer :
    (∀ (priv : PrivateKey) (other : PublicKey) (rest : List PublicKey),
      getPai priv (priv.toPublicKey :: other :: rest) = .ok 0) ∧
    getPai toyPriv toyRingMixed = .ok 0 ∧
    Sign toyEnv toyRand (SimpleParticipantRandInt toyEnv) toyPriv toyRingMixed toyMsg
      = .ok [some 11, some 15, some 3] ∧
    getPai toyPriv toyRingMixed.reverse = .error (.error "contains non SM2 public key") := by
  refine ⟨?_, ?_, ?_, ?_⟩
  · intro priv other rest
    unfold getPai
    simp [getPaiLoop, PublicKey.Equal_self]
  · decide
  · decide
  · decide

/-- With `N = 17` (5 bits, one byte) the digest `0xFF` gives `31 ≥ 17`, and a
32-byte digest is cut to its first byte and shifted by 3 bits. -/
theorem hashToInt_truncation_witness :
    (hashToInt (List.replicate ((BitLen toyCurve.N + 7) / 8) 255) toyCurve
        = 2 ^ BitLen toyCurve.N - 1 ∧
      (toyCurve.N : Int) ≤ hashToInt (List.replicate ((BitLen toyCurve.N + 7) / 8) 255) toyCurve) ∧
    hashToInt (toySm3 [1, 2, 3]) toyCurve = hashToIntSpec (toySm3 [1, 2, 3]) toyCurve.N ∧
    hashToIntSpec (toySm3 [1, 2, 3]) toyCurve.N = 5 :=
  ⟨(hashToInt_truncation [] toyCurve).2.2.2 (by decide),
    (hashToInt_truncation (toySm3 [1, 2, 3]) toyCurve).1, by decide⟩

/-- On the small curve (`N = 17`, one byte per block, three excess bits) the
stream `200, 77, …` has the candidates `25` (rejected) and `9` (accepted); the
stream `200, 250` of two rejected blocks ends on a block boundary and gives
`EOF`.  With the order `257` (two bytes per block, seven excess bits) the
stream `255, 255, 7` has the rejected candidate `511` and ends inside the
second block: `unexpected EOF`. -/
theorem randFieldElement_first_accepted_witness :
    2 ≤ toyCurve.N ∧
    candidate toyCurve.N (block toyRand 1 0) = 25 ∧
    candidate toyCurve.N (block toyRand 1 1) = 9 ∧
    randFieldElement toyCurve toyRand = .ok (9, [31, 250, 90, 12, 45, 66, 130, 7]) ∧
    ((1 : Int) ≤ 9 ∧ (9 : Int) ≤ (toyCurve.N : Int) - 1) ∧
    randFieldElement toyCurve [200, 250] = .error (.error "EOF") ∧
    candidate toyOrder257.N (block [255, 255, 7] 2 0) = 511 ∧
    randFieldElement toyOrder257 [255, 255, 7] = .error (.error "unexpected EOF") ∧
    randFieldElement toyOrder257 [255, 255] = .error (.error "EOF") ∧
    randFieldElement toyOrder257 [255, 255, 0, 200, 9] = .ok (200, [9]) :=
  ⟨by decide, by decide, by decide, by decide,
    (randFieldElement_first_accepted toyCurve (by decide) toyRand).2.1 9
      [31, 250, 90, 12, 45, 66, 130, 7] (by decide),
    by decide, by decide, by decide, by decide, by decide⟩

/-- On the small curve, with `e = 1`: the first field element `5` gives
`r = 12` and `r + k = 17 = N`, so it is passed over; the second, `16`, gives
`r = 2` and the value returned is `18`, which is not reduced modulo `17`. -/
theorem SM2ParticipantRandInt_postcondition_witness :
    SM2ParticipantRandInt toyEnv [45, 130, 7] toyPriv.toPublicKey [3] = .ok (18, [7]) ∧
    fieldElements toyCurve 4 [45, 130, 7] = [(5, [130, 7]), (16, [7])] ∧
    sm2R toyCurve 1 5 = 12 ∧ sm2Accepts toyCurve 1 5 = false ∧
    sm2R toyCurve 1 16 = 2 ∧ sm2Accepts toyCurve 1 16 = true ∧
    (∃ za k, toyEnv.CalculateZA toyPriv.toPublicKey defaultUID = .ok za ∧
      (18 : Int) = sm2R (toyEnv.curve toyPriv.toPublicKey.Curve)
        (hashToInt (toyEnv.sm3 (za ++ [3])) (toyEnv.curve toyPriv.toPublicKey.Curve)) k + k ∧
      (1 ≤ k ∧ k ≤ ((toyEnv.curve toyPriv.toPublicKey.Curve).N : Int) - 1) ∧
      (1 ≤ sm2R (toyEnv.curve toyPriv.toPublicKey.Curve)
          (hashToInt (toyEnv.sm3 (za ++ [3])) (toyEnv.curve toyPriv.toPublicKey.Curve)) k ∧
        sm2R (toyEnv.curve toyPriv.toPublicKey.Curve)
          (hashToInt (toyEnv.sm3 (za ++ [3])) (toyEnv.curve toyPriv.toPublicKey.Curve)) k
          ≤ ((toyEnv.curve toyPriv.toPublicKey.Curve).N : Int) - 1) ∧
      (2 : Int) ≤ 18 ∧ (18 : Int) ≤ 2 * ((toyEnv.curve toyPriv.toPublicKey.Curve).N : Int) - 2 ∧
      (18 : Int) ≠ ((toyEnv.curve toyPriv.toPublicKey.Curve).N : Int)) :=
  ⟨by decide, by decide, by decide, by decide, by decide, by decide,
    (SM2ParticipantRandInt_postcondition toyEnv [45, 130, 7] toyPriv.toPublicKey [3] 18 [7]).2.2
      (by decide)⟩

/-- The three ways a signer hands an error back, on the small curve: a ring
of one key, an empty random stream, and a stream that is used up by the draw
of `k_pi`, so that the strategy fails at the slot behind the signer's (the
read finds no byte left: `EOF`).  With its two results written out, `Sign`
returns a nil list with that error, and the whole list with a nil error on a
stream that is long enough. -/
theorem Sign_atomic_witness :
    Sign toyEnv toyRand (SimpleParticipantRandInt toyEnv) toyPriv [toyPriv.toPublicKey] toyMsg
      = .error (.error "require multiple SM2 public keys") ∧
    Sign toyEnv [] (SimpleParticipantRandInt toyEnv) toyPriv toyRing toyMsg
      = .error (.error "EOF") ∧
    getPai toyPriv toyRing = .ok 1 ∧
    randFieldElement toyCurve [77] = .ok (9, []) ∧
    SimpleParticipantRandInt toyEnv [] (toyRing.getD 2 toyPriv.toPublicKey) toyMsg
      = .error (.error "EOF") ∧
    Sign toyEnv [77] (SimpleParticipantRandInt toyEnv) toyPriv toyRing toyMsg
      = .error (.error "EOF") ∧
    (getPai toyPriv toyRing = .error (.error "EOF") ∨
      (∃ pai, getPai toyPriv toyRing = .ok pai ∧
        randFieldElement (toyEnv.curve toyPriv.Curve) [77] = .error (.error "EOF")) ∨
      (∃ pai kPai rand1 c, getPai toyPriv toyRing = .ok pai ∧
        randFieldElement (toyEnv.curve toyPriv.Curve) [77] = .ok (kPai, rand1) ∧
        hash toyEnv toyRing toyMsg ((toyEnv.curve toyPriv.Curve).ScalarBaseMult (Bytes kPai)).1
          ((toyEnv.curve toyPriv.Curve).ScalarBaseMult (Bytes kPai)).2 = .ok c ∧
        StrategyFails (SimpleParticipantRandInt toyEnv) toyRing toyMsg 1
          (chainStep toyEnv toyPriv.Curve toyRing toyMsg) pai
          (c, List.replicate (toyRing.length + 1) none, rand1) "EOF")) ∧
    Sign.returns toyEnv [77] (SimpleParticipantRandInt toyEnv) toyPriv toyRing toyMsg
      = .ok (none, some "EOF") ∧
    ((none : Option (List (Option Int))) = none ∧
      Sign toyEnv [77] (SimpleParticipantRandInt toyEnv) toyPriv toyRing toyMsg
        = .error (.error "EOF")) ∧
    Sign.returns toyEnv toyRand (SimpleParticipantRandInt toyEnv) toyPriv toyRing toyMsg
      = .ok (some [some 24, some 11, some 3, some 3], none) ∧
    LinkableSignerVariant2.Sign.returns toyEnv toySigner2 [77] (SM2ParticipantRandInt toyEnv)
      toyMsg = .ok (none, some "EOF") :=
  ⟨by decide, by decide, by decide, by decide, by decide, by decide,
    ((Sign_atomic toyEnv toyPriv toyRing toyMsg (SimpleParticipantRandInt toyEnv) [77]).1
      "EOF").mp (by decide),
    by decide,
    ((Sign_atomic toyEnv toyPriv toyRing toyMsg (SimpleParticipantRandInt toyEnv)
      [77]).2.2.2.2.2.2.1 none "EOF").1 (by decide),
    by decide, by decide⟩

/-- C21 fails as stated at the prime `N = 2`: `0` is divisible by `2`, and
`fermatInverse 0 2` is `0^0 mod 2 = 1`, not `0`. -/
theorem fermatInverse_zero_two :
    Nat.Prime 2 ∧ ((2 : Nat) : Int) ∣ 0 ∧ fermatInverse 0 2 = 1 ∧ fermatInverse 0 2 ≠ 0 :=
  ⟨Nat.prime_two, dvd_zero _, by decide, by decide⟩

/-- With `N = 17`: `fermatInverse 5 17 = 7` and `5 · 7 = 35 ≡ 1`; the multiple
`34` of `17` gives `0`. -/
theorem fermatInverse_spec_witness :
    Nat.Prime 17 ∧ ¬ ((17 : Nat) : Int) ∣ 5 ∧ fermatInverse 5 17 = 7 ∧
    (5 * fermatInverse 5 17) % ((17 : Nat) : Int) = 1 ∧
    ((17 : Nat) : Int) ∣ 34 ∧ fermatInverse 34 17 = 0 :=
  ⟨by norm_num, by decide, by decide,
    (fermatInverse_spec 5 17).2.1 (by norm_num) (by decide), by decide, by decide⟩

/-- The coordinates of the points of the small curve fit 32 bytes. -/
theorem toyEnc_fits : ∀ p : ZMod 17, Fits32 (toyEnc p).1 ∧ Fits32 (toyEnc p).2 := by
  decide

theorem toyRingLast_valid :
    ∀ pub, pub ∈ toyRingLast → ∃ p, toyEnc p = (pub.X, pub.Y) := by
  intro pub hp
  simp only [toyRingLast, List.mem_cons, List.mem_singleton, List.not_mem_nil, or_false] at hp
  rcases hp with rfl | rfl | rfl
  · exact ⟨3, by decide⟩
  · exact ⟨16, by decide⟩
  · exact ⟨7, by decide⟩

/-- On the stream left by the draw of `k_pi`, `SimpleParticipantRandInt`
serves the key behind the signer of `toyRingLast` (`31` gives `3`) and then
the key in front of it (`250` is passed over, `90` gives `11`). -/
theorem toyRingLast_draws :
    ∀ pai, getPai toyPrivLast toyRingLast = .ok pai →
      ∃ ss rd, draws (SimpleParticipantRandInt toyEnv) toyMsg
        (toyRingLast.drop (pai + 1) ++ toyRingLast.take pai)
        [31, 250, 90, 12, 45, 66, 130, 7] = .ok (ss, rd) := by
  intro pai hpai
  have h1 : getPai toyPrivLast toyRingLast = .ok 1 := by decide
  rw [h1] at hpai
  simp only [Except.ok.injEq] at hpai
  subst hpai
  exact ⟨[3, 11], [12, 45, 66, 130, 7], by decide⟩

/-- The signer `D = 16` on the curve of order 17, second in a ring of three,
with `SimpleParticipantRandInt` on the stream `toyRand`: `Sign` returns a
signature whose entry at the signer's index is `0`. -/
theorem Sign_accepts_order_minus_one_witness :
    Sign toyEnv toyRand (SimpleParticipantRandInt toyEnv) toyPrivLast toyRingLast toyMsg
      = .ok [some 9, some 11, some 0, some 3] ∧
    getPai toyPrivLast toyRingLast = .ok 1 ∧
    randFieldElement toyCurve toyRand = .ok (9, [31, 250, 90, 12, 45, 66, 130, 7]) ∧
    draws (SimpleParticipantRandInt toyEnv) toyMsg
      (toyRingLast.drop 2 ++ toyRingLast.take 1) [31, 250, 90, 12, 45, 66, 130, 7]
      = .ok ([3, 11], [12, 45, 66, 130, 7]) ∧
    ((∀ x : Int, ((toyPrivLast.D + 1) * x) % ((toyEnv.curve toyPrivLast.Curve).N : Int) ≠ 1) ∧
      ∃ pai sig, getPai toyPrivLast toyRingLast = .ok pai ∧
        Sign toyEnv toyRand (SimpleParticipantRandInt toyEnv) toyPrivLast toyRingLast toyMsg
          = .ok sig ∧
        sig.length = toyRingLast.length + 1 ∧
        ((toyEnv.curve toyPrivLast.Curve).Inverse = none → sig[pai + 1]? = some (some 0))) :=
  ⟨by decide, by decide, by decide, by decide,
    Sign_accepts_order_minus_one toyEnv toyEnc 1 toyRand (SimpleParticipantRandInt toyEnv)
      toyPrivLast toyRingLast toyMsg 9 [31, 250, 90, 12, 45, 66, 130, 7] toyCurve_lawful
      (by decide) toyEnc_fits (by decide) (by decide) toyRingLast_valid (by decide) (by decide)
      (by decide) toyRingLast_draws⟩

/-- On the small curve, over the ring `[3·G, 5·G, 7·G]`: the tag
`-7·G = (9, 21)`, the point `6·R' = 6·16·G = (14, 7)`, the seed
`hash1(ring, Q, msg, 6·R') = 10` and the arbitrary scalars `4, 8` give a list
that the verifier accepts; no private key was involved. -/
theorem variant1_accepts_public_signature_witness :
    toyEnc (-7) = (9, 21) ∧
    hash1 toyEnv toyRing 9 21 toyMsg (some 14) (some 7) none none = .ok 10 ∧
    LinkableSignerVariant1.Verify toyEnv toyVerifier1 toyMsg
      [some 9, some 21, some 10, some 4, some 8, some 6] = .ok true ∧
    (∃ rx ry c0, publicKeysToPoint toyEnv toyVerifier1.publicKeys = .ok (rx, ry) ∧
      hash1 toyEnv toyVerifier1.publicKeys (toyEnc (-7)).1 (toyEnc (-7)).2 toyMsg
        (some ((toyEnv.curve 0).ScalarMult
          ((toyEnv.curve 0).Add rx ry (toyEnv.curve 0).Gx (toyEnv.curve 0).Gy).1
          ((toyEnv.curve 0).Add rx ry (toyEnv.curve 0).Gx (toyEnv.curve 0).Gy).2 (Bytes 6)).1)
        (some ((toyEnv.curve 0).ScalarMult
          ((toyEnv.curve 0).Add rx ry (toyEnv.curve 0).Gx (toyEnv.curve 0).Gy).1
          ((toyEnv.curve 0).Add rx ry (toyEnv.curve 0).Gx (toyEnv.curve 0).Gy).2 (Bytes 6)).2)
        none none = .ok c0 ∧
      LinkableSignerVariant1.Verify toyEnv toyVerifier1 toyMsg
        (some (toyEnc (-7)).1 :: some (toyEnc (-7)).2 :: some c0
          :: ([4, 8].map some ++ [some 6])) = .ok true) :=
  ⟨by decide, by decide, by decide,
    variant1_accepts_public_signature toyEnv toyEnc 1 0 toyVerifier1 toyMsg
      [{ Curve := 0, X := 17, Y := 22 }, { Curve := 0, X := 11, Y := 5 }]
      { Curve := 0, X := 9, Y := 2 } 7 [4, 8] 6 toyCurve_lawful toyEnc_fits rfl (by decide)
      toyRing_valid (by decide) rfl⟩

/-- The two readings of `Equal` part on a negative coordinate only: `(1, 6)`
and `(-1, 6)` are different integers with the same bytes. -/
theorem Equal_negative_coordinate :
    PublicKey.Equal { Curve := 0, X := 1, Y := 6 } { Curve := 0, X := -1, Y := 6 } = false ∧
    PublicKey.EqualBytes { Curve := 0, X := 1, Y := 6 } { Curve := 0, X := -1, Y := 6 } = true ∧
    (∀ pub, pub ∈ toyRing → toyPriv.toPublicKey.Equal pub = toyPriv.toPublicKey.EqualBytes pub) :=
  ⟨by decide, by decide, by decide⟩

/-- Two nil tags compare equal in `Linkable`; a nil tag against a scalar
panics. -/
theorem Linkable_nil_tags :
    Linkable [none, none] [none, none] = .ok true ∧
    Linkable [none, none] [some 1, some 2] = .error (.panic "nil pointer dereference") ∧
    Linkable [some 1, none] [some 2, some 3] = .ok false :=
  ⟨by decide, by decide, by decide⟩

end Sm2rsign
